import Mathlib

/-!
# Verification of the BoundedInt circuit DSL and NTT/INTT circuit generators

This file gives a shallow embedding, in Lean 4, of the Python sources
`cairo_gen/circuit.py`, `cairo_gen/circuits/ntt.py` and
`cairo_gen/circuits/intt.py` (the `hydra/` tree is an earlier duplicate of the
same code; where the two differ the `cairo_gen` tree is embedded, as it is the
version the claims cite first).

Conventions of the embedding:
* Python `int` is `Int`; Python `//` is `Int.fdiv` and `%` is `Int.fmod`
  (floor division / floor modulus, exactly Python's semantics).
* Python dicts (which preserve insertion order) are association lists; sets
  are duplicate-free lists in insertion order.
* Mutation of `self` becomes explicit state passing of a `Circuit` value.
* A Python `BoundedIntVar` holds an object reference to its producing
  `Operation`; here a variable instead stores the index of that operation in
  the append-only trace (`srcIdx`), which identifies the same operation.
* `raise ValueError(...)` becomes `Except.error`.
-/

set_option maxHeartbeats 1000000
set_option maxRecDepth 100000

namespace S2M

/-! ## Association-list dictionaries (Python `dict`: insertion ordered) -/

/-- Lookup in an insertion-ordered dictionary. -/
def dictGet {α β : Type} [DecidableEq α] (l : List (α × β)) (k : α) : Option β :=
  match l with
  | [] => none
  | (k', v) :: rest => if k' = k then some v else dictGet rest k

/-- `d[k] = v`: update in place if the key exists, else append. -/
def dictSet {α β : Type} [DecidableEq α] (l : List (α × β)) (k : α) (v : β) :
    List (α × β) :=
  match l with
  | [] => [(k, v)]
  | (k', v') :: rest =>
      if k' = k then (k, v) :: rest else (k', v') :: dictSet rest k v

/-- `del d[k]`. -/
def dictDel {α β : Type} [DecidableEq α] (l : List (α × β)) (k : α) :
    List (α × β) :=
  match l with
  | [] => []
  | (k', v') :: rest => if k' = k then rest else (k', v') :: dictDel rest k

/-- Python `set.add`: sets are kept as duplicate-free lists. -/
def setAdd {α : Type} [DecidableEq α] (l : List α) (x : α) : List α :=
  if x ∈ l then l else l ++ [x]

/-- `min` of a nonempty Python list (junk value 0 on `[]`, where Python raises;
never applied to `[]` in this development without an emptiness check). -/
def listMin : List Int → Int
  | [] => 0
  | x :: xs => xs.foldl min x

/-- `max` of a nonempty Python list (junk value 0 on `[]`). -/
def listMax : List Int → Int
  | [] => 0
  | x :: xs => xs.foldl max x

/-! ## Data model (`cairo_gen/circuit.py`) -/

/-- `BoundedIntVar`: a circuit variable with tracked bounds.  The Python
`circuit` back-reference is implicit (state passing); the Python `source`
operation reference is the index of the producing operation in the trace. -/
structure Var where
  name : String
  minB : Int
  maxB : Int
  srcIdx : Option Nat
deriving DecidableEq, Repr

/-- `Operation`: one entry of the circuit trace.  The Python free-form `extra`
dict only ever holds the keys `q_bounds`, `modulus` and `linked_to`, which are
modelled as three optional fields. -/
structure Operation where
  opType : String
  operands : List Var
  result : Var
  qBounds : Option (Int × Int)
  modulus : Option Int
  linkedTo : Option String
  comment : Option String
deriving DecidableEq, Repr

/-- `BoundedIntCircuit`: the circuit builder state (`vars` is Python `variables`, a reserved word in Lean). -/
structure Circuit where
  name : String
  modulus : Int
  maxBound : Int
  autoReducedCount : Nat
  vars : List (String × Var)
  operations : List Operation
  inputs : List Var
  outputs : List Var
  constants : List (Int × String)
  usedRegularConstants : List Int
  usedNzConstants : List Int
  boundTypes : List (Int × Int)
  varCounter : Nat
deriving DecidableEq, Repr

/-- `BoundedIntCircuit.MAX_BOUND_LIMIT = 2**300`. -/
def MAX_BOUND_LIMIT : Int := 2 ^ 300

/-- `BoundedIntCircuit.__init__(name, modulus, max_bound=2**250)`. -/
def Circuit.init (name : String) (modulus : Int) (maxB : Int) : Circuit :=
  { name := name
    modulus := modulus
    maxBound := min maxB MAX_BOUND_LIMIT
    autoReducedCount := 0
    vars := []
    operations := []
    inputs := []
    outputs := []
    constants := []
    usedRegularConstants := []
    usedNzConstants := []
    boundTypes := []
    varCounter := 0 }

/-- Default `max_bound` argument of the constructor. -/
def defaultMaxBound : Int := 2 ^ 250

/-- `_next_var_name`: returns `tmp_{counter}` and bumps the counter. -/
def Circuit.nextVarName (c : Circuit) : String × Circuit :=
  ("tmp_" ++ toString c.varCounter, { c with varCounter := c.varCounter + 1 })

/-- `input(name, min_val, max_val)`: create an input variable; fails on a
duplicate name. -/
def Circuit.input (c : Circuit) (name : String) (minVal maxVal : Int) :
    Except String (Var × Circuit) :=
  if (dictGet c.vars name).isSome then
    Except.error ("Variable '" ++ name ++ "' already exists")
  else
    let v : Var := ⟨name, minVal, maxVal, none⟩
    Except.ok (v,
      { c with
        vars := dictSet c.vars name v
        inputs := c.inputs ++ [v]
        boundTypes := setAdd c.boundTypes (minVal, maxVal) })

/-- `_create_op(op_type, operands, min_val, max_val, **extra)`: create an
operation and its fresh result variable. -/
def Circuit.createOp (c : Circuit) (opType : String) (operands : List Var)
    (minVal maxVal : Int) (qB : Option (Int × Int)) (mo : Option Int)
    (lk : Option String) : Var × Circuit :=
  let nc := c.nextVarName
  let name := nc.1
  let c := nc.2
  let result : Var := ⟨name, minVal, maxVal, some c.operations.length⟩
  let op : Operation := ⟨opType, operands, result, qB, mo, lk, none⟩
  (result,
    { c with
      vars := dictSet c.vars name result
      operations := c.operations ++ [op]
      boundTypes := setAdd c.boundTypes (minVal, maxVal) })

/-- `_add_raw(a, b)`: add without auto-reduce (used internally by `reduce`). -/
def Circuit.addRaw (c : Circuit) (a b : Var) : Var × Circuit :=
  c.createOp "ADD" [a, b] (a.minB + b.minB) (a.maxB + b.maxB) none none none

/-- `register_constant(value, name)`. -/
def Circuit.registerConstant (c : Circuit) (value : Int) (name : String) :
    Circuit :=
  { c with constants := dictSet c.constants value name }

/-- The name a `constant(value, name)` call uses: the given name, or the
default `const_{value}`. -/
def constantName (value : Int) (nameArg : Option String) : String :=
  match nameArg with
  | none => "const_" ++ toString value
  | some n => n

/-- `constant(value, name=None)`: idempotent by *name*; returns an existing
variable of that name unchanged, else creates a singleton-bound variable. -/
def Circuit.constant (c : Circuit) (value : Int) (nameArg : Option String) :
    Var × Circuit :=
  let name := constantName value nameArg
  match dictGet c.vars name with
  | some v => (v, c)
  | none =>
      let v : Var := ⟨name, value, value, none⟩
      (v, { c with vars := dictSet c.vars name v })

/-- `modulus or self.modulus`: the effective modulus of a `reduce` call
(Python's `or` also falls back to the circuit modulus when the argument
is `0`). -/
def reduceModulus (c : Circuit) (modulusArg : Option Int) : Int :=
  match modulusArg with
  | none => c.modulus
  | some m => if m = 0 then c.modulus else m

/-- `reduce(var, modulus=None)`: explicit modular reduction; shifts a
negative-bounded input to non-negative first via a raw ADD of
`ceil(|min|/modulus) * modulus`. -/
def Circuit.reduceVar (c : Circuit) (var : Var) (modulusArg : Option Int) :
    Var × Circuit :=
  let modulus := reduceModulus c modulusArg
  let sv : Var × Circuit :=
    if var.minB < 0 then
      let c := if (dictGet c.constants modulus).isSome then c
               else c.registerConstant modulus "Q"
      let copiesNeeded := (-var.minB + modulus - 1).fdiv modulus
      let shiftAmount := copiesNeeded * modulus
      let sc := c.constant shiftAmount none
      let shiftConst := sc.1
      let c := sc.2
      let c := if (dictGet c.constants shiftAmount).isSome then c
               else c.registerConstant shiftAmount
                      ("SHIFT_" ++ toString copiesNeeded ++ "Q")
      c.addRaw var shiftConst
    else (var, c)
  let var := sv.1
  let c := sv.2
  let qMax := var.maxB.fdiv modulus
  let qMin := var.minB.fdiv modulus
  let c := { c with boundTypes := setAdd c.boundTypes (qMin, qMax) }
  c.createOp "REDUCE" [var] 0 (modulus - 1) (some (qMin, qMax)) (some modulus)
    none

/-- `_maybe_auto_reduce(var)`: auto-reduce if bounds exceed the threshold.
The debug `print` in the source evaluates `var.reduce()` twice while building
its message, tracing two extra reductions before the returned `self.reduce(var)`;
those two side-effecting calls are kept (the pure text formatting is not). -/
def Circuit.maybeAutoReduce (c : Circuit) (var : Var) : Var × Circuit :=
  if var.maxB > c.maxBound ∨ var.minB < -c.maxBound then
    let c := { c with autoReducedCount := c.autoReducedCount + 1 }
    let r1 := c.reduceVar var none
    let r2 := r1.2.reduceVar var none
    r2.2.reduceVar var none
  else (var, c)

/-- `add(a, b)`. -/
def Circuit.add (c : Circuit) (a b : Var) : Var × Circuit :=
  let rc := c.createOp "ADD" [a, b] (a.minB + b.minB) (a.maxB + b.maxB)
    none none none
  rc.2.maybeAutoReduce rc.1

/-- `sub(a, b)`. -/
def Circuit.sub (c : Circuit) (a b : Var) : Var × Circuit :=
  let rc := c.createOp "SUB" [a, b] (a.minB - b.maxB) (a.maxB - b.minB)
    none none none
  rc.2.maybeAutoReduce rc.1

/-- `mul(a, b)`: bounds are the min/max over the four corner products. -/
def Circuit.mul (c : Circuit) (a b : Var) : Var × Circuit :=
  let corners := [a.minB * b.minB, a.minB * b.maxB, a.maxB * b.minB,
    a.maxB * b.maxB]
  let rc := c.createOp "MUL" [a, b] (listMin corners) (listMax corners)
    none none none
  rc.2.maybeAutoReduce rc.1

/-- `div_rem(a, b)` for a variable divisor: quotient bounds over the nonzero
corner floor-divisions; errors when the divisor interval is only zero. -/
def Circuit.divRem (c : Circuit) (a b : Var) :
    Except String ((Var × Var) × Circuit) :=
  let corners :=
    (if b.minB ≠ 0 then [a.minB.fdiv b.minB] else []) ++
    (if b.maxB ≠ 0 then [a.minB.fdiv b.maxB] else []) ++
    (if b.minB ≠ 0 then [a.maxB.fdiv b.minB] else []) ++
    (if b.maxB ≠ 0 then [a.maxB.fdiv b.maxB] else [])
  if corners = [] then Except.error "Divisor range includes only zero"
  else
    let qMin := listMin corners
    let qMax := listMax corners
    let rMax := max |b.minB| |b.maxB| - 1
    let c := { c with boundTypes := setAdd c.boundTypes (qMin, qMax) }
    let qc := c.createOp "DIV" [a, b] qMin qMax (some (qMin, qMax)) none none
    let quotient := qc.1
    let rc := qc.2.createOp "REM" [a, b] 0 rMax (some (qMin, qMax)) none
      (some quotient.name)
    Except.ok ((quotient, rc.1), rc.2)

/-- `div_rem(a, b)` for an `int` divisor: Python first wraps the int in a
`constant`. -/
def Circuit.divRemInt (c : Circuit) (a : Var) (b : Int) :
    Except String ((Var × Var) × Circuit) :=
  let bc := c.constant b none
  bc.2.divRem a bc.1

/-- `output(var, name=None)`: optionally rename the variable (the Python code
mutates `var.name` in place, so the shared variable object inside every
recorded operation is renamed too; here the rename is applied to every
occurrence of the old name), then append it to the output list. -/
def renameVar (oldN newN : String) (v : Var) : Var :=
  if v.name = oldN then { v with name := newN } else v

def renameInOp (oldN newN : String) (op : Operation) : Operation :=
  { op with
    operands := op.operands.map (renameVar oldN newN)
    result := renameVar oldN newN op.result }

def Circuit.output (c : Circuit) (var : Var) (nameArg : Option String) :
    Circuit :=
  match nameArg with
  | some nm =>
      if nm ≠ var.name then
        let oldName := var.name
        let vars := if (dictGet c.vars oldName).isSome then
            dictDel c.vars oldName
          else c.vars
        let var' := { var with name := nm }
        { c with
          vars := dictSet vars nm var'
          operations := c.operations.map (renameInOp oldName nm)
          inputs := c.inputs.map (renameVar oldName nm)
          outputs := c.outputs.map (renameVar oldName nm) ++ [var'] }
      else { c with outputs := c.outputs ++ [var] }
  | none => { c with outputs := c.outputs ++ [var] }

/-! ## Derived notions used in the claims -/

/-- Bound magnitude of a variable: `max(|min_bound|, |max_bound|)`. -/
def boundMagnitude (v : Var) : Int := max |v.minB| |v.maxB|

/-- The corner floor-divisions `av // bv` for `av ∈ {a0, a1}`, `bv ∈ {b0, b1}`
with `bv ≠ 0`, as the quotient-bound claim describes them. -/
def divCorners (a b : Var) : List Int :=
  ([a.minB, a.maxB].map (fun av =>
    (([b.minB, b.maxB].filter (fun bv => bv ≠ 0)).map
      (fun bv => av.fdiv bv)))).flatten

/-- The auto-generated name of the `j`-th temporary variable. -/
def tmpName (j : Nat) : String := "tmp_" ++ toString j

/-- Counter freshness: no recorded variable already uses a temporary name that
the counter has not yet handed out.  Every circuit actually reachable through
the builder API satisfies this. -/
def TmpFresh (c : Circuit) : Prop :=
  ∀ j, c.varCounter ≤ j → dictGet c.vars (tmpName j) = none

/-- Every variable recorded in `c` is still recorded, unchanged, in `c'`. -/
def VarsMono (c c' : Circuit) : Prop :=
  ∀ nm u, dictGet c.vars nm = some u → dictGet c'.vars nm = some u

/-! ## Concrete circuits used as counterexamples and witnesses -/

/-- A circuit with modulus 12289, auto-reduce threshold `2^20`, and two inputs
`a, b ∈ [0, 12288]` (not yet multiplied). -/
def cexPreAuto : Circuit :=
  let c0 := Circuit.init "test" 12289 (2 ^ 20)
  match c0.input "a" 0 12288 with
  | Except.ok (_, c1) =>
      match c1.input "b" 0 12288 with
      | Except.ok (_, c2) => c2
      | Except.error _ => c1
  | Except.error _ => c0

/-- The single call `mul(a, b)` on `cexPreAuto` (its raw bound
`12288 * 12288 = 150994944` exceeds the threshold, so it auto-reduces). -/
def cexAutoMul : Var × Circuit :=
  cexPreAuto.mul ⟨"a", 0, 12288, none⟩ ⟨"b", 0, 12288, none⟩

/-- A circuit with two inputs `a ∈ [128, 255]`, `b ∈ [3, 8]` (not yet
divided). -/
def cexPreDiv : Circuit :=
  let c0 := Circuit.init "test" 256 defaultMaxBound
  match c0.input "a" 128 255 with
  | Except.ok (_, c1) =>
      match c1.input "b" 3 8 with
      | Except.ok (_, c2) => c2
      | Except.error _ => c1
  | Except.error _ => c0

/-- The single call `div_rem(a, b)` on `cexPreDiv`. -/
def cexDivRem : Except String ((Var × Var) × Circuit) :=
  cexPreDiv.divRem ⟨"a", 128, 255, none⟩ ⟨"b", 3, 8, none⟩

/-- A circuit whose *input* is named `const_5` with bounds `[0, 10]`: the name
that `constant(5)` would use by default, bound to a non-singleton variable. -/
def cexConstClash : Circuit :=
  let c0 := Circuit.init "test" 256 defaultMaxBound
  match c0.input "const_5" 0 10 with
  | Except.ok (_, c1) => c1
  | Except.error _ => c0

/-- Reasoning copy of the core decimal-digit loop `Nat.toDigitsCore 10`. -/
def decDigits : Nat → Nat → List Char → List Char
  | 0, _, ds => ds
  | fuel + 1, n, ds =>
      let d := (n % 10).digitChar
      let n' := n / 10
      if n' = 0 then d :: ds else decDigits fuel n' (d :: ds)

/-! ## Small string helpers (kernel-reducible stand-ins for Python builtins) -/

/-- Python `str.lower()` (the names lowered here are plain ASCII). -/
def strLower (s : String) : String := String.mk (s.data.map Char.toLower)

def charsPrefix : List Char → List Char → Bool
  | [], _ => true
  | _ :: _, [] => false
  | c :: cs, d :: ds => c = d && charsPrefix cs ds

/-- Python `str.startswith(pre)`. -/
def strStartsWith (s pre : String) : Bool := charsPrefix pre.data s.data

/-- Python truthiness of `s.strip()`: `s` contains a non-whitespace char. -/
def strNonBlank (s : String) : Bool :=
  s.data.any (fun ch => !(ch = ' ' || ch = '\n' || ch = '\t' || ch = '\r'))

/-- Stable insertion into a `le`-sorted list (goes after equal elements). -/
def insertSorted {α : Type} (le : α → α → Bool) (x : α) : List α → List α
  | [] => [x]
  | y :: ys => if le y x then y :: insertSorted le x ys else x :: y :: ys

/-- Stable sort (Python `sorted`). -/
def sortBy {α : Type} (le : α → α → Bool) (l : List α) : List α :=
  l.foldl (fun acc x => insertSorted le x acc) []

/-- Python `sorted` on `(int, int)` pairs: lexicographic. -/
def sortPairs (l : List (Int × Int)) : List (Int × Int) :=
  sortBy (fun p q => p.1 < q.1 || (p.1 = q.1 && p.2 ≤ q.2)) l

/-- Python `sorted(d.items())` on an int-keyed dict (keys are distinct, so
comparing keys suffices). -/
def sortConsts (l : List (Int × String)) : List (Int × String) :=
  sortBy (fun p q => p.1 ≤ q.1) l

/-! ## Bounded-mode emitter (`cairo_gen/circuit.py`) -/

/-- Module-level `type_name(min_b, max_b, modulus, constants)`. -/
def typeName (minb maxb modulus : Int) (constants : List (Int × String)) :
    String :=
  match (if minb = maxb then dictGet constants minb else none) with
  | some cn => cn ++ "Const"
  | none =>
      if minb = 0 ∧ maxb = modulus - 1 then "Zq"
      else
        let minStr := if minb < 0 then "n" ++ toString (-minb) else toString minb
        let maxStr := if maxb < 0 then "n" ++ toString (-maxb) else toString maxb
        "BInt_" ++ minStr ++ "_" ++ maxStr

def Circuit.typeNameOf (c : Circuit) (minb maxb : Int) : String :=
  typeName minb maxb c.modulus c.constants

/-- `_generate_types`. -/
def Circuit.generateTypes (c : Circuit) : String :=
  let lines := (sortPairs c.boundTypes).map (fun p =>
    "type " ++ c.typeNameOf p.1 p.2 ++ " = BoundedInt<" ++ toString p.1 ++
      ", " ++ toString p.2 ++ ">;")
  let clines := (sortConsts c.constants).map (fun p =>
    "type " ++ p.2 ++ "Const = UnitInt<" ++ toString p.1 ++ ">;")
  String.intercalate "\n" (lines ++ clines)

/-- Python `f"{v.bounds}"`: a tuple formats as `(a, b)`. -/
def boundsRepr (v : Var) : String :=
  "(" ++ toString v.minB ++ ", " ++ toString v.maxB ++ ")"

/-- `_impl_key(op)` (the `id(op)` fallback for unknown operation types is
unreachable for builder-created operations and is rendered as `_id`). -/
def Circuit.implKey (c : Circuit) (op : Operation) : String :=
  if op.opType = "ADD" ∨ op.opType = "SUB" ∨ op.opType = "MUL" then
    match op.operands with
    | a :: b :: _ =>
        op.opType ++ "_" ++ boundsRepr a ++ "_" ++ boundsRepr b
    | _ => op.opType ++ "_unpack_error"
  else if op.opType = "REDUCE" then
    match op.operands with
    | a :: _ => "REDUCE_" ++ boundsRepr a ++ "_" ++
        toString (op.modulus.getD c.modulus)
    | _ => "REDUCE_unpack_error"
  else if op.opType = "DIV" ∨ op.opType = "REM" then
    match op.operands with
    | a :: b :: _ => "DIVREM_" ++ boundsRepr a ++ "_" ++ boundsRepr b
    | _ => "DIVREM_unpack_error"
  else op.opType ++ "_id"

/-- `_gen_add_helper` / `_gen_sub_helper` / `_gen_mul_helper` share a shape. -/
def Circuit.genArithHelper (c : Circuit) (trait : String) (op : Operation) :
    Except String String :=
  match op.operands with
  | [a, b] =>
      let aT := c.typeNameOf a.minB a.maxB
      let bT := c.typeNameOf b.minB b.maxB
      let rT := c.typeNameOf op.result.minB op.result.maxB
      Except.ok ("impl " ++ trait ++ "_" ++ aT ++ "_" ++ bT ++ " of " ++
        trait ++ "Helper<" ++ aT ++ ", " ++ bT ++ "> \x7b\n    type Result = "
        ++ rT ++ ";\n\x7d")
  | _ => Except.error "cannot unpack operands"

def divRemImplText (aT bT qT rT : String) : String :=
  "impl DivRem_" ++ aT ++ "_" ++ bT ++ " of DivRemHelper<" ++ aT ++ ", " ++
    bT ++ "> \x7b\n    type DivT = " ++ qT ++ ";\n    type RemT = " ++ rT ++
    ";\n\x7d"

/-- `_gen_divrem_helper` (for REDUCE and DIV operations). -/
def Circuit.genDivremHelper (c : Circuit) (op : Operation) :
    Except String String :=
  match op.operands with
  | [] => Except.error "IndexError: operands"
  | a :: rest =>
      let aT := c.typeNameOf a.minB a.maxB
      if op.opType = "REDUCE" then
        let modulus := op.modulus.getD c.modulus
        let bT := match dictGet c.constants modulus with
          | some n => n ++ "Const"
          | none => "UnitInt<" ++ toString modulus ++ ">"
        match op.qBounds with
        | some (qmin, qmax) =>
            let qT := c.typeNameOf qmin qmax
            let rT := c.typeNameOf op.result.minB op.result.maxB
            Except.ok (divRemImplText aT bT qT rT)
        | none => Except.error "KeyError: q_bounds"
      else
        match rest with
        | [b] =>
            let bT := match
                (if b.minB = b.maxB then dictGet c.constants b.minB else none)
              with
              | some n => n ++ "Const"
              | none => c.typeNameOf b.minB b.maxB
            match op.qBounds with
            | some (qmin, qmax) =>
                let qT := c.typeNameOf qmin qmax
                let rT := match c.operations.find? (fun o =>
                    decide (o.opType = "REM" ∧ o.operands = [a, b] ∧
                      o.linkedTo.isSome)) with
                  | some o => c.typeNameOf o.result.minB o.result.maxB
                  | none => qT
                Except.ok (divRemImplText aT bT qT rT)
            | none => Except.error "KeyError: q_bounds"
        | _ => Except.error "AttributeError: divisor is None"

/-- `_generate_helper_impls`: one impl per distinct impl key. -/
def Circuit.helperImplLines (c : Circuit) :
    List Operation → List String → Except String (List String)
  | [], _ => Except.ok []
  | op :: rest, seen =>
      let key := c.implKey op
      if key ∈ seen then c.helperImplLines rest seen
      else
        let seen' := seen ++ [key]
        if op.opType = "ADD" then do
          let l ← c.genArithHelper "Add" op
          let ls ← c.helperImplLines rest seen'
          Except.ok (l :: ls)
        else if op.opType = "SUB" then do
          let l ← c.genArithHelper "Sub" op
          let ls ← c.helperImplLines rest seen'
          Except.ok (l :: ls)
        else if op.opType = "MUL" then do
          let l ← c.genArithHelper "Mul" op
          let ls ← c.helperImplLines rest seen'
          Except.ok (l :: ls)
        else if op.opType = "REDUCE" ∨ op.opType = "DIV" then do
          let l ← c.genDivremHelper op
          let ls ← c.helperImplLines rest seen'
          Except.ok (l :: ls)
        else c.helperImplLines rest seen'

def Circuit.generateHelperImpls (c : Circuit) : Except String String := do
  let ls ← c.helperImplLines c.operations []
  Except.ok (String.intercalate "\n\n" ls)

/-- Operand rendering for ADD/SUB/MUL in `_generate_op`: a registered
constant operand is emitted as `{name.lower()}_const` and recorded in
`used_regular_constants`. -/
def Circuit.genOpOperandName (c : Circuit) (v : Var) : String × Circuit :=
  match (if v.minB = v.maxB then dictGet c.constants v.minB else none) with
  | some n => (strLower n ++ "_const",
      { c with usedRegularConstants := setAdd c.usedRegularConstants v.minB })
  | none => (v.name, c)

/-- `_generate_op(op)`: one statement of the function body; updates the
used-constant sets as a side effect. -/
def Circuit.generateOp (c : Circuit) (op : Operation) :
    Except String (String × Circuit) :=
  let r := op.result.name
  let rT := c.typeNameOf op.result.minB op.result.maxB
  if op.opType = "ADD" ∨ op.opType = "SUB" ∨ op.opType = "MUL" then
    match op.operands with
    | [a, b] =>
        let ac := c.genOpOperandName a
        let bc := ac.2.genOpOperandName b
        let fname := if op.opType = "ADD" then "add"
          else if op.opType = "SUB" then "sub" else "mul"
        Except.ok ("let " ++ r ++ ": " ++ rT ++ " = " ++ fname ++ "(" ++
          ac.1 ++ ", " ++ bc.1 ++ ");", bc.2)
    | _ => Except.error "cannot unpack operands"
  else if op.opType = "REDUCE" then
    match op.operands with
    | a :: _ =>
        let modulus := op.modulus.getD c.modulus
        let nzc : String × Circuit := match dictGet c.constants modulus with
          | some n => ("nz_" ++ strLower n,
              { c with usedNzConstants := setAdd c.usedNzConstants modulus })
          | none => ("nz_" ++ toString modulus, c)
        Except.ok ("let (_" ++ r ++ "_q, " ++ r ++ "): (_, " ++ rT ++
          ") = bounded_int_div_rem(" ++ a.name ++ ", " ++ nzc.1 ++ ");",
          nzc.2)
    | _ => Except.error "IndexError: operands"
  else if op.opType = "DIV" then
    match op.operands with
    | [a, b] =>
        let nzc : String × Circuit := match
            (if b.minB = b.maxB then dictGet c.constants b.minB else none) with
          | some n => ("nz_" ++ strLower n,
              { c with usedNzConstants := setAdd c.usedNzConstants b.minB })
          | none => ("nz_" ++ b.name, c)
        let remInfo : String × String := match c.operations.find? (fun o =>
            decide (o.opType = "REM" ∧ o.operands = [a, b] ∧
              o.linkedTo.isSome)) with
          | some o => (o.result.name,
              c.typeNameOf o.result.minB o.result.maxB)
          | none => ("_" ++ r ++ "_rem", "_")
        Except.ok ("let (" ++ r ++ ", " ++ remInfo.1 ++ "): (" ++ rT ++
          ", " ++ remInfo.2 ++ ") = bounded_int_div_rem(" ++ a.name ++ ", " ++
          nzc.1 ++ ");", nzc.2)
    | _ => Except.error "cannot unpack operands"
  else if op.opType = "REM" then
    if op.linkedTo.isSome then Except.ok ("", c)
    else
      match op.operands with
      | [a, b] =>
          let nzc : String × Circuit := match
              (if b.minB = b.maxB then dictGet c.constants b.minB else none)
            with
            | some n => ("nz_" ++ strLower n,
                { c with usedNzConstants := setAdd c.usedNzConstants b.minB })
            | none => ("nz_" ++ b.name, c)
          Except.ok ("let (_" ++ r ++ "_q, " ++ r ++ "): (_, " ++ rT ++
            ") = bounded_int_div_rem(" ++ a.name ++ ", " ++ nzc.1 ++ ");",
            nzc.2)
      | _ => Except.error "cannot unpack operands"
  else Except.ok ("// Unknown op: " ++ op.opType, c)

/-- Body statements of `_generate_function`, in trace order (empty lines from
linked REMs are skipped; a comment, when present, is appended). -/
def Circuit.bodyLines (c : Circuit) :
    List Operation → Except String (List String × Circuit)
  | [] => Except.ok ([], c)
  | op :: rest => do
      let (line, c') ← c.generateOp op
      let (ls, c'') ← c'.bodyLines rest
      if line = "" then Except.ok (ls, c'')
      else
        let line' := match op.comment with
          | some cm => line ++ "  // " ++ cm
          | none => line
        Except.ok (line' :: ls, c'')

/-- `_generate_function`. -/
def Circuit.generateFunction (c : Circuit) :
    Except String (String × Circuit) := do
  let params := String.intercalate ", " (c.inputs.map (fun inp =>
    inp.name ++ ": " ++ c.typeNameOf inp.minB inp.maxB))
  let returns :=
    if c.outputs.length = 1 then
      match c.outputs with
      | out :: _ => c.typeNameOf out.minB out.maxB
      | [] => ""
    else "(" ++ String.intercalate ", " (c.outputs.map (fun out =>
      c.typeNameOf out.minB out.maxB)) ++ ")"
  let (lines, c') ← c.bodyLines c.operations
  let retLine :=
    if c.outputs.length = 1 then
      match c.outputs with
      | out :: _ => out.name
      | [] => ""
    else "(" ++ String.intercalate ", " (c.outputs.map (fun out => out.name))
      ++ ")"
  let body := String.intercalate "\n    " (lines ++ [retLine])
  Except.ok ("pub fn " ++ c.name ++ "(" ++ params ++ ") -> " ++ returns ++
    " \x7b\n    " ++ body ++ "\n\x7d", c')

/-- `_generate_imports`. -/
def generateImports : String :=
  "use corelib_imports::bounded_int::\x7b\n    BoundedInt, upcast, downcast, bounded_int_div_rem,\n    AddHelper, MulHelper, DivRemHelper, UnitInt,\n\x7d;\nuse corelib_imports::bounded_int::bounded_int::\x7bSubHelper, add, sub, mul\x7d;"

/-- `_generate_constants` (only the usage forms recorded while emitting the
body). -/
def Circuit.generateConstants (c : Circuit) : String :=
  String.intercalate "\n" (((sortConsts c.constants).map (fun p =>
    (if p.1 ∈ c.usedRegularConstants then
      ["const " ++ strLower p.2 ++ "_const: " ++ p.2 ++ "Const = " ++
        toString p.1 ++ ";"] else []) ++
    (if p.1 ∈ c.usedNzConstants then
      ["const nz_" ++ strLower p.2 ++ ": NonZero<" ++ p.2 ++ "Const> = " ++
        toString p.1 ++ ";"] else []))).flatten)

/-- `_compile_bounded`: function body first (to populate the used-constant
sets), then imports, types, impls, constants, function, joined and with blank
parts dropped. -/
def Circuit.compileBounded (c : Circuit) :
    Except String (String × Circuit) := do
  let (functionCode, c') ← c.generateFunction
  let impls ← c'.generateHelperImpls
  let parts := [generateImports, c'.generateTypes, impls,
    c'.generateConstants, functionCode]
  Except.ok (String.intercalate "\n\n" (parts.filter strNonBlank), c')

/-! ## felt252-mode emitter -/

/-- `_validate_felt252_mode`: reject any variable whose bound magnitude
reaches `2^252`. -/
def Circuit.validateFelt252Mode (c : Circuit) : Except String Unit :=
  match c.vars.find? (fun p =>
      decide (2 ^ 252 ≤ max |p.2.minB| |p.2.maxB|)) with
  | some p => Except.error
      ("Bounds exceed 2^252, cannot use felt252 mode. Variable '" ++
        p.2.name ++ "' has bounds [" ++ toString p.2.minB ++ ", " ++
        toString p.2.maxB ++ "]")
  | none => Except.ok ()

/-- `_compute_shift`: smallest multiple of the modulus making all variables
non-negative.  (Python computes `math.ceil(abs_min / modulus)` through float
division, which agrees with the exact ceiling for the magnitudes< 2^53; the
exact integer ceiling is used here.) -/
def Circuit.computeShift (c : Circuit) : Except String Int := do
  match c.vars.map (fun p => p.2.minB) with
  | [] => Except.error "ValueError: min() arg is an empty sequence"
  | m :: ms =>
      let minBound := listMin (m :: ms)
      if 0 ≤ minBound then Except.ok 0
      else Except.ok (((-minBound + c.modulus - 1).fdiv c.modulus) * c.modulus)

/-- `_generate_felt252_imports`. -/
def felt252Imports : String :=
  "// Auto-generated felt252 mode - DO NOT EDIT\nuse corelib_imports::bounded_int::\x7bBoundedInt, DivRemHelper, bounded_int_div_rem, upcast\x7d;\nuse crate::zq::\x7bZq, QConst, NZ_Q\x7d;\n"

/-- `_generate_felt252_constants`: the SHIFT constant, the shifted bound type
and the reduction `DivRemHelper` impl. -/
def Circuit.generateFelt252Constants (c : Circuit) : Except String String := do
  let shift ← c.computeShift
  match c.vars.map (fun p => p.2.maxB) with
  | [] => Except.error "ValueError: max() arg is an empty sequence"
  | m :: ms =>
      let maxBound := listMax (m :: ms)
      let shiftedMax := shift + maxBound
      let divMax := shiftedMax.fdiv c.modulus
      Except.ok (String.intercalate "\n"
        ["const SHIFT: felt252 = " ++ toString shift ++ ";",
         "type ShiftedT = BoundedInt<0, " ++ toString shiftedMax ++ ">;",
         "",
         "impl DivRem_ShiftedT_QConst of DivRemHelper<ShiftedT, QConst> \x7b",
         "    type DivT = BoundedInt<0, " ++ toString divMax ++ ">;",
         "    type RemT = Zq;",
         "\x7d"])

/-- `_get_felt252_operand_name`. -/
def Circuit.felt252OperandName (c : Circuit) (v : Var) : String :=
  match (if v.minB = v.maxB then dictGet c.constants v.minB else none) with
  | some n => n
  | none => v.name

/-- `_generate_felt252_op`. -/
def Circuit.generateFelt252Op (c : Circuit) (op : Operation) :
    Except String String :=
  let binop (sym : String) : Except String String :=
    match op.operands with
    | [a, b] => Except.ok ("let " ++ op.result.name ++ " = " ++
        c.felt252OperandName a ++ " " ++ sym ++ " " ++
        c.felt252OperandName b ++ ";")
    | _ => Except.error "IndexError: operands"
  if op.opType = "ADD" then binop "+"
  else if op.opType = "SUB" then binop "-"
  else if op.opType = "MUL" then binop "*"
  else Except.error
    ("Unsupported operation type for felt252 mode: " ++ op.opType)

/-- Does this operand make an ADD a synthetic shift-ADD (a singleton constant
registered under a `SHIFT_` name)? -/
def Circuit.isShiftConst (c : Circuit) (v : Var) : Bool :=
  v.minB = v.maxB &&
    (match dictGet c.constants v.minB with
     | some n => strStartsWith n "SHIFT_"
     | none => false)

/-- The felt252 body statements: REDUCE operations are skipped entirely, and
so is any ADD one of whose operands is a `SHIFT_` constant. -/
def Circuit.felt252OpLines (c : Circuit) :
    List Operation → Except String (List String)
  | [] => Except.ok []
  | op :: rest =>
      if op.opType = "REDUCE" then c.felt252OpLines rest
      else if op.opType = "ADD" ∧ op.operands.any c.isShiftConst then
        c.felt252OpLines rest
      else do
        let l ← c.generateFelt252Op op
        let ls ← c.felt252OpLines rest
        Except.ok (("    " ++ l) :: ls)

/-- Output trace-back of `_generate_felt252_function`: unwrap one REDUCE and,
beneath it, one shift-ADD, to recover the unreduced source variable name. -/
def Circuit.felt252SrcName (c : Circuit) (outVar : Var) : String :=
  match outVar.srcIdx with
  | none => outVar.name
  | some i =>
      match c.operations.get? i with
      | none => outVar.name
      | some op =>
          if op.opType = "REDUCE" then
            match op.operands with
            | shifted :: _ =>
                (match shifted.srcIdx with
                 | none => shifted.name
                 | some j =>
                     match c.operations.get? j with
                     | none => shifted.name
                     | some addOp =>
                         if addOp.opType = "ADD" then
                           match addOp.operands with
                           | [first, second] =>
                               if c.isShiftConst second then first.name
                               else shifted.name
                           | _ => shifted.name
                         else shifted.name)
            | [] => outVar.name
          else outVar.name

/-- `_generate_felt252_function`. -/
def Circuit.generateFelt252Function (c : Circuit) (funcName : String) :
    Except String String := do
  let inputParams := String.intercalate ", "
    (c.inputs.map (fun inp => inp.name ++ ": felt252"))
  let returnType :=
    if c.outputs.length = 1 then "Zq"
    else "(" ++ String.intercalate ", " (c.outputs.map (fun _ => "Zq")) ++ ")"
  let constBindings := ((sortConsts c.constants).filter (fun p =>
    !(strStartsWith p.2 "SHIFT_"))).map (fun p =>
    "    let " ++ p.2 ++ " = " ++ toString p.1 ++ ";")
  let opLines ← c.felt252OpLines c.operations
  let outLines := (c.outputs.map (fun outVar =>
    ["    let " ++ outVar.name ++ ": ShiftedT = (" ++ c.felt252SrcName outVar
      ++ " + SHIFT).try_into().unwrap();",
     "    let (_, " ++ outVar.name ++ ") = bounded_int_div_rem(" ++
      outVar.name ++ ", NZ_Q);"])).flatten
  let retLine :=
    if c.outputs.length = 1 then
      match c.outputs with
      | out :: _ => "    " ++ out.name
      | [] => "    "
    else "    (" ++ String.intercalate ", "
      (c.outputs.map (fun out => out.name)) ++ ")"
  let lines := ["pub fn " ++ funcName ++ "(" ++ inputParams ++ ") -> " ++
      returnType ++ " \x7b"] ++
    (if constBindings = [] then [] else constBindings ++ [""]) ++
    opLines ++ [""] ++ outLines ++ [""] ++ [retLine] ++ ["\x7d"]
  Except.ok (String.intercalate "\n" lines)

/-- `_compile_felt252`. -/
def Circuit.compileFelt252 (c : Circuit) (funcName : String) :
    Except String String := do
  let consts ← c.generateFelt252Constants
  let fn ← c.generateFelt252Function funcName
  Except.ok (String.intercalate "\n" [felt252Imports, consts, "", fn])

/-- Compilation errors: the explicit invalid-mode `ValueError` of `compile`
is distinguished from every other raise (validation failures, unsupported
operations, malformed traces). -/
inductive CompileErr where
  | invalidMode (msg : String)
  | failure (msg : String)
deriving DecidableEq, Repr

/-- `compile(mode)`: felt252 validates then emits; bounded emits (mutating
the used-constant sets, returned as the updated circuit); any other mode
string is an explicit invalid-mode error, leaving the circuit unchanged. -/
def Circuit.compile (c : Circuit) (mode : String) :
    Except CompileErr String × Circuit :=
  if mode = "felt252" then
    match c.validateFelt252Mode with
    | Except.error e => (Except.error (CompileErr.failure e), c)
    | Except.ok _ =>
        match c.compileFelt252 c.name with
        | Except.error e => (Except.error (CompileErr.failure e), c)
        | Except.ok s => (Except.ok s, c)
  else if mode = "bounded" then
    match c.compileBounded with
    | Except.error e => (Except.error (CompileErr.failure e), c)
    | Except.ok (s, c') => (Except.ok s, c')
  else
    (Except.error (CompileErr.invalidMode ("Unknown compilation mode: " ++
      mode ++ ". Use 'bounded' or 'felt252'.")), c)

/-- A tiny concrete circuit for the compile-mode witnesses: one input
`x ∈ [0, 255]`, one `add(x, x)`, reduced and marked as output. -/
def cexCompile : Circuit :=
  let c0 := Circuit.init "f" 257 defaultMaxBound
  match c0.input "x" 0 255 with
  | Except.ok (x, c1) =>
      let sc := c1.add x x
      let rc := sc.2.reduceVar sc.1 none
      rc.2.output rc.1 (some "r0")
  | Except.error _ => c0

/-- A concrete circuit with a variable whose bound magnitude reaches
`2^252` (illegal in felt252 mode). -/
def cexTooWide : Circuit :=
  let c0 := Circuit.init "f" 257 defaultMaxBound
  match c0.input "x" 0 (2 ^ 252) with
  | Except.ok (_, c1) => c1
  | Except.error _ => c0

/-! ## The NTT / INTT circuit generators
(`cairo_gen/circuits/ntt.py`, `cairo_gen/circuits/intt.py`) -/

/-- Modelled from the spec: the root-of-unity/twiddle-factor table
`falcon_py.ntt_constants.roots_dict_Zq` — keyed by transform size and index,
with `size` entries for each size — and its modular-inverse table
`inv_mod_q`, for the fixed modulus `Q = 12289`.  These are read-only external
data of the `falcon_py` package, which is not part of this repository's
sources; the generators consume them opaquely, so they are modelled as an
arbitrary table here, and the round-trip theorem assumes exactly the
modular-inverse property the spec ascribes to `inv_mod_q`. -/
structure RootTable where
  w : Nat → Nat → Int
  invw : Int → Int

/-- `NttCircuitGenerator.Q = InttCircuitGenerator.Q = 12289`. -/
def nttQ : Int := 12289

/-- `InttCircuitGenerator.I2 = 6145`, the inverse of 2 mod Q. -/
def inttI2 : Int := 6145

def fNameStr (i : Nat) : String := "f" ++ toString i
def rNameStr (i : Nat) : String := "r" ++ toString i
def wNameStr (s i : Nat) : String := "w" ++ toString s ++ "_" ++ toString i
def invwNameStr (s i : Nat) : String :=
  "inv_w" ++ toString s ++ "_" ++ toString i
def bigWNameStr (s i : Nat) : String :=
  "W" ++ toString s ++ "_" ++ toString i
def bigInvWNameStr (s i : Nat) : String :=
  "INV_W" ++ toString s ++ "_" ++ toString i

/-- `coeffs[::2]`. -/
def evens {α : Type} : List α → List α
  | [] => []
  | [x] => [x]
  | x :: _ :: rest => x :: evens rest

/-- `coeffs[1::2]`. -/
def odds {α : Type} : List α → List α
  | x :: y :: rest => y :: odds rest
  | _ => []

/-- `InttCircuitGenerator._merge`: interleave two equal-length lists. -/
def interleave {α : Type} : List α → List α → List α
  | x :: xs, y :: ys => x :: y :: interleave xs ys
  | _, _ => []

/-- Python `range(0, size, 2)` (for even `size`). -/
def evenIdx (size : Nat) : List Nat := (List.range (size / 2)).map (2 * ·)

/-- The merge levels `4, 8, ..., ≤ n` walked by `_register_constants`
(`size = 4; while size <= n: ...; size *= 2`), fuel-bounded. -/
def sizesFrom (size n : Nat) : Nat → List Nat
  | 0 => []
  | fuel + 1 => if size ≤ n then size :: sizesFrom (2 * size) n fuel else []

def mergeSizes (n : Nat) : List Nat := sizesFrom 4 n n

/-- One level of the NTT `_register_constants` loop: register each
even-indexed root of the size's table under `W{size}_{i//2}` unless its value
is already registered. -/
def registerRootsAtSize (T : RootTable) (size : Nat) (c : Circuit) : Circuit :=
  (evenIdx size).foldl (fun c i =>
    if (dictGet c.constants (T.w size i)).isSome then c
    else c.registerConstant (T.w size i) (bigWNameStr size (i / 2))) c

/-- `NttCircuitGenerator._register_constants`. -/
def nttRegisterConstants (T : RootTable) (n : Nat) (c : Circuit) : Circuit :=
  let c := c.registerConstant (T.w 2 0) "SQR1"
  let c := c.registerConstant nttQ "Q"
  (mergeSizes n).foldl (fun c size => registerRootsAtSize T size c) c

/-- One level of the INTT `_register_constants` loop (inverse roots under
`INV_W{size}_{i//2}`). -/
def registerInvRootsAtSize (T : RootTable) (size : Nat) (c : Circuit) :
    Circuit :=
  (evenIdx size).foldl (fun c i =>
    if (dictGet c.constants (T.invw (T.w size i))).isSome then c
    else c.registerConstant (T.invw (T.w size i))
      (bigInvWNameStr size (i / 2))) c

/-- `InttCircuitGenerator._register_constants`. -/
def inttRegisterConstants (T : RootTable) (n : Nat) (c : Circuit) : Circuit :=
  let c := c.registerConstant inttI2 "I2"
  let c := c.registerConstant (T.invw (T.w 2 0)) "INV_SQR1"
  let c := c.registerConstant nttQ "Q"
  (mergeSizes n).foldl (fun c size => registerInvRootsAtSize T size c) c

/-- `NttCircuitGenerator._ntt_base_case`. -/
def nttBase (T : RootTable) (f0 f1 : Var) (c : Circuit) :
    List Var × Circuit :=
  let sc := c.constant (T.w 2 0) (some "sqr1")
  let mc := sc.2.mul f1 sc.1
  let ac := mc.2.add f0 mc.1
  let oc := ac.2.sub f0 mc.1
  ([ac.1, oc.1], oc.2)

/-- `NttCircuitGenerator._merge_ntt` (the Python loop indexes both halves by
`i`; they always have equal length in use). -/
def mergeNtt (T : RootTable) (size : Nat) :
    Nat → List Var → List Var → Circuit → List Var × Circuit
  | i, x :: xs, y :: ys, c =>
      let tc := c.constant (T.w size (2 * i)) (some (wNameStr size i))
      let pc := tc.2.mul y tc.1
      let ec := pc.2.add x pc.1
      let oc := ec.2.sub x pc.1
      let rest := mergeNtt T size (i + 1) xs ys oc.2
      (ec.1 :: oc.1 :: rest.1, rest.2)
  | _, _, _, c => ([], c)

/-- `NttCircuitGenerator._ntt`, fuel-bounded: the Python recursion halves the
list, so a fuel of the initial length bounds its depth; for lengths below 2
the Python code would recurse forever (unreachable: sizes are validated
powers of two). -/
def nttRecF (T : RootTable) : Nat → List Var → Circuit → List Var × Circuit
  | 0, _, c => ([], c)
  | fuel + 1, f, c =>
      if f.length = 2 then
        match f with
        | [f0, f1] => nttBase T f0 f1 c
        | _ => ([], c)
      else if 2 < f.length then
        let r0 := nttRecF T fuel (evens f) c
        let r1 := nttRecF T fuel (odds f) r0.2
        mergeNtt T f.length 0 r0.1 r1.1 r1.2
      else ([], c)

def nttRec (T : RootTable) (f : List Var) (c : Circuit) :
    List Var × Circuit :=
  nttRecF T f.length f c

/-- `InttCircuitGenerator._intt_base_case`. -/
def inttBase (T : RootTable) (f0 f1 : Var) (c : Circuit) :
    List Var × Circuit :=
  let ic := c.constant inttI2 (some "i2")
  let vc := ic.2.constant (T.invw (T.w 2 0)) (some "inv_sqr1")
  let sc := vc.2.add f0 f1
  let dc := sc.2.sub f0 f1
  let r0c := dc.2.mul ic.1 sc.1
  let dsc := r0c.2.mul vc.1 dc.1
  let r1c := dsc.2.mul ic.1 dsc.1
  ([r0c.1, r1c.1], r1c.2)

/-- The pairwise loop of `InttCircuitGenerator._split_ntt` (`i2` is fetched
once before the loop). -/
def splitNttLoop (T : RootTable) (size : Nat) (i2v : Var) :
    Nat → List Var → Circuit → (List Var × List Var) × Circuit
  | i, evenV :: oddV :: rest, c =>
      let tc := c.constant (T.invw (T.w size (2 * i)))
        (some (invwNameStr size i))
      let sc := tc.2.add evenV oddV
      let dc := sc.2.sub evenV oddV
      let f0c := dc.2.mul i2v sc.1
      let dsc := f0c.2.mul dc.1 tc.1
      let f1c := dsc.2.mul i2v dsc.1
      let rest' := splitNttLoop T size i2v (i + 1) rest f1c.2
      ((f0c.1 :: rest'.1.1, f1c.1 :: rest'.1.2), rest'.2)
  | _, _, c => (([], []), c)

/-- `InttCircuitGenerator._split_ntt`. -/
def splitNtt (T : RootTable) (size : Nat) (f : List Var) (c : Circuit) :
    (List Var × List Var) × Circuit :=
  let ic := c.constant inttI2 (some "i2")
  splitNttLoop T size ic.1 0 f ic.2

/-- `InttCircuitGenerator._intt`, fuel-bounded like `_ntt`. -/
def inttRecF (T : RootTable) : Nat → List Var → Circuit → List Var × Circuit
  | 0, _, c => ([], c)
  | fuel + 1, f, c =>
      if f.length = 2 then
        match f with
        | [f0, f1] => inttBase T f0 f1 c
        | _ => ([], c)
      else if 2 < f.length then
        let s := splitNtt T f.length f c
        let r0 := inttRecF T fuel s.1.1 s.2
        let r1 := inttRecF T fuel s.1.2 r0.2
        (interleave r0.1 r1.1, r1.2)
      else ([], c)

def inttRec (T : RootTable) (f : List Var) (c : Circuit) :
    List Var × Circuit :=
  inttRecF T f.length f c

/-- The `generate` input loop: `input(f"f{i}", 0, Q - 1)` for `i < n`. -/
def mkInputs : Nat → Nat → Circuit → Except String (List Var × Circuit)
  | 0, _, c => Except.ok ([], c)
  | k + 1, i, c =>
      match c.input (fNameStr i) 0 (nttQ - 1) with
      | Except.error e => Except.error e
      | Except.ok (v, c') =>
          match mkInputs k (i + 1) c' with
          | Except.error e => Except.error e
          | Except.ok (vs, c'') => Except.ok (v :: vs, c'')

/-- The input variables `f{i}, f{i+1}, ...` the `generate` input loop creates,
in order (each is `input(f"f{j}", 0, Q - 1)`). -/
def inputVars : Nat → Nat → List Var
  | 0, _ => []
  | kc + 1, i => ⟨fNameStr i, 0, nttQ - 1, none⟩ :: inputVars kc (i + 1)

/-- The `generate` output loop: `output(out.reduce(), f"r{i}")`. -/
def markOutputs : List Var → Nat → Circuit → Circuit
  | [], _, c => c
  | v :: vs, i, c =>
      let rc := c.reduceVar v none
      markOutputs vs (i + 1) (rc.2.output rc.1 (some (rNameStr i)))

/-- The size validation of both generators' `__init__`:
`n & (n - 1) != 0 or n < 2 or n > 1024`. -/
def validSize (n : Nat) : Bool := !(n &&& (n - 1) ≠ 0 ∨ n < 2 ∨ 1024 < n)

/-- `NttCircuitGenerator(n).generate(...)` up to (but not including)
compilation: validate the size, register constants, create the inputs, trace
the recursion, reduce and rename the outputs. -/
def buildNtt (T : RootTable) (n : Nat) : Except String Circuit :=
  if !validSize n then
    Except.error ("n must be power of 2 in [2, 1024], got " ++ toString n)
  else
    let c := Circuit.init ("ntt_" ++ toString n ++ "_inner") nttQ
      defaultMaxBound
    let c := nttRegisterConstants T n c
    match mkInputs n 0 c with
    | Except.error e => Except.error e
    | Except.ok (inputs, c) =>
        let rc := nttRec T inputs c
        Except.ok (markOutputs rc.1 0 rc.2)

/-- `InttCircuitGenerator(n).generate(...)` up to compilation. -/
def buildIntt (T : RootTable) (n : Nat) : Except String Circuit :=
  if !validSize n then
    Except.error ("n must be power of 2 in [2, 1024], got " ++ toString n)
  else
    let c := Circuit.init ("intt_" ++ toString n ++ "_inner") nttQ
      defaultMaxBound
    let c := inttRegisterConstants T n c
    match mkInputs n 0 c with
    | Except.error e => Except.error e
    | Except.ok (inputs, c) =>
        let rc := inttRec T inputs c
        Except.ok (markOutputs rc.1 0 rc.2)

/-! ## The simulator (`simulate` of both generators, which are identical) -/

/-- The simulator environment (Python: a name-keyed dict of ints; modelled as
a total function, with default `0` where Python would raise `KeyError` — the
traces simulated here bind every name they read). -/
def envSet (e : String → Int) (k : String) (v : Int) : String → Int :=
  fun k' => if k' = k then v else e k'

/-- `env[inp.name] = values[i]` for the input list. -/
def initEnvInputs : List Var → List Int → (String → Int) → (String → Int)
  | inp :: is, v :: vs, e => initEnvInputs is vs (envSet e inp.name v)
  | _, _, e => e

/-- The constant-initialisation scan: for every registered constant value,
every recorded variable with singleton bounds equal to that value is bound to
it. -/
def initEnvConsts (vars : List (String × Var)) (constants : List (Int × String))
    (e : String → Int) : String → Int :=
  constants.foldl (fun e p =>
    vars.foldl (fun e q =>
      if q.2.minB = q.2.maxB ∧ q.2.minB = p.1 then envSet e q.1 p.1 else e) e) e

/-- One step of the trace replay (`Q` is the generator's `self.Q`, the
default for a REDUCE without a recorded modulus). -/
def execOp (Q : Int) (e : String → Int) (op : Operation) : String → Int :=
  if op.opType = "ADD" then
    match op.operands with
    | [a, b] => envSet e op.result.name (e a.name + e b.name)
    | _ => e
  else if op.opType = "SUB" then
    match op.operands with
    | [a, b] => envSet e op.result.name (e a.name - e b.name)
    | _ => e
  else if op.opType = "MUL" then
    match op.operands with
    | [a, b] => envSet e op.result.name (e a.name * e b.name)
    | _ => e
  else if op.opType = "REDUCE" then
    match op.operands with
    | a :: _ => envSet e op.result.name ((e a.name).fmod (op.modulus.getD Q))
    | [] => e
  else if op.opType = "DIV" ∨ op.opType = "REM" then
    match op.operands with
    | a :: rest =>
        let divisor := match rest with
          | b :: _ => e b.name
          | [] => op.modulus.getD Q
        if op.opType = "DIV" then
          envSet e op.result.name ((e a.name).fdiv divisor)
        else envSet e op.result.name ((e a.name).fmod divisor)
    | [] => e
  else e

def replay (Q : Int) (ops : List Operation) (e : String → Int) :
    String → Int :=
  ops.foldl (execOp Q) e

/-- `simulate(values)`: arity check, environment initialisation, trace
replay, output collection. -/
def simulate (c : Circuit) (Q : Int) (values : List Int) :
    Except String (List Int) :=
  if values.length ≠ c.inputs.length then
    Except.error ("Expected " ++ toString c.inputs.length ++ " values, got "
      ++ toString values.length)
  else
    let e0 : String → Int := fun _ => 0
    let e1 := initEnvInputs c.inputs values e0
    let e2 := initEnvConsts c.vars c.constants e1
    let ef := replay Q c.operations e2
    Except.ok (c.outputs.map (fun o => ef o.name))

/-! ## Pure value-level transforms (the arithmetic content of the traces,
over `ZMod 12289`) -/

/-- The coefficient field `Z_q` for `q = 12289`. -/
abbrev Zq : Type := ZMod 12289

def castZ (x : Int) : Zq := (x : ZMod 12289)

/-- The twiddle table viewed in `Z_q`. -/
def wzT (T : RootTable) : Nat → Nat → Zq := fun s i => castZ (T.w s i)

/-- The inverse-twiddle table viewed in `Z_q`. -/
def invwzT (T : RootTable) : Nat → Nat → Zq :=
  fun s i => castZ (T.invw (T.w s i))

/-- Value-level `_merge_ntt`. -/
def mergeZ (wz : Nat → Nat → Zq) (size : Nat) :
    Nat → List Zq → List Zq → List Zq
  | i, x :: xs, y :: ys =>
      (x + wz size (2 * i) * y) :: (x - wz size (2 * i) * y) ::
        mergeZ wz size (i + 1) xs ys
  | _, _, _ => []

/-- Value-level `_ntt` (same fuel structure as `nttRecF`). -/
def nttZ (wz : Nat → Nat → Zq) : Nat → List Zq → List Zq
  | 0, _ => []
  | fuel + 1, xs =>
      if xs.length = 2 then
        match xs with
        | [x0, x1] => [x0 + wz 2 0 * x1, x0 - wz 2 0 * x1]
        | _ => []
      else if 2 < xs.length then
        mergeZ wz xs.length 0 (nttZ wz fuel (evens xs))
          (nttZ wz fuel (odds xs))
      else []

/-- Value-level `_split_ntt` loop. -/
def splitZ (iz : Zq) (vz : Nat → Nat → Zq) (size : Nat) :
    Nat → List Zq → List Zq × List Zq
  | i, x :: y :: rest =>
      let r := splitZ iz vz size (i + 1) rest
      ((iz * (x + y)) :: r.1, (iz * ((x - y) * vz size (2 * i))) :: r.2)
  | _, _ => ([], [])

/-- Value-level `_intt` (same fuel structure as `inttRecF`). -/
def inttZ (iz isz : Zq) (vz : Nat → Nat → Zq) : Nat → List Zq → List Zq
  | 0, _ => []
  | fuel + 1, xs =>
      if xs.length = 2 then
        match xs with
        | [x0, x1] => [iz * (x0 + x1), iz * (isz * (x0 - x1))]
        | _ => []
      else if 2 < xs.length then
        let s := splitZ iz vz xs.length 0 xs
        interleave (inttZ iz isz vz fuel s.1) (inttZ iz isz vz fuel s.2)
      else []

/-! ## Invariants connecting traces to values -/

/-- A name is settled for `c`: it is not a temporary name the counter has yet
to hand out, so later builder calls never produce an operation writing it. -/
def SettledStr (c : Circuit) (nm : String) : Prop :=
  ∀ j, nm = tmpName j → j < c.varCounter

/-- The environment agrees with every recorded source-less singleton
variable (constants). -/
def EnvC (c : Circuit) (e : String → Int) : Prop :=
  ∀ nm u, dictGet c.vars nm = some u → u.srcIdx = none → u.minB = u.maxB →
    e nm = u.minB

/-- The environment assigns the variables of `vs` the `Z_q` values `zs`. -/
def EnvVals (e : String → Int) (vs : List Var) (zs : List Zq) : Prop :=
  List.Forall₂ (fun v z => castZ (e v.name) = z) vs zs

/-- The constant-name specification: which names the generation flow may bind
through `constant(...)`, and to which value. -/
def CSpec : Type := String → Int → Prop

/-- Build-phase invariant of the generation flows. -/
structure GInv (cspec : CSpec) (c : Circuit) : Prop where
  tmpFresh : TmpFresh c
  varsNodup : (c.vars.map Prod.fst).Nodup
  cspecOK : ∀ nm u, dictGet c.vars nm = some u → ∀ v, cspec nm v →
    u = ⟨nm, v, v, none⟩
  opsSettled : ∀ op ∈ c.operations, SettledStr c op.result.name ∧
    ∀ ov ∈ op.operands, SettledStr c ov.name
  singletonReg : ∀ nm u, dictGet c.vars nm = some u → u.srcIdx = none →
    u.minB = u.maxB → (dictGet c.constants u.minB).isSome
  opsResultShape : ∀ op ∈ c.operations,
    (∃ t, op.result.name = tmpName t) ∨ (∃ i, op.result.name = rNameStr i)
  tmpSrc : ∀ j u, dictGet c.vars (tmpName j) = some u → u.srcIdx ≠ none
  rSrc : ∀ i u, dictGet c.vars (rNameStr i) = some u → u.srcIdx ≠ none
  nameKey : ∀ nm u, dictGet c.vars nm = some u → u.name = nm

/-- The well-behavedness a constant-name specification needs: it pins every
default `const_{v}` name to `v`, and stays clear of temporary and output
names. -/
structure CSpecGood (cspec : CSpec) : Prop where
  constSelf : ∀ x, cspec (constantName x none) x
  constUniq : ∀ x v, cspec (constantName x none) v → v = x
  noTmp : ∀ nm v, cspec nm v → ∀ j, nm ≠ tmpName j
  noR : ∀ nm v, cspec nm v → ∀ i, nm ≠ rNameStr i

/-- Bindings of source-less variables persist (build steps only add, and the
output renames only delete temporary-named bindings of operation results). -/
def SrcNoneMono (c c' : Circuit) : Prop :=
  ∀ nm u, dictGet c.vars nm = some u → u.srcIdx = none →
    dictGet c'.vars nm = some u

/-- What every builder call of the generation flows guarantees: the trace is
extended by `Δ` only; the counter and the registered constants grow; the
modulus and threshold are untouched; recorded variables persist; the
invariant is preserved; and every operation of `Δ` writes a fresh temporary
name. -/
def CallOK (cspec : CSpec) (c c' : Circuit) (Δ : List Operation) : Prop :=
  c'.operations = c.operations ++ Δ ∧
  c.varCounter ≤ c'.varCounter ∧
  c'.modulus = c.modulus ∧
  c'.maxBound = c.maxBound ∧
  (∀ v, (dictGet c.constants v).isSome → (dictGet c'.constants v).isSome) ∧
  (GInv cspec c → VarsMono c c' ∧ GInv cspec c') ∧
  (∀ op ∈ Δ, ∃ t, op.result.name = tmpName t ∧ c.varCounter ≤ t ∧
    t < c'.varCounter) ∧
  (c'.inputs = c.inputs ∧ c'.outputs = c.outputs)

/-- The constant names (and values) of the NTT generation flow. -/
def NttCSpec (T : RootTable) : CSpec := fun nm v =>
  (nm = "sqr1" ∧ v = T.w 2 0) ∨
  (∃ s i, nm = wNameStr s i ∧ v = T.w s (2 * i)) ∨
  (∃ x, nm = constantName x none ∧ v = x)

/-- The constant names (and values) of the INTT generation flow. -/
def InttCSpec (T : RootTable) : CSpec := fun nm v =>
  (nm = "i2" ∧ v = inttI2) ∨
  (nm = "inv_sqr1" ∧ v = T.invw (T.w 2 0)) ∨
  (∃ s i, nm = invwNameStr s i ∧ v = T.invw (T.w s (2 * i))) ∨
  (∃ x, nm = constantName x none ∧ v = x)

/-- All even-indexed roots of every merge size up to `n` have registered
values. -/
def RootsReg (T : RootTable) (c : Circuit) (n : Nat) : Prop :=
  ∀ s i, 4 ≤ s → s ≤ n → (∃ j, s = 2 ^ j) → 2 * i < s →
    (dictGet c.constants (T.w s (2 * i))).isSome

/-- All even-indexed inverse roots of every merge size up to `n` have
registered values. -/
def InvRootsReg (T : RootTable) (c : Circuit) (n : Nat) : Prop :=
  ∀ s i, 4 ≤ s → s ≤ n → (∃ j, s = 2 ^ j) → 2 * i < s →
    (dictGet c.constants (T.invw (T.w s (2 * i)))).isSome

/-! # Theorems -/

/-! ## Dictionary and list lemmas -/

theorem dictGet_set_self {α β : Type} [DecidableEq α] (l : List (α × β))
    (k : α) (v : β) : dictGet (dictSet l k v) k = some v := by
  induction l with
  | nil => simp [dictGet, dictSet]
  | cons p rest ih =>
      obtain ⟨k', v'⟩ := p
      by_cases h : k' = k <;> simp [dictGet, dictSet, h, ih]

theorem dictGet_set_ne {α β : Type} [DecidableEq α] (l : List (α × β))
    (k k' : α) (v : β) (h : k ≠ k') :
    dictGet (dictSet l k v) k' = dictGet l k' := by
  induction l with
  | nil => simp [dictGet, dictSet, h]
  | cons p rest ih =>
      obtain ⟨k'', v''⟩ := p
      by_cases h2 : k'' = k
      · subst h2
        simp [dictGet, dictSet, h, Ne.symm h]
      · simp [dictGet, dictSet, h2, ih]

theorem dictSet_absent {α β : Type} [DecidableEq α] (l : List (α × β))
    (k : α) (v : β) (h : dictGet l k = none) : dictSet l k v = l ++ [(k, v)] := by
  induction l with
  | nil => simp [dictSet]
  | cons p rest ih =>
      obtain ⟨k', v'⟩ := p
      by_cases h2 : k' = k
      · simp [dictGet, h2] at h
      · simp [dictGet, h2] at h
        simp [dictSet, h2, ih h]

theorem dictGet_append_left {α β : Type} [DecidableEq α] (l l' : List (α × β))
    (k : α) (u : β) (h : dictGet l k = some u) :
    dictGet (l ++ l') k = some u := by
  induction l with
  | nil => simp [dictGet] at h
  | cons p rest ih =>
      obtain ⟨k', v'⟩ := p
      by_cases h2 : k' = k <;> simp_all [dictGet]

theorem dictGet_mono_set_fresh {α β : Type} [DecidableEq α]
    (l : List (α × β)) (k : α) (v : β) (hk : dictGet l k = none)
    (k' : α) (u : β) (h : dictGet l k' = some u) :
    dictGet (dictSet l k v) k' = some u := by
  rw [dictSet_absent l k v hk]
  exact dictGet_append_left l _ k' u h

/-! ## Decimal strings: injectivity of `toString : Nat → String` -/

theorem decDigits_eq_toDigitsCore :
    ∀ (fuel n : Nat) (ds : List Char),
      decDigits fuel n ds = Nat.toDigitsCore 10 fuel n ds
  | 0, _, ds => by
      simp only [decDigits]
      rw [Nat.toDigitsCore.eq_def]
  | fuel + 1, n, ds => by
      simp only [decDigits]
      rw [Nat.toDigitsCore.eq_def]
      dsimp only
      split
      · rfl
      · rw [decDigits_eq_toDigitsCore]

theorem decDigits_acc (fuel n : Nat) (ds : List Char) :
    decDigits fuel n ds = decDigits fuel n [] ++ ds := by
  induction fuel generalizing n ds with
  | zero => simp [decDigits]
  | succ fuel ih =>
      simp only [decDigits]
      split
      · simp
      · rw [ih (n / 10) ((n % 10).digitChar :: ds),
          ih (n / 10) [(n % 10).digitChar]]
        simp

theorem decDigits_fuelIrrel (fuelA fuelB n : Nat) (ds : List Char)
    (hA : n < fuelA) (hB : n < fuelB) :
    decDigits fuelA n ds = decDigits fuelB n ds := by
  induction n using Nat.strongRecOn generalizing fuelA fuelB ds with
  | _ n ih =>
    obtain ⟨fa, rfl⟩ : ∃ fa, fuelA = fa + 1 := ⟨fuelA - 1, by omega⟩
    obtain ⟨fb, rfl⟩ : ∃ fb, fuelB = fb + 1 := ⟨fuelB - 1, by omega⟩
    simp only [decDigits]
    split
    · rfl
    · exact ih (n / 10) (by omega) fa fb _ (by omega) (by omega)

theorem digitChar_readBack {n : Nat} (h : n < 10) :
    n.digitChar.toNat - Char.toNat '0' = n := by
  interval_cases n <;> decide

theorem decDigits_readBack (n : Nat) :
    List.foldl (fun acc c => acc * 10 + (c.toNat - Char.toNat '0')) 0
      (decDigits (n + 1) n []) = n := by
  induction n using Nat.strongRecOn with
  | _ n ih =>
    simp only [decDigits]
    split
    · simp only [List.foldl]
      rw [digitChar_readBack (Nat.mod_lt n (by omega))]
      omega
    · rw [decDigits_acc, List.foldl_append]
      simp only [List.foldl]
      rw [digitChar_readBack (Nat.mod_lt n (by omega))]
      rw [decDigits_fuelIrrel _ (n / 10 + 1) (n / 10) [] (by omega) (by omega)]
      rw [ih (n / 10) (by omega)]
      omega

theorem natToString_inj {a b : Nat} (h : toString a = toString b) : a = b := by
  have ha := decDigits_readBack a
  have hb := decDigits_readBack b
  have hd : Nat.toDigits 10 a = Nat.toDigits 10 b := by
    have := congrArg String.data h
    simpa [toString, Nat.repr, List.asString] using this
  rw [Nat.toDigits] at hd
  rw [Nat.toDigits] at hd
  rw [← decDigits_eq_toDigitsCore, ← decDigits_eq_toDigitsCore] at hd
  rw [← hd] at hb
  omega

theorem decDigits_ne_nil (n : Nat) : decDigits (n + 1) n [] ≠ [] := by
  simp only [decDigits]
  split <;> simp
  rw [decDigits_acc]
  simp

theorem toString_nat_length_pos (n : Nat) : 0 < (toString n).length := by
  show 0 < (Nat.repr n).length
  rw [Nat.repr, Nat.toDigits, ← decDigits_eq_toDigitsCore]
  have := decDigits_ne_nil n
  cases hh : decDigits (n + 1) n [] with
  | nil => exact absurd hh this
  | cons c cs => simp [List.asString, String.length, hh]

theorem tmpName_inj {i j : Nat} (h : tmpName i = tmpName j) : i = j := by
  apply natToString_inj
  have := congrArg String.data h
  simp only [tmpName, String.data_append] at this
  apply String.ext
  exact List.append_cancel_left this

/-! ## Structural lemmas about the builder -/

theorem constant_state (c : Circuit) (v : Int) (n : Option String) :
    (c.constant v n).2.operations = c.operations ∧
    (c.constant v n).2.modulus = c.modulus ∧
    (c.constant v n).2.maxBound = c.maxBound ∧
    (c.constant v n).2.varCounter = c.varCounter := by
  unfold Circuit.constant
  rcases h : dictGet c.vars (constantName v n) with _ | u <;> simp [h]

theorem registerConstant_state (c : Circuit) (v : Int) (n : String) :
    (c.registerConstant v n).operations = c.operations ∧
    (c.registerConstant v n).modulus = c.modulus ∧
    (c.registerConstant v n).maxBound = c.maxBound ∧
    (c.registerConstant v n).varCounter = c.varCounter := by
  unfold Circuit.registerConstant
  simp

theorem constant_fst (c : Circuit) (v : Int) (narg : Option String) :
    (c.constant v narg).1 =
      (match dictGet c.vars (constantName v narg) with
       | some u => u
       | none => ⟨constantName v narg, v, v, none⟩) := by
  unfold Circuit.constant
  rcases h : dictGet c.vars (constantName v narg) with _ | u <;> simp [h]

theorem createOp_state (c : Circuit) (t : String) (os : List Var)
    (mn mx : Int) (q : Option (Int × Int)) (m : Option Int)
    (l : Option String) :
    (c.createOp t os mn mx q m l).2.operations = c.operations ++
      [⟨t, os, ⟨tmpName c.varCounter, mn, mx, some c.operations.length⟩,
        q, m, l, none⟩] ∧
    (c.createOp t os mn mx q m l).1 =
      ⟨tmpName c.varCounter, mn, mx, some c.operations.length⟩ ∧
    (c.createOp t os mn mx q m l).2.modulus = c.modulus ∧
    (c.createOp t os mn mx q m l).2.maxBound = c.maxBound ∧
    (c.createOp t os mn mx q m l).2.varCounter = c.varCounter + 1 := by
  unfold Circuit.createOp Circuit.nextVarName tmpName
  simp

/-- `reduce` appends one operation (two when the input shifts), the last one
being the REDUCE itself; it returns the REDUCE result with bounds
`[0, modulus - 1]`, and preserves modulus / threshold. -/
theorem reduceVar_state (c : Circuit) (v : Var) (marg : Option Int) :
    ∃ Δ a',
      (c.reduceVar v marg).2.operations = c.operations ++ Δ ++
        [⟨"REDUCE", [a'],
          (c.reduceVar v marg).1,
          some (a'.minB.fdiv (reduceModulus c marg),
                a'.maxB.fdiv (reduceModulus c marg)),
          some (reduceModulus c marg), none, none⟩] ∧
      (c.reduceVar v marg).1.minB = 0 ∧
      (c.reduceVar v marg).1.maxB = reduceModulus c marg - 1 ∧
      (c.reduceVar v marg).2.modulus = c.modulus ∧
      (c.reduceVar v marg).2.maxBound = c.maxBound ∧
      c.varCounter + Δ.length + 1 = (c.reduceVar v marg).2.varCounter ∧
      Δ.length ≤ 1 ∧
      (v.minB < 0 → ∃ sh,
        Δ = [⟨"ADD", [v, sh], a', none, none, none, none⟩] ∧
        a'.minB = v.minB + sh.minB ∧ a'.maxB = v.maxB + sh.maxB ∧
        sh = (match dictGet c.vars (constantName
            (((-v.minB + reduceModulus c marg - 1).fdiv (reduceModulus c marg))
              * reduceModulus c marg) none) with
          | some u => u
          | none => ⟨constantName
              (((-v.minB + reduceModulus c marg - 1).fdiv (reduceModulus c marg))
                * reduceModulus c marg) none,
              ((-v.minB + reduceModulus c marg - 1).fdiv (reduceModulus c marg))
                * reduceModulus c marg,
              ((-v.minB + reduceModulus c marg - 1).fdiv (reduceModulus c marg))
                * reduceModulus c marg, none⟩)) ∧
      (0 ≤ v.minB → Δ = [] ∧ a' = v) := by
  by_cases hv : v.minB < 0
  · simp only [Circuit.reduceVar, if_pos hv]
    set M := reduceModulus c marg with hM
    set c1 := if (dictGet c.constants M).isSome then c
      else c.registerConstant M "Q" with hc1
    have h1 : c1.operations = c.operations ∧ c1.vars = c.vars ∧
        c1.modulus = c.modulus ∧ c1.maxBound = c.maxBound ∧
        c1.varCounter = c.varCounter := by
      rw [hc1]; split <;> simp [Circuit.registerConstant]
    set S := ((-v.minB + M - 1).fdiv M) * M with hS
    set sh := (c1.constant S none).1 with hsh
    set c2 := (c1.constant S none).2 with hc2
    have h2 : c2.operations = c1.operations ∧ c2.modulus = c1.modulus ∧
        c2.maxBound = c1.maxBound ∧ c2.varCounter = c1.varCounter :=
      constant_state c1 S none
    set c3 := if (dictGet c2.constants S).isSome then c2
      else c2.registerConstant S
        ("SHIFT_" ++ toString ((-v.minB + M - 1).fdiv M) ++ "Q") with hc3
    have h3 : c3.operations = c2.operations ∧ c3.modulus = c2.modulus ∧
        c3.maxBound = c2.maxBound ∧ c3.varCounter = c2.varCounter := by
      rw [hc3]; split <;> simp [Circuit.registerConstant]
    refine ⟨[⟨"ADD", [v, sh],
        ⟨tmpName c.varCounter, v.minB + sh.minB, v.maxB + sh.maxB,
          some c.operations.length⟩, none, none, none, none⟩],
      ⟨tmpName c.varCounter, v.minB + sh.minB, v.maxB + sh.maxB,
        some c.operations.length⟩, ?_⟩
    simp only [Circuit.addRaw, Circuit.createOp, Circuit.nextVarName, tmpName]
    simp [h1.1, h1.2.1, h1.2.2.1, h1.2.2.2.1, h1.2.2.2.2,
      h2.1, h2.2.1, h2.2.2.1, h2.2.2.2, h3.1, h3.2.1, h3.2.2.1, h3.2.2.2, hv,
      List.append_assoc]
    rw [hsh, constant_fst c1 S none, h1.2.1]
  · simp only [Circuit.reduceVar, if_neg hv]
    refine ⟨[], v, ?_⟩
    simp only [Circuit.createOp, Circuit.nextVarName, tmpName]
    simp [hv]

/-! ## Name-shape distinctness -/

theorem str_app_ne {p q : String} (x y : String) {cp cq : Char}
    {ps qs : List Char} (hp : p.data = cp :: ps) (hq : q.data = cq :: qs)
    (hne : cp ≠ cq) : p ++ x ≠ q ++ y := by
  intro h
  have h2 := congrArg String.data h
  rw [String.data_append, String.data_append, hp, hq] at h2
  simp only [List.cons_append, List.cons.injEq] at h2
  exact hne h2.1

theorem const_ne_tmpName (v : Int) (j : Nat) :
    constantName v none ≠ tmpName j := by
  unfold constantName tmpName
  exact str_app_ne _ _ (by decide : ("const_" : String).data = 'c' :: ['o', 'n', 's', 't', '_'])
    (by decide : ("tmp_" : String).data = 't' :: ['m', 'p', '_']) (by decide)

/-! ## Freshness and monotonicity of builder calls -/

theorem varsMono_trans {c1 c2 c3 : Circuit} (h1 : VarsMono c1 c2)
    (h2 : VarsMono c2 c3) : VarsMono c1 c3 :=
  fun nm u h => h2 nm u (h1 nm u h)

theorem createOp_freshMono (c : Circuit) (t : String) (os : List Var)
    (mn mx : Int) (q : Option (Int × Int)) (m : Option Int) (l : Option String)
    (hf : TmpFresh c) :
    TmpFresh (c.createOp t os mn mx q m l).2 ∧
      VarsMono c (c.createOp t os mn mx q m l).2 := by
  have hvars : (c.createOp t os mn mx q m l).2.vars =
      dictSet c.vars (tmpName c.varCounter)
        ⟨tmpName c.varCounter, mn, mx, some c.operations.length⟩ := by
    simp [Circuit.createOp, Circuit.nextVarName, tmpName]
  have hcnt : (c.createOp t os mn mx q m l).2.varCounter = c.varCounter + 1 :=
    (createOp_state c t os mn mx q m l).2.2.2.2
  constructor
  · intro j hj
    rw [hvars, hcnt] at *
    rw [dictGet_set_ne]
    · exact hf j (by omega)
    · intro hcontra
      have := tmpName_inj hcontra
      omega
  · intro nm u h
    rw [hvars]
    exact dictGet_mono_set_fresh _ _ _ (hf c.varCounter le_rfl) nm u h

theorem constant_shape (c : Circuit) (v : Int) (narg : Option String) :
    (c.constant v narg).2 = c ∨
      ((c.constant v narg).2.vars = dictSet c.vars (constantName v narg)
          (⟨constantName v narg, v, v, none⟩ : Var) ∧
        dictGet c.vars (constantName v narg) = none ∧
        (c.constant v narg).2.varCounter = c.varCounter) := by
  unfold Circuit.constant
  rcases h : dictGet c.vars (constantName v narg) with _ | u
  · right
    simp [h]
  · left
    simp [h]

theorem constant_freshMono (c : Circuit) (v : Int) (narg : Option String)
    (hf : TmpFresh c) (hn : ∀ j, constantName v narg ≠ tmpName j) :
    TmpFresh (c.constant v narg).2 ∧ VarsMono c (c.constant v narg).2 := by
  rcases constant_shape c v narg with h | ⟨hv2, habs, hcnt⟩
  · rw [h]
    exact ⟨hf, fun nm u hu => hu⟩
  · constructor
    · intro j hj
      rw [hv2, dictGet_set_ne _ _ _ _ (hn j)]
      exact hf j (hcnt ▸ hj)
    · intro nm u hu
      rw [hv2]
      exact dictGet_mono_set_fresh _ _ _ habs nm u hu

theorem reduceVar_freshMono (c : Circuit) (v : Var) (marg : Option Int)
    (hf : TmpFresh c) :
    TmpFresh (c.reduceVar v marg).2 ∧ VarsMono c (c.reduceVar v marg).2 := by
  by_cases hv : v.minB < 0
  · simp only [Circuit.reduceVar, if_pos hv]
    set M := reduceModulus c marg with hM
    set c1 := if (dictGet c.constants M).isSome then c
      else c.registerConstant M "Q" with hc1
    have h1 : c1.vars = c.vars ∧ c1.varCounter = c.varCounter := by
      rw [hc1]; split <;> simp [Circuit.registerConstant]
    have hf1 : TmpFresh c1 := by
      intro j hj
      rw [h1.1]
      exact hf j (h1.2 ▸ hj)
    set S := ((-v.minB + M - 1).fdiv M) * M with hS
    have h2 := constant_freshMono c1 S none hf1 (const_ne_tmpName S)
    set c2 := (c1.constant S none).2 with hc2
    set c3 := if (dictGet c2.constants S).isSome then c2
      else c2.registerConstant S
        ("SHIFT_" ++ toString ((-v.minB + M - 1).fdiv M) ++ "Q") with hc3
    have h3 : c3.vars = c2.vars ∧ c3.varCounter = c2.varCounter := by
      rw [hc3]; split <;> simp [Circuit.registerConstant]
    have hf3 : TmpFresh c3 := by
      intro j hj
      rw [h3.1]
      exact h2.1 j (h3.2 ▸ hj)
    have h4 := createOp_freshMono c3 "ADD" [v, (c1.constant S none).1]
      (v.minB + (c1.constant S none).1.minB) (v.maxB + (c1.constant S none).1.maxB)
      none none none hf3
    set c4 := (c3.addRaw v (c1.constant S none).1).2 with hc4
    have hc4' : c4 = (c3.createOp "ADD" [v, (c1.constant S none).1]
        (v.minB + (c1.constant S none).1.minB)
        (v.maxB + (c1.constant S none).1.maxB) none none none).2 := rfl
    have hf4 : TmpFresh c4 := hc4' ▸ h4.1
    set c5 := { c4 with boundTypes := (setAdd c4.boundTypes ((c3.addRaw v (c1.constant S none).1).1.minB.fdiv M, (c3.addRaw v (c1.constant S none).1).1.maxB.fdiv M)) } with hc5
    have hf5 : TmpFresh c5 := by
      intro j hj
      exact hf4 j hj
    have h6 := createOp_freshMono c5 "REDUCE" [(c3.addRaw v (c1.constant S none).1).1]
      0 (M - 1) (some (((c3.addRaw v (c1.constant S none).1).1.minB.fdiv M),
        ((c3.addRaw v (c1.constant S none).1).1.maxB.fdiv M))) (some M) none hf5
    constructor
    · exact h6.1
    · intro nm u hu
      apply h6.2
      show dictGet c4.vars nm = some u
      apply hc4' ▸ h4.2
      rw [h3.1]
      apply h2.2
      rw [h1.1]
      exact hu
  · simp only [Circuit.reduceVar, if_neg hv]
    have h6 := createOp_freshMono
      { c with boundTypes := (setAdd c.boundTypes (v.minB.fdiv (reduceModulus c marg), v.maxB.fdiv (reduceModulus c marg))) }
      "REDUCE" [v] 0 (reduceModulus c marg - 1)
      (some (v.minB.fdiv (reduceModulus c marg), v.maxB.fdiv (reduceModulus c marg)))
      (some (reduceModulus c marg)) none (fun j hj => hf j hj)
    exact ⟨h6.1, fun nm u hu => h6.2 nm u hu⟩

/-! ## `_maybe_auto_reduce` and the arithmetic builders -/

theorem maybeAutoReduce_not_fired (c : Circuit) (v : Var)
    (h1 : v.maxB ≤ c.maxBound) (h2 : -c.maxBound ≤ v.minB) :
    c.maybeAutoReduce v = (v, c) := by
  unfold Circuit.maybeAutoReduce
  rw [if_neg]
  push_neg
  exact ⟨by omega, by omega⟩

theorem reduceVar_ops_ext (c : Circuit) (v : Var) (marg : Option Int) :
    ∃ Δ, (c.reduceVar v marg).2.operations = c.operations ++ Δ := by
  obtain ⟨Δ, a', h⟩ := reduceVar_state c v marg
  exact ⟨_, by rw [h.1, List.append_assoc]⟩

theorem maybeAutoReduce_state (c : Circuit) (v : Var) :
    ∃ Δ, (c.maybeAutoReduce v).2.operations = c.operations ++ Δ ∧
      (c.maybeAutoReduce v).2.modulus = c.modulus ∧
      (c.maybeAutoReduce v).2.maxBound = c.maxBound := by
  unfold Circuit.maybeAutoReduce
  split
  · set d0 : Circuit := { c with autoReducedCount := c.autoReducedCount + 1 }
      with hd0
    obtain ⟨Δ1, a1, h1⟩ := reduceVar_state d0 v none
    obtain ⟨E1, he1⟩ := reduceVar_ops_ext d0 v none
    set d1 := (d0.reduceVar v none).2 with hd1
    obtain ⟨Δ2, a2, h2⟩ := reduceVar_state d1 v none
    obtain ⟨E2, he2⟩ := reduceVar_ops_ext d1 v none
    set d2 := (d1.reduceVar v none).2 with hd2
    obtain ⟨Δ3, a3, h3⟩ := reduceVar_state d2 v none
    obtain ⟨E3, he3⟩ := reduceVar_ops_ext d2 v none
    refine ⟨E1 ++ (E2 ++ E3), ?_, ?_, ?_⟩
    · rw [he3, he2, he1]
      simp [hd0, List.append_assoc]
    · rw [h3.2.2.2.1, h2.2.2.2.1, h1.2.2.2.1]
    · rw [h3.2.2.2.2.1, h2.2.2.2.2.1, h1.2.2.2.2.1]
  · exact ⟨[], by simp⟩

theorem maybeAutoReduce_fired (c : Circuit) (v : Var)
    (h : v.maxB > c.maxBound ∨ v.minB < -c.maxBound) :
    (c.maybeAutoReduce v).1.minB = 0 ∧
    (c.maybeAutoReduce v).1.maxB = c.modulus - 1 ∧
    ∃ a', (c.maybeAutoReduce v).2.operations.getLast? =
      some ⟨"REDUCE", [a'], (c.maybeAutoReduce v).1,
        some (a'.minB.fdiv c.modulus, a'.maxB.fdiv c.modulus),
        some c.modulus, none, none⟩ := by
  unfold Circuit.maybeAutoReduce
  rw [if_pos h]
  set d0 : Circuit := { c with autoReducedCount := c.autoReducedCount + 1 }
    with hd0
  obtain ⟨Δ1, a1, h1⟩ := reduceVar_state d0 v none
  set d1 := (d0.reduceVar v none).2 with hd1
  obtain ⟨Δ2, a2, h2⟩ := reduceVar_state d1 v none
  set d2 := (d1.reduceVar v none).2 with hd2
  obtain ⟨Δ3, a3, h3⟩ := reduceVar_state d2 v none
  have hmod : d2.modulus = c.modulus := by
    rw [h2.2.2.2.1, h1.2.2.2.1]
  have hmod' : reduceModulus d2 none = c.modulus := by
    simp [reduceModulus, hmod]
  refine ⟨?_, ?_, a3, ?_⟩
  · exact h3.2.1
  · rw [h3.2.2.1, hmod']
  · rw [h3.1, hmod']
    exact List.getLast?_concat _

/-- Auto-reduce with non-negative raw bounds appends exactly three REDUCE
operations (one from each of the three `reduce` calls it performs). -/
theorem maybeAutoReduce_fired_count (c : Circuit) (v : Var)
    (h : v.maxB > c.maxBound ∨ v.minB < -c.maxBound) (hnn : 0 ≤ v.minB) :
    (c.maybeAutoReduce v).2.operations.length = c.operations.length + 3 := by
  unfold Circuit.maybeAutoReduce
  rw [if_pos h]
  set d0 : Circuit := { c with autoReducedCount := c.autoReducedCount + 1 }
    with hd0
  obtain ⟨Δ1, a1, h1⟩ := reduceVar_state d0 v none
  set d1 := (d0.reduceVar v none).2 with hd1
  obtain ⟨Δ2, a2, h2⟩ := reduceVar_state d1 v none
  set d2 := (d1.reduceVar v none).2 with hd2
  obtain ⟨Δ3, a3, h3⟩ := reduceVar_state d2 v none
  have e1 := h1.2.2.2.2.2.2.2.2 hnn
  have e2 := h2.2.2.2.2.2.2.2.2 hnn
  have e3 := h3.2.2.2.2.2.2.2.2 hnn
  rw [h3.1, e3.1, h2.1, e2.1, h1.1, e1.1]
  simp [hd0]

theorem maybeAutoReduce_freshMono (c : Circuit) (v : Var) (hf : TmpFresh c) :
    TmpFresh (c.maybeAutoReduce v).2 ∧ VarsMono c (c.maybeAutoReduce v).2 := by
  unfold Circuit.maybeAutoReduce
  split
  · set d0 : Circuit := { c with autoReducedCount := c.autoReducedCount + 1 }
      with hd0
    have hf0 : TmpFresh d0 := fun j hj => hf j hj
    have g1 := reduceVar_freshMono d0 v none hf0
    have g2 := reduceVar_freshMono (d0.reduceVar v none).2 v none g1.1
    have g3 := reduceVar_freshMono ((d0.reduceVar v none).2.reduceVar v none).2
      v none g2.1
    refine ⟨g3.1, varsMono_trans (varsMono_trans ?_ g2.2) g3.2⟩
    intro nm u hu
    exact g1.2 nm u hu
  · exact ⟨hf, fun nm u hu => hu⟩

theorem add_state (c : Circuit) (a b : Var) :
    ∃ Δ, (c.add a b).2.operations = c.operations ++
      (⟨"ADD", [a, b], ⟨tmpName c.varCounter, a.minB + b.minB,
        a.maxB + b.maxB, some c.operations.length⟩,
        none, none, none, none⟩ : Operation) :: Δ ∧
      (c.add a b).2.modulus = c.modulus ∧
      (c.add a b).2.maxBound = c.maxBound := by
  unfold Circuit.add
  obtain ⟨h1, h2, h3, h4, _⟩ := createOp_state c "ADD" [a, b]
    (a.minB + b.minB) (a.maxB + b.maxB) none none none
  obtain ⟨Δ, hΔ, hm, hb⟩ := maybeAutoReduce_state
    (c.createOp "ADD" [a, b] (a.minB + b.minB) (a.maxB + b.maxB) none none none).2
    (c.createOp "ADD" [a, b] (a.minB + b.minB) (a.maxB + b.maxB) none none none).1
  refine ⟨Δ, ?_, by rw [hm, h3], by rw [hb, h4]⟩
  rw [hΔ, h1]
  simp

theorem sub_state (c : Circuit) (a b : Var) :
    ∃ Δ, (c.sub a b).2.operations = c.operations ++
      (⟨"SUB", [a, b], ⟨tmpName c.varCounter, a.minB - b.maxB,
        a.maxB - b.minB, some c.operations.length⟩,
        none, none, none, none⟩ : Operation) :: Δ ∧
      (c.sub a b).2.modulus = c.modulus ∧
      (c.sub a b).2.maxBound = c.maxBound := by
  unfold Circuit.sub
  obtain ⟨h1, h2, h3, h4, _⟩ := createOp_state c "SUB" [a, b]
    (a.minB - b.maxB) (a.maxB - b.minB) none none none
  obtain ⟨Δ, hΔ, hm, hb⟩ := maybeAutoReduce_state
    (c.createOp "SUB" [a, b] (a.minB - b.maxB) (a.maxB - b.minB) none none none).2
    (c.createOp "SUB" [a, b] (a.minB - b.maxB) (a.maxB - b.minB) none none none).1
  refine ⟨Δ, ?_, by rw [hm, h3], by rw [hb, h4]⟩
  rw [hΔ, h1]
  simp

theorem mul_state (c : Circuit) (a b : Var) :
    ∃ Δ, (c.mul a b).2.operations = c.operations ++
      (⟨"MUL", [a, b], ⟨tmpName c.varCounter,
        listMin [a.minB * b.minB, a.minB * b.maxB, a.maxB * b.minB, a.maxB * b.maxB],
        listMax [a.minB * b.minB, a.minB * b.maxB, a.maxB * b.minB, a.maxB * b.maxB],
        some c.operations.length⟩,
        none, none, none, none⟩ : Operation) :: Δ ∧
      (c.mul a b).2.modulus = c.modulus ∧
      (c.mul a b).2.maxBound = c.maxBound := by
  unfold Circuit.mul
  obtain ⟨h1, h2, h3, h4, _⟩ := createOp_state c "MUL" [a, b]
    (listMin [a.minB * b.minB, a.minB * b.maxB, a.maxB * b.minB, a.maxB * b.maxB])
    (listMax [a.minB * b.minB, a.minB * b.maxB, a.maxB * b.minB, a.maxB * b.maxB])
    none none none
  obtain ⟨Δ, hΔ, hm, hb⟩ := maybeAutoReduce_state _ _
  refine ⟨Δ, ?_, by rw [hm, h3], by rw [hb, h4]⟩
  rw [hΔ, h1]
  simp

theorem add_freshMono (c : Circuit) (a b : Var) (hf : TmpFresh c) :
    TmpFresh (c.add a b).2 ∧ VarsMono c (c.add a b).2 := by
  unfold Circuit.add
  have g1 := createOp_freshMono c "ADD" [a, b] (a.minB + b.minB)
    (a.maxB + b.maxB) none none none hf
  have g2 := maybeAutoReduce_freshMono
    (c.createOp "ADD" [a, b] (a.minB + b.minB) (a.maxB + b.maxB) none none none).2
    (c.createOp "ADD" [a, b] (a.minB + b.minB) (a.maxB + b.maxB) none none none).1 g1.1
  exact ⟨g2.1, varsMono_trans g1.2 g2.2⟩

theorem sub_freshMono (c : Circuit) (a b : Var) (hf : TmpFresh c) :
    TmpFresh (c.sub a b).2 ∧ VarsMono c (c.sub a b).2 := by
  unfold Circuit.sub
  have g1 := createOp_freshMono c "SUB" [a, b] (a.minB - b.maxB)
    (a.maxB - b.minB) none none none hf
  have g2 := maybeAutoReduce_freshMono
    (c.createOp "SUB" [a, b] (a.minB - b.maxB) (a.maxB - b.minB) none none none).2
    (c.createOp "SUB" [a, b] (a.minB - b.maxB) (a.maxB - b.minB) none none none).1 g1.1
  exact ⟨g2.1, varsMono_trans g1.2 g2.2⟩

theorem mul_freshMono (c : Circuit) (a b : Var) (hf : TmpFresh c) :
    TmpFresh (c.mul a b).2 ∧ VarsMono c (c.mul a b).2 := by
  unfold Circuit.mul
  have g1 := createOp_freshMono c "MUL" [a, b]
    (listMin [a.minB * b.minB, a.minB * b.maxB, a.maxB * b.minB, a.maxB * b.maxB])
    (listMax [a.minB * b.minB, a.minB * b.maxB, a.maxB * b.minB, a.maxB * b.maxB])
    none none none hf
  have g2 := maybeAutoReduce_freshMono
    (c.createOp "MUL" [a, b]
      (listMin [a.minB * b.minB, a.minB * b.maxB, a.maxB * b.minB, a.maxB * b.maxB])
      (listMax [a.minB * b.minB, a.minB * b.maxB, a.maxB * b.minB, a.maxB * b.maxB])
      none none none).2
    (c.createOp "MUL" [a, b]
      (listMin [a.minB * b.minB, a.minB * b.maxB, a.maxB * b.minB, a.maxB * b.maxB])
      (listMax [a.minB * b.minB, a.minB * b.maxB, a.maxB * b.minB, a.maxB * b.maxB])
      none none none).1 g1.1
  exact ⟨g2.1, varsMono_trans g1.2 g2.2⟩

/-! ## `min`/`max` over nonempty lists -/

theorem foldl_min_le_init : ∀ (xs : List Int) (a : Int), xs.foldl min a ≤ a
  | [], a => le_refl a
  | x :: xs, a => le_trans (foldl_min_le_init xs (min a x)) (min_le_left a x)

theorem foldl_min_le_mem :
    ∀ (xs : List Int) (a x : Int), x ∈ xs → xs.foldl min a ≤ x
  | [], _, x, hx => absurd hx (List.not_mem_nil x)
  | y :: xs, a, x, hx => by
      rcases List.mem_cons.mp hx with rfl | hx
      · exact le_trans (foldl_min_le_init xs (min a x)) (min_le_right a x)
      · exact foldl_min_le_mem xs (min a y) x hx

theorem foldl_min_mem :
    ∀ (xs : List Int) (a : Int), xs.foldl min a = a ∨ xs.foldl min a ∈ xs
  | [], a => Or.inl rfl
  | x :: xs, a => by
      rcases foldl_min_mem xs (min a x) with h | h
      · rcases min_cases a x with ⟨he, _⟩ | ⟨he, _⟩
        · exact Or.inl (by rw [List.foldl, h, he])
        · exact Or.inr (by rw [List.foldl, h, he]; exact List.mem_cons_self x xs)
      · exact Or.inr (List.mem_cons_of_mem x h)

theorem listMin_spec (x : Int) (xs : List Int) :
    listMin (x :: xs) ∈ x :: xs ∧ ∀ y ∈ x :: xs, listMin (x :: xs) ≤ y := by
  constructor
  · rcases foldl_min_mem xs x with h | h
    · rw [listMin, h]; exact List.mem_cons_self x xs
    · exact List.mem_cons_of_mem x h
  · intro y hy
    rcases List.mem_cons.mp hy with rfl | hy
    · exact foldl_min_le_init xs y
    · exact foldl_min_le_mem xs x y hy

theorem foldl_max_init_le : ∀ (xs : List Int) (a : Int), a ≤ xs.foldl max a
  | [], a => le_refl a
  | x :: xs, a => le_trans (le_max_left a x) (foldl_max_init_le xs (max a x))

theorem foldl_max_mem_le :
    ∀ (xs : List Int) (a x : Int), x ∈ xs → x ≤ xs.foldl max a
  | [], _, x, hx => absurd hx (List.not_mem_nil x)
  | y :: xs, a, x, hx => by
      rcases List.mem_cons.mp hx with rfl | hx
      · exact le_trans (le_max_right a x) (foldl_max_init_le xs (max a x))
      · exact foldl_max_mem_le xs (max a y) x hx

theorem foldl_max_mem :
    ∀ (xs : List Int) (a : Int), xs.foldl max a = a ∨ xs.foldl max a ∈ xs
  | [], a => Or.inl rfl
  | x :: xs, a => by
      rcases foldl_max_mem xs (max a x) with h | h
      · rcases max_cases a x with ⟨he, _⟩ | ⟨he, _⟩
        · exact Or.inl (by rw [List.foldl, h, he])
        · exact Or.inr (by rw [List.foldl, h, he]; exact List.mem_cons_self x xs)
      · exact Or.inr (List.mem_cons_of_mem x h)

theorem listMax_spec (x : Int) (xs : List Int) :
    listMax (x :: xs) ∈ x :: xs ∧ ∀ y ∈ x :: xs, y ≤ listMax (x :: xs) := by
  constructor
  · rcases foldl_max_mem xs x with h | h
    · rw [listMax, h]; exact List.mem_cons_self x xs
    · exact List.mem_cons_of_mem x h
  · intro y hy
    rcases List.mem_cons.mp hy with rfl | hy
    · exact foldl_max_init_le xs y
    · exact foldl_max_mem_le xs x y hy

/-! ## `div_rem` -/

/-- The corner list built inside `div_rem` coincides with `divCorners`. -/
theorem divCorners_eq (a b : Var) :
    divCorners a b =
      (if b.minB ≠ 0 then [a.minB.fdiv b.minB] else []) ++
      (if b.maxB ≠ 0 then [a.minB.fdiv b.maxB] else []) ++
      (if b.minB ≠ 0 then [a.maxB.fdiv b.minB] else []) ++
      (if b.maxB ≠ 0 then [a.maxB.fdiv b.maxB] else []) := by
  by_cases h1 : b.minB = 0 <;> by_cases h2 : b.maxB = 0 <;>
    simp [divCorners, h1, h2]

theorem divRem_error_iff (c : Circuit) (a b : Var) :
    (∃ e, c.divRem a b = Except.error e) ↔ b.minB = 0 ∧ b.maxB = 0 := by
  unfold Circuit.divRem
  by_cases h1 : b.minB = 0 <;> by_cases h2 : b.maxB = 0 <;> simp [h1, h2]

theorem divRem_ok (c : Circuit) (a b : Var) (h : ¬(b.minB = 0 ∧ b.maxB = 0)) :
    ∃ q r c', c.divRem a b = Except.ok ((q, r), c') ∧
      c'.operations = c.operations ++
        [⟨"DIV", [a, b], q, some (q.minB, q.maxB), none, none, none⟩,
         ⟨"REM", [a, b], r, some (q.minB, q.maxB), none, some q.name, none⟩] ∧
      q.minB = listMin (divCorners a b) ∧
      q.maxB = listMax (divCorners a b) ∧
      r.minB = 0 ∧ r.maxB = max |b.minB| |b.maxB| - 1 ∧
      c'.modulus = c.modulus ∧ c'.maxBound = c.maxBound ∧
      c'.varCounter = c.varCounter + 2 ∧
      (TmpFresh c → TmpFresh c' ∧ VarsMono c c') := by
  have hne : ((if b.minB ≠ 0 then [a.minB.fdiv b.minB] else []) ++
      (if b.maxB ≠ 0 then [a.minB.fdiv b.maxB] else []) ++
      (if b.minB ≠ 0 then [a.maxB.fdiv b.minB] else []) ++
      (if b.maxB ≠ 0 then [a.maxB.fdiv b.maxB] else [])) ≠ [] := by
    by_cases h1 : b.minB = 0 <;> by_cases h2 : b.maxB = 0 <;>
      simp [h1, h2] at h ⊢
  unfold Circuit.divRem
  rw [if_neg hne]
  set corners := (if b.minB ≠ 0 then [a.minB.fdiv b.minB] else []) ++
      (if b.maxB ≠ 0 then [a.minB.fdiv b.maxB] else []) ++
      (if b.minB ≠ 0 then [a.maxB.fdiv b.minB] else []) ++
      (if b.maxB ≠ 0 then [a.maxB.fdiv b.maxB] else []) with hcorners
  set cb := { c with boundTypes :=
    (setAdd c.boundTypes (listMin corners, listMax corners)) } with hcb
  obtain ⟨g1, g2, g3, g4, g5⟩ := createOp_state cb "DIV" [a, b]
    (listMin corners) (listMax corners)
    (some (listMin corners, listMax corners)) none none
  set q := (cb.createOp "DIV" [a, b] (listMin corners) (listMax corners)
    (some (listMin corners, listMax corners)) none none).1 with hq
  set cq := (cb.createOp "DIV" [a, b] (listMin corners) (listMax corners)
    (some (listMin corners, listMax corners)) none none).2 with hcq
  obtain ⟨g6, g7, g8, g9, g10⟩ := createOp_state cq "REM" [a, b]
    0 (max |b.minB| |b.maxB| - 1)
    (some (listMin corners, listMax corners)) none (some q.name)
  refine ⟨q, _, _, rfl, ?_, ?_, ?_, ?_, ?_, ?_, ?_, ?_, ?_⟩
  · rw [g6, g1, g2, g7]
    simp [hcb, divCorners_eq, hcorners, g2]
    rw [g1]
    simp [hcb]
  · rw [g2, divCorners_eq, hcorners]
  · rw [g2, divCorners_eq, hcorners]
  · rw [g7]
  · rw [g7]
  · rw [g8, g3, hcb]
  · rw [g9, g4, hcb]
  · rw [g10, g5, hcb]
  · intro hf
    have hfb : TmpFresh cb := fun j hj => hf j hj
    have k1 := createOp_freshMono cb "DIV" [a, b] (listMin corners)
      (listMax corners) (some (listMin corners, listMax corners)) none none hfb
    have k2 := createOp_freshMono cq "REM" [a, b] 0 (max |b.minB| |b.maxB| - 1)
      (some (listMin corners, listMax corners)) none (some q.name) k1.1
    exact ⟨k2.1, varsMono_trans (varsMono_trans (fun nm u hu => hu) k1.2) k2.2⟩

/-! ## Arithmetic facts about the shift constant -/

theorem shift_ge (a m : Int) (hm : 0 < m) : a ≤ m * ((a + m - 1).fdiv m) := by
  rw [Int.fdiv_eq_ediv _ (by omega : (0 : Int) ≤ m)]
  have h := @Int.emod_nonneg (a + m - 1) m (by omega)
  have h2 := @Int.emod_lt_of_pos (a + m - 1) m hm
  have h3 := Int.ediv_add_emod (a + m - 1) m
  omega

theorem shift_lt (a m : Int) (hm : 0 < m) : m * ((a + m - 1).fdiv m) < a + m := by
  rw [Int.fdiv_eq_ediv _ (by omega : (0 : Int) ≤ m)]
  have h := @Int.emod_nonneg (a + m - 1) m (by omega)
  have h3 := Int.ediv_add_emod (a + m - 1) m
  omega

theorem fdiv_nonneg' {a m : Int} (ha : 0 ≤ a) (hm : 0 < m) : 0 ≤ a.fdiv m :=
  Int.fdiv_nonneg ha (by omega)

/-! ## Claim C3: bound propagation of ADD, SUB, MUL -/

/-- **C3.**  `add` records an ADD operation whose result variable has bounds
exactly `[a0+b0, a1+b1]`, `sub` records bounds `[a0-b1, a1-b0]`, and `mul`
records the min/max over the four corner products; when those raw bounds stay
within the auto-reduce threshold, the recorded result variable is exactly the
variable the call returns. -/
theorem claim_C3_bound_propagation (c : Circuit) (a b : Var) :
    (∃ Δ, (c.add a b).2.operations = c.operations ++
      (⟨"ADD", [a, b], ⟨tmpName c.varCounter, a.minB + b.minB,
        a.maxB + b.maxB, some c.operations.length⟩,
        none, none, none, none⟩ : Operation) :: Δ) ∧
    (a.maxB + b.maxB ≤ c.maxBound → -c.maxBound ≤ a.minB + b.minB →
      (c.add a b).1.minB = a.minB + b.minB ∧
      (c.add a b).1.maxB = a.maxB + b.maxB) ∧
    (∃ Δ, (c.sub a b).2.operations = c.operations ++
      (⟨"SUB", [a, b], ⟨tmpName c.varCounter, a.minB - b.maxB,
        a.maxB - b.minB, some c.operations.length⟩,
        none, none, none, none⟩ : Operation) :: Δ) ∧
    (a.maxB - b.minB ≤ c.maxBound → -c.maxBound ≤ a.minB - b.maxB →
      (c.sub a b).1.minB = a.minB - b.maxB ∧
      (c.sub a b).1.maxB = a.maxB - b.minB) ∧
    (∃ Δ, (c.mul a b).2.operations = c.operations ++
      (⟨"MUL", [a, b], ⟨tmpName c.varCounter,
        min (min (min (a.minB * b.minB) (a.minB * b.maxB)) (a.maxB * b.minB))
          (a.maxB * b.maxB),
        max (max (max (a.minB * b.minB) (a.minB * b.maxB)) (a.maxB * b.minB))
          (a.maxB * b.maxB),
        some c.operations.length⟩,
        none, none, none, none⟩ : Operation) :: Δ) ∧
    (max (max (max (a.minB * b.minB) (a.minB * b.maxB)) (a.maxB * b.minB))
        (a.maxB * b.maxB) ≤ c.maxBound →
     -c.maxBound ≤ min (min (min (a.minB * b.minB) (a.minB * b.maxB))
        (a.maxB * b.minB)) (a.maxB * b.maxB) →
      (c.mul a b).1.minB =
        min (min (min (a.minB * b.minB) (a.minB * b.maxB)) (a.maxB * b.minB))
          (a.maxB * b.maxB) ∧
      (c.mul a b).1.maxB =
        max (max (max (a.minB * b.minB) (a.minB * b.maxB)) (a.maxB * b.minB))
          (a.maxB * b.maxB)) := by
  have hmin : listMin [a.minB * b.minB, a.minB * b.maxB, a.maxB * b.minB,
      a.maxB * b.maxB] =
      min (min (min (a.minB * b.minB) (a.minB * b.maxB)) (a.maxB * b.minB))
        (a.maxB * b.maxB) := rfl
  have hmax : listMax [a.minB * b.minB, a.minB * b.maxB, a.maxB * b.minB,
      a.maxB * b.maxB] =
      max (max (max (a.minB * b.minB) (a.minB * b.maxB)) (a.maxB * b.minB))
        (a.maxB * b.maxB) := rfl
  refine ⟨add_state c a b |>.imp (fun Δ h => h.1), ?_, sub_state c a b |>.imp (fun Δ h => h.1), ?_, ?_, ?_⟩
  · intro h1 h2
    unfold Circuit.add
    obtain ⟨g1, g2, g3, g4, g5⟩ := createOp_state c "ADD" [a, b]
      (a.minB + b.minB) (a.maxB + b.maxB) none none none
    rw [maybeAutoReduce_not_fired _ _ (by rw [g2, g4]; exact h1)
      (by rw [g2, g4]; exact h2)]
    rw [g2]
    exact ⟨rfl, rfl⟩
  · intro h1 h2
    unfold Circuit.sub
    obtain ⟨g1, g2, g3, g4, g5⟩ := createOp_state c "SUB" [a, b]
      (a.minB - b.maxB) (a.maxB - b.minB) none none none
    rw [maybeAutoReduce_not_fired _ _ (by rw [g2, g4]; exact h1)
      (by rw [g2, g4]; exact h2)]
    rw [g2]
    exact ⟨rfl, rfl⟩
  · obtain ⟨Δ, h⟩ := mul_state c a b
    exact ⟨Δ, by rw [h.1, hmin, hmax]⟩
  · intro h1 h2
    unfold Circuit.mul
    obtain ⟨g1, g2, g3, g4, g5⟩ := createOp_state c "MUL" [a, b]
      (listMin [a.minB * b.minB, a.minB * b.maxB, a.maxB * b.minB, a.maxB * b.maxB])
      (listMax [a.minB * b.minB, a.minB * b.maxB, a.maxB * b.minB, a.maxB * b.maxB])
      none none none
    rw [maybeAutoReduce_not_fired _ _ (by rw [g2, g4, hmax]; exact h1)
      (by rw [g2, g4, hmin]; exact h2)]
    rw [g2, hmin, hmax]
    exact ⟨rfl, rfl⟩

/-- Witness for C3: `0..255 + 0..255 → 0..510` and
`-128..127 × -128..127 → -16256..16384`. -/
theorem claim_C3_witness :
    ((Circuit.init "t" 256 defaultMaxBound).add
        ⟨"a", 0, 255, none⟩ ⟨"b", 0, 255, none⟩).1.minB = 0 ∧
    ((Circuit.init "t" 256 defaultMaxBound).add
        ⟨"a", 0, 255, none⟩ ⟨"b", 0, 255, none⟩).1.maxB = 510 ∧
    ((Circuit.init "t" 256 defaultMaxBound).mul
        ⟨"a", -128, 127, none⟩ ⟨"b", -128, 127, none⟩).1.minB = -16256 ∧
    ((Circuit.init "t" 256 defaultMaxBound).mul
        ⟨"a", -128, 127, none⟩ ⟨"b", -128, 127, none⟩).1.maxB = 16384 := by
  have hb : ((Circuit.init "t" 256 defaultMaxBound).maxBound) = 2 ^ 250 := by
    simp [Circuit.init, defaultMaxBound, MAX_BOUND_LIMIT]
    norm_num
  have h1 := (claim_C3_bound_propagation (Circuit.init "t" 256 defaultMaxBound)
    ⟨"a", 0, 255, none⟩ ⟨"b", 0, 255, none⟩).2.1
    (by rw [hb]; norm_num) (by rw [hb]; norm_num)
  have h2 := (claim_C3_bound_propagation (Circuit.init "t" 256 defaultMaxBound)
    ⟨"a", -128, 127, none⟩ ⟨"b", -128, 127, none⟩).2.2.2.2.2
    (by rw [hb]; norm_num) (by rw [hb]; norm_num)
  exact ⟨by rw [h1.1]; norm_num, by rw [h1.2]; norm_num,
    by rw [h2.1]; norm_num, by rw [h2.2]; norm_num⟩

/-! ## Claim C10: `constant` is keyed solely by name -/

/-- **C10.**  `constant(value, name)` returns any existing variable with the
requested (or default `const_{value}`) name unchanged and leaves the circuit
untouched, regardless of the existing variable's bounds. -/
theorem claim_C10_constant_by_name (c : Circuit) (value : Int) :
    (∀ n u, dictGet c.vars n = some u → c.constant value (some n) = (u, c)) ∧
    (∀ u, dictGet c.vars ("const_" ++ toString value) = some u →
      c.constant value none = (u, c)) := by
  constructor
  · intro n u h
    unfold Circuit.constant
    simp [constantName, h]
  · intro u h
    unfold Circuit.constant
    simp [constantName, h]

/-- Witness for C10: the name `const_5` is taken by an *input* with bounds
`[0, 10]`; `constant(5)` returns it unchanged and creates nothing. -/
theorem claim_C10_witness :
    dictGet cexConstClash.vars "const_5" = some ⟨"const_5", 0, 10, none⟩ ∧
    cexConstClash.constant 5 none = (⟨"const_5", 0, 10, none⟩, cexConstClash) := by
  have hlook : dictGet cexConstClash.vars "const_5" =
      some ⟨"const_5", 0, 10, none⟩ := by decide
  exact ⟨hlook, (claim_C10_constant_by_name cexConstClash 5).2 _ hlook⟩

/-! ## Claim C2: the auto-reduce invariant -/

/-- **C2, counterexample.**  After the single auto-reduced `mul` on
`cexPreAuto`, the raw MUL result variable `tmp_0` — a derived, non-constant
variable — is still recorded in the circuit with bound magnitude
`150994944 > 2^20`, the configured threshold.  So it is not the case that
every recorded non-constant variable stays within the threshold. -/
theorem claim_C2_counterexample :
    dictGet (cexAutoMul.2).vars "tmp_0" =
      some ⟨"tmp_0", 0, 150994944, some 0⟩ ∧
    cexAutoMul.2.maxBound = 2 ^ 20 ∧
    boundMagnitude ⟨"tmp_0", 0, 150994944, some 0⟩ > 2 ^ 20 := by
  refine ⟨by decide, by decide, by decide⟩

/-- **C2, amended.**  Whenever the raw propagated bound of an ADD/SUB/MUL
exceeds the threshold, the variable *returned* by the builder call is produced
by a REDUCE operation (the last of the trace) with bounds `[0, modulus - 1]`;
the raw over-threshold variable itself stays recorded in the circuit. -/
theorem claim_C2_amended (c : Circuit) (a b : Var) :
    ((a.maxB + b.maxB > c.maxBound ∨ a.minB + b.minB < -c.maxBound) →
      (c.add a b).1.minB = 0 ∧ (c.add a b).1.maxB = c.modulus - 1 ∧
      ∃ a', (c.add a b).2.operations.getLast? =
        some ⟨"REDUCE", [a'], (c.add a b).1,
          some (a'.minB.fdiv c.modulus, a'.maxB.fdiv c.modulus),
          some c.modulus, none, none⟩) ∧
    ((a.maxB - b.minB > c.maxBound ∨ a.minB - b.maxB < -c.maxBound) →
      (c.sub a b).1.minB = 0 ∧ (c.sub a b).1.maxB = c.modulus - 1 ∧
      ∃ a', (c.sub a b).2.operations.getLast? =
        some ⟨"REDUCE", [a'], (c.sub a b).1,
          some (a'.minB.fdiv c.modulus, a'.maxB.fdiv c.modulus),
          some c.modulus, none, none⟩) ∧
    ((listMax [a.minB * b.minB, a.minB * b.maxB, a.maxB * b.minB, a.maxB * b.maxB]
        > c.maxBound ∨
      listMin [a.minB * b.minB, a.minB * b.maxB, a.maxB * b.minB, a.maxB * b.maxB]
        < -c.maxBound) →
      (c.mul a b).1.minB = 0 ∧ (c.mul a b).1.maxB = c.modulus - 1 ∧
      ∃ a', (c.mul a b).2.operations.getLast? =
        some ⟨"REDUCE", [a'], (c.mul a b).1,
          some (a'.minB.fdiv c.modulus, a'.maxB.fdiv c.modulus),
          some c.modulus, none, none⟩) := by
  refine ⟨?_, ?_, ?_⟩
  · intro h
    unfold Circuit.add
    obtain ⟨g1, g2, g3, g4, g5⟩ := createOp_state c "ADD" [a, b]
      (a.minB + b.minB) (a.maxB + b.maxB) none none none
    have h' := maybeAutoReduce_fired
      (c.createOp "ADD" [a, b] (a.minB + b.minB) (a.maxB + b.maxB) none none none).2
      (c.createOp "ADD" [a, b] (a.minB + b.minB) (a.maxB + b.maxB) none none none).1
      (by rw [g2, g4]; exact h)
    rw [g3] at h'
    exact h'
  · intro h
    unfold Circuit.sub
    obtain ⟨g1, g2, g3, g4, g5⟩ := createOp_state c "SUB" [a, b]
      (a.minB - b.maxB) (a.maxB - b.minB) none none none
    have h' := maybeAutoReduce_fired
      (c.createOp "SUB" [a, b] (a.minB - b.maxB) (a.maxB - b.minB) none none none).2
      (c.createOp "SUB" [a, b] (a.minB - b.maxB) (a.maxB - b.minB) none none none).1
      (by rw [g2, g4]; exact h)
    rw [g3] at h'
    exact h'
  · intro h
    unfold Circuit.mul
    obtain ⟨g1, g2, g3, g4, g5⟩ := createOp_state c "MUL" [a, b]
      (listMin [a.minB * b.minB, a.minB * b.maxB, a.maxB * b.minB, a.maxB * b.maxB])
      (listMax [a.minB * b.minB, a.minB * b.maxB, a.maxB * b.minB, a.maxB * b.maxB])
      none none none
    have h' := maybeAutoReduce_fired
      (c.createOp "MUL" [a, b]
        (listMin [a.minB * b.minB, a.minB * b.maxB, a.maxB * b.minB, a.maxB * b.maxB])
        (listMax [a.minB * b.minB, a.minB * b.maxB, a.maxB * b.minB, a.maxB * b.maxB])
        none none none).2
      (c.createOp "MUL" [a, b]
        (listMin [a.minB * b.minB, a.minB * b.maxB, a.maxB * b.minB, a.maxB * b.maxB])
        (listMax [a.minB * b.minB, a.minB * b.maxB, a.maxB * b.minB, a.maxB * b.maxB])
        none none none).1
      (by rw [g2, g4]; exact h)
    rw [g3] at h'
    exact h'

/-- Witness for the amended C2, on the concrete over-threshold `mul`. -/
theorem claim_C2_witness :
    cexAutoMul.1.minB = 0 ∧ cexAutoMul.1.maxB = 12288 := by
  have h := (claim_C2_amended cexPreAuto ⟨"a", 0, 12288, none⟩
    ⟨"b", 0, 12288, none⟩).2.2 (by decide)
  refine ⟨h.1, ?_⟩
  have h2 := h.2.1
  rw [(by decide : cexPreAuto.modulus = 12289)] at h2
  exact h2.trans (by norm_num)

/-! ## Claim C4: `reduce` -/

/-- **C4.**  `reduce(v, m)` returns a variable with bounds exactly
`[0, m-1]`.  If `v`'s minimum bound is negative, it first appends a single raw
(non-auto-reducing) ADD of the shift constant — the least multiple of `m`
that makes the bounds non-negative, i.e. `ceil(|min|/m)·m` — and then reduces
the shifted value; the recorded quotient bounds equal the (possibly shifted)
input's bounds floor-divided by `m`, and are non-negative. -/
theorem claim_C4_reduce (c : Circuit) (v : Var) (m : Int) (hm : 1 ≤ m)
    (hvb : v.minB ≤ v.maxB)
    (hconst : ∀ u, dictGet c.vars
        (constantName (((-v.minB + m - 1).fdiv m) * m) none) = some u →
      u = ⟨constantName (((-v.minB + m - 1).fdiv m) * m) none,
        ((-v.minB + m - 1).fdiv m) * m, ((-v.minB + m - 1).fdiv m) * m, none⟩) :
    (c.reduceVar v (some m)).1.minB = 0 ∧
    (c.reduceVar v (some m)).1.maxB = m - 1 ∧
    (v.minB < 0 →
      (-v.minB ≤ ((-v.minB + m - 1).fdiv m) * m ∧
       ((-v.minB + m - 1).fdiv m) * m < -v.minB + m) ∧
      ∃ a', (c.reduceVar v (some m)).2.operations = c.operations ++
          [⟨"ADD", [v, ⟨constantName (((-v.minB + m - 1).fdiv m) * m) none,
              ((-v.minB + m - 1).fdiv m) * m,
              ((-v.minB + m - 1).fdiv m) * m, none⟩], a',
            none, none, none, none⟩,
           ⟨"REDUCE", [a'], (c.reduceVar v (some m)).1,
            some ((v.minB + ((-v.minB + m - 1).fdiv m) * m).fdiv m,
                  (v.maxB + ((-v.minB + m - 1).fdiv m) * m).fdiv m),
            some m, none, none⟩] ∧
        a'.minB = v.minB + ((-v.minB + m - 1).fdiv m) * m ∧
        a'.maxB = v.maxB + ((-v.minB + m - 1).fdiv m) * m ∧
        0 ≤ (v.minB + ((-v.minB + m - 1).fdiv m) * m).fdiv m ∧
        0 ≤ (v.maxB + ((-v.minB + m - 1).fdiv m) * m).fdiv m) ∧
    (0 ≤ v.minB →
      (c.reduceVar v (some m)).2.operations = c.operations ++
        [⟨"REDUCE", [v], (c.reduceVar v (some m)).1,
          some (v.minB.fdiv m, v.maxB.fdiv m), some m, none, none⟩] ∧
      0 ≤ v.minB.fdiv m ∧ 0 ≤ v.maxB.fdiv m) := by
  have hM : reduceModulus c (some m) = m := by
    simp [reduceModulus]
    omega
  obtain ⟨Δ, a', hops, hmin, hmax, _, _, _, _, hshift, hnoshift⟩ :=
    reduceVar_state c v (some m)
  rw [hM] at hops hmax hshift
  refine ⟨hmin, hmax, ?_, ?_⟩
  · intro hv
    obtain ⟨sh, hΔ, ha1, ha2, hsh⟩ := hshift hv
    have hshv : sh = ⟨constantName (((-v.minB + m - 1).fdiv m) * m) none,
        ((-v.minB + m - 1).fdiv m) * m, ((-v.minB + m - 1).fdiv m) * m,
        none⟩ := by
      rw [hsh]
      rcases hu : dictGet c.vars
          (constantName (((-v.minB + m - 1).fdiv m) * m) none) with _ | u
      · simp
      · simp
        exact hconst u hu
    have hge : -v.minB ≤ ((-v.minB + m - 1).fdiv m) * m := by
      rw [mul_comm]
      exact shift_ge (-v.minB) m (by omega)
    have hlt : ((-v.minB + m - 1).fdiv m) * m < -v.minB + m := by
      rw [mul_comm]
      exact shift_lt (-v.minB) m (by omega)
    have e1 : a'.minB = v.minB + ((-v.minB + m - 1).fdiv m) * m := by
      rw [ha1, hshv]
    have e2 : a'.maxB = v.maxB + ((-v.minB + m - 1).fdiv m) * m := by
      rw [ha2, hshv]
    refine ⟨⟨hge, hlt⟩, a', ?_, e1, e2, ?_, ?_⟩
    · rw [← e1, ← e2, hops, hΔ, hshv]
      simp [List.append_assoc]
    · rw [← e1]
      exact fdiv_nonneg' (by omega) (by omega)
    · rw [← e2]
      exact fdiv_nonneg' (by omega) (by omega)
  · intro hv
    obtain ⟨hΔ, ha⟩ := hnoshift hv
    subst ha
    rw [hΔ] at hops
    refine ⟨by rw [hops]; simp, fdiv_nonneg' hv (by omega),
      fdiv_nonneg' (by omega) (by omega)⟩

/-- Witness for C4 on `v ∈ [-100, 50]`, `m = 7` (shift constant `105`). -/
theorem claim_C4_witness :
    ((Circuit.init "t" 256 defaultMaxBound).reduceVar
      ⟨"x", -100, 50, none⟩ (some 7)).1.minB = 0 ∧
    ((Circuit.init "t" 256 defaultMaxBound).reduceVar
      ⟨"x", -100, 50, none⟩ (some 7)).1.maxB = 7 - 1 := by
  have h := claim_C4_reduce (Circuit.init "t" 256 defaultMaxBound)
    ⟨"x", -100, 50, none⟩ 7 (by norm_num) (by norm_num)
    (fun u hu => by simp [Circuit.init, dictGet] at hu)
  exact ⟨h.1, h.2.1⟩

/-! ## Claim C5: `div_rem` -/

/-- **C5, counterexample.**  The quotient (DIV) operation of a `div_rem` call
records *no* link to its remainder operation (`linked_to` is absent on DIV and
present only on REM), so the two operations are not *mutually* linked. -/
theorem claim_C5_counterexample :
    (cexDivRem.toOption.map
      (fun x => x.2.operations.map (fun op => op.linkedTo))) =
      some [none, some "tmp_0"] := by decide

/-- **C5, amended.**  `div_rem(a, b)` fails exactly when both divisor bounds
are zero; otherwise it appends exactly a DIV and a REM operation sharing the
operand list `[a, b]`, the quotient bounds are the min and max of the corner
floor-divisions with nonzero divisor bound, the remainder bounds are
`[0, max(|b0|, |b1|) - 1]`, and the REM operation records a one-way link
(`linked_to`) to the quotient — the DIV operation stores no link back. -/
theorem claim_C5_div_rem (c : Circuit) (a b : Var) :
    ((∃ e, c.divRem a b = Except.error e) ↔ b.minB = 0 ∧ b.maxB = 0) ∧
    (¬(b.minB = 0 ∧ b.maxB = 0) →
      ∃ q r c', c.divRem a b = Except.ok ((q, r), c') ∧
        c'.operations = c.operations ++
          [⟨"DIV", [a, b], q, some (q.minB, q.maxB), none, none, none⟩,
           ⟨"REM", [a, b], r, some (q.minB, q.maxB), none, some q.name, none⟩] ∧
        (q.minB ∈ divCorners a b ∧ ∀ x ∈ divCorners a b, q.minB ≤ x) ∧
        (q.maxB ∈ divCorners a b ∧ ∀ x ∈ divCorners a b, x ≤ q.maxB) ∧
        r.minB = 0 ∧ r.maxB = max |b.minB| |b.maxB| - 1) := by
  refine ⟨divRem_error_iff c a b, ?_⟩
  intro h
  obtain ⟨q, r, c', hok, hops, hqmin, hqmax, hrmin, hrmax, _⟩ := divRem_ok c a b h
  have hne : divCorners a b ≠ [] := by
    rw [divCorners_eq]
    rcases not_and_or.mp h with h1 | h1 <;> simp [h1]
  obtain ⟨x, xs, hxs⟩ := List.exists_cons_of_ne_nil hne
  refine ⟨q, r, c', hok, hops, ?_, ?_, hrmin, hrmax⟩
  · rw [hqmin, hxs]
    exact listMin_spec x xs
  · rw [hqmax, hxs]
    exact listMax_spec x xs

/-- Witness for the amended C5 on `a ∈ [128, 255]`, `b ∈ [3, 8]`:
quotient bounds `[16, 85]`, remainder bounds `[0, 7]`. -/
theorem claim_C5_witness :
    ∃ q r c', cexDivRem = Except.ok ((q, r), c') ∧
      q.minB = 16 ∧ q.maxB = 85 ∧ r.minB = 0 ∧ r.maxB = 7 := by
  obtain ⟨q, r, c', hok, hops, hqmin, hqmax, hrmin, hrmax⟩ :=
    (claim_C5_div_rem cexPreDiv ⟨"a", 128, 255, none⟩
      ⟨"b", 3, 8, none⟩).2 (by decide)
  refine ⟨q, r, c', hok, ?_, ?_, hrmin, by rw [hrmax]; decide⟩
  · have h1 := hqmin.1
    have h2 := hqmin.2
    have hc : divCorners ⟨"a", 128, 255, none⟩ ⟨"b", 3, 8, none⟩ =
        [42, 16, 85, 31] := by decide
    rw [hc] at h1 h2
    have h3 := h2 16 (by simp)
    simp only [List.mem_cons, List.not_mem_nil, or_false] at h1
    rcases h1 with h | h | h | h <;> omega
  · have h1 := hqmax.1
    have h2 := hqmax.2
    have hc : divCorners ⟨"a", 128, 255, none⟩ ⟨"b", 3, 8, none⟩ =
        [42, 16, 85, 31] := by decide
    rw [hc] at h1 h2
    have h3 := h2 85 (by simp)
    simp only [List.mem_cons, List.not_mem_nil, or_false] at h1
    rcases h1 with h | h | h | h <;> omega

/-! ## Claim C6: builder calls are append-only -/

/-- **C6, counterexample.**  A single `mul` call whose raw bounds exceed the
auto-reduce threshold appends *four* operations (the raw MUL plus three
REDUCEs: the auto-reduce debug print itself calls `reduce()` twice while
formatting its message, before the returned reduction), not one or two. -/
theorem claim_C6_counterexample :
    cexPreAuto.operations.length = 0 ∧
    cexAutoMul.2.operations.length = 4 := by
  exact ⟨by decide, by decide⟩

/-- **C6, amended.**  Builder calls are append-only: existing operations are
never mutated or deleted (the old trace stays a prefix) and recorded
variables are never mutated or deleted; `add`/`sub`/`mul` each append exactly
one operation when the raw bounds stay within the threshold, `div_rem`
exactly two, `reduce` one or two; but an `add`/`sub`/`mul` call whose raw
bounds exceed the threshold with non-negative raw minimum appends four
operations (the auto-reduce debug print itself calls `reduce()` twice). -/
theorem claim_C6_append_only (c : Circuit) (a b : Var) (hf : TmpFresh c) :
    (∃ Δ, (c.add a b).2.operations = c.operations ++ Δ ∧ Δ ≠ []) ∧
    VarsMono c (c.add a b).2 ∧
    (∃ Δ, (c.sub a b).2.operations = c.operations ++ Δ ∧ Δ ≠ []) ∧
    VarsMono c (c.sub a b).2 ∧
    (∃ Δ, (c.mul a b).2.operations = c.operations ++ Δ ∧ Δ ≠ []) ∧
    VarsMono c (c.mul a b).2 ∧
    (∀ marg, ∃ Δ, (c.reduceVar a marg).2.operations = c.operations ++ Δ ∧
      (Δ.length = 1 ∨ Δ.length = 2)) ∧
    (∀ marg, VarsMono c (c.reduceVar a marg).2) ∧
    (¬(b.minB = 0 ∧ b.maxB = 0) →
      ∃ q r c', c.divRem a b = Except.ok ((q, r), c') ∧
        c'.operations.length = c.operations.length + 2 ∧
        c'.operations.take c.operations.length = c.operations ∧
        VarsMono c c') ∧
    (a.maxB + b.maxB ≤ c.maxBound → -c.maxBound ≤ a.minB + b.minB →
      (c.add a b).2.operations.length = c.operations.length + 1) ∧
    ((a.maxB + b.maxB > c.maxBound ∨ a.minB + b.minB < -c.maxBound) →
      0 ≤ a.minB + b.minB →
      (c.add a b).2.operations.length = c.operations.length + 4) ∧
    (a.maxB - b.minB ≤ c.maxBound → -c.maxBound ≤ a.minB - b.maxB →
      (c.sub a b).2.operations.length = c.operations.length + 1) ∧
    ((a.maxB - b.minB > c.maxBound ∨ a.minB - b.maxB < -c.maxBound) →
      0 ≤ a.minB - b.maxB →
      (c.sub a b).2.operations.length = c.operations.length + 4) ∧
    (listMax [a.minB * b.minB, a.minB * b.maxB, a.maxB * b.minB,
        a.maxB * b.maxB] ≤ c.maxBound →
      -c.maxBound ≤ listMin [a.minB * b.minB, a.minB * b.maxB,
        a.maxB * b.minB, a.maxB * b.maxB] →
      (c.mul a b).2.operations.length = c.operations.length + 1) ∧
    ((listMax [a.minB * b.minB, a.minB * b.maxB, a.maxB * b.minB,
        a.maxB * b.maxB] > c.maxBound ∨
      listMin [a.minB * b.minB, a.minB * b.maxB, a.maxB * b.minB,
        a.maxB * b.maxB] < -c.maxBound) →
      0 ≤ listMin [a.minB * b.minB, a.minB * b.maxB, a.maxB * b.minB,
        a.maxB * b.maxB] →
      (c.mul a b).2.operations.length = c.operations.length + 4) := by
  obtain ⟨Δa, ha⟩ := add_state c a b
  obtain ⟨Δs, hs⟩ := sub_state c a b
  obtain ⟨Δm, hm⟩ := mul_state c a b
  refine ⟨⟨_ :: Δa, ha.1, by simp⟩, (add_freshMono c a b hf).2,
    ⟨_ :: Δs, hs.1, by simp⟩, (sub_freshMono c a b hf).2,
    ⟨_ :: Δm, hm.1, by simp⟩, (mul_freshMono c a b hf).2, ?_, ?_, ?_, ?_,
    ?_, ?_, ?_, ?_, ?_⟩
  · intro marg
    obtain ⟨Δ, a', h⟩ := reduceVar_state c a marg
    have hlen := h.2.2.2.2.2.2.1
    refine ⟨Δ ++ [⟨"REDUCE", [a'], (c.reduceVar a marg).1,
      some (a'.minB.fdiv (reduceModulus c marg),
        a'.maxB.fdiv (reduceModulus c marg)),
      some (reduceModulus c marg), none, none⟩],
      by rw [h.1, List.append_assoc], ?_⟩
    rcases Nat.le_one_iff_eq_zero_or_eq_one.mp hlen with h0 | h1
    · left; simp [h0]
    · right; simp [h1]
  · intro marg
    exact (reduceVar_freshMono c a marg hf).2
  · intro h
    obtain ⟨q, r, c', hok, hops, _, _, _, _, _, _, _, hfm⟩ := divRem_ok c a b h
    exact ⟨q, r, c', hok, by rw [hops]; simp, by rw [hops]; simp,
      (hfm hf).2⟩
  · intro h1 h2
    unfold Circuit.add
    obtain ⟨g1, g2, g3, g4, g5⟩ := createOp_state c "ADD" [a, b]
      (a.minB + b.minB) (a.maxB + b.maxB) none none none
    rw [maybeAutoReduce_not_fired _ _ (by rw [g2, g4]; exact h1)
      (by rw [g2, g4]; exact h2)]
    rw [g1]
    simp
  · intro h1 h2
    unfold Circuit.add
    obtain ⟨g1, g2, g3, g4, g5⟩ := createOp_state c "ADD" [a, b]
      (a.minB + b.minB) (a.maxB + b.maxB) none none none
    have hcnt := maybeAutoReduce_fired_count
      (c.createOp "ADD" [a, b] (a.minB + b.minB) (a.maxB + b.maxB) none none none).2
      (c.createOp "ADD" [a, b] (a.minB + b.minB) (a.maxB + b.maxB) none none none).1
      (by rw [g2, g4]; exact h1) (by rw [g2]; exact h2)
    rw [hcnt, g1]
    simp
  · intro h1 h2
    unfold Circuit.sub
    obtain ⟨g1, g2, g3, g4, g5⟩ := createOp_state c "SUB" [a, b]
      (a.minB - b.maxB) (a.maxB - b.minB) none none none
    rw [maybeAutoReduce_not_fired _ _ (by rw [g2, g4]; exact h1)
      (by rw [g2, g4]; exact h2)]
    rw [g1]
    simp
  · intro h1 h2
    unfold Circuit.sub
    obtain ⟨g1, g2, g3, g4, g5⟩ := createOp_state c "SUB" [a, b]
      (a.minB - b.maxB) (a.maxB - b.minB) none none none
    have hcnt := maybeAutoReduce_fired_count
      (c.createOp "SUB" [a, b] (a.minB - b.maxB) (a.maxB - b.minB) none none none).2
      (c.createOp "SUB" [a, b] (a.minB - b.maxB) (a.maxB - b.minB) none none none).1
      (by rw [g2, g4]; exact h1) (by rw [g2]; exact h2)
    rw [hcnt, g1]
    simp
  · intro h1 h2
    unfold Circuit.mul
    obtain ⟨g1, g2, g3, g4, g5⟩ := createOp_state c "MUL" [a, b]
      (listMin [a.minB * b.minB, a.minB * b.maxB, a.maxB * b.minB,
        a.maxB * b.maxB])
      (listMax [a.minB * b.minB, a.minB * b.maxB, a.maxB * b.minB,
        a.maxB * b.maxB]) none none none
    rw [maybeAutoReduce_not_fired _ _ (by rw [g2, g4]; exact h1)
      (by rw [g2, g4]; exact h2)]
    rw [g1]
    simp
  · intro h1 h2
    unfold Circuit.mul
    obtain ⟨g1, g2, g3, g4, g5⟩ := createOp_state c "MUL" [a, b]
      (listMin [a.minB * b.minB, a.minB * b.maxB, a.maxB * b.minB,
        a.maxB * b.maxB])
      (listMax [a.minB * b.minB, a.minB * b.maxB, a.maxB * b.minB,
        a.maxB * b.maxB]) none none none
    have hcnt := maybeAutoReduce_fired_count
      (c.createOp "MUL" [a, b]
        (listMin [a.minB * b.minB, a.minB * b.maxB, a.maxB * b.minB,
          a.maxB * b.maxB])
        (listMax [a.minB * b.minB, a.minB * b.maxB, a.maxB * b.minB,
          a.maxB * b.maxB]) none none none).2
      (c.createOp "MUL" [a, b]
        (listMin [a.minB * b.minB, a.minB * b.maxB, a.maxB * b.minB,
          a.maxB * b.maxB])
        (listMax [a.minB * b.minB, a.minB * b.maxB, a.maxB * b.minB,
          a.maxB * b.maxB]) none none none).1
      (by rw [g2, g4]; exact h1) (by rw [g2]; exact h2)
    rw [hcnt, g1]
    simp

/-! ## Claim C7: the felt252 legality pass -/

/-- **C7.**  `compile(mode='felt252')` runs the legality pass before emitting
anything: when some recorded variable's bound magnitude reaches `2^252` it
returns the validation error and no output at all, and when every variable is
below `2^252` the pass succeeds and compilation is exactly the felt252
emission. -/
theorem claim_C7_felt252_legality (c : Circuit) :
    ((∃ p ∈ c.vars, 2 ^ 252 ≤ boundMagnitude p.2) →
      ∃ msg, c.validateFelt252Mode = Except.error msg ∧
        (c.compile "felt252").1 = Except.error (CompileErr.failure msg)) ∧
    ((∀ p ∈ c.vars, boundMagnitude p.2 < 2 ^ 252) →
      c.validateFelt252Mode = Except.ok () ∧
      (c.compile "felt252").1 =
        (match c.compileFelt252 c.name with
         | Except.error e => Except.error (CompileErr.failure e)
         | Except.ok s => Except.ok s)) := by
  constructor
  · intro h
    have hsome : (c.vars.find? (fun p =>
        decide (2 ^ 252 ≤ max |p.2.minB| |p.2.maxB|))).isSome := by
      rw [List.find?_isSome]
      obtain ⟨p, hp, hmag⟩ := h
      exact ⟨p, hp, by simpa [boundMagnitude] using hmag⟩
    obtain ⟨p, hp⟩ := Option.isSome_iff_exists.mp hsome
    have hval : c.validateFelt252Mode = Except.error
        ("Bounds exceed 2^252, cannot use felt252 mode. Variable '" ++
          p.2.name ++ "' has bounds [" ++ toString p.2.minB ++ ", " ++
          toString p.2.maxB ++ "]") := by
      unfold Circuit.validateFelt252Mode
      rw [hp]
    exact ⟨_, hval, by simp [Circuit.compile, hval]⟩
  · intro h
    have hnone : c.vars.find? (fun p =>
        decide (2 ^ 252 ≤ max |p.2.minB| |p.2.maxB|)) = none := by
      rw [List.find?_eq_none]
      intro p hp
      have := h p hp
      simp [boundMagnitude] at this
      simp
      omega
    constructor
    · unfold Circuit.validateFelt252Mode
      rw [hnone]
    · simp only [Circuit.compile, Circuit.validateFelt252Mode, hnone]
      rcases c.compileFelt252 c.name with e | s <;> simp

/-- Witness for C7: a `2^252`-wide input is rejected before emission, and a
small in-range circuit passes the legality check. -/
theorem claim_C7_witness :
    (∃ msg, cexTooWide.validateFelt252Mode = Except.error msg ∧
      (cexTooWide.compile "felt252").1 =
        Except.error (CompileErr.failure msg)) ∧
    cexCompile.validateFelt252Mode = Except.ok () := by
  constructor
  · exact (claim_C7_felt252_legality cexTooWide).1
      ⟨("x", ⟨"x", 0, 2 ^ 252, none⟩), by decide, by norm_num [boundMagnitude]⟩
  · exact ((claim_C7_felt252_legality cexCompile).2 (by decide)).1

/-! ## Claim C9: compile-mode dispatch -/

/-- **C9.**  Any mode string other than `bounded` and `felt252` produces the
explicit invalid-mode error and leaves the circuit unchanged; the two
supported modes never produce a mode error. -/
theorem claim_C9_compile_modes (c : Circuit) (mode : String) :
    (mode ≠ "bounded" → mode ≠ "felt252" →
      c.compile mode = (Except.error (CompileErr.invalidMode
        ("Unknown compilation mode: " ++ mode ++
          ". Use 'bounded' or 'felt252'.")), c)) ∧
    (∀ msg, (c.compile "bounded").1 ≠
      Except.error (CompileErr.invalidMode msg)) ∧
    (∀ msg, (c.compile "felt252").1 ≠
      Except.error (CompileErr.invalidMode msg)) := by
  refine ⟨?_, ?_, ?_⟩
  · intro h1 h2
    simp [Circuit.compile, h1, h2]
  · intro msg h
    rcases hb : c.compileBounded with e | sc
    · simp [Circuit.compile, hb] at h
    · simp [Circuit.compile, hb] at h
  · intro msg h
    rcases hv : c.validateFelt252Mode with e | u
    · simp [Circuit.compile, hv] at h
    · rcases hf : c.compileFelt252 c.name with e | s
      · simp [Circuit.compile, hv, hf] at h
      · simp [Circuit.compile, hv, hf] at h

/-- Witness for C9: a concrete circuit compiled with mode `bogus` errors and
is unchanged, while both supported modes return emitted source text. -/
theorem claim_C9_witness :
    cexCompile.compile "bogus" = (Except.error (CompileErr.invalidMode
      "Unknown compilation mode: bogus. Use 'bounded' or 'felt252'."),
      cexCompile) ∧
    (∃ s, (cexCompile.compile "bounded").1 = Except.ok s) ∧
    (∃ s, (cexCompile.compile "felt252").1 = Except.ok s) := by
  refine ⟨?_, ⟨_, rfl⟩, ⟨_, rfl⟩⟩
  have h := (claim_C9_compile_modes cexCompile "bogus").1
    (by decide) (by decide)
  simpa using h

/-! ## Decimal strings: character content and underscore separation -/

theorem natToString_data (n : Nat) :
    (toString n).data = decDigits (n + 1) n [] := by
  show (Nat.repr n).data = _
  rw [Nat.repr, Nat.toDigits, ← decDigits_eq_toDigitsCore]
  simp [List.asString]

theorem decDigits_chars :
    ∀ (fuel n : Nat) (ds : List Char) (ch : Char),
      ch ∈ decDigits fuel n ds → ch ∈ ds ∨ ∃ m, m < 10 ∧ ch = Nat.digitChar m
  | 0, _, ds, ch => fun h => Or.inl h
  | fuel + 1, n, ds, ch => by
      simp only [decDigits]
      split
      · intro h
        rcases List.mem_cons.mp h with h | h
        · exact Or.inr ⟨n % 10, Nat.mod_lt n (by omega), h⟩
        · exact Or.inl h
      · intro h
        rcases decDigits_chars fuel (n / 10) _ ch h with h | h
        · rcases List.mem_cons.mp h with h | h
          · exact Or.inr ⟨n % 10, Nat.mod_lt n (by omega), h⟩
          · exact Or.inl h
        · exact Or.inr h

theorem toString_nat_chars {n : Nat} {ch : Char}
    (h : ch ∈ (toString n).data) : ∃ m, m < 10 ∧ ch = Nat.digitChar m := by
  rw [natToString_data] at h
  rcases decDigits_chars (n + 1) n [] ch h with h | h
  · exact absurd h (List.not_mem_nil ch)
  · exact h

theorem toString_nat_no_underscore {n : Nat} {ch : Char}
    (h : ch ∈ (toString n).data) : ch ≠ '_' := by
  obtain ⟨m, hm, he⟩ := toString_nat_chars h
  subst he
  interval_cases m <;> decide

theorem toString_nat_no_dash {n : Nat} {ch : Char}
    (h : ch ∈ (toString n).data) : ch ≠ '-' := by
  obtain ⟨m, hm, he⟩ := toString_nat_chars h
  subst he
  interval_cases m <;> decide

theorem underscore_split :
    ∀ (d1 : List Char) (d1' d2 d2' : List Char), '_' ∉ d1 → '_' ∉ d1' →
      d1 ++ '_' :: d2 = d1' ++ '_' :: d2' → d1 = d1' ∧ d2 = d2'
  | [], [], d2, d2', _, _, h => by simpa using h
  | [], c' :: r', d2, d2', _, h1', h => by
      simp only [List.nil_append, List.cons_append, List.cons.injEq] at h
      exact absurd (List.mem_cons_self c' r') (h.1 ▸ h1')
  | c :: r, [], d2, d2', h1, _, h => by
      simp only [List.nil_append, List.cons_append, List.cons.injEq] at h
      exact absurd (List.mem_cons_self c r) (h.1 ▸ h1)
  | c :: r, c' :: r', d2, d2', h1, h1', h => by
      simp only [List.cons_append, List.cons.injEq] at h
      obtain ⟨he, hr⟩ := h
      have := underscore_split r r' d2 d2'
        (fun hm => h1 (List.mem_cons_of_mem c hm))
        (fun hm => h1' (List.mem_cons_of_mem c' hm)) hr
      exact ⟨by rw [he, this.1], this.2⟩

theorem natPair_underscore_inj {a b a' b' : Nat}
    (h : toString a ++ "_" ++ toString b = toString a' ++ "_" ++ toString b') :
    a = a' ∧ b = b' := by
  have hd := congrArg String.data h
  simp only [String.data_append] at hd
  have hd' : (toString a).data ++ '_' :: (toString b).data =
      (toString a').data ++ '_' :: (toString b').data := by
    have hu : ("_" : String).data = ['_'] := by decide
    simpa [hu, List.append_assoc] using hd
  have := underscore_split _ _ _ _
    (fun hm => toString_nat_no_underscore hm rfl)
    (fun hm => toString_nat_no_underscore hm rfl) hd'
  exact ⟨natToString_inj (String.ext this.1), natToString_inj (String.ext this.2)⟩

theorem intToString_data_nonneg (v : Int) (hv : 0 ≤ v) :
    (toString v).data = (toString v.toNat).data := by
  rcases v with m | m
  · rfl
  · exact absurd hv (not_le.mpr (Int.negSucc_lt_zero m))

theorem intToString_data_neg (v : Int) (hv : v < 0) :
    (toString v).data = '-' :: (toString v.natAbs).data := by
  rcases v with m | m
  · exact absurd hv (not_lt.mpr (Int.ofNat_nonneg m))
  · show ("-" ++ Nat.repr (m + 1)).data = _
    rw [String.data_append]
    rfl

theorem intToString_inj {a b : Int} (h : toString a = toString b) : a = b := by
  have hd := congrArg String.data h
  rcases le_or_lt 0 a with ha | ha <;> rcases le_or_lt 0 b with hb | hb
  · rw [intToString_data_nonneg a ha, intToString_data_nonneg b hb] at hd
    have := natToString_inj (String.ext hd)
    omega
  · rw [intToString_data_nonneg a ha, intToString_data_neg b hb] at hd
    rcases hh : (toString a.toNat).data with _ | ⟨c, r⟩
    · rw [hh] at hd; exact absurd hd.symm (List.cons_ne_nil _ _)
    · rw [hh] at hd
      simp only [List.cons.injEq] at hd
      have hm : '-' ∈ (toString a.toNat).data := by
        rw [hh, hd.1]
        exact List.mem_cons_self _ _
      exact absurd rfl (toString_nat_no_dash hm)
  · rw [intToString_data_neg a ha, intToString_data_nonneg b hb] at hd
    rcases hh : (toString b.toNat).data with _ | ⟨c, r⟩
    · rw [hh] at hd; exact absurd hd (List.cons_ne_nil _ _)
    · rw [hh] at hd
      simp only [List.cons.injEq] at hd
      have hm : '-' ∈ (toString b.toNat).data := by
        rw [hh, ← hd.1]
        exact List.mem_cons_self _ _
      exact absurd rfl (toString_nat_no_dash hm)
  · rw [intToString_data_neg a ha, intToString_data_neg b hb] at hd
    simp only [List.cons.injEq, true_and] at hd
    have := natToString_inj (String.ext hd)
    omega

theorem constantName_none_inj {a b : Int}
    (h : constantName a none = constantName b none) : a = b := by
  unfold constantName at h
  have hd := congrArg String.data h
  simp only [String.data_append] at hd
  exact intToString_inj (String.ext (List.append_cancel_left hd))

/-! ## Name-family data shapes and distinctness -/

theorem head_ne {ca cb : Char} {la lb : List Char} (h : ca ≠ cb) :
    ca :: la ≠ cb :: lb := by
  intro hc
  simp only [List.cons.injEq] at hc
  exact h hc.1

theorem str_ne_of_data {a b : String} (h : a.data ≠ b.data) : a ≠ b :=
  fun hc => h (congrArg String.data hc)

theorem tmpName_data (j : Nat) :
    (tmpName j).data = 't' :: 'm' :: 'p' :: '_' :: (toString j).data := by
  unfold tmpName
  rw [String.data_append]
  rfl

theorem fNameStr_data (i : Nat) :
    (fNameStr i).data = 'f' :: (toString i).data := by
  unfold fNameStr
  rw [String.data_append]
  rfl

theorem rNameStr_data (i : Nat) :
    (rNameStr i).data = 'r' :: (toString i).data := by
  unfold rNameStr
  rw [String.data_append]
  rfl

theorem wNameStr_data (s i : Nat) :
    (wNameStr s i).data = 'w' :: ((toString s).data ++ '_' ::
      (toString i).data) := by
  unfold wNameStr
  simp [String.data_append]

theorem invwNameStr_data (s i : Nat) :
    (invwNameStr s i).data = 'i' :: 'n' :: 'v' :: '_' :: 'w' ::
      ((toString s).data ++ '_' :: (toString i).data) := by
  unfold invwNameStr
  simp [String.data_append]

theorem constantName_none_data (v : Int) :
    (constantName v none).data = 'c' :: 'o' :: 'n' :: 's' :: 't' :: '_' ::
      (toString v).data := by
  unfold constantName
  rw [String.data_append]
  rfl

theorem fNameStr_ne_tmp (i j : Nat) : fNameStr i ≠ tmpName j :=
  str_ne_of_data (by rw [fNameStr_data, tmpName_data]; exact head_ne (by decide))

theorem rNameStr_ne_tmp (i j : Nat) : rNameStr i ≠ tmpName j :=
  str_ne_of_data (by rw [rNameStr_data, tmpName_data]; exact head_ne (by decide))

theorem wNameStr_ne_tmp (s i j : Nat) : wNameStr s i ≠ tmpName j :=
  str_ne_of_data (by rw [wNameStr_data, tmpName_data]; exact head_ne (by decide))

theorem invwNameStr_ne_tmp (s i j : Nat) : invwNameStr s i ≠ tmpName j :=
  str_ne_of_data
    (by rw [invwNameStr_data, tmpName_data]; exact head_ne (by decide))

theorem sqr1_ne_tmp (j : Nat) : "sqr1" ≠ tmpName j :=
  str_ne_of_data (by rw [tmpName_data]; exact head_ne (by decide))

theorem i2_ne_tmp (j : Nat) : "i2" ≠ tmpName j :=
  str_ne_of_data (by rw [tmpName_data]; exact head_ne (by decide))

theorem invsqr1_ne_tmp (j : Nat) : "inv_sqr1" ≠ tmpName j :=
  str_ne_of_data (by rw [tmpName_data]; exact head_ne (by decide))

theorem wNameStr_inj {s i s' i' : Nat} (h : wNameStr s i = wNameStr s' i') :
    s = s' ∧ i = i' := by
  have hd := congrArg String.data h
  rw [wNameStr_data, wNameStr_data] at hd
  simp only [List.cons.injEq, true_and] at hd
  have := underscore_split _ _ _ _
    (fun hm => toString_nat_no_underscore hm rfl)
    (fun hm => toString_nat_no_underscore hm rfl) hd
  exact ⟨natToString_inj (String.ext this.1), natToString_inj (String.ext this.2)⟩

theorem invwNameStr_inj {s i s' i' : Nat}
    (h : invwNameStr s i = invwNameStr s' i') : s = s' ∧ i = i' := by
  have hd := congrArg String.data h
  rw [invwNameStr_data, invwNameStr_data] at hd
  simp only [List.cons.injEq, true_and] at hd
  have := underscore_split _ _ _ _
    (fun hm => toString_nat_no_underscore hm rfl)
    (fun hm => toString_nat_no_underscore hm rfl) hd
  exact ⟨natToString_inj (String.ext this.1), natToString_inj (String.ext this.2)⟩

theorem sqr1_ne_wName (s i : Nat) : "sqr1" ≠ wNameStr s i :=
  str_ne_of_data (by rw [wNameStr_data]; exact head_ne (by decide))

theorem sqr1_ne_const (v : Int) : "sqr1" ≠ constantName v none :=
  str_ne_of_data (by rw [constantName_none_data]; exact head_ne (by decide))

theorem wName_ne_const (s i : Nat) (v : Int) :
    wNameStr s i ≠ constantName v none :=
  str_ne_of_data
    (by rw [wNameStr_data, constantName_none_data]; exact head_ne (by decide))

theorem i2_ne_invsqr1 : ("i2" : String) ≠ "inv_sqr1" := by decide

theorem i2_ne_invwName (s i : Nat) : "i2" ≠ invwNameStr s i := by
  apply str_ne_of_data
  rw [invwNameStr_data]
  intro h
  have : ("i2" : String).data = ['i', '2'] := by decide
  rw [this] at h
  simp at h

theorem invsqr1_ne_invwName (s i : Nat) : "inv_sqr1" ≠ invwNameStr s i := by
  apply str_ne_of_data
  rw [invwNameStr_data]
  intro h
  have : ("inv_sqr1" : String).data =
      ['i', 'n', 'v', '_', 's', 'q', 'r', '1'] := by decide
  rw [this] at h
  simp at h

theorem i2_ne_const (v : Int) : "i2" ≠ constantName v none :=
  str_ne_of_data (by rw [constantName_none_data]; exact head_ne (by decide))

theorem invsqr1_ne_const (v : Int) : "inv_sqr1" ≠ constantName v none :=
  str_ne_of_data (by rw [constantName_none_data]; exact head_ne (by decide))

theorem invwName_ne_const (s i : Nat) (v : Int) :
    invwNameStr s i ≠ constantName v none :=
  str_ne_of_data
    (by rw [invwNameStr_data, constantName_none_data]
        exact head_ne (by decide))

theorem fNameStr_inj {i i' : Nat} (h : fNameStr i = fNameStr i') : i = i' := by
  have hd := congrArg String.data h
  rw [fNameStr_data, fNameStr_data] at hd
  simp only [List.cons.injEq, true_and] at hd
  exact natToString_inj (String.ext hd)

theorem rNameStr_inj {i i' : Nat} (h : rNameStr i = rNameStr i') : i = i' := by
  have hd := congrArg String.data h
  rw [rNameStr_data, rNameStr_data] at hd
  simp only [List.cons.injEq, true_and] at hd
  exact natToString_inj (String.ext hd)

theorem rNameStr_ne_fName (i i' : Nat) : rNameStr i ≠ fNameStr i' :=
  str_ne_of_data
    (by rw [rNameStr_data, fNameStr_data]; exact head_ne (by decide))

theorem sqr1_ne_rName (i : Nat) : "sqr1" ≠ rNameStr i :=
  str_ne_of_data (by rw [rNameStr_data]; exact head_ne (by decide))

theorem wName_ne_rName (s i i' : Nat) : wNameStr s i ≠ rNameStr i' :=
  str_ne_of_data
    (by rw [wNameStr_data, rNameStr_data]; exact head_ne (by decide))

theorem const_ne_rName (v : Int) (i : Nat) : constantName v none ≠ rNameStr i :=
  str_ne_of_data
    (by rw [constantName_none_data, rNameStr_data]; exact head_ne (by decide))

theorem i2_ne_rName (i : Nat) : "i2" ≠ rNameStr i :=
  str_ne_of_data (by rw [rNameStr_data]; exact head_ne (by decide))

theorem invsqr1_ne_rName (i : Nat) : "inv_sqr1" ≠ rNameStr i :=
  str_ne_of_data (by rw [rNameStr_data]; exact head_ne (by decide))

theorem invwName_ne_rName (s i i' : Nat) : invwNameStr s i ≠ rNameStr i' :=
  str_ne_of_data
    (by rw [invwNameStr_data, rNameStr_data]; exact head_ne (by decide))

/-- Witness for the amended C6: on an empty circuit with threshold `2^250`, a
within-threshold `add` appends exactly one operation; on the `2^20`-threshold
circuit, an over-threshold `mul` with non-negative raw minimum appends
exactly four. -/
theorem claim_C6_witness :
    ((Circuit.init "t" 256 defaultMaxBound).add
      ⟨"x", 0, 5, none⟩ ⟨"y", 0, 6, none⟩).2.operations.length = 0 + 1 ∧
    cexAutoMul.2.operations.length = cexPreAuto.operations.length + 4 := by
  constructor
  · have hb : ((Circuit.init "t" 256 defaultMaxBound).maxBound) =
        2 ^ 250 := by
      simp [Circuit.init, defaultMaxBound, MAX_BOUND_LIMIT]
      norm_num
    have h := (claim_C6_append_only (Circuit.init "t" 256 defaultMaxBound)
      ⟨"x", 0, 5, none⟩ ⟨"y", 0, 6, none⟩
      (fun j hj => rfl)).2.2.2.2.2.2.2.2.2.1
      (by rw [hb]; norm_num) (by rw [hb]; norm_num)
    simpa using h
  · have hfA : ∀ j : Nat, ("a" : String) ≠ tmpName j := fun j =>
      str_ne_of_data (by rw [tmpName_data]; exact head_ne (by decide))
    have hfB : ∀ j : Nat, ("b" : String) ≠ tmpName j := fun j =>
      str_ne_of_data (by rw [tmpName_data]; exact head_ne (by decide))
    have hf : TmpFresh cexPreAuto := by
      intro j hj
      have hv : cexPreAuto.vars = [("a", ⟨"a", 0, 12288, none⟩),
          ("b", ⟨"b", 0, 12288, none⟩)] := by decide
      show dictGet cexPreAuto.vars (tmpName j) = none
      rw [hv]
      simp [dictGet, hfA j, hfB j]
    have hb : cexPreAuto.maxBound = 2 ^ 20 := by decide
    have h := (claim_C6_append_only cexPreAuto ⟨"a", 0, 12288, none⟩
      ⟨"b", 0, 12288, none⟩
      hf).2.2.2.2.2.2.2.2.2.2.2.2.2.2
      (Or.inl (by rw [hb]; decide)) (by decide)
    exact h

theorem CSpecGood_ntt (T : RootTable) : CSpecGood (NttCSpec T) := by
  refine ⟨?_, ?_, ?_, ?_⟩
  · intro x
    exact Or.inr (Or.inr ⟨x, rfl, rfl⟩)
  · intro x v h
    rcases h with ⟨h, _⟩ | ⟨s, i, h, _⟩ | ⟨y, h, hv⟩
    · exact absurd h.symm (sqr1_ne_const x)
    · exact absurd h.symm (wName_ne_const s i x)
    · rw [hv]
      exact (constantName_none_inj h).symm
  · intro nm v h j
    rcases h with ⟨h, _⟩ | ⟨s, i, h, _⟩ | ⟨y, h, _⟩
    · exact h ▸ sqr1_ne_tmp j
    · exact h ▸ wNameStr_ne_tmp s i j
    · exact h ▸ const_ne_tmpName y j
  · intro nm v h i
    rcases h with ⟨h, _⟩ | ⟨s, i', h, _⟩ | ⟨y, h, _⟩
    · exact h ▸ sqr1_ne_rName i
    · exact h ▸ wName_ne_rName s i' i
    · exact h ▸ const_ne_rName y i

theorem CSpecGood_intt (T : RootTable) : CSpecGood (InttCSpec T) := by
  refine ⟨?_, ?_, ?_, ?_⟩
  · intro x
    exact Or.inr (Or.inr (Or.inr ⟨x, rfl, rfl⟩))
  · intro x v h
    rcases h with ⟨h, _⟩ | ⟨h, _⟩ | ⟨s, i, h, _⟩ | ⟨y, h, hv⟩
    · exact absurd h.symm (i2_ne_const x)
    · exact absurd h.symm (invsqr1_ne_const x)
    · exact absurd h.symm (invwName_ne_const s i x)
    · rw [hv]
      exact (constantName_none_inj h).symm
  · intro nm v h j
    rcases h with ⟨h, _⟩ | ⟨h, _⟩ | ⟨s, i, h, _⟩ | ⟨y, h, _⟩
    · exact h ▸ i2_ne_tmp j
    · exact h ▸ invsqr1_ne_tmp j
    · exact h ▸ invwNameStr_ne_tmp s i j
    · exact h ▸ const_ne_tmpName y j
  · intro nm v h i
    rcases h with ⟨h, _⟩ | ⟨h, _⟩ | ⟨s, i', h, _⟩ | ⟨y, h, _⟩
    · exact h ▸ i2_ne_rName i
    · exact h ▸ invsqr1_ne_rName i
    · exact h ▸ invwName_ne_rName s i' i
    · exact h ▸ const_ne_rName y i

/-! ## Dictionary entries, key uniqueness -/

theorem dictGet_mem {α β : Type} [DecidableEq α] :
    ∀ (l : List (α × β)) (k : α) (v : β), dictGet l k = some v → (k, v) ∈ l
  | [], _, _, h => by simp [dictGet] at h
  | (k', v') :: rest, k, v, h => by
      by_cases he : k' = k
      · subst he
        simp [dictGet] at h
        subst h
        exact List.mem_cons_self _ _
      · simp only [dictGet, if_neg he] at h
        exact List.mem_cons_of_mem _ (dictGet_mem rest k v h)

theorem dictSet_mem_src {α β : Type} [DecidableEq α] :
    ∀ (l : List (α × β)) (k : α) (v : β) (p : α × β),
      p ∈ dictSet l k v → p ∈ l ∨ p = (k, v)
  | [], k, v, p, h => by
      simp [dictSet] at h
      exact Or.inr h
  | (k', v') :: rest, k, v, p, h => by
      by_cases he : k' = k
      · subst he
        simp only [dictSet, if_pos rfl] at h
        rcases List.mem_cons.mp h with h | h
        · exact Or.inr h
        · exact Or.inl (List.mem_cons_of_mem _ h)
      · simp only [dictSet, if_neg he] at h
        rcases List.mem_cons.mp h with h | h
        · exact Or.inl (h ▸ List.mem_cons_self _ _)
        · rcases dictSet_mem_src rest k v p h with h | h
          · exact Or.inl (List.mem_cons_of_mem _ h)
          · exact Or.inr h

theorem dictDel_mem_src {α β : Type} [DecidableEq α] :
    ∀ (l : List (α × β)) (k : α) (p : α × β), p ∈ dictDel l k → p ∈ l
  | [], _, p, h => by simp [dictDel] at h
  | (k', v') :: rest, k, p, h => by
      by_cases he : k' = k
      · simp only [dictDel, if_pos he] at h
        exact List.mem_cons_of_mem _ h
      · simp only [dictDel, if_neg he] at h
        rcases List.mem_cons.mp h with h | h
        · exact h ▸ List.mem_cons_self _ _
        · exact List.mem_cons_of_mem _ (dictDel_mem_src rest k p h)

theorem dictSet_nodupKeys {α β : Type} [DecidableEq α] :
    ∀ (l : List (α × β)) (k : α) (v : β), (l.map Prod.fst).Nodup →
      ((dictSet l k v).map Prod.fst).Nodup
  | [], k, v, _ => by simp [dictSet]
  | (k', v') :: rest, k, v, h => by
      simp only [List.map_cons, List.nodup_cons] at h
      by_cases he : k' = k
      · subst he
        simpa [dictSet] using h
      · simp only [dictSet, if_neg he, List.map_cons, List.nodup_cons]
        refine ⟨?_, dictSet_nodupKeys rest k v h.2⟩
        intro hmem
        rcases List.mem_map.mp hmem with ⟨p, hp, hpk⟩
        rcases dictSet_mem_src rest k v p hp with hsrc | hsrc
        · exact h.1 (List.mem_map.mpr ⟨p, hsrc, hpk⟩)
        · exact he (hpk.symm.trans (congrArg Prod.fst hsrc))

theorem dictDel_nodupKeys {α β : Type} [DecidableEq α] :
    ∀ (l : List (α × β)) (k : α), (l.map Prod.fst).Nodup →
      ((dictDel l k).map Prod.fst).Nodup
  | [], _, _ => by simp [dictDel]
  | (k', v') :: rest, k, h => by
      simp only [List.map_cons, List.nodup_cons] at h
      by_cases he : k' = k
      · simp only [dictDel, if_pos he]
        exact h.2
      · simp only [dictDel, if_neg he, List.map_cons, List.nodup_cons]
        refine ⟨?_, dictDel_nodupKeys rest k h.2⟩
        intro hmem
        rcases List.mem_map.mp hmem with ⟨p, hp, hpk⟩
        exact h.1 (List.mem_map.mpr ⟨p, dictDel_mem_src rest k p hp, hpk⟩)

theorem dictGet_unique_of_nodup {α β : Type} [DecidableEq α] :
    ∀ (l : List (α × β)) (k : α) (v : β), (l.map Prod.fst).Nodup →
      dictGet l k = some v → ∀ p ∈ l, p.1 = k → p.2 = v
  | [], _, _, _, h => by simp [dictGet] at h
  | (k', v') :: rest, k, v, hnd, h => by
      simp only [List.map_cons, List.nodup_cons] at hnd
      intro p hp hpk
      by_cases he : k' = k
      · subst he
        simp [dictGet] at h
        rcases List.mem_cons.mp hp with hp | hp
        · rw [hp, ← h]
        · exact absurd (List.mem_map.mpr ⟨p, hp, hpk⟩) hnd.1
      · simp only [dictGet, if_neg he] at h
        rcases List.mem_cons.mp hp with hp | hp
        · exact absurd ((congrArg Prod.fst hp).symm.trans hpk) he
        · exact dictGet_unique_of_nodup rest k v hnd.2 h p hp hpk

theorem dictGet_none_notmem {α β : Type} [DecidableEq α] :
    ∀ (l : List (α × β)) (k : α), dictGet l k = none →
      ∀ p ∈ l, p.1 ≠ k
  | [], _, _ => by simp
  | (k', v') :: rest, k, h => by
      intro p hp
      by_cases he : k' = k
      · subst he
        simp [dictGet] at h
      · simp only [dictGet, if_neg he] at h
        rcases List.mem_cons.mp hp with hp | hp
        · rw [hp]
          exact he
        · exact dictGet_none_notmem rest k h p hp

/-! ## Environment and replay basics -/

theorem envSet_self (e : String → Int) (k : String) (v : Int) :
    envSet e k v k = v := by simp [envSet]

theorem envSet_ne (e : String → Int) (k k' : String) (v : Int) (h : k' ≠ k) :
    envSet e k v k' = e k' := by simp [envSet, h]

theorem execOp_untouched (Q : Int) (e : String → Int) (op : Operation)
    (nm : String) (h : nm ≠ op.result.name) : execOp Q e op nm = e nm := by
  unfold execOp
  split_ifs <;>
    rcases op.operands with _ | ⟨a, _ | ⟨b, _ | ⟨x, l⟩⟩⟩ <;>
      simp [envSet, h]

theorem replay_append (Q : Int) (xs ys : List Operation) (e : String → Int) :
    replay Q (xs ++ ys) e = replay Q ys (replay Q xs e) := by
  simp [replay, List.foldl_append]

theorem replay_untouched (Q : Int) (ops : List Operation) (e : String → Int)
    (nm : String) (h : ∀ op ∈ ops, nm ≠ op.result.name) :
    replay Q ops e nm = e nm := by
  induction ops generalizing e with
  | nil => rfl
  | cons op rest ih =>
      show replay Q rest (execOp Q e op) nm = e nm
      rw [ih _ (fun o ho => h o (List.mem_cons_of_mem op ho)),
        execOp_untouched Q e op nm (h op (List.mem_cons_self op rest))]

theorem execOp_ADD (Q : Int) (e : String → Int) (a b r : Var)
    (qb : Option (Int × Int)) (mo : Option Int) (lk co : Option String) :
    execOp Q e ⟨"ADD", [a, b], r, qb, mo, lk, co⟩ =
      envSet e r.name (e a.name + e b.name) := by
  simp [execOp]

theorem execOp_SUB (Q : Int) (e : String → Int) (a b r : Var)
    (qb : Option (Int × Int)) (mo : Option Int) (lk co : Option String) :
    execOp Q e ⟨"SUB", [a, b], r, qb, mo, lk, co⟩ =
      envSet e r.name (e a.name - e b.name) := by
  simp [execOp]

theorem execOp_MUL (Q : Int) (e : String → Int) (a b r : Var)
    (qb : Option (Int × Int)) (mo : Option Int) (lk co : Option String) :
    execOp Q e ⟨"MUL", [a, b], r, qb, mo, lk, co⟩ =
      envSet e r.name (e a.name * e b.name) := by
  simp [execOp]

theorem execOp_REDUCE (Q : Int) (e : String → Int) (a r : Var)
    (qb : Option (Int × Int)) (M : Int) (lk co : Option String) :
    execOp Q e ⟨"REDUCE", [a], r, qb, some M, lk, co⟩ =
      envSet e r.name ((e a.name).fmod M) := by
  simp [execOp]

/-! ## Environment initialisation -/

theorem initEnvInputs_untouched :
    ∀ (inputs : List Var) (values : List Int) (e : String → Int) (nm : String),
      (∀ v ∈ inputs, nm ≠ v.name) → initEnvInputs inputs values e nm = e nm
  | [], _, e, nm, _ => rfl
  | _ :: _, [], e, nm, _ => rfl
  | inp :: is, v :: vs, e, nm, h => by
      show initEnvInputs is vs (envSet e inp.name v) nm = e nm
      rw [initEnvInputs_untouched is vs _ nm
        (fun u hu => h u (List.mem_cons_of_mem inp hu))]
      exact envSet_ne e inp.name nm v (h inp (List.mem_cons_self inp is))

theorem initEnvInputs_vals :
    ∀ (inputs : List Var) (values : List Int) (e : String → Int),
      (inputs.map Var.name).Nodup →
      inputs.length = values.length →
      List.Forall₂ (fun (v : Var) (x : Int) =>
        initEnvInputs inputs values e v.name = x) inputs values
  | [], [], e, _, _ => List.Forall₂.nil
  | [], _ :: _, _, _, h => by simp at h
  | _ :: _, [], _, _, h => by simp at h
  | inp :: is, v :: vs, e, hnd, hlen => by
      simp only [List.map_cons, List.nodup_cons] at hnd
      refine List.Forall₂.cons ?_ ?_
      · show initEnvInputs is vs (envSet e inp.name v) inp.name = v
        rw [initEnvInputs_untouched is vs _ inp.name
          (fun u hu he => hnd.1 (he ▸ List.mem_map.mpr ⟨u, hu, rfl⟩))]
        exact envSet_self e inp.name v
      · exact initEnvInputs_vals is vs _ hnd.2 (by simpa using hlen)

theorem innerScan_skip (val : Int) :
    ∀ (vars : List (String × Var)) (e : String → Int) (nm : String),
      (∀ p ∈ vars, p.1 = nm → ¬(p.2.minB = p.2.maxB ∧ p.2.minB = val)) →
      (vars.foldl (fun e q =>
        if q.2.minB = q.2.maxB ∧ q.2.minB = val then envSet e q.1 val else e)
        e) nm = e nm
  | [], e, nm, _ => rfl
  | p :: rest, e, nm, h => by
      simp only [List.foldl_cons]
      rw [innerScan_skip val rest _ nm
        (fun q hq => h q (List.mem_cons_of_mem p hq))]
      split_ifs with hc
      · exact envSet_ne e p.1 nm val
          (fun he => h p (List.mem_cons_self p rest) he.symm hc)
      · rfl

theorem innerScan_sets (val : Int) :
    ∀ (vars : List (String × Var)) (e : String → Int) (nm : String),
      (∃ u, (nm, u) ∈ vars ∧ u.minB = u.maxB ∧ u.minB = val) →
      (vars.foldl (fun e q =>
        if q.2.minB = q.2.maxB ∧ q.2.minB = val then envSet e q.1 val else e)
        e) nm = val
  | [], e, nm, h => by
      obtain ⟨u, hu, _⟩ := h
      exact absurd hu (List.not_mem_nil _)
  | p :: rest, e, nm, h => by
      simp only [List.foldl_cons]
      by_cases hr : ∃ u, (nm, u) ∈ rest ∧ u.minB = u.maxB ∧ u.minB = val
      · exact innerScan_sets val rest _ nm hr
      · obtain ⟨u, hu, hc⟩ := h
        rcases List.mem_cons.mp hu with hu | hu
        · rw [innerScan_skip val rest _ nm (fun q hq hqk => ?_)]
          · rw [← hu, if_pos hc]
            exact envSet_self e nm val
          · intro hqc
            exact hr ⟨q.2, by rw [← hqk]; exact hq, hqc⟩
        · exact absurd ⟨u, hu, hc⟩ hr

theorem outerScan_mono (vars : List (String × Var)) (nm : String) (u : Var)
    (hnd : (vars.map Prod.fst).Nodup) (hget : dictGet vars nm = some u)
    (hsing : u.minB = u.maxB) :
    ∀ (constants : List (Int × String)) (e : String → Int), e nm = u.minB →
      (constants.foldl (fun e p =>
        vars.foldl (fun e q =>
          if q.2.minB = q.2.maxB ∧ q.2.minB = p.1 then envSet e q.1 p.1 else e)
          e) e) nm = u.minB
  | [], _, he => he
  | p :: rest, e, he => by
      simp only [List.foldl_cons]
      apply outerScan_mono vars nm u hnd hget hsing rest
      by_cases hv : u.minB = p.1
      · rw [innerScan_sets p.1 vars e nm
          ⟨u, dictGet_mem vars nm u hget, hsing, hv⟩]
        exact hv.symm
      · rw [innerScan_skip p.1 vars e nm ?_]
        · exact he
        · intro q hq hqk hc
          have := dictGet_unique_of_nodup vars nm u hnd hget q hq hqk
          exact hv (this ▸ hc.2)

theorem initEnvConsts_at (vars : List (String × Var))
    (constants : List (Int × String)) (e : String → Int) (nm : String)
    (u : Var) (hnd : (vars.map Prod.fst).Nodup)
    (hget : dictGet vars nm = some u) (hsing : u.minB = u.maxB)
    (hreg : ∃ cn, (u.minB, cn) ∈ constants) :
    initEnvConsts vars constants e nm = u.minB := by
  obtain ⟨cn, hcn⟩ := hreg
  unfold initEnvConsts
  induction constants generalizing e with
  | nil => exact absurd hcn (List.not_mem_nil _)
  | cons p rest ih =>
      simp only [List.foldl_cons]
      rcases List.mem_cons.mp hcn with hp | hp
      · apply outerScan_mono vars nm u hnd hget hsing rest
        have hv : u.minB = p.1 := by rw [← hp]
        rw [innerScan_sets p.1 vars e nm
          ⟨u, dictGet_mem vars nm u hget, hsing, hv⟩]
        exact hv.symm
      · exact ih _ hp

theorem initEnvConsts_skip (vars : List (String × Var))
    (constants : List (Int × String)) (e : String → Int) (nm : String)
    (h : ∀ p ∈ vars, p.1 = nm → p.2.minB ≠ p.2.maxB) :
    initEnvConsts vars constants e nm = e nm := by
  unfold initEnvConsts
  induction constants generalizing e with
  | nil => rfl
  | cons p rest ih =>
      simp only [List.foldl_cons]
      rw [ih _]
      exact innerScan_skip p.1 vars e nm (fun q hq hqk hc => h q hq hqk hc.1)

/-! ## Casting into `Z_q` -/

theorem castZ_add (a b : Int) : castZ (a + b) = castZ a + castZ b := by
  unfold castZ
  push_cast
  ring

theorem castZ_sub (a b : Int) : castZ (a - b) = castZ a - castZ b := by
  unfold castZ
  push_cast
  ring

theorem castZ_mul (a b : Int) : castZ (a * b) = castZ a * castZ b := by
  unfold castZ
  push_cast
  ring

theorem castZ_fmod (a : Int) : castZ (a.fmod 12289) = castZ a := by
  unfold castZ
  rw [Int.fmod_eq_emod _ (by norm_num)]
  exact_mod_cast ZMod.intCast_mod a 12289

theorem castZ_mul_q (k : Int) : castZ (k * 12289) = 0 := by
  unfold castZ
  push_cast
  rw [show ((12289 : ZMod 12289)) = 0 by decide]
  ring

theorem castZ_val (z : Zq) : castZ (z.val : Int) = z := by
  unfold castZ
  push_cast
  exact ZMod.natCast_rightInverse z

theorem castZ_val_eq (v : Int) (h0 : 0 ≤ v) (h1 : v < 12289) :
    (((castZ v).val : Int)) = v := by
  unfold castZ
  have hv : v = (v.toNat : ℤ) := by omega
  rw [hv]
  have hc : ((v.toNat : ℤ) : ZMod 12289) = ((v.toNat : ℕ) : ZMod 12289) := by
    push_cast
    rfl
  rw [hc, ZMod.val_cast_of_lt (by omega)]

theorem fmod_q_nonneg (a : Int) : 0 ≤ a.fmod 12289 := by
  rw [Int.fmod_eq_emod _ (by norm_num)]
  exact Int.emod_nonneg a (by norm_num)

theorem fmod_q_lt (a : Int) : a.fmod 12289 < 12289 := by
  rw [Int.fmod_eq_emod _ (by norm_num)]
  exact Int.emod_lt_of_pos a (by norm_num)

/-! ## Call contracts for the builder steps of the generation flows -/

theorem dictGet_set_isSome_mono {α β : Type} [DecidableEq α]
    (l : List (α × β)) (k k' : α) (v : β) (h : (dictGet l k').isSome) :
    (dictGet (dictSet l k v) k').isSome := by
  by_cases he : k = k'
  · subst he
    rw [dictGet_set_self]
    rfl
  · rw [dictGet_set_ne l k k' v he]
    exact h

theorem settledStr_mono {c c' : Circuit} (h : c.varCounter ≤ c'.varCounter)
    {nm : String} (hs : SettledStr c nm) : SettledStr c' nm :=
  fun j hj => lt_of_lt_of_le (hs j hj) h

theorem callOK_refl (cspec : CSpec) (c : Circuit) : CallOK cspec c c [] := by
  exact ⟨by simp, le_rfl, rfl, rfl, fun v h => h,
    fun g => ⟨fun nm u h => h, g⟩, by simp, rfl, rfl⟩

theorem callOK_trans {cspec : CSpec} {c c' c'' : Circuit}
    {Δ Δ' : List Operation} (h1 : CallOK cspec c c' Δ)
    (h2 : CallOK cspec c' c'' Δ') : CallOK cspec c c'' (Δ ++ Δ') := by
  obtain ⟨o1, n1, m1, b1, k1, g1, t1, i1, u1⟩ := h1
  obtain ⟨o2, n2, m2, b2, k2, g2, t2, i2, u2⟩ := h2
  refine ⟨by rw [o2, o1, List.append_assoc], le_trans n1 n2,
    m2.trans m1, b2.trans b1, fun v h => k2 v (k1 v h), ?_, ?_,
    i2.trans i1, u2.trans u1⟩
  · intro g
    obtain ⟨mo1, gi1⟩ := g1 g
    obtain ⟨mo2, gi2⟩ := g2 gi1
    exact ⟨varsMono_trans mo1 mo2, gi2⟩
  · intro op hop
    rcases List.mem_append.mp hop with hop | hop
    · obtain ⟨t, ht, hl, hu⟩ := t1 op hop
      exact ⟨t, ht, hl, lt_of_lt_of_le hu n2⟩
    · obtain ⟨t, ht, hl, hu⟩ := t2 op hop
      exact ⟨t, ht, le_trans n1 hl, hu⟩

/-- New operations never write a name settled before the call. -/
theorem replay_frame {cspec : CSpec} {c c' : Circuit} {Δ : List Operation}
    (h : CallOK cspec c c' Δ) (Q : Int) (e : String → Int) (nm : String)
    (hs : SettledStr c nm) : replay Q Δ e nm = e nm := by
  apply replay_untouched
  intro op hop
  obtain ⟨t, ht, hl, _⟩ := h.2.2.2.2.2.2.1 op hop
  rw [ht]
  intro hc
  exact absurd (hs t hc) (not_lt.mpr hl)

theorem createOp_vars (c : Circuit) (t : String) (os : List Var)
    (mn mx : Int) (q : Option (Int × Int)) (m : Option Int)
    (l : Option String) :
    (c.createOp t os mn mx q m l).2.vars =
      dictSet c.vars (tmpName c.varCounter)
        ⟨tmpName c.varCounter, mn, mx, some c.operations.length⟩ ∧
    (c.createOp t os mn mx q m l).2.constants = c.constants ∧
    (c.createOp t os mn mx q m l).2.inputs = c.inputs ∧
    (c.createOp t os mn mx q m l).2.outputs = c.outputs := by
  simp [Circuit.createOp, Circuit.nextVarName, tmpName]

theorem createOp_contract (cspec : CSpec) (hgood : CSpecGood cspec)
    (c : Circuit) (t : String) (os : List Var) (mn mx : Int)
    (q : Option (Int × Int)) (m : Option Int) (l : Option String)
    (hos : GInv cspec c → ∀ v ∈ os, SettledStr c v.name) :
    CallOK cspec c (c.createOp t os mn mx q m l).2
      [⟨t, os, ⟨tmpName c.varCounter, mn, mx, some c.operations.length⟩,
        q, m, l, none⟩] := by
  obtain ⟨hops, hfst, hmod, hmaxb, hcnt⟩ := createOp_state c t os mn mx q m l
  obtain ⟨hvars, hconsts, hio1, hio2⟩ := createOp_vars c t os mn mx q m l
  refine ⟨hops, by rw [hcnt]; exact Nat.le_succ _, hmod, hmaxb,
    by rw [hconsts]; exact fun v h => h, ?_, ?_, hio1, hio2⟩
  · intro g
    refine ⟨(createOp_freshMono c t os mn mx q m l g.tmpFresh).2, ?_⟩
    refine ⟨(createOp_freshMono c t os mn mx q m l g.tmpFresh).1, ?_, ?_, ?_,
      ?_, ?_, ?_, ?_, ?_⟩
    · rw [hvars]
      exact dictSet_nodupKeys _ _ _ g.varsNodup
    · intro nm u hu v hv
      rw [hvars] at hu
      by_cases hnm : tmpName c.varCounter = nm
      · exact absurd hnm.symm (hgood.noTmp nm v hv c.varCounter)
      · rw [dictGet_set_ne _ _ _ _ hnm] at hu
        exact g.cspecOK nm u hu v hv
    · intro op hop
      rw [hops] at hop
      rcases List.mem_append.mp hop with hop | hop
      · obtain ⟨hr, ho⟩ := g.opsSettled op hop
        exact ⟨settledStr_mono (by rw [hcnt]; exact Nat.le_succ _) hr,
          fun ov hov => settledStr_mono (by rw [hcnt]; exact Nat.le_succ _)
            (ho ov hov)⟩
      · rw [List.mem_singleton] at hop
        subst hop
        refine ⟨?_, ?_⟩
        · intro j hj
          rw [hcnt]
          have := tmpName_inj hj
          omega
        · intro ov hov
          exact settledStr_mono (by rw [hcnt]; exact Nat.le_succ _)
            (hos g ov hov)
    · intro nm u hu hsrc hsing
      rw [hvars] at hu
      rw [hconsts]
      by_cases hnm : tmpName c.varCounter = nm
      · subst hnm
        rw [dictGet_set_self] at hu
        cases hu
        simp at hsrc
      · rw [dictGet_set_ne _ _ _ _ hnm] at hu
        exact g.singletonReg nm u hu hsrc hsing
    · intro op hop
      rw [hops] at hop
      rcases List.mem_append.mp hop with hop | hop
      · exact g.opsResultShape op hop
      · rw [List.mem_singleton] at hop
        subst hop
        exact Or.inl ⟨c.varCounter, rfl⟩
    · intro j u hu
      rw [hvars] at hu
      by_cases hnm : tmpName c.varCounter = tmpName j
      · rw [hnm, dictGet_set_self] at hu
        cases hu
        simp
      · rw [dictGet_set_ne _ _ _ _ hnm] at hu
        exact g.tmpSrc j u hu
    · intro i u hu
      rw [hvars] at hu
      rw [dictGet_set_ne _ _ _ _ (Ne.symm (rNameStr_ne_tmp i c.varCounter))]
        at hu
      exact g.rSrc i u hu
    · intro nm u hu
      rw [hvars] at hu
      by_cases hnm : tmpName c.varCounter = nm
      · subst hnm
        rw [dictGet_set_self] at hu
        cases hu
        rfl
      · rw [dictGet_set_ne _ _ _ _ hnm] at hu
        exact g.nameKey nm u hu
  · intro op hop
    rw [List.mem_singleton] at hop
    subst hop
    exact ⟨c.varCounter, rfl, le_rfl, by rw [hcnt]; exact Nat.lt_succ_self _⟩

theorem registerConstant_vars (c : Circuit) (v : Int) (nm : String) :
    (c.registerConstant v nm).vars = c.vars ∧
    (c.registerConstant v nm).constants = dictSet c.constants v nm ∧
    (c.registerConstant v nm).inputs = c.inputs ∧
    (c.registerConstant v nm).outputs = c.outputs := by
  simp [Circuit.registerConstant]

theorem registerConstant_contract (cspec : CSpec) (c : Circuit) (v : Int)
    (nm : String) :
    CallOK cspec c (c.registerConstant v nm) [] ∧
    (dictGet (c.registerConstant v nm).constants v).isSome := by
  obtain ⟨hops, hmod, hmaxb, hcnt⟩ := registerConstant_state c v nm
  obtain ⟨hvars, hconsts, hio1, hio2⟩ := registerConstant_vars c v nm
  refine ⟨⟨by rw [hops]; simp, by rw [hcnt], hmod, hmaxb,
    fun w h => by rw [hconsts]; exact dictGet_set_isSome_mono _ _ _ _ h,
    ?_, by simp, hio1, hio2⟩, by rw [hconsts, dictGet_set_self]; rfl⟩
  intro g
  refine ⟨fun nm' u hu => by rw [hvars]; exact hu, ?_⟩
  refine ⟨?_, ?_, ?_, ?_, ?_, ?_, ?_, ?_, ?_⟩
  · intro j hj
    rw [hvars]
    exact g.tmpFresh j (by rw [← hcnt]; exact hj)
  · rw [hvars]
    exact g.varsNodup
  · intro nm' u hu v' hv
    rw [hvars] at hu
    exact g.cspecOK nm' u hu v' hv
  · intro op hop
    rw [hops] at hop
    obtain ⟨hr, ho⟩ := g.opsSettled op hop
    have hc : c.varCounter ≤ (c.registerConstant v nm).varCounter := by
      rw [hcnt]
    exact ⟨settledStr_mono hc hr, fun ov hov => settledStr_mono hc (ho ov hov)⟩
  · intro nm' u hu hsrc hsing
    rw [hvars] at hu
    rw [hconsts]
    exact dictGet_set_isSome_mono _ _ _ _ (g.singletonReg nm' u hu hsrc hsing)
  · intro op hop
    rw [hops] at hop
    exact g.opsResultShape op hop
  · intro j u hu
    rw [hvars] at hu
    exact g.tmpSrc j u hu
  · intro i u hu
    rw [hvars] at hu
    exact g.rSrc i u hu
  · intro nm' u hu
    rw [hvars] at hu
    exact g.nameKey nm' u hu

theorem constant_constants (c : Circuit) (v : Int) (narg : Option String) :
    (c.constant v narg).2.constants = c.constants := by
  unfold Circuit.constant
  rcases h : dictGet c.vars (constantName v narg) with _ | u <;> simp [h]

theorem constant_io (c : Circuit) (v : Int) (narg : Option String) :
    (c.constant v narg).2.inputs = c.inputs ∧
    (c.constant v narg).2.outputs = c.outputs := by
  unfold Circuit.constant
  rcases h : dictGet c.vars (constantName v narg) with _ | u <;> simp [h]

theorem constant_cases (c : Circuit) (v : Int) (narg : Option String) :
    (dictGet c.vars (constantName v narg) = some (c.constant v narg).1 ∧
      (c.constant v narg).2 = c) ∨
    (dictGet c.vars (constantName v narg) = none ∧
      (c.constant v narg).1 = ⟨constantName v narg, v, v, none⟩ ∧
      (c.constant v narg).2 = { c with vars := (dictSet c.vars
        (constantName v narg) ⟨constantName v narg, v, v, none⟩) }) := by
  unfold Circuit.constant
  rcases h : dictGet c.vars (constantName v narg) with _ | u
  · right
    simp [h]
  · left
    simp [h]

theorem constant_contract (cspec : CSpec) (hgood : CSpecGood cspec)
    (c : Circuit) (v : Int) (narg : Option String)
    (hspec : cspec (constantName v narg) v)
    (huniq : ∀ v', cspec (constantName v narg) v' → v' = v)
    (hreg : (dictGet c.constants v).isSome) :
    CallOK cspec c (c.constant v narg).2 [] ∧
    (GInv cspec c →
      (c.constant v narg).1 = ⟨constantName v narg, v, v, none⟩ ∧
      dictGet (c.constant v narg).2.vars (constantName v narg) =
        some ⟨constantName v narg, v, v, none⟩) := by
  have hn : ∀ j, constantName v narg ≠ tmpName j :=
    hgood.noTmp _ _ hspec
  rcases constant_cases c v narg with ⟨hd, hc2⟩ | ⟨hd, hfst, hc2⟩
  · refine ⟨by rw [hc2]; exact callOK_refl cspec c, ?_⟩
    intro g
    have hu := g.cspecOK _ _ hd v hspec
    rw [hc2]
    exact ⟨hu, hu ▸ hd⟩
  · constructor
    · refine ⟨by simp [hc2], by simp [hc2], by simp [hc2], by simp [hc2],
        fun w h => by simp only [hc2]; exact h, ?_, by simp,
        by simp [hc2], by simp [hc2]⟩
      intro g
      constructor
      · intro nm u hu
        simp only [hc2]
        exact dictGet_mono_set_fresh _ _ _ hd nm u hu
      · refine ⟨?_, ?_, ?_, ?_, ?_, ?_, ?_, ?_, ?_⟩
        · intro j hj
          simp only [hc2] at hj ⊢
          rw [dictGet_set_ne _ _ _ _ (hn j)]
          exact g.tmpFresh j hj
        · simp only [hc2]
          exact dictSet_nodupKeys _ _ _ g.varsNodup
        · intro nm u hu v' hv
          simp only [hc2] at hu
          by_cases hnm : constantName v narg = nm
          · subst hnm
            rw [dictGet_set_self] at hu
            cases hu
            rw [huniq v' hv]
          · rw [dictGet_set_ne _ _ _ _ hnm] at hu
            exact g.cspecOK nm u hu v' hv
        · intro op hop
          simp only [hc2] at hop
          obtain ⟨hr, ho⟩ := g.opsSettled op hop
          refine ⟨?_, fun ov hov => ?_⟩
          · intro j hj
            simp only [hc2]
            exact hr j hj
          · intro j hj
            simp only [hc2]
            exact ho ov hov j hj
        · intro nm u hu hsrc hsing
          simp only [hc2] at hu ⊢
          by_cases hnm : constantName v narg = nm
          · subst hnm
            rw [dictGet_set_self] at hu
            cases hu
            exact hreg
          · rw [dictGet_set_ne _ _ _ _ hnm] at hu
            exact g.singletonReg nm u hu hsrc hsing
        · intro op hop
          simp only [hc2] at hop
          exact g.opsResultShape op hop
        · intro j u hu
          simp only [hc2] at hu
          rw [dictGet_set_ne _ _ _ _ (hn j)] at hu
          exact g.tmpSrc j u hu
        · intro i u hu
          simp only [hc2] at hu
          rw [dictGet_set_ne _ _ _ _ (hgood.noR _ _ hspec i)] at hu
          exact g.rSrc i u hu
        · intro nm u hu
          simp only [hc2] at hu
          by_cases hnm : constantName v narg = nm
          · subst hnm
            rw [dictGet_set_self] at hu
            cases hu
            rfl
          · rw [dictGet_set_ne _ _ _ _ hnm] at hu
            exact g.nameKey nm u hu
    · intro g
      refine ⟨hfst, ?_⟩
      simp only [hc2]
      exact dictGet_set_self _ _ _

theorem reduceModulus_none (c : Circuit) : reduceModulus c none = c.modulus :=
  rfl

theorem boundTypes_contract (cspec : CSpec) (c : Circuit)
    (bt : List (Int × Int)) :
    CallOK cspec c { c with boundTypes := bt } [] := by
  refine ⟨by simp, le_rfl, rfl, rfl, fun v h => h, ?_, by simp, rfl, rfl⟩
  intro g
  refine ⟨fun nm u h => h, ?_⟩
  exact ⟨g.tmpFresh, g.varsNodup, g.cspecOK, g.opsSettled, g.singletonReg,
    g.opsResultShape, g.tmpSrc, g.rSrc, g.nameKey⟩

/-- Adding a fresh default-named singleton constant variable (with its value
registered in the target state) preserves the invariant. -/
theorem constVar_ginv (cspec : CSpec) (hgood : CSpecGood cspec)
    (c c' : Circuit) (S : Int)
    (hvars : c'.vars = dictSet c.vars (constantName S none)
      ⟨constantName S none, S, S, none⟩)
    (hops : c'.operations = c.operations)
    (hcnt : c'.varCounter = c.varCounter)
    (hconsts : ∀ w, (dictGet c.constants w).isSome →
      (dictGet c'.constants w).isSome)
    (hS : (dictGet c'.constants S).isSome)
    (g : GInv cspec c) : GInv cspec c' := by
  have hn : ∀ j, constantName S none ≠ tmpName j := const_ne_tmpName S
  refine ⟨?_, ?_, ?_, ?_, ?_, ?_, ?_, ?_, ?_⟩
  · intro j hj
    rw [hvars, dictGet_set_ne _ _ _ _ (hn j)]
    exact g.tmpFresh j (by rw [← hcnt]; exact hj)
  · rw [hvars]
    exact dictSet_nodupKeys _ _ _ g.varsNodup
  · intro nm u hu v' hv
    rw [hvars] at hu
    by_cases hnm : constantName S none = nm
    · subst hnm
      rw [dictGet_set_self] at hu
      cases hu
      rw [hgood.constUniq S v' hv]
    · rw [dictGet_set_ne _ _ _ _ hnm] at hu
      exact g.cspecOK nm u hu v' hv
  · intro op hop
    rw [hops] at hop
    obtain ⟨hr, ho⟩ := g.opsSettled op hop
    have hle : c.varCounter ≤ c'.varCounter := by rw [hcnt]
    exact ⟨settledStr_mono hle hr, fun ov hov => settledStr_mono hle (ho ov hov)⟩
  · intro nm u hu hsrc hsing
    rw [hvars] at hu
    by_cases hnm : constantName S none = nm
    · subst hnm
      rw [dictGet_set_self] at hu
      cases hu
      exact hS
    · rw [dictGet_set_ne _ _ _ _ hnm] at hu
      exact hconsts _ (g.singletonReg nm u hu hsrc hsing)
  · intro op hop
    rw [hops] at hop
    exact g.opsResultShape op hop
  · intro j u hu
    rw [hvars, dictGet_set_ne _ _ _ _ (hn j)] at hu
    exact g.tmpSrc j u hu
  · intro i u hu
    rw [hvars, dictGet_set_ne _ _ _ _ (const_ne_rName S i)] at hu
    exact g.rSrc i u hu
  · intro nm u hu
    rw [hvars] at hu
    by_cases hnm : constantName S none = nm
    · subst hnm
      rw [dictGet_set_self] at hu
      cases hu
      rfl
    · rw [dictGet_set_ne _ _ _ _ hnm] at hu
      exact g.nameKey nm u hu

/-- The `constant(shift_amount)`-then-`register_constant` sequence inside
`reduce`'s shift path: one call contract for the composite. -/
theorem constant_reg_contract (cspec : CSpec) (hgood : CSpecGood cspec)
    (c1 : Circuit) (S : Int) (nm' : String) (c3 : Circuit)
    (hc3 : c3 = (if (dictGet (c1.constant S none).2.constants S).isSome
      then (c1.constant S none).2
      else (c1.constant S none).2.registerConstant S nm')) :
    CallOK cspec c1 c3 [] ∧ (dictGet c3.constants S).isSome ∧
    (GInv cspec c1 →
      (c1.constant S none).1 = ⟨constantName S none, S, S, none⟩ ∧
      dictGet c3.vars (constantName S none) =
        some ⟨constantName S none, S, S, none⟩) := by
  have hcc := constant_constants c1 S none
  by_cases hreg : (dictGet (c1.constant S none).2.constants S).isSome
  · rw [if_pos hreg] at hc3
    have hreg1 : (dictGet c1.constants S).isSome := by rw [← hcc]; exact hreg
    have hmain := constant_contract cspec hgood c1 S none (hgood.constSelf S)
      (hgood.constUniq S) hreg1
    subst hc3
    exact ⟨hmain.1, hreg, fun g => hmain.2 g⟩
  · rw [if_neg hreg] at hc3
    obtain ⟨c2ops, c2mod, c2maxb, c2cnt⟩ := constant_state c1 S none
    obtain ⟨r2ops, r2mod, r2maxb, r2cnt⟩ :=
      registerConstant_state (c1.constant S none).2 S nm'
    obtain ⟨r2vars, r2consts, r2in, r2out⟩ :=
      registerConstant_vars (c1.constant S none).2 S nm'
    have h3ops : c3.operations = c1.operations := by
      rw [hc3, r2ops, c2ops]
    have h3cnt : c3.varCounter = c1.varCounter := by
      rw [hc3, r2cnt, c2cnt]
    have h3mod : c3.modulus = c1.modulus := by
      rw [hc3, r2mod, c2mod]
    have h3maxb : c3.maxBound = c1.maxBound := by
      rw [hc3, r2maxb, c2maxb]
    have h3vars : c3.vars = (c1.constant S none).2.vars := by
      rw [hc3, r2vars]
    have h3consts : c3.constants = dictSet c1.constants S nm' := by
      rw [hc3, r2consts, hcc]
    have h3S : (dictGet c3.constants S).isSome := by
      rw [h3consts, dictGet_set_self]
      rfl
    have h3mono : ∀ w, (dictGet c1.constants w).isSome →
        (dictGet c3.constants w).isSome := by
      intro w hw
      rw [h3consts]
      exact dictGet_set_isSome_mono _ _ _ _ hw
    have h3in : c3.inputs = c1.inputs := by
      rw [hc3, (registerConstant_vars _ _ _).2.2.1,
        (constant_io c1 S none).1]
    have h3out : c3.outputs = c1.outputs := by
      rw [hc3, (registerConstant_vars _ _ _).2.2.2,
        (constant_io c1 S none).2]
    refine ⟨⟨by rw [h3ops]; simp, by rw [h3cnt], h3mod, h3maxb, h3mono,
      ?_, by simp, h3in, h3out⟩, h3S, ?_⟩
    · intro g
      rcases constant_cases c1 S none with ⟨hd, hc2eq⟩ | ⟨hd, hfst, hc2sh⟩
      · have hrc := (registerConstant_contract cspec c1 S nm').1
        have hc3' : c3 = c1.registerConstant S nm' := by rw [hc3, hc2eq]
        obtain ⟨hmono', hginv'⟩ := hrc.2.2.2.2.2.1 g
        exact ⟨hc3' ▸ hmono', hc3' ▸ hginv'⟩
      · constructor
        · intro nm u husrc
          rw [h3vars, hc2sh]
          exact dictGet_mono_set_fresh _ _ _ hd nm u husrc
        · refine constVar_ginv cspec hgood c1 c3 S ?_ h3ops h3cnt h3mono h3S g
          rw [h3vars, hc2sh]
    · intro g
      rcases constant_cases c1 S none with ⟨hd, hc2eq⟩ | ⟨hd, hfst, hc2sh⟩
      · have hu := g.cspecOK _ _ hd S (hgood.constSelf S)
        refine ⟨hu, ?_⟩
        rw [h3vars, hc2eq, ← hu]
        exact hd
      · refine ⟨hfst, ?_⟩
        rw [h3vars, hc2sh]
        exact dictGet_set_self _ _ _

theorem replay_one (Q : Int) (op : Operation) (e : String → Int) :
    replay Q [op] e = execOp Q e op := rfl

theorem replay_two (Q : Int) (op op' : Operation) (e : String → Int) :
    replay Q [op, op'] e = execOp Q (execOp Q e op) op' := rfl

/-- Contract of `reduce(var)` (no modulus argument) as the generation flows
use it: it appends one operation (two when the input's lower bound is
negative), returns a `[0, modulus-1]`-bounded fresh temporary, and the
replayed value of that temporary is congruent mod 12289 to the input's
value. -/
theorem reduceVar_contract (cspec : CSpec) (hgood : CSpecGood cspec)
    (c : Circuit) (v : Var) (hg : GInv cspec c) (hv : SettledStr c v.name) :
    ∃ Δ, CallOK cspec c (c.reduceVar v none).2 Δ ∧
      (∃ t, (c.reduceVar v none).1.name = tmpName t ∧ c.varCounter ≤ t ∧
        t < (c.reduceVar v none).2.varCounter) ∧
      (c.reduceVar v none).1.minB = 0 ∧
      (c.reduceVar v none).1.maxB = c.modulus - 1 ∧
      (c.modulus = 12289 →
        ∀ e : String → Int, EnvC (c.reduceVar v none).2 e →
          0 ≤ replay 12289 Δ e (c.reduceVar v none).1.name ∧
          replay 12289 Δ e (c.reduceVar v none).1.name < 12289 ∧
          castZ (replay 12289 Δ e (c.reduceVar v none).1.name) =
            castZ (e v.name)) ∧
      (∃ Δ₀ a' qb M', Δ = Δ₀ ++
          [⟨"REDUCE", [a'], (c.reduceVar v none).1, qb, some M', none,
            none⟩] ∧
        (∀ op ∈ Δ₀, op.result.name ≠ (c.reduceVar v none).1.name) ∧
        (∀ op ∈ Δ, ∀ ov ∈ op.operands,
          ov.name ≠ (c.reduceVar v none).1.name)) ∧
      dictGet (c.reduceVar v none).2.vars (c.reduceVar v none).1.name =
        some (c.reduceVar v none).1 := by
  by_cases hv0 : v.minB < 0
  · simp only [Circuit.reduceVar, Circuit.addRaw, if_pos hv0]
    set M := reduceModulus c none with hM
    have hMc : M = c.modulus := reduceModulus_none c
    set c1 := if (dictGet c.constants M).isSome then c
      else c.registerConstant M "Q" with hc1
    have k1 : CallOK cspec c c1 [] := by
      rw [hc1]
      split
      · exact callOK_refl cspec c
      · exact (registerConstant_contract cspec c M "Q").1
    have g1 : GInv cspec c1 := (k1.2.2.2.2.2.1 hg).2
    set CP := (-v.minB + M - 1).fdiv M with hCP
    set S := CP * M with hS
    set sh := (c1.constant S none).1 with hsh
    set c3 := if (dictGet (c1.constant S none).2.constants S).isSome
      then (c1.constant S none).2
      else (c1.constant S none).2.registerConstant S
        ("SHIFT_" ++ toString CP ++ "Q") with hc3
    obtain ⟨k3, hS3, hsh3⟩ := constant_reg_contract cspec hgood c1 S
      ("SHIFT_" ++ toString CP ++ "Q") c3 hc3
    have g3 : GInv cspec c3 := (k3.2.2.2.2.2.1 g1).2
    obtain ⟨hshv, hshd⟩ := hsh3 g1
    have hshn : sh.name = constantName S none := by rw [hsh, hshv]
    have hv3 : SettledStr c3 v.name :=
      settledStr_mono k3.2.1 (settledStr_mono k1.2.1 hv)
    have k4 := createOp_contract cspec hgood c3 "ADD" [v, sh]
      (v.minB + sh.minB) (v.maxB + sh.maxB) none none none
      (fun _ ov hov => by
        rcases List.mem_cons.mp hov with h | h
        · exact h ▸ hv3
        · rw [List.mem_singleton] at h
          subst h
          intro j hj
          rw [hshn] at hj
          exact absurd hj (const_ne_tmpName S j))
    obtain ⟨hops4, hfst4, hmod4, hmaxb4, hcnt4⟩ :=
      createOp_state c3 "ADD" [v, sh] (v.minB + sh.minB) (v.maxB + sh.maxB)
        none none none
    set aop : Operation := ⟨"ADD", [v, sh],
      ⟨tmpName c3.varCounter, v.minB + sh.minB, v.maxB + sh.maxB,
        some c3.operations.length⟩, none, none, none, none⟩ with haop
    set a' := (c3.createOp "ADD" [v, sh] (v.minB + sh.minB)
      (v.maxB + sh.maxB) none none none).1 with ha'
    set c4 := (c3.createOp "ADD" [v, sh] (v.minB + sh.minB)
      (v.maxB + sh.maxB) none none none).2 with hc4
    have g4 : GInv cspec c4 := (k4.2.2.2.2.2.1 g3).2
    set c5 := { c4 with boundTypes :=
      (setAdd c4.boundTypes (a'.minB.fdiv M, a'.maxB.fdiv M)) } with hc5
    have k5 : CallOK cspec c4 c5 [] := boundTypes_contract cspec c4 _
    have g5 : GInv cspec c5 := (k5.2.2.2.2.2.1 g4).2
    have ha'n : a'.name = tmpName c3.varCounter := by rw [hfst4]
    have ha'settled : SettledStr c5 a'.name := by
      intro j hj
      rw [ha'n] at hj
      have := tmpName_inj hj
      show j < c4.varCounter
      rw [hcnt4, ← this]
      exact Nat.lt_succ_self _
    have k6 := createOp_contract cspec hgood c5 "REDUCE" [a'] 0 (M - 1)
      (some (a'.minB.fdiv M, a'.maxB.fdiv M)) (some M) none
      (fun _ ov hov => by
        rw [List.mem_singleton] at hov
        exact hov ▸ ha'settled)
    obtain ⟨hops6, hfst6, hmod6, hmaxb6, hcnt6⟩ :=
      createOp_state c5 "REDUCE" [a'] 0 (M - 1)
        (some (a'.minB.fdiv M, a'.maxB.fdiv M)) (some M) none
    set rop : Operation := ⟨"REDUCE", [a'],
      ⟨tmpName c5.varCounter, 0, M - 1, some c5.operations.length⟩,
      some (a'.minB.fdiv M, a'.maxB.fdiv M), some M, none, none⟩ with hrop
    have ktot : CallOK cspec c
        (c5.createOp "REDUCE" [a'] 0 (M - 1)
          (some (a'.minB.fdiv M, a'.maxB.fdiv M)) (some M) none).2
        (([] : List Operation) ++ (([] : List Operation) ++
          ([aop] ++ (([] : List Operation) ++ [rop])))) :=
      callOK_trans k1 (callOK_trans k3 (callOK_trans k4
        (callOK_trans k5 k6)))
    have hΔ : (([] : List Operation) ++ (([] : List Operation) ++
        ([aop] ++ (([] : List Operation) ++ [rop])))) = [aop, rop] := by
      simp
    rw [hΔ] at ktot
    obtain ⟨hvars6, _, _, _⟩ := createOp_vars c5 "REDUCE" [a'] 0 (M - 1)
      (some (a'.minB.fdiv M, a'.maxB.fdiv M)) (some M) none
    have hrn : (c5.createOp "REDUCE" [a'] 0 (M - 1)
        (some (a'.minB.fdiv M, a'.maxB.fdiv M)) (some M) none).1.name =
        tmpName c5.varCounter := by rw [hfst6]
    have hc5cnt : c5.varCounter = c3.varCounter + 1 := by
      show c4.varCounter = c3.varCounter + 1
      exact hcnt4
    have hlecnt : c.varCounter ≤ c5.varCounter := by
      have e1 := k1.2.1
      have e3 := k3.2.1
      omega
    refine ⟨[aop, rop], ktot, ?_, ?_, ?_, ?_, ?_, ?_⟩
    · have := ktot.2.2.2.2.2.2.1 rop (by simp)
      obtain ⟨t, ht, hl, hu⟩ := this
      exact ⟨t, by rw [hfst6]; exact ht, hl, hu⟩
    · rw [hfst6]
    · rw [hfst6, hMc]
    · intro hmod e henv
      have hM12289 : M = 12289 := by rw [hMc, hmod]
      have hshc6 : dictGet (c5.createOp "REDUCE" [a'] 0 (M - 1)
          (some (a'.minB.fdiv M, a'.maxB.fdiv M)) (some M) none).2.vars
          (constantName S none) = some ⟨constantName S none, S, S, none⟩ := by
        have m4 := (k4.2.2.2.2.2.1 g3).1
        have m5 := (k5.2.2.2.2.2.1 g4).1
        have m6 := (k6.2.2.2.2.2.1 g5).1
        exact m6 _ _ (m5 _ _ (m4 _ _ hshd))
      have hesh : e (constantName S none) = S := by
        have := henv (constantName S none) ⟨constantName S none, S, S, none⟩
          hshc6 rfl rfl
        exact this
      have hreplay : replay 12289 [aop, rop] e
          (tmpName c5.varCounter) = (e v.name + S).fmod 12289 := by
        rw [replay_two]
        rw [haop, execOp_ADD, hrop, execOp_REDUCE]
        show envSet _ (tmpName c5.varCounter) _ (tmpName c5.varCounter) = _
        rw [envSet_self]
        rw [ha'n]
        show ((envSet e (tmpName c3.varCounter) (e v.name + e sh.name))
          (tmpName c3.varCounter)).fmod M = _
        rw [envSet_self, hshn, hesh, hM12289]
      have hrn : (c5.createOp "REDUCE" [a'] 0 (M - 1)
          (some (a'.minB.fdiv M, a'.maxB.fdiv M)) (some M) none).1.name =
          tmpName c5.varCounter := by rw [hfst6]
      rw [hrn, hreplay]
      refine ⟨fmod_q_nonneg _, fmod_q_lt _, ?_⟩
      rw [castZ_fmod, castZ_add]
      rw [hS, hM12289, castZ_mul_q]
      ring
    · refine ⟨[aop], a', some (a'.minB.fdiv M, a'.maxB.fdiv M), M,
        by rw [hfst6, hrop]; rfl, ?_, ?_⟩
      · intro op hop
        rw [List.mem_singleton] at hop
        subst hop
        intro hcontra
        have h1 : tmpName c3.varCounter = tmpName c5.varCounter := by
          have ha : aop.result.name = tmpName c3.varCounter := by rw [haop]
          rw [← ha, hcontra, hrn]
        have := tmpName_inj h1
        omega
      · intro op hop ov hov hcontra
        rw [hrn] at hcontra
        rcases List.mem_cons.mp hop with hop | hop
        · subst hop
          have hops : aop.operands = [v, sh] := by rw [haop]
          rw [hops] at hov
          rcases List.mem_cons.mp hov with hv' | hv'
          · subst hv'
            have := hv c5.varCounter hcontra
            omega
          · rw [List.mem_singleton] at hv'
            subst hv'
            rw [hshn] at hcontra
            exact absurd hcontra (const_ne_tmpName S _)
        · rw [List.mem_singleton] at hop
          subst hop
          have hops : rop.operands = [a'] := by rw [hrop]
          rw [hops, List.mem_singleton] at hov
          subst hov
          rw [ha'n] at hcontra
          have := tmpName_inj hcontra
          omega
    · rw [hrn, hvars6, dictGet_set_self, hfst6]
  · simp only [Circuit.reduceVar, if_neg hv0]
    set M := reduceModulus c none with hM
    have hMc : M = c.modulus := reduceModulus_none c
    set c5 := { c with boundTypes :=
      (setAdd c.boundTypes (v.minB.fdiv M, v.maxB.fdiv M)) } with hc5
    have k5 : CallOK cspec c c5 [] := boundTypes_contract cspec c _
    have g5 : GInv cspec c5 := (k5.2.2.2.2.2.1 hg).2
    have hv5 : SettledStr c5 v.name := settledStr_mono k5.2.1 hv
    have k6 := createOp_contract cspec hgood c5 "REDUCE" [v] 0 (M - 1)
      (some (v.minB.fdiv M, v.maxB.fdiv M)) (some M) none
      (fun _ ov hov => by
        rw [List.mem_singleton] at hov
        exact hov ▸ hv5)
    obtain ⟨hops6, hfst6, hmod6, hmaxb6, hcnt6⟩ :=
      createOp_state c5 "REDUCE" [v] 0 (M - 1)
        (some (v.minB.fdiv M, v.maxB.fdiv M)) (some M) none
    set rop : Operation := ⟨"REDUCE", [v],
      ⟨tmpName c5.varCounter, 0, M - 1, some c5.operations.length⟩,
      some (v.minB.fdiv M, v.maxB.fdiv M), some M, none, none⟩ with hrop
    have ktot : CallOK cspec c
        (c5.createOp "REDUCE" [v] 0 (M - 1)
          (some (v.minB.fdiv M, v.maxB.fdiv M)) (some M) none).2
        (([] : List Operation) ++ [rop]) :=
      callOK_trans k5 k6
    have hΔ : (([] : List Operation) ++ [rop]) = [rop] := by simp
    rw [hΔ] at ktot
    obtain ⟨hvars6, _, _, _⟩ := createOp_vars c5 "REDUCE" [v] 0 (M - 1)
      (some (v.minB.fdiv M, v.maxB.fdiv M)) (some M) none
    have hrn : (c5.createOp "REDUCE" [v] 0 (M - 1)
        (some (v.minB.fdiv M, v.maxB.fdiv M)) (some M) none).1.name =
        tmpName c5.varCounter := by rw [hfst6]
    have hc5cnt : c5.varCounter = c.varCounter := rfl
    refine ⟨[rop], ktot, ?_, ?_, ?_, ?_, ?_, ?_⟩
    · have := ktot.2.2.2.2.2.2.1 rop (by simp)
      obtain ⟨t, ht, hl, hu⟩ := this
      exact ⟨t, by rw [hfst6]; exact ht, hl, hu⟩
    · rw [hfst6]
    · rw [hfst6, hMc]
    · intro hmod e henv
      have hM12289 : M = 12289 := by rw [hMc, hmod]
      have hreplay : replay 12289 [rop] e (tmpName c5.varCounter) =
          (e v.name).fmod 12289 := by
        rw [replay_one, hrop, execOp_REDUCE, envSet_self, hM12289]
      rw [hrn, hreplay]
      exact ⟨fmod_q_nonneg _, fmod_q_lt _, castZ_fmod _⟩
    · refine ⟨[], v, some (v.minB.fdiv M, v.maxB.fdiv M), M,
        by rw [hfst6, hrop]; rfl, by simp, ?_⟩
      intro op hop ov hov hcontra
      rw [List.mem_singleton] at hop
      subst hop
      have hops : rop.operands = [v] := by rw [hrop]
      rw [hops, List.mem_singleton] at hov
      subst hov
      rw [hrn] at hcontra
      have := hv c5.varCounter hcontra
      omega
    · rw [hrn, hvars6, dictGet_set_self, hfst6]

/-- Replaying operations that only write temporary or output names leaves the
environment's agreement with the recorded constants intact. -/
theorem envC_replay_stable (cspec : CSpec) (c' : Circuit)
    (g' : GInv cspec c') (Q : Int) (e : String → Int) (henv : EnvC c' e)
    (Δ : List Operation)
    (hΔ : ∀ op ∈ Δ, (∃ t, op.result.name = tmpName t) ∨
      (∃ i, op.result.name = rNameStr i)) :
    EnvC c' (replay Q Δ e) := by
  intro nm u hu hsrc hsing
  rw [replay_untouched Q Δ e nm ?_]
  · exact henv nm u hu hsrc hsing
  · intro op hop heq
    rcases hΔ op hop with ⟨t, ht⟩ | ⟨i, hi⟩
    · rw [heq, ht] at hu
      exact g'.tmpSrc t u hu hsrc
    · rw [heq, hi] at hu
      exact g'.rSrc i u hu hsrc

theorem autoReduced_contract (cspec : CSpec) (c : Circuit) (n : Nat) :
    CallOK cspec c { c with autoReducedCount := n } [] := by
  refine ⟨by simp, le_rfl, rfl, rfl, fun v h => h, ?_, by simp, rfl, rfl⟩
  intro g
  refine ⟨fun nm u h => h, ?_⟩
  exact ⟨g.tmpFresh, g.varsNodup, g.cspecOK, g.opsSettled, g.singletonReg,
    g.opsResultShape, g.tmpSrc, g.rSrc, g.nameKey⟩

/-- `Δ`-results of a call are temporaries. -/
theorem callOK_results_tmp {cspec : CSpec} {c c' : Circuit}
    {Δ : List Operation} (h : CallOK cspec c c' Δ) :
    ∀ op ∈ Δ, (∃ t, op.result.name = tmpName t) ∨
      (∃ i, op.result.name = rNameStr i) := by
  intro op hop
  obtain ⟨t, ht, _, _⟩ := h.2.2.2.2.2.2.1 op hop
  exact Or.inl ⟨t, ht⟩

/-- Contract of `_maybe_auto_reduce`: whatever branch fires, the returned
variable is settled and its replayed value is congruent mod 12289 to the
input's value. -/
theorem maybeAutoReduce_contract (cspec : CSpec) (hgood : CSpecGood cspec)
    (c : Circuit) (v : Var) (hg : GInv cspec c) (hv : SettledStr c v.name) :
    ∃ Δ, CallOK cspec c (c.maybeAutoReduce v).2 Δ ∧
      SettledStr (c.maybeAutoReduce v).2 (c.maybeAutoReduce v).1.name ∧
      (c.modulus = 12289 →
        ∀ e : String → Int, EnvC (c.maybeAutoReduce v).2 e →
          castZ (replay 12289 Δ e (c.maybeAutoReduce v).1.name) =
            castZ (e v.name)) := by
  unfold Circuit.maybeAutoReduce
  split
  · set d0 : Circuit := { c with autoReducedCount := c.autoReducedCount + 1 }
      with hd0
    have k0 : CallOK cspec c d0 [] := autoReduced_contract cspec c _
    have g0 : GInv cspec d0 := (k0.2.2.2.2.2.1 hg).2
    have hv0 : SettledStr d0 v.name := settledStr_mono k0.2.1 hv
    obtain ⟨Δ1, k1, ht1, _, _, hval1, _, _⟩ :=
      reduceVar_contract cspec hgood d0 v g0 hv0
    set d1 := (d0.reduceVar v none).2 with hd1
    have g1 : GInv cspec d1 := (k1.2.2.2.2.2.1 g0).2
    have hv1 : SettledStr d1 v.name := settledStr_mono k1.2.1 hv0
    obtain ⟨Δ2, k2, ht2, _, _, hval2, _, _⟩ :=
      reduceVar_contract cspec hgood d1 v g1 hv1
    set d2 := (d1.reduceVar v none).2 with hd2
    have g2 : GInv cspec d2 := (k2.2.2.2.2.2.1 g1).2
    have hv2 : SettledStr d2 v.name := settledStr_mono k2.2.1 hv1
    obtain ⟨Δ3, k3, ht3, _, _, hval3, _, _⟩ :=
      reduceVar_contract cspec hgood d2 v g2 hv2
    set d3 := (d2.reduceVar v none).2 with hd3
    have g3 : GInv cspec d3 := (k3.2.2.2.2.2.1 g2).2
    have ktot : CallOK cspec c d3
        (([] : List Operation) ++ (Δ1 ++ (Δ2 ++ Δ3))) :=
      callOK_trans k0 (callOK_trans k1 (callOK_trans k2 k3))
    refine ⟨[] ++ (Δ1 ++ (Δ2 ++ Δ3)), ktot, ?_, ?_⟩
    · obtain ⟨t, ht, hl, hu⟩ := ht3
      intro j hj
      rw [ht] at hj
      rw [← tmpName_inj hj]
      exact hu
    · intro hmod e henv
      have hmod2 : d2.modulus = 12289 := by
        rw [k2.2.2.1, k1.2.2.1]
        exact hmod
      rw [List.nil_append, replay_append, replay_append]
      set e1 := replay 12289 Δ1 e with he1
      set e2 := replay 12289 Δ2 e1 with he2
      have henv1 : EnvC d3 e1 := by
        rw [he1]
        exact envC_replay_stable cspec d3 g3 12289 e henv Δ1
          (callOK_results_tmp k1)
      have henv2 : EnvC d3 e2 := by
        rw [he2]
        exact envC_replay_stable cspec d3 g3 12289 e1 henv1 Δ2
          (callOK_results_tmp k2)
      have hv2val : e2 v.name = e v.name := by
        rw [he2, replay_frame k2 12289 e1 v.name hv1,
          he1, replay_frame k1 12289 e v.name hv0]
      have := hval3 hmod2 e2 henv2
      rw [this.2.2, hv2val]
  · refine ⟨[], callOK_refl cspec c, hv, ?_⟩
    intro _ e _
    rfl

theorem add_contract (cspec : CSpec) (hgood : CSpecGood cspec)
    (c : Circuit) (a b : Var) (hg : GInv cspec c)
    (ha : SettledStr c a.name) (hb : SettledStr c b.name) :
    ∃ Δ, CallOK cspec c (c.add a b).2 Δ ∧
      SettledStr (c.add a b).2 (c.add a b).1.name ∧
      (c.modulus = 12289 →
        ∀ e : String → Int, EnvC (c.add a b).2 e →
          castZ (replay 12289 Δ e (c.add a b).1.name) =
            castZ (e a.name) + castZ (e b.name)) := by
  unfold Circuit.add
  have k1 := createOp_contract cspec hgood c "ADD" [a, b]
    (a.minB + b.minB) (a.maxB + b.maxB) none none none
    (fun _ ov hov => by
      rcases List.mem_cons.mp hov with h | h
      · exact h ▸ ha
      · rw [List.mem_singleton] at h
        exact h ▸ hb)
  obtain ⟨hops1, hfst1, hmod1, hmaxb1, hcnt1⟩ :=
    createOp_state c "ADD" [a, b] (a.minB + b.minB) (a.maxB + b.maxB)
      none none none
  set aop : Operation := ⟨"ADD", [a, b],
    ⟨tmpName c.varCounter, a.minB + b.minB, a.maxB + b.maxB,
      some c.operations.length⟩, none, none, none, none⟩ with haop
  set r1 := (c.createOp "ADD" [a, b] (a.minB + b.minB) (a.maxB + b.maxB)
    none none none).1 with hr1
  set c1 := (c.createOp "ADD" [a, b] (a.minB + b.minB) (a.maxB + b.maxB)
    none none none).2 with hc1
  have g1 : GInv cspec c1 := (k1.2.2.2.2.2.1 hg).2
  have hr1n : r1.name = tmpName c.varCounter := by rw [hfst1]
  have hr1s : SettledStr c1 r1.name := by
    intro j hj
    rw [hr1n] at hj
    rw [← tmpName_inj hj, hcnt1]
    exact Nat.lt_succ_self _
  obtain ⟨Δ2, k2, hset2, hval2⟩ :=
    maybeAutoReduce_contract cspec hgood c1 r1 g1 hr1s
  have ktot : CallOK cspec c (c1.maybeAutoReduce r1).2 ([aop] ++ Δ2) :=
    callOK_trans k1 k2
  refine ⟨[aop] ++ Δ2, ktot, hset2, ?_⟩
  intro hmod e henv
  have hmod1' : c1.modulus = 12289 := by rw [hmod1]; exact hmod
  rw [replay_append]
  have g2 : GInv cspec (c1.maybeAutoReduce r1).2 := (k2.2.2.2.2.2.1 g1).2
  have henv1 : EnvC (c1.maybeAutoReduce r1).2 (replay 12289 [aop] e) :=
    envC_replay_stable cspec _ g2 12289 e henv [aop] (callOK_results_tmp k1)
  rw [hval2 hmod1' (replay 12289 [aop] e) henv1]
  have : replay 12289 [aop] e r1.name = e a.name + e b.name := by
    rw [replay_one, haop, execOp_ADD, hr1n]
    show envSet _ (tmpName c.varCounter) _ (tmpName c.varCounter) = _
    rw [envSet_self]
  rw [this, castZ_add]

theorem sub_contract (cspec : CSpec) (hgood : CSpecGood cspec)
    (c : Circuit) (a b : Var) (hg : GInv cspec c)
    (ha : SettledStr c a.name) (hb : SettledStr c b.name) :
    ∃ Δ, CallOK cspec c (c.sub a b).2 Δ ∧
      SettledStr (c.sub a b).2 (c.sub a b).1.name ∧
      (c.modulus = 12289 →
        ∀ e : String → Int, EnvC (c.sub a b).2 e →
          castZ (replay 12289 Δ e (c.sub a b).1.name) =
            castZ (e a.name) - castZ (e b.name)) := by
  unfold Circuit.sub
  have k1 := createOp_contract cspec hgood c "SUB" [a, b]
    (a.minB - b.maxB) (a.maxB - b.minB) none none none
    (fun _ ov hov => by
      rcases List.mem_cons.mp hov with h | h
      · exact h ▸ ha
      · rw [List.mem_singleton] at h
        exact h ▸ hb)
  obtain ⟨hops1, hfst1, hmod1, hmaxb1, hcnt1⟩ :=
    createOp_state c "SUB" [a, b] (a.minB - b.maxB) (a.maxB - b.minB)
      none none none
  set aop : Operation := ⟨"SUB", [a, b],
    ⟨tmpName c.varCounter, a.minB - b.maxB, a.maxB - b.minB,
      some c.operations.length⟩, none, none, none, none⟩ with haop
  set r1 := (c.createOp "SUB" [a, b] (a.minB - b.maxB) (a.maxB - b.minB)
    none none none).1 with hr1
  set c1 := (c.createOp "SUB" [a, b] (a.minB - b.maxB) (a.maxB - b.minB)
    none none none).2 with hc1
  have g1 : GInv cspec c1 := (k1.2.2.2.2.2.1 hg).2
  have hr1n : r1.name = tmpName c.varCounter := by rw [hfst1]
  have hr1s : SettledStr c1 r1.name := by
    intro j hj
    rw [hr1n] at hj
    rw [← tmpName_inj hj, hcnt1]
    exact Nat.lt_succ_self _
  obtain ⟨Δ2, k2, hset2, hval2⟩ :=
    maybeAutoReduce_contract cspec hgood c1 r1 g1 hr1s
  have ktot : CallOK cspec c (c1.maybeAutoReduce r1).2 ([aop] ++ Δ2) :=
    callOK_trans k1 k2
  refine ⟨[aop] ++ Δ2, ktot, hset2, ?_⟩
  intro hmod e henv
  have hmod1' : c1.modulus = 12289 := by rw [hmod1]; exact hmod
  rw [replay_append]
  have g2 : GInv cspec (c1.maybeAutoReduce r1).2 := (k2.2.2.2.2.2.1 g1).2
  have henv1 : EnvC (c1.maybeAutoReduce r1).2 (replay 12289 [aop] e) :=
    envC_replay_stable cspec _ g2 12289 e henv [aop] (callOK_results_tmp k1)
  rw [hval2 hmod1' (replay 12289 [aop] e) henv1]
  have : replay 12289 [aop] e r1.name = e a.name - e b.name := by
    rw [replay_one, haop, execOp_SUB, hr1n]
    show envSet _ (tmpName c.varCounter) _ (tmpName c.varCounter) = _
    rw [envSet_self]
  rw [this, castZ_sub]

theorem mul_contract (cspec : CSpec) (hgood : CSpecGood cspec)
    (c : Circuit) (a b : Var) (hg : GInv cspec c)
    (ha : SettledStr c a.name) (hb : SettledStr c b.name) :
    ∃ Δ, CallOK cspec c (c.mul a b).2 Δ ∧
      SettledStr (c.mul a b).2 (c.mul a b).1.name ∧
      (c.modulus = 12289 →
        ∀ e : String → Int, EnvC (c.mul a b).2 e →
          castZ (replay 12289 Δ e (c.mul a b).1.name) =
            castZ (e a.name) * castZ (e b.name)) := by
  unfold Circuit.mul
  have k1 := createOp_contract cspec hgood c "MUL" [a, b]
    (listMin [a.minB * b.minB, a.minB * b.maxB, a.maxB * b.minB,
      a.maxB * b.maxB])
    (listMax [a.minB * b.minB, a.minB * b.maxB, a.maxB * b.minB,
      a.maxB * b.maxB]) none none none
    (fun _ ov hov => by
      rcases List.mem_cons.mp hov with h | h
      · exact h ▸ ha
      · rw [List.mem_singleton] at h
        exact h ▸ hb)
  obtain ⟨hops1, hfst1, hmod1, hmaxb1, hcnt1⟩ :=
    createOp_state c "MUL" [a, b]
      (listMin [a.minB * b.minB, a.minB * b.maxB, a.maxB * b.minB,
        a.maxB * b.maxB])
      (listMax [a.minB * b.minB, a.minB * b.maxB, a.maxB * b.minB,
        a.maxB * b.maxB]) none none none
  set aop : Operation := ⟨"MUL", [a, b],
    ⟨tmpName c.varCounter,
      listMin [a.minB * b.minB, a.minB * b.maxB, a.maxB * b.minB,
        a.maxB * b.maxB],
      listMax [a.minB * b.minB, a.minB * b.maxB, a.maxB * b.minB,
        a.maxB * b.maxB],
      some c.operations.length⟩, none, none, none, none⟩ with haop
  set r1 := (c.createOp "MUL" [a, b]
    (listMin [a.minB * b.minB, a.minB * b.maxB, a.maxB * b.minB,
      a.maxB * b.maxB])
    (listMax [a.minB * b.minB, a.minB * b.maxB, a.maxB * b.minB,
      a.maxB * b.maxB]) none none none).1 with hr1
  set c1 := (c.createOp "MUL" [a, b]
    (listMin [a.minB * b.minB, a.minB * b.maxB, a.maxB * b.minB,
      a.maxB * b.maxB])
    (listMax [a.minB * b.minB, a.minB * b.maxB, a.maxB * b.minB,
      a.maxB * b.maxB]) none none none).2 with hc1
  have g1 : GInv cspec c1 := (k1.2.2.2.2.2.1 hg).2
  have hr1n : r1.name = tmpName c.varCounter := by rw [hfst1]
  have hr1s : SettledStr c1 r1.name := by
    intro j hj
    rw [hr1n] at hj
    rw [← tmpName_inj hj, hcnt1]
    exact Nat.lt_succ_self _
  obtain ⟨Δ2, k2, hset2, hval2⟩ :=
    maybeAutoReduce_contract cspec hgood c1 r1 g1 hr1s
  have ktot : CallOK cspec c (c1.maybeAutoReduce r1).2 ([aop] ++ Δ2) :=
    callOK_trans k1 k2
  refine ⟨[aop] ++ Δ2, ktot, hset2, ?_⟩
  intro hmod e henv
  have hmod1' : c1.modulus = 12289 := by rw [hmod1]; exact hmod
  rw [replay_append]
  have g2 : GInv cspec (c1.maybeAutoReduce r1).2 := (k2.2.2.2.2.2.1 g1).2
  have henv1 : EnvC (c1.maybeAutoReduce r1).2 (replay 12289 [aop] e) :=
    envC_replay_stable cspec _ g2 12289 e henv [aop] (callOK_results_tmp k1)
  rw [hval2 hmod1' (replay 12289 [aop] e) henv1]
  have : replay 12289 [aop] e r1.name = e a.name * e b.name := by
    rw [replay_one, haop, execOp_MUL, hr1n]
    show envSet _ (tmpName c.varCounter) _ (tmpName c.varCounter) = _
    rw [envSet_self]
  rw [this, castZ_mul]

/-! ## Correspondence between the traced circuits and the pure transforms -/

theorem envC_mono {c c' : Circuit} (mono : VarsMono c c') {e : String → Int}
    (h : EnvC c' e) : EnvC c e :=
  fun nm u hu hs hsing => h nm u (mono nm u hu) hs hsing

theorem envVals_frame {cspec : CSpec} {c c' : Circuit} {Δ : List Operation}
    (k : CallOK cspec c c' Δ) (Q : Int) (e : String → Int)
    (vs : List Var) (zs : List Zq) (hset : ∀ v ∈ vs, SettledStr c v.name)
    (h : EnvVals e vs zs) : EnvVals (replay Q Δ e) vs zs := by
  induction h with
  | nil => exact List.Forall₂.nil
  | @cons v z vs' zs' hvz htail ih =>
      refine List.Forall₂.cons ?_
        (ih (fun u hu => hset u (List.mem_cons_of_mem v hu)))
      rw [replay_frame k Q e v.name (hset v (List.mem_cons_self v vs'))]
      exact hvz

theorem settledList_mono {c c' : Circuit} (h : c.varCounter ≤ c'.varCounter)
    {vs : List Var} (hs : ∀ v ∈ vs, SettledStr c v.name) :
    ∀ v ∈ vs, SettledStr c' v.name :=
  fun v hv => settledStr_mono h (hs v hv)

theorem nttCSpec_sqr1 (T : RootTable) : NttCSpec T "sqr1" (T.w 2 0) :=
  Or.inl ⟨rfl, rfl⟩

theorem nttCSpec_sqr1_uniq (T : RootTable) :
    ∀ v', NttCSpec T "sqr1" v' → v' = T.w 2 0 := by
  intro v' h
  rcases h with ⟨_, hv⟩ | ⟨s, i, h, _⟩ | ⟨y, h, _⟩
  · exact hv
  · exact absurd h (sqr1_ne_wName s i)
  · exact absurd h (sqr1_ne_const y)

theorem nttCSpec_w (T : RootTable) (s i : Nat) :
    NttCSpec T (wNameStr s i) (T.w s (2 * i)) :=
  Or.inr (Or.inl ⟨s, i, rfl, rfl⟩)

theorem nttCSpec_w_uniq (T : RootTable) (s i : Nat) :
    ∀ v', NttCSpec T (wNameStr s i) v' → v' = T.w s (2 * i) := by
  intro v' h
  rcases h with ⟨h, _⟩ | ⟨s', i', h, hv⟩ | ⟨y, h, _⟩
  · exact absurd h.symm (sqr1_ne_wName s i)
  · obtain ⟨hs, hi⟩ := wNameStr_inj h
    rw [hv, ← hs, ← hi]
  · exact absurd h (wName_ne_const s i y)

/-- Contract of `_ntt_base_case`. -/
theorem nttBase_contract (T : RootTable) (c : Circuit) (f0 f1 : Var)
    (hg : GInv (NttCSpec T) c)
    (h0 : SettledStr c f0.name) (h1 : SettledStr c f1.name)
    (hreg : (dictGet c.constants (T.w 2 0)).isSome) :
    ∃ Δ, CallOK (NttCSpec T) c (nttBase T f0 f1 c).2 Δ ∧
      (∀ v ∈ (nttBase T f0 f1 c).1,
        SettledStr (nttBase T f0 f1 c).2 v.name) ∧
      (c.modulus = 12289 →
        ∀ e : String → Int, EnvC (nttBase T f0 f1 c).2 e →
          ∀ z0 z1 : Zq, castZ (e f0.name) = z0 → castZ (e f1.name) = z1 →
            EnvVals (replay 12289 Δ e) (nttBase T f0 f1 c).1
              [z0 + wzT T 2 0 * z1, z0 - wzT T 2 0 * z1]) := by
  have hgood := CSpecGood_ntt T
  unfold nttBase
  have hcn : constantName (T.w 2 0) (some "sqr1") = "sqr1" := rfl
  obtain ⟨kc, hcfact⟩ := constant_contract (NttCSpec T) hgood c (T.w 2 0)
    (some "sqr1") (hcn ▸ nttCSpec_sqr1 T) (hcn ▸ nttCSpec_sqr1_uniq T) hreg
  obtain ⟨hsqv, hsqd⟩ := hcfact hg
  set sq := (c.constant (T.w 2 0) (some "sqr1")).1 with hsq
  set cc := (c.constant (T.w 2 0) (some "sqr1")).2 with hcc
  have gc : GInv (NttCSpec T) cc := (kc.2.2.2.2.2.1 hg).2
  have hsqn : sq.name = "sqr1" := congrArg Var.name hsqv
  have hsqs : SettledStr cc sq.name := by
    intro j hj
    rw [hsqn] at hj
    exact absurd hj (sqr1_ne_tmp j)
  have h1c : SettledStr cc f1.name := settledStr_mono kc.2.1 h1
  have h0c : SettledStr cc f0.name := settledStr_mono kc.2.1 h0
  obtain ⟨Δm, km, hms, hmval⟩ :=
    mul_contract (NttCSpec T) hgood cc f1 sq gc h1c hsqs
  set pm := (cc.mul f1 sq).1 with hpm
  set cm := (cc.mul f1 sq).2 with hcm
  have gm : GInv (NttCSpec T) cm := (km.2.2.2.2.2.1 gc).2
  have h0m : SettledStr cm f0.name := settledStr_mono km.2.1 h0c
  obtain ⟨Δa, ka, has, haval⟩ :=
    add_contract (NttCSpec T) hgood cm f0 pm gm h0m hms
  set pa := (cm.add f0 pm).1 with hpa
  set ca := (cm.add f0 pm).2 with hca
  have ga : GInv (NttCSpec T) ca := (ka.2.2.2.2.2.1 gm).2
  have h0a : SettledStr ca f0.name := settledStr_mono ka.2.1 h0m
  have hmsa : SettledStr ca pm.name := settledStr_mono ka.2.1 hms
  obtain ⟨Δs, ks, hss, hsval⟩ :=
    sub_contract (NttCSpec T) hgood ca f0 pm ga h0a hmsa
  set ps := (ca.sub f0 pm).1 with hps
  set cs := (ca.sub f0 pm).2 with hcs
  have gs : GInv (NttCSpec T) cs := (ks.2.2.2.2.2.1 ga).2
  have ktot : CallOK (NttCSpec T) c cs
      (([] : List Operation) ++ (Δm ++ (Δa ++ Δs))) :=
    callOK_trans kc (callOK_trans km (callOK_trans ka ks))
  refine ⟨[] ++ (Δm ++ (Δa ++ Δs)), ktot, ?_, ?_⟩
  · intro v hv
    rcases List.mem_cons.mp hv with h | h
    · exact h ▸ settledStr_mono ks.2.1 has
    · rw [List.mem_singleton] at h
      exact h ▸ hss
  · intro hmod e henv z0 z1 hz0 hz1
    have hmodc : cc.modulus = 12289 := by rw [kc.2.2.1]; exact hmod
    have hmodm : cm.modulus = 12289 := by rw [km.2.2.1]; exact hmodc
    have hmoda : ca.modulus = 12289 := by rw [ka.2.2.1]; exact hmodm
    rw [List.nil_append, replay_append, replay_append]
    set e1 := replay 12289 Δm e with he1
    set e2 := replay 12289 Δa e1 with he2
    have henv1 : EnvC cs e1 := by
      rw [he1]
      exact envC_replay_stable _ cs gs 12289 e henv Δm (callOK_results_tmp km)
    have henv2 : EnvC cs e2 := by
      rw [he2]
      exact envC_replay_stable _ cs gs 12289 e1 henv1 Δa
        (callOK_results_tmp ka)
    -- value of sq under e : the constant environment binding
    have hsqd_s : dictGet cs.vars "sqr1" =
        some ⟨"sqr1", T.w 2 0, T.w 2 0, none⟩ := by
      have m1 := (km.2.2.2.2.2.1 gc).1
      have m2 := (ka.2.2.2.2.2.1 gm).1
      have m3 := (ks.2.2.2.2.2.1 ga).1
      exact m3 _ _ (m2 _ _ (m1 _ _ (hcn ▸ hsqd)))
    have hesq : e "sqr1" = T.w 2 0 := henv _ _ hsqd_s rfl rfl
    have henv_cm : EnvC cm e :=
      envC_mono (ka.2.2.2.2.2.1 gm).1 (envC_mono (ks.2.2.2.2.2.1 ga).1 henv)
    have henv_ca1 : EnvC ca e1 := envC_mono (ks.2.2.2.2.2.1 ga).1 henv1
    have hpmval : castZ (e1 pm.name) = z1 * wzT T 2 0 := by
      rw [he1, hmval hmodc e henv_cm, hz1, hsqn, hesq]
      rfl
    have hf0e1 : e1 f0.name = e f0.name := by
      rw [he1]
      exact replay_frame km 12289 e f0.name h0c
    have hpaval : castZ (e2 pa.name) = z0 + wzT T 2 0 * z1 := by
      rw [he2, haval hmodm e1 henv_ca1, hf0e1, hz0, hpmval]
      ring
    have hf0e2 : e2 f0.name = e1 f0.name := by
      rw [he2]
      exact replay_frame ka 12289 e1 f0.name h0m
    have hpme2 : e2 pm.name = e1 pm.name := by
      rw [he2]
      exact replay_frame ka 12289 e1 pm.name hms
    have hpsval : castZ (replay 12289 Δs e2 ps.name) =
        z0 - wzT T 2 0 * z1 := by
      rw [hsval hmoda e2 henv2, hf0e2, hf0e1, hz0, hpme2, hpmval]
      ring
    have hpae3 : replay 12289 Δs e2 pa.name = e2 pa.name :=
      replay_frame ks 12289 e2 pa.name has
    refine List.Forall₂.cons ?_ (List.Forall₂.cons ?_ List.Forall₂.nil)
    · rw [hpae3]
      exact hpaval
    · exact hpsval

/-- Contract of `_merge_ntt`, by induction along the halves. -/
theorem mergeNtt_contract (T : RootTable) (size : Nat) :
    ∀ (xs ys : List Var) (i : Nat) (c : Circuit),
      GInv (NttCSpec T) c →
      (∀ v ∈ xs, SettledStr c v.name) →
      (∀ v ∈ ys, SettledStr c v.name) →
      (∀ i', 2 * i' < size →
        (dictGet c.constants (T.w size (2 * i'))).isSome) →
      2 * i + 2 * xs.length ≤ size →
      ∃ Δ, CallOK (NttCSpec T) c (mergeNtt T size i xs ys c).2 Δ ∧
        (∀ v ∈ (mergeNtt T size i xs ys c).1,
          SettledStr (mergeNtt T size i xs ys c).2 v.name) ∧
        (c.modulus = 12289 →
          ∀ e : String → Int, EnvC (mergeNtt T size i xs ys c).2 e →
          ∀ zxs zys, EnvVals e xs zxs → EnvVals e ys zys →
            EnvVals (replay 12289 Δ e) (mergeNtt T size i xs ys c).1
              (mergeZ (wzT T) size i zxs zys))
  | [], ys, i, c, hg, hsx, hsy, hreg, hbound => by
      refine ⟨[], callOK_refl _ c, by simp [mergeNtt], ?_⟩
      intro hmod e henv zxs zys hzx hzy
      cases hzx
      exact List.Forall₂.nil
  | x :: xs, [], i, c, hg, hsx, hsy, hreg, hbound => by
      refine ⟨[], callOK_refl _ c, by simp [mergeNtt], ?_⟩
      intro hmod e henv zxs zys hzx hzy
      cases hzy
      cases hzx
      exact List.Forall₂.nil
  | x :: xs, y :: ys, i, c, hg, hsx, hsy, hreg, hbound => by
      have hgood := CSpecGood_ntt T
      simp only [mergeNtt]
      have h2i : 2 * i < size := by
        simp only [List.length_cons] at hbound
        omega
      have hcn : constantName (T.w size (2 * i)) (some (wNameStr size i)) =
          wNameStr size i := rfl
      obtain ⟨kc, hcfact⟩ := constant_contract (NttCSpec T) hgood c
        (T.w size (2 * i)) (some (wNameStr size i))
        (hcn ▸ nttCSpec_w T size i) (hcn ▸ nttCSpec_w_uniq T size i)
        (hreg i h2i)
      obtain ⟨htwv, htwd⟩ := hcfact hg
      set tw := (c.constant (T.w size (2 * i)) (some (wNameStr size i))).1
        with htw
      set ct := (c.constant (T.w size (2 * i)) (some (wNameStr size i))).2
        with hct
      have gc : GInv (NttCSpec T) ct := (kc.2.2.2.2.2.1 hg).2
      have htwn : tw.name = wNameStr size i := congrArg Var.name htwv
      have htws : SettledStr ct tw.name := by
        intro j hj
        rw [htwn] at hj
        exact absurd hj (wNameStr_ne_tmp size i j)
      have hyc : SettledStr ct y.name :=
        settledStr_mono kc.2.1 (hsy y (List.mem_cons_self y ys))
      have hxc : SettledStr ct x.name :=
        settledStr_mono kc.2.1 (hsx x (List.mem_cons_self x xs))
      obtain ⟨Δm, km, hms, hmval⟩ :=
        mul_contract (NttCSpec T) hgood ct y tw gc hyc htws
      set pm := (ct.mul y tw).1 with hpm
      set cm := (ct.mul y tw).2 with hcm
      have gm : GInv (NttCSpec T) cm := (km.2.2.2.2.2.1 gc).2
      have hxm : SettledStr cm x.name := settledStr_mono km.2.1 hxc
      obtain ⟨Δa, ka, has, haval⟩ :=
        add_contract (NttCSpec T) hgood cm x pm gm hxm hms
      set pa := (cm.add x pm).1 with hpa
      set ca := (cm.add x pm).2 with hca
      have ga : GInv (NttCSpec T) ca := (ka.2.2.2.2.2.1 gm).2
      have hxa : SettledStr ca x.name := settledStr_mono ka.2.1 hxm
      have hmsa : SettledStr ca pm.name := settledStr_mono ka.2.1 hms
      obtain ⟨Δs, ks, hss, hsval⟩ :=
        sub_contract (NttCSpec T) hgood ca x pm ga hxa hmsa
      set ps := (ca.sub x pm).1 with hps
      set cs := (ca.sub x pm).2 with hcs
      have gs : GInv (NttCSpec T) cs := (ks.2.2.2.2.2.1 ga).2
      have khead : CallOK (NttCSpec T) c cs
          (([] : List Operation) ++ (Δm ++ (Δa ++ Δs))) :=
        callOK_trans kc (callOK_trans km (callOK_trans ka ks))
      have hsxs : ∀ v ∈ xs, SettledStr cs v.name :=
        settledList_mono khead.2.1
          (fun v hv => hsx v (List.mem_cons_of_mem x hv))
      have hsys : ∀ v ∈ ys, SettledStr cs v.name :=
        settledList_mono khead.2.1
          (fun v hv => hsy v (List.mem_cons_of_mem y hv))
      have hregs : ∀ i', 2 * i' < size →
          (dictGet cs.constants (T.w size (2 * i'))).isSome :=
        fun i' hi' => khead.2.2.2.2.1 _ (hreg i' hi')
      have hbound' : 2 * (i + 1) + 2 * xs.length ≤ size := by
        simp only [List.length_cons] at hbound
        omega
      obtain ⟨Δr, kr, hrs, hrval⟩ := mergeNtt_contract T size xs ys (i + 1)
        cs gs hsxs hsys hregs hbound'
      set res := mergeNtt T size (i + 1) xs ys cs with hres
      have ktot : CallOK (NttCSpec T) c res.2
          ((([] : List Operation) ++ (Δm ++ (Δa ++ Δs))) ++ Δr) :=
        callOK_trans khead kr
      refine ⟨(([] : List Operation) ++ (Δm ++ (Δa ++ Δs))) ++ Δr, ktot,
        ?_, ?_⟩
      · intro v hv
        rcases List.mem_cons.mp hv with h | hv
        · exact h ▸ settledStr_mono kr.2.1 (settledStr_mono ks.2.1 has)
        · rcases List.mem_cons.mp hv with h | hv
          · exact h ▸ settledStr_mono kr.2.1 hss
          · exact hrs v hv
      · intro hmod e henv zxs0 zys0 hzx0 hzy0
        rcases List.forall₂_cons_left_iff.mp hzx0 with
          ⟨zx, zxs, hzxh, hzxt, hzxe⟩
        rcases List.forall₂_cons_left_iff.mp hzy0 with
          ⟨zy, zys, hzyh, hzyt, hzye⟩
        subst hzxe
        subst hzye
        have hmodc : ct.modulus = 12289 := by rw [kc.2.2.1]; exact hmod
        have hmodm : cm.modulus = 12289 := by rw [km.2.2.1]; exact hmodc
        have hmoda : ca.modulus = 12289 := by rw [ka.2.2.1]; exact hmodm
        have hmods : cs.modulus = 12289 := by rw [ks.2.2.1]; exact hmoda
        rw [List.nil_append, replay_append, replay_append, replay_append]
        set e1 := replay 12289 Δm e with he1
        set e2 := replay 12289 Δa e1 with he2
        set e3 := replay 12289 Δs e2 with he3
        have gres : GInv (NttCSpec T) res.2 := (kr.2.2.2.2.2.1 gs).2
        have henv1 : EnvC res.2 e1 := by
          rw [he1]
          exact envC_replay_stable _ _ gres 12289 e henv Δm
            (callOK_results_tmp km)
        have henv2 : EnvC res.2 e2 := by
          rw [he2]
          exact envC_replay_stable _ _ gres 12289 e1 henv1 Δa
            (callOK_results_tmp ka)
        have henv3 : EnvC res.2 e3 := by
          rw [he3]
          exact envC_replay_stable _ _ gres 12289 e2 henv2 Δs
            (callOK_results_tmp ks)
        have hmono_cs : VarsMono cs res.2 := (kr.2.2.2.2.2.1 gs).1
        have htwd_s : dictGet res.2.vars (wNameStr size i) = some
            ⟨wNameStr size i, T.w size (2 * i), T.w size (2 * i), none⟩ := by
          have m1 := (km.2.2.2.2.2.1 gc).1
          have m2 := (ka.2.2.2.2.2.1 gm).1
          have m3 := (ks.2.2.2.2.2.1 ga).1
          exact hmono_cs _ _ (m3 _ _ (m2 _ _ (m1 _ _ (hcn ▸ htwd))))
        have hetw : e (wNameStr size i) = T.w size (2 * i) :=
          henv _ _ htwd_s rfl rfl
        have henv_cm : EnvC cm e :=
          envC_mono (ka.2.2.2.2.2.1 gm).1
            (envC_mono (ks.2.2.2.2.2.1 ga).1 (envC_mono hmono_cs henv))
        have henv_ca1 : EnvC ca e1 :=
          envC_mono (ks.2.2.2.2.2.1 ga).1 (envC_mono hmono_cs henv1)
        have henv_cs2 : EnvC cs e2 := envC_mono hmono_cs henv2
        have hpmval : castZ (e1 pm.name) = zy * wzT T size (2 * i) := by
          rw [he1, hmval hmodc e henv_cm, hzyh, htwn, hetw]
          rfl
        have hxe1 : e1 x.name = e x.name := by
          rw [he1]
          exact replay_frame km 12289 e x.name hxc
        have hpaval : castZ (e2 pa.name) =
            zx + wzT T size (2 * i) * zy := by
          rw [he2, haval hmodm e1 henv_ca1, hxe1, hzxh, hpmval]
          ring
        have hxe2 : e2 x.name = e1 x.name := by
          rw [he2]
          exact replay_frame ka 12289 e1 x.name hxm
        have hpme2 : e2 pm.name = e1 pm.name := by
          rw [he2]
          exact replay_frame ka 12289 e1 pm.name hms
        have hpsval : castZ (e3 ps.name) =
            zx - wzT T size (2 * i) * zy := by
          rw [he3, hsval hmoda e2 henv_cs2, hxe2, hxe1, hzxh, hpme2, hpmval]
          ring
        have hpse4 : replay 12289 Δr e3 ps.name = e3 ps.name :=
          replay_frame kr 12289 e3 ps.name hss
        have hpae3 : e3 pa.name = e2 pa.name := by
          rw [he3]
          exact replay_frame ks 12289 e2 pa.name has
        have hpae4 : replay 12289 Δr e3 pa.name = e3 pa.name :=
          replay_frame kr 12289 e3 pa.name (settledStr_mono ks.2.1 has)
        have hsxtail : ∀ v ∈ xs, SettledStr ct v.name :=
          settledList_mono kc.2.1
            (fun v hv => hsx v (List.mem_cons_of_mem x hv))
        have hsytail : ∀ v ∈ ys, SettledStr ct v.name :=
          settledList_mono kc.2.1
            (fun v hv => hsy v (List.mem_cons_of_mem y hv))
        have hxs3 : EnvVals e3 xs zxs := by
          rw [he3]
          apply envVals_frame ks 12289 e2 xs zxs
            (settledList_mono ka.2.1 (settledList_mono km.2.1 hsxtail))
          rw [he2]
          apply envVals_frame ka 12289 e1 xs zxs
            (settledList_mono km.2.1 hsxtail)
          rw [he1]
          exact envVals_frame km 12289 e xs zxs hsxtail hzxt
        have hys3 : EnvVals e3 ys zys := by
          rw [he3]
          apply envVals_frame ks 12289 e2 ys zys
            (settledList_mono ka.2.1 (settledList_mono km.2.1 hsytail))
          rw [he2]
          apply envVals_frame ka 12289 e1 ys zys
            (settledList_mono km.2.1 hsytail)
          rw [he1]
          exact envVals_frame km 12289 e ys zys hsytail hzyt
        have htail := hrval hmods e3 henv3 zxs zys hxs3 hys3
        show EnvVals (replay 12289 Δr e3) (pa :: ps :: res.1)
          ((zx + wzT T size (2 * i) * zy) ::
            (zx - wzT T size (2 * i) * zy) ::
            mergeZ (wzT T) size (i + 1) zxs zys)
        refine List.Forall₂.cons ?_ (List.Forall₂.cons ?_ htail)
        · rw [hpae4, hpae3]
          exact hpaval
        · rw [hpse4]
          exact hpsval

/-! ## Even/odd splitting -/

theorem evens_length {α : Type} :
    ∀ l : List α, (evens l).length = (l.length + 1) / 2
  | [] => by simp [evens]
  | [x] => by simp [evens]
  | x :: y :: rest => by
      simp only [evens, List.length_cons, evens_length rest]
      omega

theorem odds_length {α : Type} :
    ∀ l : List α, (odds l).length = l.length / 2
  | [] => by simp [odds]
  | [x] => by simp [odds]
  | x :: y :: rest => by
      simp only [odds, List.length_cons, odds_length rest]
      omega

theorem nttZ_succ (wz : Nat → Nat → Zq) (fuel : Nat) (xs : List Zq) :
    nttZ wz (fuel + 1) xs =
      if xs.length = 2 then
        (match xs with
         | [x0, x1] => [x0 + wz 2 0 * x1, x0 - wz 2 0 * x1]
         | _ => [])
      else if 2 < xs.length then
        mergeZ wz xs.length 0 (nttZ wz fuel (evens xs))
          (nttZ wz fuel (odds xs))
      else [] := rfl

theorem nttRecF_succ (T : RootTable) (fuel : Nat) (f : List Var)
    (c : Circuit) :
    nttRecF T (fuel + 1) f c =
      if f.length = 2 then
        (match f with
         | [f0, f1] => nttBase T f0 f1 c
         | _ => ([], c))
      else if 2 < f.length then
        mergeNtt T f.length 0 (nttRecF T fuel (evens f) c).1
          (nttRecF T fuel (odds f) (nttRecF T fuel (evens f) c).2).1
          (nttRecF T fuel (odds f) (nttRecF T fuel (evens f) c).2).2
      else ([], c) := rfl

theorem evens_mem {α : Type} :
    ∀ (l : List α) (v : α), v ∈ evens l → v ∈ l
  | [], v, h => h
  | [x], v, h => h
  | x :: y :: rest, v, h => by
      simp only [evens, List.mem_cons] at h ⊢
      rcases h with h | h
      · exact Or.inl h
      · exact Or.inr (Or.inr (evens_mem rest v h))

theorem odds_mem {α : Type} :
    ∀ (l : List α) (v : α), v ∈ odds l → v ∈ l
  | [], v, h => by simp [odds] at h
  | [x], v, h => by simp [odds] at h
  | x :: y :: rest, v, h => by
      simp only [odds, List.mem_cons] at h ⊢
      rcases h with h | h
      · exact Or.inr (Or.inl h)
      · exact Or.inr (Or.inr (odds_mem rest v h))

theorem forall₂_evens {α β : Type} {R : α → β → Prop} :
    ∀ {xs : List α} {ys : List β}, List.Forall₂ R xs ys →
      List.Forall₂ R (evens xs) (evens ys)
  | _, _, List.Forall₂.nil => List.Forall₂.nil
  | _, _, List.Forall₂.cons h List.Forall₂.nil => List.Forall₂.cons h
      List.Forall₂.nil
  | _, _, List.Forall₂.cons h (List.Forall₂.cons _ htail) =>
      List.Forall₂.cons h (forall₂_evens htail)

theorem forall₂_odds {α β : Type} {R : α → β → Prop} :
    ∀ {xs : List α} {ys : List β}, List.Forall₂ R xs ys →
      List.Forall₂ R (odds xs) (odds ys)
  | _, _, List.Forall₂.nil => List.Forall₂.nil
  | _, _, List.Forall₂.cons _ List.Forall₂.nil => List.Forall₂.nil
  | _, _, List.Forall₂.cons _ (List.Forall₂.cons h htail) =>
      List.Forall₂.cons h (forall₂_odds htail)

theorem mergeNtt_len (T : RootTable) (size : Nat) :
    ∀ (i : Nat) (xs ys : List Var) (c : Circuit),
      (mergeNtt T size i xs ys c).1.length = 2 * min xs.length ys.length
  | i, [], ys, c => by simp [mergeNtt]
  | i, x :: xs, [], c => by simp [mergeNtt]
  | i, x :: xs, y :: ys, c => by
      simp only [mergeNtt, List.length_cons]
      rw [mergeNtt_len T size (i + 1) xs ys]
      omega

/-- Contract of the `_ntt` recursion (fuel-run form). -/
theorem nttRecF_contract (T : RootTable) (n : Nat) :
    ∀ (fuel k : Nat) (f : List Var) (c : Circuit),
      f.length = 2 ^ (k + 1) →
      f.length ≤ fuel →
      f.length ≤ n →
      GInv (NttCSpec T) c →
      (∀ v ∈ f, SettledStr c v.name) →
      (dictGet c.constants (T.w 2 0)).isSome →
      RootsReg T c n →
      ∃ Δ, CallOK (NttCSpec T) c (nttRecF T fuel f c).2 Δ ∧
        (nttRecF T fuel f c).1.length = f.length ∧
        (∀ v ∈ (nttRecF T fuel f c).1,
          SettledStr (nttRecF T fuel f c).2 v.name) ∧
        (c.modulus = 12289 →
          ∀ e : String → Int, EnvC (nttRecF T fuel f c).2 e →
          ∀ zf, EnvVals e f zf →
            EnvVals (replay 12289 Δ e) (nttRecF T fuel f c).1
              (nttZ (wzT T) fuel zf))
  | 0, k, f, c, hlen, hfuel, _, _, _, _, _ => by
      exfalso
      have : 0 < 2 ^ (k + 1) := Nat.pos_pow_of_pos _ (by omega)
      omega
  | fuel + 1, k, f, c, hlen, hfuel, hn, hg, hset, hsqr1, hroots => by
      by_cases hl2 : f.length = 2
      · match f, hl2 with
        | [f0, f1], _ =>
          have hrw : nttRecF T (fuel + 1) [f0, f1] c = nttBase T f0 f1 c := by
            simp [nttRecF]
          rw [hrw]
          obtain ⟨Δ, kb, hbs, hbval⟩ := nttBase_contract T c f0 f1 hg
            (hset f0 (by simp)) (hset f1 (by simp)) hsqr1
          refine ⟨Δ, kb, ?_, hbs, ?_⟩
          · simp [nttBase]
          · intro hmod e henv zf hzf
            rcases List.forall₂_cons_left_iff.mp hzf with
              ⟨z0, zf1, hz0, hzf1, hze⟩
            rcases List.forall₂_cons_left_iff.mp hzf1 with
              ⟨z1, zf2, hz1, hzf2, hze1⟩
            cases hzf2
            subst hze1
            subst hze
            have hval := hbval hmod e henv z0 z1 hz0 hz1
            have hnz : nttZ (wzT T) (fuel + 1) [z0, z1] =
                [z0 + wzT T 2 0 * z1, z0 - wzT T 2 0 * z1] := by
              simp [nttZ]
            rw [hnz]
            exact hval
      · by_cases hl2' : 2 < f.length
        · have hk1 : 1 ≤ k := by
            by_contra hk
            push_neg at hk
            interval_cases k
            omega
          have hrw : nttRecF T (fuel + 1) f c =
              mergeNtt T f.length 0
                (nttRecF T fuel (evens f) c).1
                (nttRecF T fuel (odds f) (nttRecF T fuel (evens f) c).2).1
                (nttRecF T fuel (odds f) (nttRecF T fuel (evens f) c).2).2 := by
            rw [nttRecF_succ, if_neg hl2, if_pos hl2']
          rw [hrw]
          have hev_len : (evens f).length = 2 ^ k := by
            rw [evens_length, hlen]
            have : 2 ^ (k + 1) = 2 * 2 ^ k := by ring
            omega
          have hod_len : (odds f).length = 2 ^ k := by
            rw [odds_length, hlen]
            have : 2 ^ (k + 1) = 2 * 2 ^ k := by ring
            omega
          have hpow_lt : 2 ^ k < 2 ^ (k + 1) := by
            have : 2 ^ (k + 1) = 2 * 2 ^ k := by ring
            have hp : 0 < 2 ^ k := Nat.pos_pow_of_pos _ (by omega)
            omega
          have hk' : (evens f).length = 2 ^ ((k - 1) + 1) := by
            rw [hev_len]
            congr 1
            omega
          have hk'' : (odds f).length = 2 ^ ((k - 1) + 1) := by
            rw [hod_len]
            congr 1
            omega
          obtain ⟨Δ0, k0, hlen0, hset0, hval0⟩ :=
            nttRecF_contract T n fuel (k - 1) (evens f) c hk'
              (by rw [hev_len]; omega) (by rw [hev_len]; omega) hg
              (fun v hv => hset v (evens_mem f v hv)) hsqr1 hroots
          set r0 := nttRecF T fuel (evens f) c with hr0
          have g0 : GInv (NttCSpec T) r0.2 := (k0.2.2.2.2.2.1 hg).2
          have hsqr1' : (dictGet r0.2.constants (T.w 2 0)).isSome :=
            k0.2.2.2.2.1 _ hsqr1
          have hroots' : RootsReg T r0.2 n :=
            fun s i h4 hsn hpow hlt =>
              k0.2.2.2.2.1 _ (hroots s i h4 hsn hpow hlt)
          obtain ⟨Δ1, k1, hlen1, hset1, hval1⟩ :=
            nttRecF_contract T n fuel (k - 1) (odds f) r0.2 hk''
              (by rw [hod_len]; omega) (by rw [hod_len]; omega) g0
              (fun v hv => settledStr_mono k0.2.1
                (hset v (odds_mem f v hv))) hsqr1' hroots'
          set r1 := nttRecF T fuel (odds f) r0.2 with hr1
          have g1 : GInv (NttCSpec T) r1.2 := (k1.2.2.2.2.2.1 g0).2
          have hroots'' : RootsReg T r1.2 n :=
            fun s i h4 hsn hpow hlt =>
              k1.2.2.2.2.1 _ (hroots' s i h4 hsn hpow hlt)
          have hregsize : ∀ i', 2 * i' < f.length →
              (dictGet r1.2.constants (T.w f.length (2 * i'))).isSome := by
            intro i' hi'
            apply hroots'' f.length i' ?_ hn ⟨k + 1, hlen⟩ hi'
            rw [hlen]
            have : (4 : Nat) = 2 ^ 2 := by norm_num
            rw [this]
            exact Nat.pow_le_pow_right (by omega) (by omega)
          obtain ⟨Δ2, k2, hmset, hmval⟩ :=
            mergeNtt_contract T f.length r0.1 r1.1 0 r1.2 g1
              (fun v hv => settledStr_mono k1.2.1 (hset0 v hv))
              (fun v hv => hset1 v hv) hregsize
              (by rw [hlen0, hev_len]; omega)
          refine ⟨Δ0 ++ (Δ1 ++ Δ2),
            callOK_trans k0 (callOK_trans k1 k2), ?_, hmset, ?_⟩
          · rw [mergeNtt_len, hlen0, hlen1, hev_len, hod_len, hlen]
            have : 2 ^ (k + 1) = 2 * 2 ^ k := by ring
            omega
          · intro hmod e henv zf hzf
            have hmod0 : r0.2.modulus = 12289 := by
              rw [k0.2.2.1]; exact hmod
            have hmod1 : r1.2.modulus = 12289 := by
              rw [k1.2.2.1]; exact hmod0
            rw [replay_append, replay_append]
            set e1 := replay 12289 Δ0 e with he1
            set e2 := replay 12289 Δ1 e1 with he2
            set mres := mergeNtt T f.length 0 r0.1 r1.1 r1.2 with hmres
            have gm : GInv (NttCSpec T) mres.2 := (k2.2.2.2.2.2.1 g1).2
            have henv1 : EnvC mres.2 e1 := by
              rw [he1]
              exact envC_replay_stable _ _ gm 12289 e henv Δ0
                (callOK_results_tmp k0)
            have henv2 : EnvC mres.2 e2 := by
              rw [he2]
              exact envC_replay_stable _ _ gm 12289 e1 henv1 Δ1
                (callOK_results_tmp k1)
            have henv_r0 : EnvC r0.2 e :=
              envC_mono (k1.2.2.2.2.2.1 g0).1
                (envC_mono (k2.2.2.2.2.2.1 g1).1 henv)
            have henv_r1 : EnvC r1.2 e1 :=
              envC_mono (k2.2.2.2.2.2.1 g1).1 henv1
            have hv0 := hval0 hmod e henv_r0 (evens zf) (forall₂_evens hzf)
            have hzf1 : EnvVals e1 (odds f) (odds zf) := by
              rw [he1]
              exact envVals_frame k0 12289 e _ _
                (fun v hv => hset v (odds_mem f v hv)) (forall₂_odds hzf)
            have hv1 := hval1 hmod0 e1 henv_r1 (odds zf) hzf1
            have hv0' : EnvVals e2 r0.1 (nttZ (wzT T) fuel (evens zf)) := by
              rw [he2]
              apply envVals_frame k1 12289 e1 _ _ hset0
              rw [he1]
              exact hv0
            have hv1' : EnvVals e2 r1.1 (nttZ (wzT T) fuel (odds zf)) := by
              rw [he2]
              exact hv1
            have hfinal := hmval hmod1 e2 henv2 _ _ hv0' hv1'
            have hzflen : zf.length = f.length :=
              (List.Forall₂.length_eq hzf).symm
            have hnz : nttZ (wzT T) (fuel + 1) zf =
                mergeZ (wzT T) f.length 0 (nttZ (wzT T) fuel (evens zf))
                  (nttZ (wzT T) fuel (odds zf)) := by
              rw [nttZ_succ, if_neg (by omega), if_pos (by omega), hzflen]
            rw [hnz]
            exact hfinal
        · exfalso
          have hp : 2 ≤ 2 ^ (k + 1) := by
            have : (2 : Nat) = 2 ^ 1 := by norm_num
            rw [this]
            exact Nat.pow_le_pow_right (by omega) (by omega)
          omega

/-! ## INTT correspondence -/

theorem inttCSpec_i2 (T : RootTable) : InttCSpec T "i2" inttI2 :=
  Or.inl ⟨rfl, rfl⟩

theorem inttCSpec_i2_uniq (T : RootTable) :
    ∀ v', InttCSpec T "i2" v' → v' = inttI2 := by
  intro v' h
  rcases h with ⟨_, hv⟩ | ⟨h, _⟩ | ⟨s, i, h, _⟩ | ⟨y, h, _⟩
  · exact hv
  · exact absurd h.symm i2_ne_invsqr1.symm
  · exact absurd h (i2_ne_invwName s i)
  · exact absurd h (i2_ne_const y)

theorem inttCSpec_invsqr1 (T : RootTable) :
    InttCSpec T "inv_sqr1" (T.invw (T.w 2 0)) :=
  Or.inr (Or.inl ⟨rfl, rfl⟩)

theorem inttCSpec_invsqr1_uniq (T : RootTable) :
    ∀ v', InttCSpec T "inv_sqr1" v' → v' = T.invw (T.w 2 0) := by
  intro v' h
  rcases h with ⟨h, _⟩ | ⟨_, hv⟩ | ⟨s, i, h, _⟩ | ⟨y, h, _⟩
  · exact absurd h.symm i2_ne_invsqr1
  · exact hv
  · exact absurd h (invsqr1_ne_invwName s i)
  · exact absurd h (invsqr1_ne_const y)

theorem inttCSpec_invw (T : RootTable) (s i : Nat) :
    InttCSpec T (invwNameStr s i) (T.invw (T.w s (2 * i))) :=
  Or.inr (Or.inr (Or.inl ⟨s, i, rfl, rfl⟩))

theorem inttCSpec_invw_uniq (T : RootTable) (s i : Nat) :
    ∀ v', InttCSpec T (invwNameStr s i) v' → v' = T.invw (T.w s (2 * i)) := by
  intro v' h
  rcases h with ⟨h, _⟩ | ⟨h, _⟩ | ⟨s', i', h, hv⟩ | ⟨y, h, _⟩
  · exact absurd h.symm (i2_ne_invwName s i)
  · exact absurd h.symm (invsqr1_ne_invwName s i)
  · obtain ⟨hs, hi⟩ := invwNameStr_inj h
    rw [hv, ← hs, ← hi]
  · exact absurd h (invwName_ne_const s i y)

/-- Contract of `_intt_base_case`. -/
theorem inttBase_contract (T : RootTable) (c : Circuit) (f0 f1 : Var)
    (hg : GInv (InttCSpec T) c)
    (h0 : SettledStr c f0.name) (h1 : SettledStr c f1.name)
    (hregI2 : (dictGet c.constants inttI2).isSome)
    (hregIS : (dictGet c.constants (T.invw (T.w 2 0))).isSome) :
    ∃ Δ, CallOK (InttCSpec T) c (inttBase T f0 f1 c).2 Δ ∧
      (∀ v ∈ (inttBase T f0 f1 c).1,
        SettledStr (inttBase T f0 f1 c).2 v.name) ∧
      (c.modulus = 12289 →
        ∀ e : String → Int, EnvC (inttBase T f0 f1 c).2 e →
          ∀ z0 z1 : Zq, castZ (e f0.name) = z0 → castZ (e f1.name) = z1 →
            EnvVals (replay 12289 Δ e) (inttBase T f0 f1 c).1
              [castZ inttI2 * (z0 + z1),
               castZ inttI2 * (castZ (T.invw (T.w 2 0)) * (z0 - z1))]) := by
  have hgood := CSpecGood_intt T
  unfold inttBase
  have hcn : constantName inttI2 (some "i2") = "i2" := rfl
  obtain ⟨ki, hifact⟩ := constant_contract (InttCSpec T) hgood c inttI2
    (some "i2") (hcn ▸ inttCSpec_i2 T) (hcn ▸ inttCSpec_i2_uniq T) hregI2
  obtain ⟨hi2v, hi2d⟩ := hifact hg
  set i2v := (c.constant inttI2 (some "i2")).1 with hi2
  set ci := (c.constant inttI2 (some "i2")).2 with hci
  have gi : GInv (InttCSpec T) ci := (ki.2.2.2.2.2.1 hg).2
  have hi2n : i2v.name = "i2" := congrArg Var.name hi2v
  have hi2s : SettledStr ci i2v.name := by
    intro j hj
    rw [hi2n] at hj
    exact absurd hj (i2_ne_tmp j)
  have hcn2 : constantName (T.invw (T.w 2 0)) (some "inv_sqr1") =
      "inv_sqr1" := rfl
  obtain ⟨kv, hvfact⟩ := constant_contract (InttCSpec T) hgood ci
    (T.invw (T.w 2 0)) (some "inv_sqr1") (hcn2 ▸ inttCSpec_invsqr1 T)
    (hcn2 ▸ inttCSpec_invsqr1_uniq T) (ki.2.2.2.2.1 _ hregIS)
  obtain ⟨hisv, hisd⟩ := hvfact gi
  set isv := (ci.constant (T.invw (T.w 2 0)) (some "inv_sqr1")).1 with his
  set cv := (ci.constant (T.invw (T.w 2 0)) (some "inv_sqr1")).2 with hcv
  have gv : GInv (InttCSpec T) cv := (kv.2.2.2.2.2.1 gi).2
  have hisn : isv.name = "inv_sqr1" := congrArg Var.name hisv
  have hiss : SettledStr cv isv.name := by
    intro j hj
    rw [hisn] at hj
    exact absurd hj (invsqr1_ne_tmp j)
  have hi2sv : SettledStr cv i2v.name := settledStr_mono kv.2.1 hi2s
  have h0v : SettledStr cv f0.name :=
    settledStr_mono kv.2.1 (settledStr_mono ki.2.1 h0)
  have h1v : SettledStr cv f1.name :=
    settledStr_mono kv.2.1 (settledStr_mono ki.2.1 h1)
  obtain ⟨Δa, ka, has, haval⟩ :=
    add_contract (InttCSpec T) hgood cv f0 f1 gv h0v h1v
  set pa := (cv.add f0 f1).1 with hpa
  set ca := (cv.add f0 f1).2 with hca
  have ga : GInv (InttCSpec T) ca := (ka.2.2.2.2.2.1 gv).2
  obtain ⟨Δs, ks, hss, hsval⟩ :=
    sub_contract (InttCSpec T) hgood ca f0 f1 ga
      (settledStr_mono ka.2.1 h0v) (settledStr_mono ka.2.1 h1v)
  set ps := (ca.sub f0 f1).1 with hps
  set cs := (ca.sub f0 f1).2 with hcs
  have gs : GInv (InttCSpec T) cs := (ks.2.2.2.2.2.1 ga).2
  obtain ⟨Δ0, k0, h0s, h0val⟩ :=
    mul_contract (InttCSpec T) hgood cs i2v pa gs
      (settledStr_mono ks.2.1 (settledStr_mono ka.2.1 hi2sv))
      (settledStr_mono ks.2.1 has)
  set p0 := (cs.mul i2v pa).1 with hp0
  set c0 := (cs.mul i2v pa).2 with hc0
  have g0 : GInv (InttCSpec T) c0 := (k0.2.2.2.2.2.1 gs).2
  obtain ⟨Δd, kd, hds, hdval⟩ :=
    mul_contract (InttCSpec T) hgood c0 isv ps g0
      (settledStr_mono k0.2.1 (settledStr_mono ks.2.1
        (settledStr_mono ka.2.1 hiss)))
      (settledStr_mono k0.2.1 hss)
  set pd := (c0.mul isv ps).1 with hpd
  set cd := (c0.mul isv ps).2 with hcd
  have gd : GInv (InttCSpec T) cd := (kd.2.2.2.2.2.1 g0).2
  obtain ⟨Δ1, k1, h1s, h1val⟩ :=
    mul_contract (InttCSpec T) hgood cd i2v pd gd
      (settledStr_mono kd.2.1 (settledStr_mono k0.2.1
        (settledStr_mono ks.2.1 (settledStr_mono ka.2.1 hi2sv)))) hds
  set p1 := (cd.mul i2v pd).1 with hp1
  set c1 := (cd.mul i2v pd).2 with hc1
  have g1 : GInv (InttCSpec T) c1 := (k1.2.2.2.2.2.1 gd).2
  have ktot : CallOK (InttCSpec T) c c1
      (([] : List Operation) ++ (([] : List Operation) ++
        (Δa ++ (Δs ++ (Δ0 ++ (Δd ++ Δ1)))))) :=
    callOK_trans ki (callOK_trans kv (callOK_trans ka (callOK_trans ks
      (callOK_trans k0 (callOK_trans kd k1)))))
  refine ⟨_, ktot, ?_, ?_⟩
  · intro v hv
    rcases List.mem_cons.mp hv with h | hv
    · exact h ▸ settledStr_mono k1.2.1 (settledStr_mono kd.2.1 h0s)
    · rw [List.mem_singleton] at hv
      exact hv ▸ h1s
  · intro hmod e henv z0 z1 hz0 hz1
    have hmodi : ci.modulus = 12289 := by rw [ki.2.2.1]; exact hmod
    have hmodv : cv.modulus = 12289 := by rw [kv.2.2.1]; exact hmodi
    have hmoda : ca.modulus = 12289 := by rw [ka.2.2.1]; exact hmodv
    have hmods : cs.modulus = 12289 := by rw [ks.2.2.1]; exact hmoda
    have hmod0 : c0.modulus = 12289 := by rw [k0.2.2.1]; exact hmods
    have hmodd : cd.modulus = 12289 := by rw [kd.2.2.1]; exact hmod0
    rw [List.nil_append, List.nil_append, replay_append, replay_append,
      replay_append, replay_append]
    set e1 := replay 12289 Δa e with he1
    set e2 := replay 12289 Δs e1 with he2
    set e3 := replay 12289 Δ0 e2 with he3
    set e4 := replay 12289 Δd e3 with he4
    have henv1 : EnvC c1 e1 := by
      rw [he1]
      exact envC_replay_stable _ _ g1 12289 e henv Δa (callOK_results_tmp ka)
    have henv2 : EnvC c1 e2 := by
      rw [he2]
      exact envC_replay_stable _ _ g1 12289 e1 henv1 Δs
        (callOK_results_tmp ks)
    have henv3 : EnvC c1 e3 := by
      rw [he3]
      exact envC_replay_stable _ _ g1 12289 e2 henv2 Δ0
        (callOK_results_tmp k0)
    have henv4 : EnvC c1 e4 := by
      rw [he4]
      exact envC_replay_stable _ _ g1 12289 e3 henv3 Δd
        (callOK_results_tmp kd)
    have hi2dict : dictGet c1.vars "i2" =
        some ⟨"i2", inttI2, inttI2, none⟩ := by
      have m1 := (kv.2.2.2.2.2.1 gi).1
      have m2 := (ka.2.2.2.2.2.1 gv).1
      have m3 := (ks.2.2.2.2.2.1 ga).1
      have m4 := (k0.2.2.2.2.2.1 gs).1
      have m5 := (kd.2.2.2.2.2.1 g0).1
      have m6 := (k1.2.2.2.2.2.1 gd).1
      exact m6 _ _ (m5 _ _ (m4 _ _ (m3 _ _ (m2 _ _ (m1 _ _ (hcn ▸ hi2d))))))
    have hisdict : dictGet c1.vars "inv_sqr1" = some
        ⟨"inv_sqr1", T.invw (T.w 2 0), T.invw (T.w 2 0), none⟩ := by
      have m2 := (ka.2.2.2.2.2.1 gv).1
      have m3 := (ks.2.2.2.2.2.1 ga).1
      have m4 := (k0.2.2.2.2.2.1 gs).1
      have m5 := (kd.2.2.2.2.2.1 g0).1
      have m6 := (k1.2.2.2.2.2.1 gd).1
      exact m6 _ _ (m5 _ _ (m4 _ _ (m3 _ _ (m2 _ _ (hcn2 ▸ hisd)))))
    have hmono_cv : VarsMono cv c1 := by
      have m3 := (ka.2.2.2.2.2.1 gv).1
      have m4 := (ks.2.2.2.2.2.1 ga).1
      have m5 := (k0.2.2.2.2.2.1 gs).1
      have m6 := (kd.2.2.2.2.2.1 g0).1
      have m7 := (k1.2.2.2.2.2.1 gd).1
      exact varsMono_trans m3 (varsMono_trans m4 (varsMono_trans m5
        (varsMono_trans m6 m7)))
    -- environment values of the two constants, at every stage
    have hei2 : ∀ eA : String → Int, EnvC c1 eA → eA "i2" = inttI2 :=
      fun eA hA => hA _ _ hi2dict rfl rfl
    have heis : ∀ eA : String → Int, EnvC c1 eA →
        eA "inv_sqr1" = T.invw (T.w 2 0) :=
      fun eA hA => hA _ _ hisdict rfl rfl
    have henv_cv : EnvC ca e :=
      envC_mono (ks.2.2.2.2.2.1 ga).1 (envC_mono (k0.2.2.2.2.2.1 gs).1
        (envC_mono (kd.2.2.2.2.2.1 g0).1
          (envC_mono (k1.2.2.2.2.2.1 gd).1 henv)))
    have hpaval : castZ (e1 pa.name) = z0 + z1 := by
      rw [he1, haval hmodv e henv_cv, hz0, hz1]
    have hf0e1 : e1 f0.name = e f0.name := by
      rw [he1]
      exact replay_frame ka 12289 e f0.name h0v
    have hf1e1 : e1 f1.name = e f1.name := by
      rw [he1]
      exact replay_frame ka 12289 e f1.name h1v
    have henv_cs1 : EnvC cs e1 :=
      envC_mono (k0.2.2.2.2.2.1 gs).1 (envC_mono (kd.2.2.2.2.2.1 g0).1
        (envC_mono (k1.2.2.2.2.2.1 gd).1 henv1))
    have hpsval : castZ (e2 ps.name) = z0 - z1 := by
      rw [he2, hsval hmoda e1 henv_cs1, hf0e1, hf1e1, hz0, hz1]
    have hpae2 : e2 pa.name = e1 pa.name := by
      rw [he2]
      exact replay_frame ks 12289 e1 pa.name has
    have henv_c01 : EnvC c0 e2 :=
      envC_mono (kd.2.2.2.2.2.1 g0).1
        (envC_mono (k1.2.2.2.2.2.1 gd).1 henv2)
    have hp0val : castZ (e3 p0.name) = castZ inttI2 * (z0 + z1) := by
      rw [he3, h0val hmods e2 henv_c01, hi2n, hei2 e2 henv2, hpae2, hpaval]
    have hpse3 : e3 ps.name = e2 ps.name := by
      rw [he3]
      exact replay_frame k0 12289 e2 ps.name hss
    have henv_cd3 : EnvC cd e3 :=
      envC_mono (k1.2.2.2.2.2.1 gd).1 henv3
    have hpdval : castZ (e4 pd.name) =
        castZ (T.invw (T.w 2 0)) * (z0 - z1) := by
      rw [he4, hdval hmod0 e3 henv_cd3, hisn, heis e3 henv3, hpse3, hpsval]
    have hp0e4 : e4 p0.name = e3 p0.name := by
      rw [he4]
      exact replay_frame kd 12289 e3 p0.name h0s
    have hp1val : castZ (replay 12289 Δ1 e4 p1.name) =
        castZ inttI2 * (castZ (T.invw (T.w 2 0)) * (z0 - z1)) := by
      rw [h1val hmodd e4 henv4, hi2n, hei2 e4 henv4, hpdval]
    have hp0fin : replay 12289 Δ1 e4 p0.name = e4 p0.name :=
      replay_frame k1 12289 e4 p0.name (settledStr_mono kd.2.1 h0s)
    refine List.Forall₂.cons ?_ (List.Forall₂.cons ?_ List.Forall₂.nil)
    · rw [hp0fin, hp0e4]
      exact hp0val
    · exact hp1val

/-- Contract of the `_split_ntt` pairwise loop. -/
theorem splitNttLoop_contract (T : RootTable) (size : Nat) :
    ∀ (fs : List Var) (i : Nat) (c : Circuit) (i2v : Var),
      GInv (InttCSpec T) c →
      (∀ v ∈ fs, SettledStr c v.name) →
      i2v.name = "i2" →
      dictGet c.vars "i2" = some ⟨"i2", inttI2, inttI2, none⟩ →
      (∀ i', 2 * i' < size →
        (dictGet c.constants (T.invw (T.w size (2 * i')))).isSome) →
      2 * i + fs.length ≤ size →
      ∃ Δ, CallOK (InttCSpec T) c (splitNttLoop T size i2v i fs c).2 Δ ∧
        (∀ v ∈ (splitNttLoop T size i2v i fs c).1.1,
          SettledStr (splitNttLoop T size i2v i fs c).2 v.name) ∧
        (∀ v ∈ (splitNttLoop T size i2v i fs c).1.2,
          SettledStr (splitNttLoop T size i2v i fs c).2 v.name) ∧
        (splitNttLoop T size i2v i fs c).1.1.length = fs.length / 2 ∧
        (splitNttLoop T size i2v i fs c).1.2.length = fs.length / 2 ∧
        (c.modulus = 12289 →
          ∀ e : String → Int, EnvC (splitNttLoop T size i2v i fs c).2 e →
          ∀ zs, EnvVals e fs zs →
            EnvVals (replay 12289 Δ e) (splitNttLoop T size i2v i fs c).1.1
              (splitZ (castZ inttI2) (invwzT T) size i zs).1 ∧
            EnvVals (replay 12289 Δ e) (splitNttLoop T size i2v i fs c).1.2
              (splitZ (castZ inttI2) (invwzT T) size i zs).2)
  | [], i, c, i2v, hg, hset, hi2n, hi2d, hreg, hbound => by
      refine ⟨[], callOK_refl _ c, by simp [splitNttLoop],
        by simp [splitNttLoop], by simp [splitNttLoop],
        by simp [splitNttLoop], ?_⟩
      intro hmod e henv zs hzs
      cases hzs
      exact ⟨List.Forall₂.nil, List.Forall₂.nil⟩
  | [x], i, c, i2v, hg, hset, hi2n, hi2d, hreg, hbound => by
      refine ⟨[], callOK_refl _ c, by simp [splitNttLoop],
        by simp [splitNttLoop], by simp [splitNttLoop],
        by simp [splitNttLoop], ?_⟩
      intro hmod e henv zs hzs
      rcases List.forall₂_cons_left_iff.mp hzs with ⟨z, zs', hz, hzs', hze⟩
      cases hzs'
      subst hze
      exact ⟨List.Forall₂.nil, List.Forall₂.nil⟩
  | x :: y :: rest, i, c, i2v, hg, hset, hi2n, hi2d, hreg, hbound => by
      have hgood := CSpecGood_intt T
      simp only [splitNttLoop]
      have h2i : 2 * i < size := by
        simp only [List.length_cons] at hbound
        omega
      have hi2s : SettledStr c i2v.name := by
        intro j hj
        rw [hi2n] at hj
        exact absurd hj (i2_ne_tmp j)
      have hcn : constantName (T.invw (T.w size (2 * i)))
          (some (invwNameStr size i)) = invwNameStr size i := rfl
      obtain ⟨kc, hcfact⟩ := constant_contract (InttCSpec T) hgood c
        (T.invw (T.w size (2 * i))) (some (invwNameStr size i))
        (hcn ▸ inttCSpec_invw T size i) (hcn ▸ inttCSpec_invw_uniq T size i)
        (hreg i h2i)
      obtain ⟨htwv, htwd⟩ := hcfact hg
      set tw := (c.constant (T.invw (T.w size (2 * i)))
        (some (invwNameStr size i))).1 with htw
      set ct := (c.constant (T.invw (T.w size (2 * i)))
        (some (invwNameStr size i))).2 with hct
      have gc : GInv (InttCSpec T) ct := (kc.2.2.2.2.2.1 hg).2
      have htwn : tw.name = invwNameStr size i := congrArg Var.name htwv
      have htws : SettledStr ct tw.name := by
        intro j hj
        rw [htwn] at hj
        exact absurd hj (invwNameStr_ne_tmp size i j)
      have hxc : SettledStr ct x.name :=
        settledStr_mono kc.2.1 (hset x (List.mem_cons_self x _))
      have hyc : SettledStr ct y.name :=
        settledStr_mono kc.2.1
          (hset y (List.mem_cons_of_mem x (List.mem_cons_self y rest)))
      have hi2c : SettledStr ct i2v.name := settledStr_mono kc.2.1 hi2s
      obtain ⟨Δa, ka, has, haval⟩ :=
        add_contract (InttCSpec T) hgood ct x y gc hxc hyc
      set pa := (ct.add x y).1 with hpa
      set ca := (ct.add x y).2 with hca
      have ga : GInv (InttCSpec T) ca := (ka.2.2.2.2.2.1 gc).2
      obtain ⟨Δs, ks, hss, hsval⟩ :=
        sub_contract (InttCSpec T) hgood ca x y ga
          (settledStr_mono ka.2.1 hxc) (settledStr_mono ka.2.1 hyc)
      set ps := (ca.sub x y).1 with hps
      set cs := (ca.sub x y).2 with hcs
      have gs : GInv (InttCSpec T) cs := (ks.2.2.2.2.2.1 ga).2
      obtain ⟨Δ0, k0, h0s, h0val⟩ :=
        mul_contract (InttCSpec T) hgood cs i2v pa gs
          (settledStr_mono ks.2.1 (settledStr_mono ka.2.1 hi2c))
          (settledStr_mono ks.2.1 has)
      set p0 := (cs.mul i2v pa).1 with hp0
      set c0 := (cs.mul i2v pa).2 with hc0
      have g0 : GInv (InttCSpec T) c0 := (k0.2.2.2.2.2.1 gs).2
      obtain ⟨Δd, kd, hds, hdval⟩ :=
        mul_contract (InttCSpec T) hgood c0 ps tw g0
          (settledStr_mono k0.2.1 hss)
          (settledStr_mono k0.2.1 (settledStr_mono ks.2.1
            (settledStr_mono ka.2.1 htws)))
      set pd := (c0.mul ps tw).1 with hpd
      set cd := (c0.mul ps tw).2 with hcd
      have gd : GInv (InttCSpec T) cd := (kd.2.2.2.2.2.1 g0).2
      obtain ⟨Δ1, k1, h1s, h1val⟩ :=
        mul_contract (InttCSpec T) hgood cd i2v pd gd
          (settledStr_mono kd.2.1 (settledStr_mono k0.2.1
            (settledStr_mono ks.2.1 (settledStr_mono ka.2.1 hi2c)))) hds
      set p1 := (cd.mul i2v pd).1 with hp1
      set c1 := (cd.mul i2v pd).2 with hc1
      have g1 : GInv (InttCSpec T) c1 := (k1.2.2.2.2.2.1 gd).2
      have khead : CallOK (InttCSpec T) c c1
          (([] : List Operation) ++
            (Δa ++ (Δs ++ (Δ0 ++ (Δd ++ Δ1))))) :=
        callOK_trans kc (callOK_trans ka (callOK_trans ks
          (callOK_trans k0 (callOK_trans kd k1))))
      have hsrest : ∀ v ∈ rest, SettledStr c1 v.name :=
        settledList_mono khead.2.1 (fun v hv => hset v
          (List.mem_cons_of_mem x (List.mem_cons_of_mem y hv)))
      have hi2d1 : dictGet c1.vars "i2" =
          some ⟨"i2", inttI2, inttI2, none⟩ := by
        have m1 := (kc.2.2.2.2.2.1 hg).1
        have m2 := (ka.2.2.2.2.2.1 gc).1
        have m3 := (ks.2.2.2.2.2.1 ga).1
        have m4 := (k0.2.2.2.2.2.1 gs).1
        have m5 := (kd.2.2.2.2.2.1 g0).1
        have m6 := (k1.2.2.2.2.2.1 gd).1
        exact m6 _ _ (m5 _ _ (m4 _ _ (m3 _ _ (m2 _ _ (m1 _ _ hi2d)))))
      have hreg1 : ∀ i', 2 * i' < size →
          (dictGet c1.constants (T.invw (T.w size (2 * i')))).isSome :=
        fun i' hi' => khead.2.2.2.2.1 _ (hreg i' hi')
      have hbound' : 2 * (i + 1) + rest.length ≤ size := by
        simp only [List.length_cons] at hbound
        omega
      obtain ⟨Δr, kr, hrs1, hrs2, hrl1, hrl2, hrval⟩ :=
        splitNttLoop_contract T size rest (i + 1) c1 i2v g1 hsrest
          hi2n hi2d1 hreg1 hbound'
      set res := splitNttLoop T size i2v (i + 1) rest c1 with hres
      have ktot : CallOK (InttCSpec T) c res.2
          ((([] : List Operation) ++
            (Δa ++ (Δs ++ (Δ0 ++ (Δd ++ Δ1))))) ++ Δr) :=
        callOK_trans khead kr
      refine ⟨_, ktot, ?_, ?_, ?_, ?_, ?_⟩
      · intro v hv
        rcases List.mem_cons.mp hv with h | hv
        · exact h ▸ settledStr_mono kr.2.1 (settledStr_mono k1.2.1
            (settledStr_mono kd.2.1 h0s))
        · exact hrs1 v hv
      · intro v hv
        rcases List.mem_cons.mp hv with h | hv
        · exact h ▸ settledStr_mono kr.2.1 h1s
        · exact hrs2 v hv
      · simp only [List.length_cons]
        rw [hrl1]
        omega
      · simp only [List.length_cons]
        rw [hrl2]
        omega
      · intro hmod e henv zs0 hzs0
        rcases List.forall₂_cons_left_iff.mp hzs0 with
          ⟨zx, zs1, hzx, hzs1, hze⟩
        rcases List.forall₂_cons_left_iff.mp hzs1 with
          ⟨zy, zs, hzy, hzs, hze1⟩
        subst hze1
        subst hze
        have hmodc : ct.modulus = 12289 := by rw [kc.2.2.1]; exact hmod
        have hmoda : ca.modulus = 12289 := by rw [ka.2.2.1]; exact hmodc
        have hmods : cs.modulus = 12289 := by rw [ks.2.2.1]; exact hmoda
        have hmod0 : c0.modulus = 12289 := by rw [k0.2.2.1]; exact hmods
        have hmodd : cd.modulus = 12289 := by rw [kd.2.2.1]; exact hmod0
        have hmod1 : c1.modulus = 12289 := by rw [k1.2.2.1]; exact hmodd
        rw [List.nil_append, replay_append, replay_append, replay_append,
          replay_append, replay_append]
        set e1 := replay 12289 Δa e with he1
        set e2 := replay 12289 Δs e1 with he2
        set e3 := replay 12289 Δ0 e2 with he3
        set e4 := replay 12289 Δd e3 with he4
        set e5 := replay 12289 Δ1 e4 with he5
        have gres : GInv (InttCSpec T) res.2 := (kr.2.2.2.2.2.1 g1).2
        have henv1 : EnvC res.2 e1 := by
          rw [he1]
          exact envC_replay_stable _ _ gres 12289 e henv Δa
            (callOK_results_tmp ka)
        have henv2 : EnvC res.2 e2 := by
          rw [he2]
          exact envC_replay_stable _ _ gres 12289 e1 henv1 Δs
            (callOK_results_tmp ks)
        have henv3 : EnvC res.2 e3 := by
          rw [he3]
          exact envC_replay_stable _ _ gres 12289 e2 henv2 Δ0
            (callOK_results_tmp k0)
        have henv4 : EnvC res.2 e4 := by
          rw [he4]
          exact envC_replay_stable _ _ gres 12289 e3 henv3 Δd
            (callOK_results_tmp kd)
        have henv5 : EnvC res.2 e5 := by
          rw [he5]
          exact envC_replay_stable _ _ gres 12289 e4 henv4 Δ1
            (callOK_results_tmp k1)
        have hmono_c1 : VarsMono c1 res.2 := (kr.2.2.2.2.2.1 g1).1
        have hi2fin : dictGet res.2.vars "i2" =
            some ⟨"i2", inttI2, inttI2, none⟩ := hmono_c1 _ _ hi2d1
        have htwfin : dictGet res.2.vars (invwNameStr size i) = some
            ⟨invwNameStr size i, T.invw (T.w size (2 * i)),
              T.invw (T.w size (2 * i)), none⟩ := by
          have m2 := (ka.2.2.2.2.2.1 gc).1
          have m3 := (ks.2.2.2.2.2.1 ga).1
          have m4 := (k0.2.2.2.2.2.1 gs).1
          have m5 := (kd.2.2.2.2.2.1 g0).1
          have m6 := (k1.2.2.2.2.2.1 gd).1
          exact hmono_c1 _ _ (m6 _ _ (m5 _ _ (m4 _ _ (m3 _ _
            (m2 _ _ (hcn ▸ htwd))))))
        have hei2 : ∀ eA : String → Int, EnvC res.2 eA → eA "i2" = inttI2 :=
          fun eA hA => hA _ _ hi2fin rfl rfl
        have hetw : ∀ eA : String → Int, EnvC res.2 eA →
            eA (invwNameStr size i) = T.invw (T.w size (2 * i)) :=
          fun eA hA => hA _ _ htwfin rfl rfl
        have henv_ct : EnvC ca e :=
          envC_mono (ks.2.2.2.2.2.1 ga).1 (envC_mono (k0.2.2.2.2.2.1 gs).1
            (envC_mono (kd.2.2.2.2.2.1 g0).1
              (envC_mono (k1.2.2.2.2.2.1 gd).1
                (envC_mono hmono_c1 henv))))
        have hpaval : castZ (e1 pa.name) = zx + zy := by
          rw [he1, haval hmodc e henv_ct, hzx, hzy]
        have hxe1 : e1 x.name = e x.name := by
          rw [he1]
          exact replay_frame ka 12289 e x.name hxc
        have hye1 : e1 y.name = e y.name := by
          rw [he1]
          exact replay_frame ka 12289 e y.name hyc
        have henv_cs1 : EnvC cs e1 :=
          envC_mono (k0.2.2.2.2.2.1 gs).1 (envC_mono (kd.2.2.2.2.2.1 g0).1
            (envC_mono (k1.2.2.2.2.2.1 gd).1
              (envC_mono hmono_c1 henv1)))
        have hpsval : castZ (e2 ps.name) = zx - zy := by
          rw [he2, hsval hmoda e1 henv_cs1, hxe1, hye1, hzx, hzy]
        have hpae2 : e2 pa.name = e1 pa.name := by
          rw [he2]
          exact replay_frame ks 12289 e1 pa.name has
        have henv_c02 : EnvC c0 e2 :=
          envC_mono (kd.2.2.2.2.2.1 g0).1
            (envC_mono (k1.2.2.2.2.2.1 gd).1 (envC_mono hmono_c1 henv2))
        have henv2' : EnvC res.2 e2 := henv2
        have hp0val : castZ (e3 p0.name) = castZ inttI2 * (zx + zy) := by
          rw [he3, h0val hmods e2 henv_c02, hi2n, hei2 e2 henv2', hpae2,
            hpaval]
        have hpse3 : e3 ps.name = e2 ps.name := by
          rw [he3]
          exact replay_frame k0 12289 e2 ps.name hss
        have henv_cd3 : EnvC cd e3 :=
          envC_mono (k1.2.2.2.2.2.1 gd).1 (envC_mono hmono_c1 henv3)
        have hpdval : castZ (e4 pd.name) =
            (zx - zy) * invwzT T size (2 * i) := by
          rw [he4, hdval hmod0 e3 henv_cd3, htwn, hetw e3 henv3, hpse3,
            hpsval]
          rfl
        have henv_c14 : EnvC c1 e4 := envC_mono hmono_c1 henv4
        have hp1val : castZ (e5 p1.name) =
            castZ inttI2 * ((zx - zy) * invwzT T size (2 * i)) := by
          rw [he5, h1val hmodd e4 henv_c14, hi2n, hei2 e4 henv4, hpdval]
        have hp0e4 : e4 p0.name = e3 p0.name := by
          rw [he4]
          exact replay_frame kd 12289 e3 p0.name h0s
        have hp0e5 : e5 p0.name = e4 p0.name := by
          rw [he5]
          exact replay_frame k1 12289 e4 p0.name
            (settledStr_mono kd.2.1 h0s)
        have hp0fin : replay 12289 Δr e5 p0.name = e5 p0.name :=
          replay_frame kr 12289 e5 p0.name (settledStr_mono k1.2.1
            (settledStr_mono kd.2.1 h0s))
        have hp1fin : replay 12289 Δr e5 p1.name = e5 p1.name :=
          replay_frame kr 12289 e5 p1.name h1s
        have hzs5 : EnvVals e5 rest zs := by
          have hrest_c : ∀ v ∈ rest, SettledStr ct v.name :=
            settledList_mono kc.2.1 (fun v hv => hset v
              (List.mem_cons_of_mem x (List.mem_cons_of_mem y hv)))
          rw [he5]
          apply envVals_frame k1 12289 e4 _ _
            (settledList_mono kd.2.1 (settledList_mono k0.2.1
              (settledList_mono ks.2.1 (settledList_mono ka.2.1 hrest_c))))
          rw [he4]
          apply envVals_frame kd 12289 e3 _ _
            (settledList_mono k0.2.1 (settledList_mono ks.2.1
              (settledList_mono ka.2.1 hrest_c)))
          rw [he3]
          apply envVals_frame k0 12289 e2 _ _
            (settledList_mono ks.2.1 (settledList_mono ka.2.1 hrest_c))
          rw [he2]
          apply envVals_frame ks 12289 e1 _ _
            (settledList_mono ka.2.1 hrest_c)
          rw [he1]
          exact envVals_frame ka 12289 e _ _ hrest_c hzs
        obtain ⟨htail1, htail2⟩ := hrval hmod1 e5 henv5 zs hzs5
        constructor
        · show EnvVals (replay 12289 Δr e5) (p0 :: res.1.1)
            ((castZ inttI2 * (zx + zy)) ::
              (splitZ (castZ inttI2) (invwzT T) size (i + 1) zs).1)
          refine List.Forall₂.cons ?_ htail1
          rw [hp0fin, hp0e5, hp0e4]
          exact hp0val
        · show EnvVals (replay 12289 Δr e5) (p1 :: res.1.2)
            ((castZ inttI2 * ((zx - zy) * invwzT T size (2 * i))) ::
              (splitZ (castZ inttI2) (invwzT T) size (i + 1) zs).2)
          refine List.Forall₂.cons ?_ htail2
          rw [hp1fin]
          exact hp1val

/-- Contract of `_split_ntt` (the `i2` constant plus the loop). -/
theorem splitNtt_contract (T : RootTable) (size : Nat) (f : List Var)
    (c : Circuit) (hg : GInv (InttCSpec T) c)
    (hset : ∀ v ∈ f, SettledStr c v.name)
    (hregI2 : (dictGet c.constants inttI2).isSome)
    (hreg : ∀ i', 2 * i' < size →
      (dictGet c.constants (T.invw (T.w size (2 * i')))).isSome)
    (hbound : f.length ≤ size) :
    ∃ Δ, CallOK (InttCSpec T) c (splitNtt T size f c).2 Δ ∧
      (∀ v ∈ (splitNtt T size f c).1.1,
        SettledStr (splitNtt T size f c).2 v.name) ∧
      (∀ v ∈ (splitNtt T size f c).1.2,
        SettledStr (splitNtt T size f c).2 v.name) ∧
      (splitNtt T size f c).1.1.length = f.length / 2 ∧
      (splitNtt T size f c).1.2.length = f.length / 2 ∧
      (c.modulus = 12289 →
        ∀ e : String → Int, EnvC (splitNtt T size f c).2 e →
        ∀ zs, EnvVals e f zs →
          EnvVals (replay 12289 Δ e) (splitNtt T size f c).1.1
            (splitZ (castZ inttI2) (invwzT T) size 0 zs).1 ∧
          EnvVals (replay 12289 Δ e) (splitNtt T size f c).1.2
            (splitZ (castZ inttI2) (invwzT T) size 0 zs).2) := by
  have hgood := CSpecGood_intt T
  unfold splitNtt
  have hcn : constantName inttI2 (some "i2") = "i2" := rfl
  obtain ⟨ki, hifact⟩ := constant_contract (InttCSpec T) hgood c inttI2
    (some "i2") (hcn ▸ inttCSpec_i2 T) (hcn ▸ inttCSpec_i2_uniq T) hregI2
  obtain ⟨hi2v, hi2d⟩ := hifact hg
  set i2v := (c.constant inttI2 (some "i2")).1 with hi2
  set ci := (c.constant inttI2 (some "i2")).2 with hci
  have gi : GInv (InttCSpec T) ci := (ki.2.2.2.2.2.1 hg).2
  have hi2n : i2v.name = "i2" := congrArg Var.name hi2v
  obtain ⟨Δl, kl, hs1, hs2, hl1, hl2, hval⟩ :=
    splitNttLoop_contract T size f 0 ci i2v gi
      (settledList_mono ki.2.1 hset) hi2n (hcn ▸ hi2d)
      (fun i' hi' => ki.2.2.2.2.1 _ (hreg i' hi'))
      (by omega)
  refine ⟨([] : List Operation) ++ Δl, callOK_trans ki kl, hs1, hs2, hl1,
    hl2, ?_⟩
  intro hmod e henv zs hzs
  have hmodi : ci.modulus = 12289 := by rw [ki.2.2.1]; exact hmod
  rw [List.nil_append]
  exact hval hmodi e henv zs hzs

theorem interleave_length {α : Type} :
    ∀ (xs ys : List α),
      (interleave xs ys).length = 2 * min xs.length ys.length
  | [], ys => by simp [interleave]
  | x :: xs, [] => by simp [interleave]
  | x :: xs, y :: ys => by
      simp only [interleave, List.length_cons, interleave_length xs ys]
      omega

theorem interleave_mem {α : Type} :
    ∀ (xs ys : List α) (v : α), v ∈ interleave xs ys → v ∈ xs ∨ v ∈ ys
  | [], ys, v, h => by simp [interleave] at h
  | x :: xs, [], v, h => by simp [interleave] at h
  | x :: xs, y :: ys, v, h => by
      simp only [interleave, List.mem_cons] at h ⊢
      rcases h with h | h | h
      · exact Or.inl (Or.inl h)
      · exact Or.inr (Or.inl h)
      · rcases interleave_mem xs ys v h with h | h
        · exact Or.inl (Or.inr h)
        · exact Or.inr (Or.inr h)

theorem forall₂_interleave {α β : Type} {R : α → β → Prop} :
    ∀ {xs : List α} {zs : List β} {ys : List α} {ws : List β},
      List.Forall₂ R xs zs → List.Forall₂ R ys ws →
      List.Forall₂ R (interleave xs ys) (interleave zs ws)
  | _, _, _, _, List.Forall₂.nil, _ => List.Forall₂.nil
  | _, _, _, _, List.Forall₂.cons hx h1, List.Forall₂.nil =>
      List.Forall₂.nil
  | _, _, _, _, List.Forall₂.cons hx h1, List.Forall₂.cons hy h2 =>
      List.Forall₂.cons hx (List.Forall₂.cons hy (forall₂_interleave h1 h2))

theorem inttZ_succ (iz isz : Zq) (vz : Nat → Nat → Zq) (fuel : Nat)
    (xs : List Zq) :
    inttZ iz isz vz (fuel + 1) xs =
      if xs.length = 2 then
        (match xs with
         | [x0, x1] => [iz * (x0 + x1), iz * (isz * (x0 - x1))]
         | _ => [])
      else if 2 < xs.length then
        interleave
          (inttZ iz isz vz fuel (splitZ iz vz xs.length 0 xs).1)
          (inttZ iz isz vz fuel (splitZ iz vz xs.length 0 xs).2)
      else [] := rfl

theorem inttRecF_succ (T : RootTable) (fuel : Nat) (f : List Var)
    (c : Circuit) :
    inttRecF T (fuel + 1) f c =
      if f.length = 2 then
        (match f with
         | [f0, f1] => inttBase T f0 f1 c
         | _ => ([], c))
      else if 2 < f.length then
        (interleave
          (inttRecF T fuel (splitNtt T f.length f c).1.1
            (splitNtt T f.length f c).2).1
          (inttRecF T fuel (splitNtt T f.length f c).1.2
            (inttRecF T fuel (splitNtt T f.length f c).1.1
              (splitNtt T f.length f c).2).2).1,
         (inttRecF T fuel (splitNtt T f.length f c).1.2
            (inttRecF T fuel (splitNtt T f.length f c).1.1
              (splitNtt T f.length f c).2).2).2)
      else ([], c) := rfl

/-- Contract of the `_intt` recursion (fuel-run form). -/
theorem inttRecF_contract (T : RootTable) (n : Nat) :
    ∀ (fuel k : Nat) (f : List Var) (c : Circuit),
      f.length = 2 ^ (k + 1) →
      f.length ≤ fuel →
      f.length ≤ n →
      GInv (InttCSpec T) c →
      (∀ v ∈ f, SettledStr c v.name) →
      (dictGet c.constants inttI2).isSome →
      (dictGet c.constants (T.invw (T.w 2 0))).isSome →
      InvRootsReg T c n →
      ∃ Δ, CallOK (InttCSpec T) c (inttRecF T fuel f c).2 Δ ∧
        (inttRecF T fuel f c).1.length = f.length ∧
        (∀ v ∈ (inttRecF T fuel f c).1,
          SettledStr (inttRecF T fuel f c).2 v.name) ∧
        (c.modulus = 12289 →
          ∀ e : String → Int, EnvC (inttRecF T fuel f c).2 e →
          ∀ zf, EnvVals e f zf →
            EnvVals (replay 12289 Δ e) (inttRecF T fuel f c).1
              (inttZ (castZ inttI2) (castZ (T.invw (T.w 2 0))) (invwzT T)
                fuel zf))
  | 0, k, f, c, hlen, hfuel, _, _, _, _, _, _ => by
      exfalso
      have : 0 < 2 ^ (k + 1) := Nat.pos_pow_of_pos _ (by omega)
      omega
  | fuel + 1, k, f, c, hlen, hfuel, hn, hg, hset, hregI2, hregIS,
      hroots => by
      by_cases hl2 : f.length = 2
      · match f, hl2 with
        | [f0, f1], _ =>
          have hrw : inttRecF T (fuel + 1) [f0, f1] c =
              inttBase T f0 f1 c := by
            simp [inttRecF]
          rw [hrw]
          obtain ⟨Δ, kb, hbs, hbval⟩ := inttBase_contract T c f0 f1 hg
            (hset f0 (by simp)) (hset f1 (by simp)) hregI2 hregIS
          refine ⟨Δ, kb, ?_, hbs, ?_⟩
          · simp [inttBase]
          · intro hmod e henv zf hzf
            rcases List.forall₂_cons_left_iff.mp hzf with
              ⟨z0, zf1, hz0, hzf1, hze⟩
            rcases List.forall₂_cons_left_iff.mp hzf1 with
              ⟨z1, zf2, hz1, hzf2, hze1⟩
            cases hzf2
            subst hze1
            subst hze
            have hval := hbval hmod e henv z0 z1 hz0 hz1
            have hnz : inttZ (castZ inttI2) (castZ (T.invw (T.w 2 0)))
                (invwzT T) (fuel + 1) [z0, z1] =
                [castZ inttI2 * (z0 + z1),
                 castZ inttI2 * (castZ (T.invw (T.w 2 0)) * (z0 - z1))] := by
              simp [inttZ]
            rw [hnz]
            exact hval
      · by_cases hl2' : 2 < f.length
        · have hk1 : 1 ≤ k := by
            by_contra hk
            push_neg at hk
            interval_cases k
            omega
          have hrw := inttRecF_succ T fuel f c
          rw [if_neg hl2, if_pos hl2'] at hrw
          rw [hrw]
          have hpow2 : 2 ^ (k + 1) = 2 * 2 ^ k := by ring
          have hppos : 0 < 2 ^ k := Nat.pos_pow_of_pos _ (by omega)
          have hregsize : ∀ i', 2 * i' < f.length →
              (dictGet c.constants (T.invw (T.w f.length (2 * i')))).isSome := by
            intro i' hi'
            apply hroots f.length i' ?_ hn ⟨k + 1, hlen⟩ hi'
            rw [hlen]
            have h4 : (4 : Nat) = 2 ^ 2 := by norm_num
            rw [h4]
            exact Nat.pow_le_pow_right (by omega) (by omega)
          obtain ⟨Δsp, ksp, hsps1, hsps2, hspl1, hspl2, hspval⟩ :=
            splitNtt_contract T f.length f c hg hset hregI2 hregsize le_rfl
          set sp := splitNtt T f.length f c with hsp
          have gsp : GInv (InttCSpec T) sp.2 := (ksp.2.2.2.2.2.1 hg).2
          have hhalf1 : sp.1.1.length = 2 ^ ((k - 1) + 1) := by
            rw [hspl1, hlen]
            have : k - 1 + 1 = k := by omega
            rw [this]
            omega
          have hhalf2 : sp.1.2.length = 2 ^ ((k - 1) + 1) := by
            rw [hspl2, hlen]
            have : k - 1 + 1 = k := by omega
            rw [this]
            omega
          have hhalf_le : 2 ^ (k - 1 + 1) ≤ fuel := by
            have : k - 1 + 1 = k := by omega
            rw [this]
            omega
          have hhalf_n : 2 ^ (k - 1 + 1) ≤ n := by
            have : k - 1 + 1 = k := by omega
            rw [this]
            omega
          obtain ⟨Δ0, k0, hlen0, hset0, hval0⟩ :=
            inttRecF_contract T n fuel (k - 1) sp.1.1 sp.2
              (by rw [hhalf1]) (by rw [hhalf1]; exact hhalf_le)
              (by rw [hhalf1]; exact hhalf_n) gsp hsps1
              (ksp.2.2.2.2.1 _ hregI2) (ksp.2.2.2.2.1 _ hregIS)
              (fun s i h4 hsn hpow hlt =>
                ksp.2.2.2.2.1 _ (hroots s i h4 hsn hpow hlt))
          set r0 := inttRecF T fuel sp.1.1 sp.2 with hr0
          have g0 : GInv (InttCSpec T) r0.2 := (k0.2.2.2.2.2.1 gsp).2
          obtain ⟨Δ1, k1, hlen1, hset1, hval1⟩ :=
            inttRecF_contract T n fuel (k - 1) sp.1.2 r0.2
              (by rw [hhalf2]) (by rw [hhalf2]; exact hhalf_le)
              (by rw [hhalf2]; exact hhalf_n) g0
              (settledList_mono k0.2.1 hsps2)
              (k0.2.2.2.2.1 _ (ksp.2.2.2.2.1 _ hregI2))
              (k0.2.2.2.2.1 _ (ksp.2.2.2.2.1 _ hregIS))
              (fun s i h4 hsn hpow hlt =>
                k0.2.2.2.2.1 _ (ksp.2.2.2.2.1 _
                  (hroots s i h4 hsn hpow hlt)))
          set r1 := inttRecF T fuel sp.1.2 r0.2 with hr1
          have g1 : GInv (InttCSpec T) r1.2 := (k1.2.2.2.2.2.1 g0).2
          refine ⟨Δsp ++ (Δ0 ++ Δ1),
            callOK_trans ksp (callOK_trans k0 k1), ?_, ?_, ?_⟩
          · show (interleave r0.1 r1.1).length = f.length
            rw [interleave_length, hlen0, hlen1, hhalf1, hhalf2, hlen]
            have : k - 1 + 1 = k := by omega
            rw [this]
            omega
          · intro v hv
            rcases interleave_mem r0.1 r1.1 v hv with h | h
            · exact settledStr_mono k1.2.1 (hset0 v h)
            · exact hset1 v h
          · intro hmod e henv zf hzf
            have hmodsp : sp.2.modulus = 12289 := by
              rw [ksp.2.2.1]; exact hmod
            have hmod0 : r0.2.modulus = 12289 := by
              rw [k0.2.2.1]; exact hmodsp
            rw [replay_append, replay_append]
            set e1 := replay 12289 Δsp e with he1
            set e2 := replay 12289 Δ0 e1 with he2
            have henv1 : EnvC r1.2 e1 := by
              rw [he1]
              exact envC_replay_stable _ _ g1 12289 e henv Δsp
                (callOK_results_tmp ksp)
            have henv2 : EnvC r1.2 e2 := by
              rw [he2]
              exact envC_replay_stable _ _ g1 12289 e1 henv1 Δ0
                (callOK_results_tmp k0)
            have henv_sp : EnvC sp.2 e :=
              envC_mono (k0.2.2.2.2.2.1 gsp).1
                (envC_mono (k1.2.2.2.2.2.1 g0).1 henv)
            obtain ⟨hzv1, hzv2⟩ := hspval hmod e henv_sp zf hzf
            have henv_r0 : EnvC r0.2 e1 :=
              envC_mono (k1.2.2.2.2.2.1 g0).1 henv1
            have hzv1e1 : EnvVals e1 sp.1.1
                (splitZ (castZ inttI2) (invwzT T) f.length 0 zf).1 := by
              rw [he1]
              exact hzv1
            have hzv2e1 : EnvVals e1 sp.1.2
                (splitZ (castZ inttI2) (invwzT T) f.length 0 zf).2 := by
              rw [he1]
              exact hzv2
            have hv0 : EnvVals e2 r0.1
                (inttZ (castZ inttI2) (castZ (T.invw (T.w 2 0))) (invwzT T)
                  fuel (splitZ (castZ inttI2) (invwzT T) f.length 0 zf).1)
                := by
              rw [he2]
              exact hval0 hmodsp e1 henv_r0 _ hzv1e1
            have hzv2e2 : EnvVals e2 sp.1.2
                (splitZ (castZ inttI2) (invwzT T) f.length 0 zf).2 := by
              rw [he2]
              exact envVals_frame k0 12289 e1 _ _ hsps2 hzv2e1
            have hv1 : EnvVals (replay 12289 Δ1 e2) r1.1
                (inttZ (castZ inttI2) (castZ (T.invw (T.w 2 0))) (invwzT T)
                  fuel (splitZ (castZ inttI2) (invwzT T) f.length 0 zf).2)
                := hval1 hmod0 e2 henv2 _ hzv2e2
            have hv0fin : EnvVals (replay 12289 Δ1 e2) r0.1
                (inttZ (castZ inttI2) (castZ (T.invw (T.w 2 0))) (invwzT T)
                  fuel (splitZ (castZ inttI2) (invwzT T) f.length 0 zf).1)
                := envVals_frame k1 12289 e2 _ _ hset0 hv0
            have hzflen : zf.length = f.length :=
              (List.Forall₂.length_eq hzf).symm
            have hnz : inttZ (castZ inttI2) (castZ (T.invw (T.w 2 0)))
                (invwzT T) (fuel + 1) zf =
                interleave
                  (inttZ (castZ inttI2) (castZ (T.invw (T.w 2 0)))
                    (invwzT T) fuel
                    (splitZ (castZ inttI2) (invwzT T) f.length 0 zf).1)
                  (inttZ (castZ inttI2) (castZ (T.invw (T.w 2 0)))
                    (invwzT T) fuel
                    (splitZ (castZ inttI2) (invwzT T) f.length 0 zf).2) := by
              rw [inttZ_succ, if_neg (by omega), if_pos (by omega), hzflen]
            rw [hnz]
            exact forall₂_interleave hv0fin hv1
        · exfalso
          have hp : 2 ≤ 2 ^ (k + 1) := by
            have : (2 : Nat) = 2 ^ 1 := by norm_num
            rw [this]
            exact Nat.pow_le_pow_right (by omega) (by omega)
          omega

/-! ## Output renaming (`output(var, name)`) -/

theorem dictGet_notmem_none {α β : Type} [DecidableEq α] :
    ∀ (l : List (α × β)) (k : α), (∀ p ∈ l, p.1 ≠ k) → dictGet l k = none
  | [], _, _ => rfl
  | (k', v') :: rest, k, h => by
      have hk : k' ≠ k := h (k', v') (List.mem_cons_self _ _)
      simp only [dictGet, if_neg hk]
      exact dictGet_notmem_none rest k
        (fun p hp => h p (List.mem_cons_of_mem _ hp))

theorem dictGet_del_ne {α β : Type} [DecidableEq α] :
    ∀ (l : List (α × β)) (k k' : α), k ≠ k' →
      dictGet (dictDel l k) k' = dictGet l k'
  | [], _, _, _ => rfl
  | (k'', v'') :: rest, k, k', h => by
      by_cases he : k'' = k
      · subst he
        simp [dictDel, dictGet, h]
      · simp only [dictDel, if_neg he, dictGet]
        by_cases h2 : k'' = k'
        · simp [h2]
        · simp [h2, dictGet_del_ne rest k k' h]

theorem dictGet_del_self {α β : Type} [DecidableEq α] :
    ∀ (l : List (α × β)) (k : α), (l.map Prod.fst).Nodup →
      dictGet (dictDel l k) k = none
  | [], _, _ => rfl
  | (k', v') :: rest, k, hnd => by
      simp only [List.map_cons, List.nodup_cons] at hnd
      by_cases he : k' = k
      · subst he
        simp only [dictDel, if_pos rfl]
        exact dictGet_notmem_none rest k'
          (fun p hp hpk => hnd.1 (List.mem_map.mpr ⟨p, hp, hpk⟩))
      · simp only [dictDel, if_neg he, dictGet, if_neg he]
        exact dictGet_del_self rest k hnd.2

theorem renameVar_id (oldN newN : String) (v : Var) (h : v.name ≠ oldN) :
    renameVar oldN newN v = v := by simp [renameVar, h]

theorem renameVar_hit (oldN newN : String) (v : Var) (h : v.name = oldN) :
    renameVar oldN newN v = { v with name := newN } := by simp [renameVar, h]

theorem renameList_id (oldN newN : String) :
    ∀ (vs : List Var), (∀ v ∈ vs, v.name ≠ oldN) →
      vs.map (renameVar oldN newN) = vs
  | [], _ => rfl
  | v :: vs, h => by
      rw [List.map_cons,
        renameVar_id oldN newN v (h v (List.mem_cons_self v vs)),
        renameList_id oldN newN vs
          (fun u hu => h u (List.mem_cons_of_mem v hu))]

theorem renameInOp_id (oldN newN : String) (op : Operation)
    (hres : op.result.name ≠ oldN)
    (hops : ∀ v ∈ op.operands, v.name ≠ oldN) :
    renameInOp oldN newN op = op := by
  unfold renameInOp
  rw [renameList_id oldN newN op.operands hops,
    renameVar_id oldN newN op.result hres]

theorem renameOps_id (oldN newN : String) :
    ∀ (ops : List Operation),
      (∀ op ∈ ops, op.result.name ≠ oldN ∧
        ∀ v ∈ op.operands, v.name ≠ oldN) →
      ops.map (renameInOp oldN newN) = ops
  | [], _ => rfl
  | op :: ops, h => by
      rw [List.map_cons,
        renameInOp_id oldN newN op (h op (List.mem_cons_self op ops)).1
          (h op (List.mem_cons_self op ops)).2,
        renameOps_id oldN newN ops
          (fun o ho => h o (List.mem_cons_of_mem op ho))]

theorem envC_srcmono {c c' : Circuit} (m : SrcNoneMono c c')
    {e : String → Int} (h : EnvC c' e) : EnvC c e :=
  fun nm u hu hs hsing => h nm u (m nm u hu hs) hs hsing

theorem srcNoneMono_trans {a b c : Circuit} (h1 : SrcNoneMono a b)
    (h2 : SrcNoneMono b c) : SrcNoneMono a c :=
  fun nm u hu hs => h2 nm u (h1 nm u hu hs) hs

theorem varsMono_srcNone {a b : Circuit} (h : VarsMono a b) :
    SrcNoneMono a b :=
  fun nm u hu _ => h nm u hu

theorem envVals_untouched (Q : Int) (Δ : List Operation) (e : String → Int) :
    ∀ (vs : List Var) (zs : List Zq),
      (∀ v ∈ vs, ∀ op ∈ Δ, v.name ≠ op.result.name) →
      EnvVals e vs zs → EnvVals (replay Q Δ e) vs zs := by
  intro vs zs hnw h
  induction h with
  | nil => exact List.Forall₂.nil
  | @cons v z vs' zs' hvz htail ih =>
      refine List.Forall₂.cons ?_
        (ih (fun u hu => hnw u (List.mem_cons_of_mem v hu)))
      rw [replay_untouched Q Δ e v.name (hnw v (List.mem_cons_self v vs'))]
      exact hvz

theorem forall₂_map_eq {α β : Type} (g : α → Int) (h : β → Int) :
    ∀ (l₁ : List α) (l₂ : List β),
      List.Forall₂ (fun a b => g a = h b) l₁ l₂ → l₁.map g = l₂.map h := by
  intro l₁ l₂ hf
  induction hf with
  | nil => rfl
  | @cons a b l l' hab _ ih => rw [List.map_cons, List.map_cons, hab, ih]

theorem replay_reduce_tail (Q : Int) (Δ₀ : List Operation) (a r : Var)
    (qb : Option (Int × Int)) (M : Int) (e : String → Int) :
    replay Q (Δ₀ ++ [⟨"REDUCE", [a], r, qb, some M, none, none⟩]) e r.name =
      (replay Q Δ₀ e a.name).fmod M := by
  rw [replay_append]
  have hstep : replay Q
      [(⟨"REDUCE", [a], r, qb, some M, none, none⟩ : Operation)]
      (replay Q Δ₀ e) =
      execOp Q (replay Q Δ₀ e)
        ⟨"REDUCE", [a], r, qb, some M, none, none⟩ := rfl
  rw [hstep, execOp_REDUCE]
  exact envSet_self _ _ _

theorem output_rename_fields (c : Circuit) (r u : Var) (nm : String)
    (hne : nm ≠ r.name) (hrd : dictGet c.vars r.name = some u) :
    (c.output r (some nm)).vars =
        dictSet (dictDel c.vars r.name) nm { r with name := nm } ∧
    (c.output r (some nm)).operations =
        c.operations.map (renameInOp r.name nm) ∧
    (c.output r (some nm)).inputs = c.inputs.map (renameVar r.name nm) ∧
    (c.output r (some nm)).outputs =
        c.outputs.map (renameVar r.name nm) ++ [{ r with name := nm }] ∧
    (c.output r (some nm)).modulus = c.modulus ∧
    (c.output r (some nm)).maxBound = c.maxBound ∧
    (c.output r (some nm)).varCounter = c.varCounter ∧
    (c.output r (some nm)).constants = c.constants := by
  simp [Circuit.output, hne, hrd]

theorem output_ginv (cspec : CSpec) (hgood : CSpecGood cspec) (c : Circuit)
    (r : Var) (t k : Nat) (g : GInv cspec c) (hrt : r.name = tmpName t)
    (hrd : dictGet c.vars r.name = some r) :
    GInv cspec (c.output r (some (rNameStr k))) ∧
    SrcNoneMono c (c.output r (some (rNameStr k))) := by
  have hne : rNameStr k ≠ r.name := hrt ▸ rNameStr_ne_tmp k t
  obtain ⟨hv, hop, hin, hout, hmod, hmax, hcnt, hcon⟩ :=
    output_rename_fields c r r (rNameStr k) hne hrd
  have hrsrc : r.srcIdx ≠ none := g.tmpSrc t r (hrt ▸ hrd)
  have hlook_k : dictGet (c.output r (some (rNameStr k))).vars (rNameStr k) =
      some { r with name := rNameStr k } := by
    rw [hv]
    exact dictGet_set_self _ _ _
  have hlook_r :
      dictGet (c.output r (some (rNameStr k))).vars r.name = none := by
    rw [hv, dictGet_set_ne _ _ _ _ hne]
    exact dictGet_del_self c.vars r.name g.varsNodup
  have hlook_other : ∀ nm, nm ≠ rNameStr k → nm ≠ r.name →
      dictGet (c.output r (some (rNameStr k))).vars nm =
        dictGet c.vars nm := by
    intro nm h1 h2
    rw [hv, dictGet_set_ne _ _ _ _ (Ne.symm h1),
      dictGet_del_ne _ _ _ (Ne.symm h2)]
  have hsv : ∀ v : Var, SettledStr c v.name →
      SettledStr (c.output r (some (rNameStr k)))
        (renameVar r.name (rNameStr k) v).name := by
    intro v hs j hj
    rw [hcnt]
    by_cases hvn : v.name = r.name
    · rw [renameVar_hit _ _ _ hvn] at hj
      exact absurd hj (rNameStr_ne_tmp k j)
    · rw [renameVar_id _ _ _ hvn] at hj
      exact hs j hj
  refine ⟨⟨?_, ?_, ?_, ?_, ?_, ?_, ?_, ?_, ?_⟩, ?_⟩
  · intro j hj
    rw [hcnt] at hj
    by_cases hjr : tmpName j = r.name
    · rw [hjr]
      exact hlook_r
    · rw [hlook_other _ (Ne.symm (rNameStr_ne_tmp k j)) hjr]
      exact g.tmpFresh j hj
  · rw [hv]
    exact dictSet_nodupKeys _ _ _ (dictDel_nodupKeys _ _ g.varsNodup)
  · intro nm u hu v hv'
    have h1 : nm ≠ rNameStr k := hgood.noR nm v hv' k
    have h2 : nm ≠ r.name := fun he => hgood.noTmp nm v hv' t (he.trans hrt)
    rw [hlook_other nm h1 h2] at hu
    exact g.cspecOK nm u hu v hv'
  · intro op' hop'
    rw [hop] at hop'
    obtain ⟨op, hopmem, rfl⟩ := List.mem_map.mp hop'
    refine ⟨hsv op.result (g.opsSettled op hopmem).1, ?_⟩
    intro ov hov
    simp only [renameInOp] at hov
    obtain ⟨u, hu, rfl⟩ := List.mem_map.mp hov
    exact hsv u ((g.opsSettled op hopmem).2 u hu)
  · intro nm u hu hsrc hsing
    rw [hcon]
    by_cases h1 : nm = rNameStr k
    · subst h1
      rw [hlook_k] at hu
      obtain rfl := Option.some.inj hu
      exact absurd hsrc hrsrc
    · by_cases h2 : nm = r.name
      · rw [h2, hlook_r] at hu
        simp at hu
      · rw [hlook_other nm h1 h2] at hu
        exact g.singletonReg nm u hu hsrc hsing
  · intro op' hop'
    rw [hop] at hop'
    obtain ⟨op, hopmem, rfl⟩ := List.mem_map.mp hop'
    by_cases hres : op.result.name = r.name
    · right
      exact ⟨k, by simp [renameInOp, renameVar_hit _ _ _ hres]⟩
    · have hsame : (renameInOp r.name (rNameStr k) op).result.name =
          op.result.name := by
        simp [renameInOp, renameVar_id _ _ _ hres]
      rw [hsame]
      exact g.opsResultShape op hopmem
  · intro j u hu
    by_cases h2 : tmpName j = r.name
    · rw [h2, hlook_r] at hu
      simp at hu
    · rw [hlook_other _ (Ne.symm (rNameStr_ne_tmp k j)) h2] at hu
      exact g.tmpSrc j u hu
  · intro i u hu
    by_cases h1 : rNameStr i = rNameStr k
    · rw [h1, hlook_k] at hu
      obtain rfl := Option.some.inj hu
      exact hrsrc
    · rw [hlook_other _ h1
        (fun he => rNameStr_ne_tmp i t (he.trans hrt))] at hu
      exact g.rSrc i u hu
  · intro nm u hu
    by_cases h1 : nm = rNameStr k
    · subst h1
      rw [hlook_k] at hu
      obtain rfl := Option.some.inj hu
      rfl
    · by_cases h2 : nm = r.name
      · rw [h2, hlook_r] at hu
        simp at hu
      · rw [hlook_other nm h1 h2] at hu
        exact g.nameKey nm u hu
  · intro nm u hu hsrc
    by_cases h1 : nm = rNameStr k
    · subst h1
      exact absurd hsrc (g.rSrc k u hu)
    · by_cases h2 : nm = r.name
      · rw [h2, hrd] at hu
        obtain rfl := Option.some.inj hu
        exact absurd hsrc hrsrc
      · rw [hlook_other nm h1 h2]
        exact hu

/-- The contract of the output loop `output(out.reduce(), f"r{i}")`: the trace
grows by reduce steps whose final REDUCE operations are renamed to the output
names, each marked output carries the canonical representative of the residue
class of the corresponding recursion result. -/
theorem markOutputs_contract (cspec : CSpec) (hgood : CSpecGood cspec) :
    ∀ (vs : List Var) (k : Nat) (c : Circuit),
      GInv cspec c →
      (∀ v ∈ vs, SettledStr c v.name) →
      (∀ v ∈ vs, ∀ j, v.name ≠ rNameStr j) →
      (∀ v ∈ c.inputs, ∀ j, v.name ≠ tmpName j) →
      (∀ v ∈ c.outputs, ∀ j, v.name ≠ tmpName j) →
      ∃ Δ outs,
        (markOutputs vs k c).operations = c.operations ++ Δ ∧
        (∀ op ∈ Δ, (∃ t, op.result.name = tmpName t ∧ c.varCounter ≤ t) ∨
          (∃ j, op.result.name = rNameStr j ∧ k ≤ j)) ∧
        GInv cspec (markOutputs vs k c) ∧
        SrcNoneMono c (markOutputs vs k c) ∧
        c.varCounter ≤ (markOutputs vs k c).varCounter ∧
        (markOutputs vs k c).modulus = c.modulus ∧
        (markOutputs vs k c).inputs = c.inputs ∧
        (markOutputs vs k c).outputs = c.outputs ++ outs ∧
        (c.modulus = 12289 →
          ∀ e : String → Int, EnvC (markOutputs vs k c) e →
          ∀ zs, EnvVals e vs zs →
            List.Forall₂ (fun (o : Var) (z : Zq) =>
              replay 12289 Δ e o.name = ((z.val : Nat) : Int)) outs zs)
  | [], k, c, hg, _, _, _, _ => by
      refine ⟨[], [], by simp [markOutputs], by simp, hg,
        fun nm u hu _ => hu, le_rfl, rfl, rfl, by simp [markOutputs], ?_⟩
      intro _ e _ zs hz
      cases hz
      exact List.Forall₂.nil
  | v :: vs', k, c, hg, hset, hnr, hinp, houts => by
      obtain ⟨Δ, k1, ⟨t, hrtn, htl, htu⟩, hmin, hmax, hval,
        ⟨Δ₀, a', qb, M', hΔeq, hΔ₀res, hΔops⟩, hrdict⟩ :=
        reduceVar_contract cspec hgood c v hg
          (hset v (List.mem_cons_self v vs'))
      set r := (c.reduceVar v none).1 with hr
      set c₁ := (c.reduceVar v none).2 with hc₁
      have g1 : GInv cspec c₁ := (k1.2.2.2.2.2.1 hg).2
      have hvm1 : VarsMono c c₁ := (k1.2.2.2.2.2.1 hg).1
      have hio1 : c₁.inputs = c.inputs ∧ c₁.outputs = c.outputs :=
        k1.2.2.2.2.2.2.2
      have hΔtmp : ∀ op ∈ Δ, ∃ t', op.result.name = tmpName t' ∧
          c.varCounter ≤ t' ∧ t' < c₁.varCounter := k1.2.2.2.2.2.2.1
      obtain ⟨g2, hsm12⟩ := output_ginv cspec hgood c₁ r t k g1 hrtn hrdict
      obtain ⟨hv2, hop2, hin2, hout2, hmod2, hmaxb2, hcnt2, hcon2⟩ :=
        output_rename_fields c₁ r r (rNameStr k)
          (hrtn ▸ rNameStr_ne_tmp k t) hrdict
      set c₂ := c₁.output r (some (rNameStr k)) with hc₂
      have hset2 : ∀ u ∈ vs', SettledStr c₂ u.name := by
        intro u hu j hj
        rw [hcnt2]
        exact settledStr_mono k1.2.1 (hset u (List.mem_cons_of_mem v hu)) j hj
      have hinpne : ∀ u ∈ c.inputs, u.name ≠ r.name :=
        fun u hu he => hinp u hu t (he.trans hrtn)
      have hin2' : c₂.inputs = c.inputs := by
        rw [hin2, hio1.1, renameList_id r.name (rNameStr k) c.inputs hinpne]
      have hinp2 : ∀ u ∈ c₂.inputs, ∀ j, u.name ≠ tmpName j := by
        rw [hin2']
        exact hinp
      have houtne : ∀ u ∈ c.outputs, u.name ≠ r.name :=
        fun u hu he => houts u hu t (he.trans hrtn)
      have hout2' : c₂.outputs =
          c.outputs ++ [{ r with name := rNameStr k }] := by
        rw [hout2, hio1.2, renameList_id r.name (rNameStr k) c.outputs houtne]
      have houts2 : ∀ u ∈ c₂.outputs, ∀ j, u.name ≠ tmpName j := by
        rw [hout2']
        intro u hu j
        rcases List.mem_append.mp hu with hu | hu
        · exact houts u hu j
        · rw [List.mem_singleton] at hu
          subst hu
          exact rNameStr_ne_tmp k j
      have hopsc : ∀ op ∈ c.operations, op.result.name ≠ r.name ∧
          ∀ u ∈ op.operands, u.name ≠ r.name := by
        intro op hop
        constructor
        · intro he
          have := (hg.opsSettled op hop).1 t (he.trans hrtn)
          omega
        · intro u hu he
          have := (hg.opsSettled op hop).2 u hu t (he.trans hrtn)
          omega
      have hops0 : ∀ op ∈ Δ₀, op.result.name ≠ r.name ∧
          ∀ u ∈ op.operands, u.name ≠ r.name := by
        intro op hop
        refine ⟨hΔ₀res op hop, ?_⟩
        intro u hu
        exact hΔops op (by rw [hΔeq]; exact List.mem_append_left _ hop) u hu
      have ha'ne : a'.name ≠ r.name :=
        hΔops ⟨"REDUCE", [a'], r, qb, some M', none, none⟩
          (by rw [hΔeq]
              exact List.mem_append_right _ (List.mem_singleton_self _))
          a' (List.mem_cons_self _ _)
      have hfrop : renameInOp r.name (rNameStr k)
          ⟨"REDUCE", [a'], r, qb, some M', none, none⟩ =
          ⟨"REDUCE", [a'], { r with name := rNameStr k }, qb, some M',
            none, none⟩ := by
        unfold renameInOp
        simp [renameVar, ha'ne]
      have hops2' : c₂.operations = c.operations ++ (Δ₀ ++
          [⟨"REDUCE", [a'], { r with name := rNameStr k }, qb, some M',
            none, none⟩]) := by
        rw [hop2, k1.1, hΔeq, List.map_append, List.map_append,
          renameOps_id r.name (rNameStr k) c.operations hopsc,
          renameOps_id r.name (rNameStr k) Δ₀ hops0, List.map_singleton,
          hfrop]
      obtain ⟨ΔF, outsF, hopsF, hshF, gF, hsmF, hcntF, hmodF, hinF, houtF,
        hvalF⟩ :=
        markOutputs_contract cspec hgood vs' (k + 1) c₂ g2 hset2
          (fun u hu j => hnr u (List.mem_cons_of_mem v hu) j) hinp2 houts2
      have hunf : markOutputs (v :: vs') k c =
          markOutputs vs' (k + 1) c₂ := rfl
      rw [hunf]
      refine ⟨(Δ₀ ++ [⟨"REDUCE", [a'], { r with name := rNameStr k }, qb,
          some M', none, none⟩]) ++ ΔF,
        { r with name := rNameStr k } :: outsF, ?_, ?_, gF, ?_, ?_, ?_, ?_,
        ?_, ?_⟩
      · rw [hopsF, hops2', List.append_assoc]
      · intro op hop
        rcases List.mem_append.mp hop with hop | hop
        · rcases List.mem_append.mp hop with hop | hop
          · obtain ⟨t', ht', htl', _⟩ := hΔtmp op
              (by rw [hΔeq]; exact List.mem_append_left _ hop)
            exact Or.inl ⟨t', ht', htl'⟩
          · rw [List.mem_singleton] at hop
            subst hop
            exact Or.inr ⟨k, rfl, le_rfl⟩
        · rcases hshF op hop with ⟨t', ht', htl'⟩ | ⟨j, hj, hjk⟩
          · refine Or.inl ⟨t', ht', ?_⟩
            have h1 := k1.2.1
            rw [hcnt2] at htl'
            omega
          · exact Or.inr ⟨j, hj, by omega⟩
      · exact srcNoneMono_trans (varsMono_srcNone hvm1)
          (srcNoneMono_trans hsm12 hsmF)
      · have h1 := k1.2.1
        rw [hcnt2] at hcntF
        omega
      · rw [hmodF, hmod2, k1.2.2.1]
      · rw [hinF, hin2']
      · rw [houtF, hout2']
        simp
      · intro hmod e henv zs hzs
        cases hzs with
        | cons hz htail =>
          rename_i z zs'
          have hsmtot : SrcNoneMono c₁ (markOutputs vs' (k + 1) c₂) :=
            srcNoneMono_trans hsm12 hsmF
          have henv1 : EnvC c₁ e := envC_srcmono hsmtot henv
          obtain ⟨hw0, hw1, hwz⟩ := hval hmod e henv1
          have hwv : replay 12289 Δ e r.name =
              (replay 12289 Δ₀ e a'.name).fmod M' := by
            rw [hΔeq]
            exact replay_reduce_tail 12289 Δ₀ a' r qb M' e
          have hwv' : replay 12289
              (Δ₀ ++ [⟨"REDUCE", [a'], { r with name := rNameStr k }, qb,
                some M', none, none⟩]) e (rNameStr k) =
              (replay 12289 Δ₀ e a'.name).fmod M' :=
            replay_reduce_tail 12289 Δ₀ a' { r with name := rNameStr k }
              qb M' e
          have hcast : castZ (replay 12289 Δ e r.name) = z := by
            rw [hwz, hz]
          have hrepr : replay 12289 Δ e r.name = ((z.val : Nat) : Int) := by
            have h1 : ((castZ (replay 12289 Δ e r.name)).val : Int) =
                replay 12289 Δ e r.name :=
              castZ_val_eq _ hw0 hw1
            rw [hcast] at h1
            exact h1.symm
          have hshape2 : ∀ op ∈ Δ₀ ++
              [⟨"REDUCE", [a'], { r with name := rNameStr k }, qb, some M',
                none, none⟩],
              (∃ t', op.result.name = tmpName t') ∨
              (∃ j, op.result.name = rNameStr j) := by
            intro op hop
            rcases List.mem_append.mp hop with hop | hop
            · obtain ⟨t', ht', _⟩ := hΔtmp op
                (by rw [hΔeq]; exact List.mem_append_left _ hop)
              exact Or.inl ⟨t', ht'⟩
            · rw [List.mem_singleton] at hop
              subst hop
              exact Or.inr ⟨k, rfl⟩
          have henvF : EnvC (markOutputs vs' (k + 1) c₂)
              (replay 12289 (Δ₀ ++
                [⟨"REDUCE", [a'], { r with name := rNameStr k }, qb, some M',
                  none, none⟩]) e) :=
            envC_replay_stable cspec _ gF 12289 e henv _ hshape2
          have hnowrite : ∀ u ∈ vs', ∀ op ∈ Δ₀ ++
              [⟨"REDUCE", [a'], { r with name := rNameStr k }, qb, some M',
                none, none⟩], u.name ≠ op.result.name := by
            intro u hu op hop
            rcases List.mem_append.mp hop with hop | hop
            · obtain ⟨t', ht', htl', _⟩ := hΔtmp op
                (by rw [hΔeq]; exact List.mem_append_left _ hop)
              rw [ht']
              intro he
              have := hset u (List.mem_cons_of_mem v hu) t' he
              omega
            · rw [List.mem_singleton] at hop
              subst hop
              exact hnr u (List.mem_cons_of_mem v hu) k
          have htailF : EnvVals (replay 12289 (Δ₀ ++
              [⟨"REDUCE", [a'], { r with name := rNameStr k }, qb, some M',
                none, none⟩]) e) vs' zs' :=
            envVals_untouched 12289 _ e vs' zs' hnowrite htail
          have hmod2' : c₂.modulus = 12289 := by
            rw [hmod2, k1.2.2.1]
            exact hmod
          have hres := hvalF hmod2' _ henvF zs' htailF
          have hre : replay 12289 ((Δ₀ ++
              [⟨"REDUCE", [a'], { r with name := rNameStr k }, qb, some M',
                none, none⟩]) ++ ΔF) e =
              replay 12289 ΔF (replay 12289 (Δ₀ ++
                [⟨"REDUCE", [a'], { r with name := rNameStr k }, qb,
                  some M', none, none⟩]) e) :=
            replay_append 12289 _ _ e
          have hFnok : ∀ op ∈ ΔF, rNameStr k ≠ op.result.name := by
            intro op hop
            rcases hshF op hop with ⟨t', ht', _⟩ | ⟨j, hj, hjk⟩
            · rw [ht']
              exact rNameStr_ne_tmp k t'
            · rw [hj]
              intro he
              have := rNameStr_inj he
              omega
          refine List.Forall₂.cons ?_ ?_
          · show replay 12289 _ e (rNameStr k) = ((z.val : Nat) : Int)
            rw [hre, replay_untouched 12289 ΔF _ (rNameStr k) hFnok, hwv',
              ← hwv]
            exact hrepr
          · rw [hre]
            exact hres

/-! ## Constant registration and input creation of the generation flows -/

theorem sqr1_ne_fName (i : Nat) : "sqr1" ≠ fNameStr i :=
  str_ne_of_data (by rw [fNameStr_data]; exact head_ne (by decide))

theorem wName_ne_fName (s i i' : Nat) : wNameStr s i ≠ fNameStr i' :=
  str_ne_of_data
    (by rw [wNameStr_data, fNameStr_data]; exact head_ne (by decide))

theorem const_ne_fName (v : Int) (i : Nat) :
    constantName v none ≠ fNameStr i :=
  str_ne_of_data
    (by rw [constantName_none_data, fNameStr_data]; exact head_ne (by decide))

theorem i2_ne_fName (i : Nat) : "i2" ≠ fNameStr i :=
  str_ne_of_data (by rw [fNameStr_data]; exact head_ne (by decide))

theorem invsqr1_ne_fName (i : Nat) : "inv_sqr1" ≠ fNameStr i :=
  str_ne_of_data (by rw [fNameStr_data]; exact head_ne (by decide))

theorem invwName_ne_fName (s i i' : Nat) : invwNameStr s i ≠ fNameStr i' :=
  str_ne_of_data
    (by rw [invwNameStr_data, fNameStr_data]; exact head_ne (by decide))

theorem nttCSpec_noF (T : RootTable) :
    ∀ i v, ¬ NttCSpec T (fNameStr i) v := by
  intro i v h
  rcases h with ⟨h, _⟩ | ⟨s, j, h, _⟩ | ⟨x, h, _⟩
  · exact sqr1_ne_fName i h.symm
  · exact wName_ne_fName s j i h.symm
  · exact const_ne_fName x i h.symm

theorem inttCSpec_noF (T : RootTable) :
    ∀ i v, ¬ InttCSpec T (fNameStr i) v := by
  intro i v h
  rcases h with ⟨h, _⟩ | ⟨h, _⟩ | ⟨s, j, h, _⟩ | ⟨x, h, _⟩
  · exact i2_ne_fName i h.symm
  · exact invsqr1_ne_fName i h.symm
  · exact invwName_ne_fName s j i h.symm
  · exact const_ne_fName x i h.symm

theorem ginv_empty (cspec : CSpec) (c : Circuit) (hv : c.vars = [])
    (hops : c.operations = []) : GInv cspec c := by
  refine ⟨?_, ?_, ?_, ?_, ?_, ?_, ?_, ?_, ?_⟩
  · intro j _
    rw [hv]
    rfl
  · rw [hv]
    exact List.nodup_nil
  · intro nm u hu
    rw [hv] at hu
    simp [dictGet] at hu
  · intro op hop
    rw [hops] at hop
    exact absurd hop (List.not_mem_nil _)
  · intro nm u hu
    rw [hv] at hu
    simp [dictGet] at hu
  · intro op hop
    rw [hops] at hop
    exact absurd hop (List.not_mem_nil _)
  · intro j u hu
    rw [hv] at hu
    simp [dictGet] at hu
  · intro i u hu
    rw [hv] at hu
    simp [dictGet] at hu
  · intro nm u hu
    rw [hv] at hu
    simp [dictGet] at hu

theorem foldl_state {α : Type} (f : Circuit → α → Circuit)
    (hf : ∀ c x, (f c x).vars = c.vars ∧ (f c x).operations = c.operations ∧
      (f c x).inputs = c.inputs ∧ (f c x).outputs = c.outputs ∧
      (f c x).varCounter = c.varCounter ∧ (f c x).modulus = c.modulus ∧
      (f c x).maxBound = c.maxBound) :
    ∀ (l : List α) (c : Circuit),
      (l.foldl f c).vars = c.vars ∧
      (l.foldl f c).operations = c.operations ∧
      (l.foldl f c).inputs = c.inputs ∧
      (l.foldl f c).outputs = c.outputs ∧
      (l.foldl f c).varCounter = c.varCounter ∧
      (l.foldl f c).modulus = c.modulus ∧
      (l.foldl f c).maxBound = c.maxBound
  | [], c => ⟨rfl, rfl, rfl, rfl, rfl, rfl, rfl⟩
  | x :: xs, c => by
      simp only [List.foldl_cons]
      obtain ⟨h1, h2, h3, h4, h5, h6, h7⟩ := foldl_state f hf xs (f c x)
      obtain ⟨g1, g2, g3, g4, g5, g6, g7⟩ := hf c x
      exact ⟨h1.trans g1, h2.trans g2, h3.trans g3, h4.trans g4,
        h5.trans g5, h6.trans g6, h7.trans g7⟩

theorem registerRootsAtSize_state (T : RootTable) (size : Nat) (c : Circuit) :
    (registerRootsAtSize T size c).vars = c.vars ∧
    (registerRootsAtSize T size c).operations = c.operations ∧
    (registerRootsAtSize T size c).inputs = c.inputs ∧
    (registerRootsAtSize T size c).outputs = c.outputs ∧
    (registerRootsAtSize T size c).varCounter = c.varCounter ∧
    (registerRootsAtSize T size c).modulus = c.modulus ∧
    (registerRootsAtSize T size c).maxBound = c.maxBound :=
  foldl_state _
    (fun c i => by
      split_ifs <;> exact ⟨rfl, rfl, rfl, rfl, rfl, rfl, rfl⟩)
    (evenIdx size) c

theorem registerInvRootsAtSize_state (T : RootTable) (size : Nat)
    (c : Circuit) :
    (registerInvRootsAtSize T size c).vars = c.vars ∧
    (registerInvRootsAtSize T size c).operations = c.operations ∧
    (registerInvRootsAtSize T size c).inputs = c.inputs ∧
    (registerInvRootsAtSize T size c).outputs = c.outputs ∧
    (registerInvRootsAtSize T size c).varCounter = c.varCounter ∧
    (registerInvRootsAtSize T size c).modulus = c.modulus ∧
    (registerInvRootsAtSize T size c).maxBound = c.maxBound :=
  foldl_state _
    (fun c i => by
      split_ifs <;> exact ⟨rfl, rfl, rfl, rfl, rfl, rfl, rfl⟩)
    (evenIdx size) c

theorem nttRegister_state (T : RootTable) (n : Nat) (c : Circuit) :
    (nttRegisterConstants T n c).vars = c.vars ∧
    (nttRegisterConstants T n c).operations = c.operations ∧
    (nttRegisterConstants T n c).inputs = c.inputs ∧
    (nttRegisterConstants T n c).outputs = c.outputs ∧
    (nttRegisterConstants T n c).varCounter = c.varCounter ∧
    (nttRegisterConstants T n c).modulus = c.modulus ∧
    (nttRegisterConstants T n c).maxBound = c.maxBound := by
  unfold nttRegisterConstants
  exact foldl_state _ (fun c s => registerRootsAtSize_state T s c)
    (mergeSizes n) _

theorem inttRegister_state (T : RootTable) (n : Nat) (c : Circuit) :
    (inttRegisterConstants T n c).vars = c.vars ∧
    (inttRegisterConstants T n c).operations = c.operations ∧
    (inttRegisterConstants T n c).inputs = c.inputs ∧
    (inttRegisterConstants T n c).outputs = c.outputs ∧
    (inttRegisterConstants T n c).varCounter = c.varCounter ∧
    (inttRegisterConstants T n c).modulus = c.modulus ∧
    (inttRegisterConstants T n c).maxBound = c.maxBound := by
  unfold inttRegisterConstants
  exact foldl_state _ (fun c s => registerInvRootsAtSize_state T s c)
    (mergeSizes n) _

theorem rootsFold_preserve (T : RootTable) (size : Nat) :
    ∀ (l : List Nat) (c : Circuit) (v : Int),
      (dictGet c.constants v).isSome →
      (dictGet ((l.foldl (fun c i =>
          if (dictGet c.constants (T.w size i)).isSome then c
          else c.registerConstant (T.w size i) (bigWNameStr size (i / 2)))
        c)).constants v).isSome
  | [], _, _, h => h
  | i :: is, c, v, h => by
      simp only [List.foldl_cons]
      apply rootsFold_preserve T size is
      split_ifs with hc
      · exact h
      · exact dictGet_set_isSome_mono _ _ _ _ h

theorem rootsFold_at (T : RootTable) (size : Nat) :
    ∀ (l : List Nat) (c : Circuit) (i : Nat), i ∈ l →
      (dictGet ((l.foldl (fun c i =>
          if (dictGet c.constants (T.w size i)).isSome then c
          else c.registerConstant (T.w size i) (bigWNameStr size (i / 2)))
        c)).constants (T.w size i)).isSome
  | [], _, _, h => absurd h (List.not_mem_nil _)
  | j :: is, c, i, h => by
      simp only [List.foldl_cons]
      rcases List.mem_cons.mp h with rfl | h
      · apply rootsFold_preserve T size is
        split_ifs with hc
        · exact hc
        · show (dictGet (dictSet c.constants (T.w size i)
            (bigWNameStr size (i / 2))) (T.w size i)).isSome = true
          rw [dictGet_set_self]
          rfl
      · exact rootsFold_at T size is _ i h

theorem invRootsFold_preserve (T : RootTable) (size : Nat) :
    ∀ (l : List Nat) (c : Circuit) (v : Int),
      (dictGet c.constants v).isSome →
      (dictGet ((l.foldl (fun c i =>
          if (dictGet c.constants (T.invw (T.w size i))).isSome then c
          else c.registerConstant (T.invw (T.w size i))
            (bigInvWNameStr size (i / 2))) c)).constants v).isSome
  | [], _, _, h => h
  | i :: is, c, v, h => by
      simp only [List.foldl_cons]
      apply invRootsFold_preserve T size is
      split_ifs with hc
      · exact h
      · exact dictGet_set_isSome_mono _ _ _ _ h

theorem invRootsFold_at (T : RootTable) (size : Nat) :
    ∀ (l : List Nat) (c : Circuit) (i : Nat), i ∈ l →
      (dictGet ((l.foldl (fun c i =>
          if (dictGet c.constants (T.invw (T.w size i))).isSome then c
          else c.registerConstant (T.invw (T.w size i))
            (bigInvWNameStr size (i / 2))) c)).constants
        (T.invw (T.w size i))).isSome
  | [], _, _, h => absurd h (List.not_mem_nil _)
  | j :: is, c, i, h => by
      simp only [List.foldl_cons]
      rcases List.mem_cons.mp h with rfl | h
      · apply invRootsFold_preserve T size is
        split_ifs with hc
        · exact hc
        · show (dictGet (dictSet c.constants (T.invw (T.w size i))
            (bigInvWNameStr size (i / 2))) (T.invw (T.w size i))).isSome =
            true
          rw [dictGet_set_self]
          rfl
      · exact invRootsFold_at T size is _ i h

theorem sizesFold_preserve (T : RootTable) :
    ∀ (l : List Nat) (c : Circuit) (v : Int),
      (dictGet c.constants v).isSome →
      (dictGet ((l.foldl (fun c size => registerRootsAtSize T size c)
        c)).constants v).isSome
  | [], _, _, h => h
  | s :: ss, c, v, h => by
      simp only [List.foldl_cons]
      exact sizesFold_preserve T ss _ v
        (rootsFold_preserve T s (evenIdx s) c v h)

theorem sizesFold_at (T : RootTable) :
    ∀ (l : List Nat) (c : Circuit) (s i : Nat), s ∈ l → i ∈ evenIdx s →
      (dictGet ((l.foldl (fun c size => registerRootsAtSize T size c)
        c)).constants (T.w s i)).isSome
  | [], _, _, _, h, _ => absurd h (List.not_mem_nil _)
  | s' :: ss, c, s, i, h, hi => by
      simp only [List.foldl_cons]
      rcases List.mem_cons.mp h with rfl | h
      · exact sizesFold_preserve T ss _ _
          (rootsFold_at T s (evenIdx s) c i hi)
      · exact sizesFold_at T ss _ s i h hi

theorem invSizesFold_preserve (T : RootTable) :
    ∀ (l : List Nat) (c : Circuit) (v : Int),
      (dictGet c.constants v).isSome →
      (dictGet ((l.foldl (fun c size => registerInvRootsAtSize T size c)
        c)).constants v).isSome
  | [], _, _, h => h
  | s :: ss, c, v, h => by
      simp only [List.foldl_cons]
      exact invSizesFold_preserve T ss _ v
        (invRootsFold_preserve T s (evenIdx s) c v h)

theorem invSizesFold_at (T : RootTable) :
    ∀ (l : List Nat) (c : Circuit) (s i : Nat), s ∈ l → i ∈ evenIdx s →
      (dictGet ((l.foldl (fun c size => registerInvRootsAtSize T size c)
        c)).constants (T.invw (T.w s i))).isSome
  | [], _, _, _, h, _ => absurd h (List.not_mem_nil _)
  | s' :: ss, c, s, i, h, hi => by
      simp only [List.foldl_cons]
      rcases List.mem_cons.mp h with rfl | h
      · exact invSizesFold_preserve T ss _ _
          (invRootsFold_at T s (evenIdx s) c i hi)
      · exact invSizesFold_at T ss _ s i h hi

theorem evenIdx_mem (size i : Nat) (heven : size % 2 = 0)
    (h2 : 2 * i < size) : 2 * i ∈ evenIdx size := by
  unfold evenIdx
  refine List.mem_map.mpr ⟨i, ?_, rfl⟩
  rw [List.mem_range]
  omega

theorem sizesFrom_mem :
    ∀ (fuel size n m : Nat), 0 < size → size * 2 ^ m ≤ n → m < fuel →
      size * 2 ^ m ∈ sizesFrom size n fuel
  | 0, _, _, m, _, _, hm => absurd hm (Nat.not_lt_zero m)
  | fuel + 1, size, n, m, hs, hle, hm => by
      have hpow : 1 ≤ 2 ^ m := Nat.one_le_two_pow
      have hsle : size ≤ n := by
        have h1 : size * 1 ≤ size * 2 ^ m := Nat.mul_le_mul_left size hpow
        omega
      simp only [sizesFrom, if_pos hsle]
      cases m with
      | zero =>
          have h0 : size * 2 ^ 0 = size := by ring
          rw [h0]
          exact List.mem_cons_self _ _
      | succ m' =>
          refine List.mem_cons_of_mem _ ?_
          have hm' : size * 2 ^ (m' + 1) = 2 * size * 2 ^ m' := by ring
          rw [hm']
          exact sizesFrom_mem fuel (2 * size) n m' (by omega)
            (by rw [← hm']; exact hle) (by omega)

theorem mergeSizes_mem (n j : Nat) (h2 : 2 ≤ j) (hle : 2 ^ j ≤ n) :
    2 ^ j ∈ mergeSizes n := by
  unfold mergeSizes
  have he : (2 : Nat) ^ j = 4 * 2 ^ (j - 2) := by
    have hq : (2 : Nat) ^ ((j - 2) + 2) = 4 * 2 ^ (j - 2) := by
      rw [pow_add]
      ring
    rw [← hq]
    congr 1
    omega
  have hjlt : j < 2 ^ j := Nat.lt_two_pow j
  rw [he]
  exact sizesFrom_mem n 4 n (j - 2) (by omega) (by rw [← he]; exact hle)
    (by omega)

theorem pow_even {j : Nat} (h2 : 2 ≤ j) : (2 : Nat) ^ j % 2 = 0 := by
  have he : (2 : Nat) ^ j = 2 * 2 ^ (j - 1) := by
    have hq : (2 : Nat) ^ ((j - 1) + 1) = 2 * 2 ^ (j - 1) := by
      rw [pow_succ]
      ring
    rw [← hq]
    congr 1
    omega
  omega

theorem nttRegister_consts (T : RootTable) (n : Nat) (c : Circuit) :
    (dictGet (nttRegisterConstants T n c).constants (T.w 2 0)).isSome ∧
    RootsReg T (nttRegisterConstants T n c) n := by
  unfold nttRegisterConstants
  constructor
  · apply sizesFold_preserve
    apply dictGet_set_isSome_mono
    show (dictGet (dictSet c.constants (T.w 2 0) "SQR1") (T.w 2 0)).isSome =
      true
    rw [dictGet_set_self]
    rfl
  · intro s i h4 hle hpow h2i
    obtain ⟨j, rfl⟩ := hpow
    have hj2 : 2 ≤ j := by
      by_contra hj
      interval_cases j <;> norm_num at h4
    exact sizesFold_at T (mergeSizes n) _ (2 ^ j) (2 * i)
      (mergeSizes_mem n j hj2 hle) (evenIdx_mem _ i (pow_even hj2) h2i)

theorem inttRegister_consts (T : RootTable) (n : Nat) (c : Circuit) :
    (dictGet (inttRegisterConstants T n c).constants inttI2).isSome ∧
    (dictGet (inttRegisterConstants T n c).constants
      (T.invw (T.w 2 0))).isSome ∧
    InvRootsReg T (inttRegisterConstants T n c) n := by
  unfold inttRegisterConstants
  refine ⟨?_, ?_, ?_⟩
  · apply invSizesFold_preserve
    apply dictGet_set_isSome_mono
    apply dictGet_set_isSome_mono
    show (dictGet (dictSet c.constants inttI2 "I2") inttI2).isSome = true
    rw [dictGet_set_self]
    rfl
  · apply invSizesFold_preserve
    apply dictGet_set_isSome_mono
    show (dictGet (dictSet (dictSet c.constants inttI2 "I2")
      (T.invw (T.w 2 0)) "INV_SQR1") (T.invw (T.w 2 0))).isSome = true
    rw [dictGet_set_self]
    rfl
  · intro s i h4 hle hpow h2i
    obtain ⟨j, rfl⟩ := hpow
    have hj2 : 2 ≤ j := by
      by_contra hj
      interval_cases j <;> norm_num at h4
    exact invSizesFold_at T (mergeSizes n) _ (2 ^ j) (2 * i)
      (mergeSizes_mem n j hj2 hle) (evenIdx_mem _ i (pow_even hj2) h2i)

theorem inputVars_length : ∀ (kc i : Nat), (inputVars kc i).length = kc
  | 0, _ => rfl
  | kc + 1, i => by
      simp only [inputVars, List.length_cons, inputVars_length kc (i + 1)]

theorem inputVars_mem :
    ∀ (kc i : Nat) (v : Var), v ∈ inputVars kc i →
      ∃ j, i ≤ j ∧ j < i + kc ∧ v = ⟨fNameStr j, 0, nttQ - 1, none⟩
  | 0, _, v, h => absurd h (List.not_mem_nil _)
  | kc + 1, i, v, h => by
      rcases List.mem_cons.mp h with rfl | h
      · exact ⟨i, le_rfl, by omega, rfl⟩
      · obtain ⟨j, h1, h2, h3⟩ := inputVars_mem kc (i + 1) v h
        exact ⟨j, by omega, by omega, h3⟩

theorem inputVars_nodup :
    ∀ (kc i : Nat), ((inputVars kc i).map Var.name).Nodup
  | 0, _ => List.nodup_nil
  | kc + 1, i => by
      simp only [inputVars, List.map_cons, List.nodup_cons]
      refine ⟨?_, inputVars_nodup kc (i + 1)⟩
      intro hmem
      obtain ⟨v, hv, hvn⟩ := List.mem_map.mp hmem
      obtain ⟨j, h1, _, rfl⟩ := inputVars_mem kc (i + 1) v hv
      have : j = i := fNameStr_inj hvn
      omega

theorem input_ginv (cspec : CSpec) (hnf : ∀ i v, ¬ cspec (fNameStr i) v)
    (c : Circuit) (i : Nat) (g : GInv cspec c)
    (hfree : dictGet c.vars (fNameStr i) = none) :
    ∃ c', c.input (fNameStr i) 0 (nttQ - 1) =
        Except.ok (⟨fNameStr i, 0, nttQ - 1, none⟩, c') ∧
      c'.vars = dictSet c.vars (fNameStr i) ⟨fNameStr i, 0, nttQ - 1, none⟩ ∧
      c'.operations = c.operations ∧
      c'.inputs = c.inputs ++ [⟨fNameStr i, 0, nttQ - 1, none⟩] ∧
      c'.outputs = c.outputs ∧
      c'.varCounter = c.varCounter ∧
      c'.modulus = c.modulus ∧
      c'.maxBound = c.maxBound ∧
      c'.constants = c.constants ∧
      GInv cspec c' ∧
      VarsMono c c' := by
  refine ⟨{ c with
      vars := dictSet c.vars (fNameStr i) ⟨fNameStr i, 0, nttQ - 1, none⟩
      inputs := c.inputs ++ [⟨fNameStr i, 0, nttQ - 1, none⟩]
      boundTypes := setAdd c.boundTypes (0, nttQ - 1) },
    ?_, rfl, rfl, rfl, rfl, rfl, rfl, rfl, rfl, ?_, ?_⟩
  · unfold Circuit.input
    rw [hfree]
    rfl
  · have hlook : ∀ nm, nm ≠ fNameStr i →
        dictGet (dictSet c.vars (fNameStr i)
          ⟨fNameStr i, 0, nttQ - 1, none⟩) nm = dictGet c.vars nm := by
      intro nm h
      exact dictGet_set_ne _ _ _ _ (Ne.symm h)
    refine ⟨?_, ?_, ?_, ?_, ?_, ?_, ?_, ?_, ?_⟩
    · intro j hj
      show dictGet (dictSet c.vars (fNameStr i) _) (tmpName j) = none
      rw [hlook _ (fun he => fNameStr_ne_tmp i j he.symm)]
      exact g.tmpFresh j hj
    · exact dictSet_nodupKeys _ _ _ g.varsNodup
    · intro nm u hu v hv
      by_cases hni : nm = fNameStr i
      · subst hni
        exact absurd hv (hnf i v)
      · rw [hlook nm hni] at hu
        exact g.cspecOK nm u hu v hv
    · intro op hop
      exact g.opsSettled op hop
    · intro nm u hu hsrc hsing
      by_cases hni : nm = fNameStr i
      · subst hni
        rw [dictGet_set_self] at hu
        obtain rfl := Option.some.inj hu
        have hne : (0 : Int) ≠ nttQ - 1 := by decide
        exact absurd hsing hne
      · rw [hlook nm hni] at hu
        exact g.singletonReg nm u hu hsrc hsing
    · intro op hop
      exact g.opsResultShape op hop
    · intro j u hu
      rw [hlook _ (fun he => fNameStr_ne_tmp i j he.symm)] at hu
      exact g.tmpSrc j u hu
    · intro j u hu
      rw [hlook _ (fun he => rNameStr_ne_fName j i he)] at hu
      exact g.rSrc j u hu
    · intro nm u hu
      by_cases hni : nm = fNameStr i
      · subst hni
        rw [dictGet_set_self] at hu
        obtain rfl := Option.some.inj hu
        rfl
      · rw [hlook nm hni] at hu
        exact g.nameKey nm u hu
  · intro nm u hu
    exact dictGet_mono_set_fresh c.vars (fNameStr i) _ hfree nm u hu

theorem mkInputs_contract (cspec : CSpec) (hgood : CSpecGood cspec)
    (hnf : ∀ i v, ¬ cspec (fNameStr i) v) :
    ∀ (kc i : Nat) (c : Circuit),
      GInv cspec c →
      (∀ j, i ≤ j → dictGet c.vars (fNameStr j) = none) →
      ∃ c', mkInputs kc i c = Except.ok (inputVars kc i, c') ∧
        c'.operations = c.operations ∧
        c'.inputs = c.inputs ++ inputVars kc i ∧
        c'.outputs = c.outputs ∧
        c'.varCounter = c.varCounter ∧
        c'.modulus = c.modulus ∧
        c'.maxBound = c.maxBound ∧
        c'.constants = c.constants ∧
        GInv cspec c' ∧
        VarsMono c c' ∧
        (∀ j, i ≤ j → j < i + kc →
          dictGet c'.vars (fNameStr j) =
            some ⟨fNameStr j, 0, nttQ - 1, none⟩)
  | 0, i, c, hg, _ => by
      refine ⟨c, rfl, rfl, by simp [inputVars], rfl, rfl, rfl, rfl, rfl, hg,
        fun nm u hu => hu, ?_⟩
      intro j h1 h2
      omega
  | kc + 1, i, c, hg, hfree => by
      obtain ⟨c1, hok, hvars1, hops1, hin1, hout1, hcnt1, hmod1, hmaxb1,
        hcon1, g1, hvm1⟩ :=
        input_ginv cspec hnf c i hg (hfree i le_rfl)
      have hfree1 : ∀ j, i + 1 ≤ j → dictGet c1.vars (fNameStr j) = none := by
        intro j hj
        rw [hvars1, dictGet_set_ne _ _ _ _
          (fun he => (by omega : i ≠ j) (fNameStr_inj he))]
        exact hfree j (by omega)
      obtain ⟨c2, hok2, hops2, hin2, hout2, hcnt2, hmod2, hmaxb2, hcon2, g2,
        hvm2, hat2⟩ :=
        mkInputs_contract cspec hgood hnf kc (i + 1) c1 g1 hfree1
      refine ⟨c2, ?_, hops2.trans hops1, ?_, hout2.trans hout1,
        hcnt2.trans hcnt1, hmod2.trans hmod1, hmaxb2.trans hmaxb1,
        hcon2.trans hcon1, g2, ?_, ?_⟩
      · show mkInputs (kc + 1) i c = _
        simp only [mkInputs, hok, hok2, inputVars]
      · rw [hin2, hin1, List.append_assoc]
        rfl
      · intro nm u hu
        exact hvm2 nm u (hvm1 nm u hu)
      · intro j h1 h2
        by_cases hij : j = i
        · subst hij
          apply hvm2
          rw [hvars1]
          exact dictGet_set_self _ _ _
        · exact hat2 j (by omega) (by omega)

/-! ## The simulation environment satisfies the invariants -/

theorem envC_init (cspec : CSpec) (c : Circuit) (g : GInv cspec c)
    (e : String → Int) :
    EnvC c (initEnvConsts c.vars c.constants e) := by
  intro nm u hu hsrc hsing
  apply initEnvConsts_at c.vars c.constants e nm u g.varsNodup hu hsing
  have hreg := g.singletonReg nm u hu hsrc hsing
  obtain ⟨cn, hcn⟩ := Option.isSome_iff_exists.mp hreg
  exact ⟨cn, dictGet_mem _ _ _ hcn⟩

theorem consts_skip_at (cspec : CSpec) (c : Circuit) (g : GInv cspec c)
    (j : Nat)
    (hj : dictGet c.vars (fNameStr j) =
      some ⟨fNameStr j, 0, nttQ - 1, none⟩)
    (e : String → Int) :
    initEnvConsts c.vars c.constants e (fNameStr j) = e (fNameStr j) := by
  apply initEnvConsts_skip
  intro p hp hpk
  have hpv := dictGet_unique_of_nodup c.vars (fNameStr j) _ g.varsNodup hj
    p hp hpk
  rw [hpv]
  show (0 : Int) ≠ nttQ - 1
  decide

/-! ## The value-level round trip over `Z_q` -/

theorem castZ_i2_two : castZ inttI2 * 2 = 1 := by decide

theorem mergeZ_length (wz : Nat → Nat → Zq) (size : Nat) :
    ∀ (i : Nat) (xs ys : List Zq), xs.length = ys.length →
      (mergeZ wz size i xs ys).length = 2 * xs.length
  | i, [], ys, h => by simp [mergeZ]
  | i, x :: xs, [], h => by simp at h
  | i, x :: xs, y :: ys, h => by
      simp only [mergeZ, List.length_cons,
        mergeZ_length wz size (i + 1) xs ys (by simpa using h)]
      omega

theorem splitZ_mergeZ (iz : Zq) (vz wz : Nat → Nat → Zq) (size : Nat)
    (hiz : iz * 2 = 1) (hv : ∀ j, vz size j * wz size j = 1) :
    ∀ (i : Nat) (xs ys : List Zq), xs.length = ys.length →
      splitZ iz vz size i (mergeZ wz size i xs ys) = (xs, ys)
  | i, [], [], _ => rfl
  | i, [], y :: ys, h => by simp at h
  | i, x :: xs, [], h => by simp at h
  | i, x :: xs, y :: ys, h => by
      have hm : mergeZ wz size i (x :: xs) (y :: ys) =
          (x + wz size (2 * i) * y) :: (x - wz size (2 * i) * y) ::
            mergeZ wz size (i + 1) xs ys := rfl
      rw [hm]
      have hs : splitZ iz vz size i ((x + wz size (2 * i) * y) ::
          (x - wz size (2 * i) * y) :: mergeZ wz size (i + 1) xs ys) =
          ((iz * ((x + wz size (2 * i) * y) + (x - wz size (2 * i) * y))) ::
            (splitZ iz vz size (i + 1) (mergeZ wz size (i + 1) xs ys)).1,
           (iz * (((x + wz size (2 * i) * y) - (x - wz size (2 * i) * y)) *
             vz size (2 * i))) ::
            (splitZ iz vz size (i + 1)
              (mergeZ wz size (i + 1) xs ys)).2) := rfl
      rw [hs,
        splitZ_mergeZ iz vz wz size hiz hv (i + 1) xs ys (by simpa using h)]
      have h1 : iz * ((x + wz size (2 * i) * y) +
          (x - wz size (2 * i) * y)) = x := by
        have hh : iz * ((x + wz size (2 * i) * y) +
            (x - wz size (2 * i) * y)) = (iz * 2) * x := by ring
        rw [hh, hiz, one_mul]
      have h2 : iz * (((x + wz size (2 * i) * y) -
          (x - wz size (2 * i) * y)) * vz size (2 * i)) = y := by
        have hh : iz * (((x + wz size (2 * i) * y) -
            (x - wz size (2 * i) * y)) * vz size (2 * i)) =
            (iz * 2) * ((vz size (2 * i) * wz size (2 * i)) * y) := by ring
        rw [hh, hiz, hv (2 * i), one_mul, one_mul]
      rw [h1, h2]

theorem interleave_evens_odds {α : Type} :
    ∀ (xs : List α), xs.length % 2 = 0 →
      interleave (evens xs) (odds xs) = xs
  | [], _ => rfl
  | [x], h => by simp at h
  | x :: y :: rest, h => by
      show x :: y :: interleave (evens rest) (odds rest) = x :: y :: rest
      rw [interleave_evens_odds rest
        (by simp only [List.length_cons] at h; omega)]

theorem nttZ_length (wz : Nat → Nat → Zq) :
    ∀ (fuel k : Nat) (xs : List Zq), xs.length = 2 ^ (k + 1) →
      xs.length ≤ fuel → (nttZ wz fuel xs).length = xs.length
  | 0, k, xs, hlen, hfuel => by
      exfalso
      have : 0 < 2 ^ (k + 1) := Nat.pos_pow_of_pos _ (by omega)
      omega
  | fuel + 1, k, xs, hlen, hfuel => by
      by_cases h2 : xs.length = 2
      · match xs, h2 with
        | [x0, x1], _ =>
            have hN : nttZ wz (fuel + 1) [x0, x1] =
                [x0 + wz 2 0 * x1, x0 - wz 2 0 * x1] := by
              rw [nttZ_succ]
              rfl
            rw [hN]
            rfl
      · have hk1 : 1 ≤ k := by
          by_contra hk
          have hk0 : k = 0 := by omega
          subst hk0
          norm_num at hlen
          exact h2 hlen
        have hn4 : 4 ≤ xs.length := by
          rw [hlen]
          calc (4 : Nat) = 2 ^ 2 := by norm_num
          _ ≤ 2 ^ (k + 1) := Nat.pow_le_pow_right (by omega) (by omega)
        have h2k : (2 : Nat) ^ (k + 1) = 2 * 2 ^ k := by
          rw [pow_succ]
          ring
        have hev : (evens xs).length = 2 ^ k := by
          rw [evens_length, hlen]
          omega
        have hod : (odds xs).length = 2 ^ k := by
          rw [odds_length, hlen]
          omega
        have hkk : (2 : Nat) ^ k = 2 ^ ((k - 1) + 1) := by
          congr 1
          omega
        have hp : 0 < 2 ^ k := Nat.pos_pow_of_pos _ (by omega)
        have he' : (evens xs).length = 2 ^ ((k - 1) + 1) := by
          rw [hev, hkk]
        have ho' : (odds xs).length = 2 ^ ((k - 1) + 1) := by
          rw [hod, hkk]
        have hfe : (evens xs).length ≤ fuel := by
          rw [hev]
          omega
        have hfo : (odds xs).length ≤ fuel := by
          rw [hod]
          omega
        have hN : nttZ wz (fuel + 1) xs =
            mergeZ wz xs.length 0 (nttZ wz fuel (evens xs))
              (nttZ wz fuel (odds xs)) := by
          rw [nttZ_succ, if_neg h2, if_pos (by omega)]
        have hlenE : (nttZ wz fuel (evens xs)).length = 2 ^ k := by
          rw [nttZ_length wz fuel (k - 1) (evens xs) he' hfe, hev]
        have hlenO : (nttZ wz fuel (odds xs)).length = 2 ^ k := by
          rw [nttZ_length wz fuel (k - 1) (odds xs) ho' hfo, hod]
        rw [hN, mergeZ_length wz xs.length 0 _ _ (hlenE.trans hlenO.symm),
          hlenE, hlen]
        omega

theorem inttZ_nttZ (wz vz : Nat → Nat → Zq) (iz isz : Zq)
    (hiz : iz * 2 = 1) (hvw : ∀ s j, vz s j * wz s j = 1)
    (hisw : isz * wz 2 0 = 1) :
    ∀ (fuel k : Nat) (xs : List Zq), xs.length = 2 ^ (k + 1) →
      xs.length ≤ fuel →
      inttZ iz isz vz fuel (nttZ wz fuel xs) = xs
  | 0, k, xs, hlen, hfuel => by
      exfalso
      have : 0 < 2 ^ (k + 1) := Nat.pos_pow_of_pos _ (by omega)
      omega
  | fuel + 1, k, xs, hlen, hfuel => by
      by_cases h2 : xs.length = 2
      · match xs, h2 with
        | [x0, x1], _ =>
            have hN : nttZ wz (fuel + 1) [x0, x1] =
                [x0 + wz 2 0 * x1, x0 - wz 2 0 * x1] := by
              rw [nttZ_succ]
              rfl
            have hI : inttZ iz isz vz (fuel + 1)
                [x0 + wz 2 0 * x1, x0 - wz 2 0 * x1] =
                [iz * ((x0 + wz 2 0 * x1) + (x0 - wz 2 0 * x1)),
                 iz * (isz * ((x0 + wz 2 0 * x1) -
                   (x0 - wz 2 0 * x1)))] := by
              rw [inttZ_succ]
              rfl
            have h1 : iz * ((x0 + wz 2 0 * x1) + (x0 - wz 2 0 * x1)) =
                x0 := by
              have hh : iz * ((x0 + wz 2 0 * x1) + (x0 - wz 2 0 * x1)) =
                  (iz * 2) * x0 := by ring
              rw [hh, hiz, one_mul]
            have h2' : iz * (isz * ((x0 + wz 2 0 * x1) -
                (x0 - wz 2 0 * x1))) = x1 := by
              have hh : iz * (isz * ((x0 + wz 2 0 * x1) -
                  (x0 - wz 2 0 * x1))) =
                  (iz * 2) * ((isz * wz 2 0) * x1) := by ring
              rw [hh, hiz, hisw, one_mul, one_mul]
            rw [hN, hI, h1, h2']
      · have hk1 : 1 ≤ k := by
          by_contra hk
          have hk0 : k = 0 := by omega
          subst hk0
          norm_num at hlen
          exact h2 hlen
        have hn4 : 4 ≤ xs.length := by
          rw [hlen]
          calc (4 : Nat) = 2 ^ 2 := by norm_num
          _ ≤ 2 ^ (k + 1) := Nat.pow_le_pow_right (by omega) (by omega)
        have h2k : (2 : Nat) ^ (k + 1) = 2 * 2 ^ k := by
          rw [pow_succ]
          ring
        have hev : (evens xs).length = 2 ^ k := by
          rw [evens_length, hlen]
          omega
        have hod : (odds xs).length = 2 ^ k := by
          rw [odds_length, hlen]
          omega
        have hkk : (2 : Nat) ^ k = 2 ^ ((k - 1) + 1) := by
          congr 1
          omega
        have hp : 0 < 2 ^ k := Nat.pos_pow_of_pos _ (by omega)
        have he' : (evens xs).length = 2 ^ ((k - 1) + 1) := by
          rw [hev, hkk]
        have ho' : (odds xs).length = 2 ^ ((k - 1) + 1) := by
          rw [hod, hkk]
        have hfe : (evens xs).length ≤ fuel := by
          rw [hev]
          omega
        have hfo : (odds xs).length ≤ fuel := by
          rw [hod]
          omega
        have hN : nttZ wz (fuel + 1) xs =
            mergeZ wz xs.length 0 (nttZ wz fuel (evens xs))
              (nttZ wz fuel (odds xs)) := by
          rw [nttZ_succ, if_neg h2, if_pos (by omega)]
        have hlenE : (nttZ wz fuel (evens xs)).length = 2 ^ k := by
          rw [nttZ_length wz fuel (k - 1) (evens xs) he' hfe, hev]
        have hlenO : (nttZ wz fuel (odds xs)).length = 2 ^ k := by
          rw [nttZ_length wz fuel (k - 1) (odds xs) ho' hfo, hod]
        have hmlen : (mergeZ wz xs.length 0 (nttZ wz fuel (evens xs))
            (nttZ wz fuel (odds xs))).length = xs.length := by
          rw [mergeZ_length wz xs.length 0 _ _ (hlenE.trans hlenO.symm),
            hlenE, hlen]
          omega
        have hI : inttZ iz isz vz (fuel + 1)
            (mergeZ wz xs.length 0 (nttZ wz fuel (evens xs))
              (nttZ wz fuel (odds xs))) =
            interleave
              (inttZ iz isz vz fuel
                (splitZ iz vz xs.length 0
                  (mergeZ wz xs.length 0 (nttZ wz fuel (evens xs))
                    (nttZ wz fuel (odds xs)))).1)
              (inttZ iz isz vz fuel
                (splitZ iz vz xs.length 0
                  (mergeZ wz xs.length 0 (nttZ wz fuel (evens xs))
                    (nttZ wz fuel (odds xs)))).2) := by
          rw [inttZ_succ, if_neg (by omega), if_pos (by omega), hmlen]
        have hsplit := splitZ_mergeZ iz vz wz xs.length hiz
          (hvw xs.length) 0 (nttZ wz fuel (evens xs))
          (nttZ wz fuel (odds xs)) (hlenE.trans hlenO.symm)
        have hfst : (splitZ iz vz xs.length 0
            (mergeZ wz xs.length 0 (nttZ wz fuel (evens xs))
              (nttZ wz fuel (odds xs)))).1 = nttZ wz fuel (evens xs) := by
          rw [hsplit]
        have hsnd : (splitZ iz vz xs.length 0
            (mergeZ wz xs.length 0 (nttZ wz fuel (evens xs))
              (nttZ wz fuel (odds xs)))).2 = nttZ wz fuel (odds xs) := by
          rw [hsplit]
        rw [hN, hI, hfst, hsnd,
          inttZ_nttZ wz vz iz isz hiz hvw hisw fuel (k - 1) (evens xs)
            he' hfe,
          inttZ_nttZ wz vz iz isz hiz hvw hisw fuel (k - 1) (odds xs)
            ho' hfo]
        apply interleave_evens_odds
        rw [hlen]
        omega

/-! ## All recursion results are temporaries -/

theorem createOp_name (c : Circuit) (t : String) (os : List Var)
    (mn mx : Int) (q : Option (Int × Int)) (m : Option Int)
    (l : Option String) :
    ∃ j, (c.createOp t os mn mx q m l).1.name = tmpName j :=
  ⟨c.varCounter, rfl⟩

theorem reduceVar_name (c : Circuit) (v : Var) (m : Option Int) :
    ∃ j, (c.reduceVar v m).1.name = tmpName j :=
  ⟨_, rfl⟩

theorem maybeAutoReduce_name (c : Circuit) (v : Var) :
    (∃ j, (c.maybeAutoReduce v).1.name = tmpName j) ∨
      (c.maybeAutoReduce v).1 = v := by
  unfold Circuit.maybeAutoReduce
  split_ifs with h
  · exact Or.inl (reduceVar_name _ _ _)
  · exact Or.inr rfl

theorem add_name (c : Circuit) (a b : Var) :
    ∃ j, (c.add a b).1.name = tmpName j := by
  unfold Circuit.add
  rcases maybeAutoReduce_name (c.createOp "ADD" [a, b] (a.minB + b.minB)
    (a.maxB + b.maxB) none none none).2 (c.createOp "ADD" [a, b]
    (a.minB + b.minB) (a.maxB + b.maxB) none none none).1 with h | h
  · exact h
  · rw [h]
    exact createOp_name _ _ _ _ _ _ _ _

theorem sub_name (c : Circuit) (a b : Var) :
    ∃ j, (c.sub a b).1.name = tmpName j := by
  unfold Circuit.sub
  rcases maybeAutoReduce_name (c.createOp "SUB" [a, b] (a.minB - b.maxB)
    (a.maxB - b.minB) none none none).2 (c.createOp "SUB" [a, b]
    (a.minB - b.maxB) (a.maxB - b.minB) none none none).1 with h | h
  · exact h
  · rw [h]
    exact createOp_name _ _ _ _ _ _ _ _

theorem mul_name (c : Circuit) (a b : Var) :
    ∃ j, (c.mul a b).1.name = tmpName j := by
  unfold Circuit.mul
  rcases maybeAutoReduce_name (c.createOp "MUL" [a, b]
    (listMin [a.minB * b.minB, a.minB * b.maxB, a.maxB * b.minB,
      a.maxB * b.maxB])
    (listMax [a.minB * b.minB, a.minB * b.maxB, a.maxB * b.minB,
      a.maxB * b.maxB]) none none none).2 (c.createOp "MUL" [a, b]
    (listMin [a.minB * b.minB, a.minB * b.maxB, a.maxB * b.minB,
      a.maxB * b.maxB])
    (listMax [a.minB * b.minB, a.minB * b.maxB, a.maxB * b.minB,
      a.maxB * b.maxB]) none none none).1 with h | h
  · exact h
  · rw [h]
    exact createOp_name _ _ _ _ _ _ _ _

theorem nttBase_names (T : RootTable) (f0 f1 : Var) (c : Circuit) :
    ∀ v ∈ (nttBase T f0 f1 c).1, ∃ j, v.name = tmpName j := by
  intro v hv
  rcases List.mem_cons.mp hv with rfl | hv
  · exact add_name _ _ _
  · rw [List.mem_singleton] at hv
    subst hv
    exact sub_name _ _ _

theorem mergeNtt_names (T : RootTable) (size : Nat) :
    ∀ (i : Nat) (xs ys : List Var) (c : Circuit),
      ∀ v ∈ (mergeNtt T size i xs ys c).1, ∃ j, v.name = tmpName j
  | i, [], ys, c => by simp [mergeNtt]
  | i, x :: xs, [], c => by simp [mergeNtt]
  | i, x :: xs, y :: ys, c => by
      intro v hv
      simp only [mergeNtt] at hv
      rcases List.mem_cons.mp hv with rfl | hv
      · exact add_name _ _ _
      · rcases List.mem_cons.mp hv with rfl | hv
        · exact sub_name _ _ _
        · exact mergeNtt_names T size (i + 1) xs ys _ v hv

theorem nttRecF_names (T : RootTable) :
    ∀ (fuel : Nat) (f : List Var) (c : Circuit),
      ∀ v ∈ (nttRecF T fuel f c).1, ∃ j, v.name = tmpName j
  | 0, f, c => by simp [nttRecF]
  | fuel + 1, f, c => by
      intro v hv
      rw [nttRecF_succ] at hv
      by_cases h2 : f.length = 2
      · rw [if_pos h2] at hv
        match f, h2 with
        | [f0, f1], _ => exact nttBase_names T f0 f1 c v hv
      · rw [if_neg h2] at hv
        by_cases h3 : 2 < f.length
        · rw [if_pos h3] at hv
          exact mergeNtt_names T f.length 0 _ _ _ v hv
        · rw [if_neg h3] at hv
          exact absurd hv (List.not_mem_nil v)

theorem inttBase_names (T : RootTable) (f0 f1 : Var) (c : Circuit) :
    ∀ v ∈ (inttBase T f0 f1 c).1, ∃ j, v.name = tmpName j := by
  intro v hv
  rcases List.mem_cons.mp hv with rfl | hv
  · exact mul_name _ _ _
  · rw [List.mem_singleton] at hv
    subst hv
    exact mul_name _ _ _

theorem splitNttLoop_names (T : RootTable) (size : Nat) (i2v : Var) :
    ∀ (i : Nat) (fs : List Var) (c : Circuit),
      (∀ v ∈ (splitNttLoop T size i2v i fs c).1.1,
        ∃ j, v.name = tmpName j) ∧
      (∀ v ∈ (splitNttLoop T size i2v i fs c).1.2,
        ∃ j, v.name = tmpName j)
  | i, [], c => by constructor <;> simp [splitNttLoop]
  | i, [x], c => by constructor <;> simp [splitNttLoop]
  | i, x :: y :: rest, c => by
      constructor
      · intro v hv
        simp only [splitNttLoop] at hv
        rcases List.mem_cons.mp hv with rfl | hv
        · exact mul_name _ _ _
        · exact (splitNttLoop_names T size i2v (i + 1) rest _).1 v hv
      · intro v hv
        simp only [splitNttLoop] at hv
        rcases List.mem_cons.mp hv with rfl | hv
        · exact mul_name _ _ _
        · exact (splitNttLoop_names T size i2v (i + 1) rest _).2 v hv

theorem inttRecF_names (T : RootTable) :
    ∀ (fuel : Nat) (f : List Var) (c : Circuit),
      ∀ v ∈ (inttRecF T fuel f c).1, ∃ j, v.name = tmpName j
  | 0, f, c => by simp [inttRecF]
  | fuel + 1, f, c => by
      intro v hv
      rw [inttRecF_succ] at hv
      by_cases h2 : f.length = 2
      · rw [if_pos h2] at hv
        match f, h2 with
        | [f0, f1], _ => exact inttBase_names T f0 f1 c v hv
      · rw [if_neg h2] at hv
        by_cases h3 : 2 < f.length
        · rw [if_pos h3] at hv
          rcases interleave_mem _ _ v hv with h | h
          · exact inttRecF_names T fuel _ _ v h
          · exact inttRecF_names T fuel _ _ v h
        · rw [if_neg h3] at hv
          exact absurd hv (List.not_mem_nil v)

/-! ## Glue for the end-to-end simulations -/

theorem validSize_pow (k : Nat) (hk : k ≤ 9) :
    validSize (2 ^ (k + 1)) = true := by
  interval_cases k <;> decide

theorem forall₂_imp_mem {α β : Type} {R S : α → β → Prop} :
    ∀ {l₁ : List α} {l₂ : List β}, List.Forall₂ R l₁ l₂ →
      (∀ a ∈ l₁, ∀ b, R a b → S a b) → List.Forall₂ S l₁ l₂
  | _, _, List.Forall₂.nil, _ => List.Forall₂.nil
  | _, _, List.Forall₂.cons h ht, him => List.Forall₂.cons
      (him _ (List.mem_cons_self _ _) _ h)
      (forall₂_imp_mem ht
        (fun a ha b hr => him a (List.mem_cons_of_mem _ ha) b hr))

theorem forall₂_castZ_map {l : List Var} {values : List Int}
    {e : String → Int}
    (h : List.Forall₂ (fun (v : Var) (x : Int) => e v.name = x) l values) :
    EnvVals e l (values.map castZ) := by
  induction h with
  | nil => exact List.Forall₂.nil
  | @cons v x l' values' hab _ ih =>
      exact List.Forall₂.cons (by rw [hab]) ih

/-- End-to-end forward transform: `NttCircuitGenerator(n).generate` succeeds
for every valid power-of-two size, and `simulate` on any integer input vector
of the right arity returns the canonical representatives of the value-level
NTT of the inputs' residues. -/
theorem buildNtt_simulate (T : RootTable) (k n : Nat) (values : List Int)
    (hn : n = 2 ^ (k + 1)) (hk : k ≤ 9) (hlen : values.length = n) :
    ∃ c, buildNtt T n = Except.ok c ∧
      simulate c 12289 values = Except.ok
        ((nttZ (wzT T) n (values.map castZ)).map
          (fun z => ((z.val : Nat) : Int))) := by
  have hgood := CSpecGood_ntt T
  have hvalid : validSize n = true := by
    rw [hn]
    exact validSize_pow k hk
  set c0 := Circuit.init ("ntt_" ++ toString n ++ "_inner") nttQ
    defaultMaxBound with hc0
  set c1 := nttRegisterConstants T n c0 with hc1
  obtain ⟨hv1, hops1, hin1, hout1, hcnt1, hmod1, hmaxb1⟩ :=
    nttRegister_state T n c0
  obtain ⟨hsq, hroots⟩ := nttRegister_consts T n c0
  have g1 : GInv (NttCSpec T) c1 := ginv_empty _ c1 hv1 hops1
  obtain ⟨c2, hmk, hops2, hin2, hout2, hcnt2, hmod2, hmaxb2, hcon2, g2,
    hvm2, hat2⟩ :=
    mkInputs_contract (NttCSpec T) hgood (nttCSpec_noF T) n 0 c1 g1
      (fun j _ => by rw [hv1]; rfl)
  have hfs : (inputVars n 0).length = n := inputVars_length n 0
  have hset2 : ∀ v ∈ inputVars n 0, SettledStr c2 v.name := by
    intro v hv j hj
    obtain ⟨j', _, _, rfl⟩ := inputVars_mem n 0 v hv
    exact absurd hj (fNameStr_ne_tmp j' j)
  have hsq2 : (dictGet c2.constants (T.w 2 0)).isSome := by
    rw [hcon2]
    exact hsq
  have hroots2 : RootsReg T c2 n := by
    intro s i h4 hle hpow h2i
    rw [hcon2]
    exact hroots s i h4 hle hpow h2i
  obtain ⟨ΔR, kR, hRlen, hRset, hRval⟩ :=
    nttRecF_contract T n ((inputVars n 0).length) k (inputVars n 0) c2
      (by rw [hfs, hn]) le_rfl (by rw [hfs]) g2 hset2 hsq2 hroots2
  set rvs := (nttRecF T (inputVars n 0).length (inputVars n 0) c2).1
    with hrvs
  set c3 := (nttRecF T (inputVars n 0).length (inputVars n 0) c2).2
    with hc3
  have g3 : GInv (NttCSpec T) c3 := (kR.2.2.2.2.2.1 g2).2
  have hvm3 : VarsMono c2 c3 := (kR.2.2.2.2.2.1 g2).1
  have hio3 := kR.2.2.2.2.2.2.2
  have hnr3 : ∀ v ∈ rvs, ∀ j, v.name ≠ rNameStr j := by
    intro v hv j
    obtain ⟨t, ht⟩ := nttRecF_names T _ _ _ v hv
    rw [ht]
    exact fun he => rNameStr_ne_tmp j t he.symm
  have hin3' : c3.inputs = inputVars n 0 := by
    rw [hio3.1, hin2, hin1]
    rfl
  have hinp3 : ∀ v ∈ c3.inputs, ∀ j, v.name ≠ tmpName j := by
    rw [hin3']
    intro v hv j
    obtain ⟨j', _, _, rfl⟩ := inputVars_mem n 0 v hv
    exact fNameStr_ne_tmp j' j
  have hout3' : c3.outputs = [] := by
    rw [hio3.2, hout2, hout1]
    rfl
  have houts3 : ∀ v ∈ c3.outputs, ∀ j, v.name ≠ tmpName j := by
    rw [hout3']
    intro v hv
    exact absurd hv (List.not_mem_nil v)
  obtain ⟨ΔM, outs, hopsM, hshM, gM, hsmM, hcntM, hmodM, hinM, houtM,
    hvalM⟩ :=
    markOutputs_contract (NttCSpec T) hgood rvs 0 c3 g3 hRset hnr3 hinp3
      houts3
  set cF := markOutputs rvs 0 c3 with hcF
  have hbuild : buildNtt T n = Except.ok cF := by
    have h1 : buildNtt T n =
        match mkInputs n 0 c1 with
        | Except.error e => Except.error e
        | Except.ok (inputs, c) =>
            Except.ok (markOutputs (nttRec T inputs c).1 0
              (nttRec T inputs c).2) := by
      unfold buildNtt
      rw [hvalid]
      rfl
    rw [h1, hmk]
    rfl
  set e1 := initEnvInputs cF.inputs values (fun _ => 0) with he1
  set e2 := initEnvConsts cF.vars cF.constants e1 with he2
  have hinF : cF.inputs = inputVars n 0 := by
    rw [hinM, hin3']
  have houtF : cF.outputs = outs := by
    rw [houtM, hout3']
    rfl
  have hlenF : values.length = cF.inputs.length := by
    rw [hinF, inputVars_length, hlen]
  have hsim0 : simulate cF 12289 values = Except.ok
      (cF.outputs.map (fun o => replay 12289 cF.operations e2 o.name)) := by
    unfold simulate
    rw [if_neg (fun h => h hlenF)]
  have henvF : EnvC cF e2 := by
    rw [he2]
    exact envC_init _ cF gM e1
  have henv3 : EnvC c3 e2 := envC_srcmono hsmM henvF
  have hatF : ∀ j, j < n → dictGet cF.vars (fNameStr j) =
      some ⟨fNameStr j, 0, nttQ - 1, none⟩ := by
    intro j hj
    exact hsmM _ _ (hvm3 _ _ (hat2 j (by omega) (by omega))) rfl
  have hF1 : List.Forall₂ (fun (v : Var) (x : Int) => e1 v.name = x)
      (inputVars n 0) values := by
    rw [he1, hinF]
    exact initEnvInputs_vals (inputVars n 0) values _ (inputVars_nodup n 0)
      (by rw [inputVars_length, hlen])
  have hF2 : List.Forall₂ (fun (v : Var) (x : Int) => e2 v.name = x)
      (inputVars n 0) values := by
    refine forall₂_imp_mem hF1 ?_
    intro v hv x hvx
    obtain ⟨j, _, hjlt, rfl⟩ := inputVars_mem n 0 v hv
    rw [he2]
    show initEnvConsts cF.vars cF.constants e1 (fNameStr j) = x
    rw [consts_skip_at (NttCSpec T) cF gM j (hatF j (by omega)) e1]
    exact hvx
  have hzs : EnvVals e2 (inputVars n 0) (values.map castZ) :=
    forall₂_castZ_map hF2
  have hmod2' : c2.modulus = 12289 := by
    rw [hmod2, hmod1]
    rfl
  have hvalsR := hRval hmod2' e2 henv3 (values.map castZ) hzs
  have hshR : ∀ op ∈ ΔR, (∃ t, op.result.name = tmpName t) ∨
      (∃ j, op.result.name = rNameStr j) := by
    intro op hop
    obtain ⟨t, ht, _⟩ := kR.2.2.2.2.2.2.1 op hop
    exact Or.inl ⟨t, ht⟩
  have henvFR : EnvC cF (replay 12289 ΔR e2) :=
    envC_replay_stable _ cF gM 12289 e2 henvF ΔR hshR
  have hmod3' : c3.modulus = 12289 := by
    rw [kR.2.2.1]
    exact hmod2'
  have hFM := hvalM hmod3' (replay 12289 ΔR e2) henvFR
    (nttZ (wzT T) (inputVars n 0).length (values.map castZ)) hvalsR
  have hopsF : cF.operations = ΔR ++ ΔM := by
    rw [hopsM, kR.1, hops2, hops1]
    rfl
  have hrep : replay 12289 cF.operations e2 =
      replay 12289 ΔM (replay 12289 ΔR e2) := by
    rw [hopsF, replay_append]
  have hFMfull : List.Forall₂ (fun (o : Var) (z : Zq) =>
      replay 12289 cF.operations e2 o.name = ((z.val : Nat) : Int)) outs
      (nttZ (wzT T) (inputVars n 0).length (values.map castZ)) := by
    refine forall₂_imp_mem hFM ?_
    intro o _ z hz
    rw [hrep]
    exact hz
  have hmapeq := forall₂_map_eq _ _ _ _ hFMfull
  refine ⟨cF, hbuild, ?_⟩
  rw [hsim0, houtF, hmapeq, hfs]

/-- End-to-end inverse transform: `InttCircuitGenerator(n).generate` succeeds
for every valid power-of-two size, and `simulate` returns the canonical
representatives of the value-level INTT of the inputs' residues. -/
theorem buildIntt_simulate (T : RootTable) (k n : Nat) (values : List Int)
    (hn : n = 2 ^ (k + 1)) (hk : k ≤ 9) (hlen : values.length = n) :
    ∃ c, buildIntt T n = Except.ok c ∧
      simulate c 12289 values = Except.ok
        ((inttZ (castZ inttI2) (castZ (T.invw (T.w 2 0))) (invwzT T) n
          (values.map castZ)).map (fun z => ((z.val : Nat) : Int))) := by
  have hgood := CSpecGood_intt T
  have hvalid : validSize n = true := by
    rw [hn]
    exact validSize_pow k hk
  set c0 := Circuit.init ("intt_" ++ toString n ++ "_inner") nttQ
    defaultMaxBound with hc0
  set c1 := inttRegisterConstants T n c0 with hc1
  obtain ⟨hv1, hops1, hin1, hout1, hcnt1, hmod1, hmaxb1⟩ :=
    inttRegister_state T n c0
  obtain ⟨hi2, his, hroots⟩ := inttRegister_consts T n c0
  have g1 : GInv (InttCSpec T) c1 := ginv_empty _ c1 hv1 hops1
  obtain ⟨c2, hmk, hops2, hin2, hout2, hcnt2, hmod2, hmaxb2, hcon2, g2,
    hvm2, hat2⟩ :=
    mkInputs_contract (InttCSpec T) hgood (inttCSpec_noF T) n 0 c1 g1
      (fun j _ => by rw [hv1]; rfl)
  have hfs : (inputVars n 0).length = n := inputVars_length n 0
  have hset2 : ∀ v ∈ inputVars n 0, SettledStr c2 v.name := by
    intro v hv j hj
    obtain ⟨j', _, _, rfl⟩ := inputVars_mem n 0 v hv
    exact absurd hj (fNameStr_ne_tmp j' j)
  have hi22 : (dictGet c2.constants inttI2).isSome := by
    rw [hcon2]
    exact hi2
  have his2 : (dictGet c2.constants (T.invw (T.w 2 0))).isSome := by
    rw [hcon2]
    exact his
  have hroots2 : InvRootsReg T c2 n := by
    intro s i h4 hle hpow h2i
    rw [hcon2]
    exact hroots s i h4 hle hpow h2i
  obtain ⟨ΔR, kR, hRlen, hRset, hRval⟩ :=
    inttRecF_contract T n ((inputVars n 0).length) k (inputVars n 0) c2
      (by rw [hfs, hn]) le_rfl (by rw [hfs]) g2 hset2 hi22 his2 hroots2
  set rvs := (inttRecF T (inputVars n 0).length (inputVars n 0) c2).1
    with hrvs
  set c3 := (inttRecF T (inputVars n 0).length (inputVars n 0) c2).2
    with hc3
  have g3 : GInv (InttCSpec T) c3 := (kR.2.2.2.2.2.1 g2).2
  have hvm3 : VarsMono c2 c3 := (kR.2.2.2.2.2.1 g2).1
  have hio3 := kR.2.2.2.2.2.2.2
  have hnr3 : ∀ v ∈ rvs, ∀ j, v.name ≠ rNameStr j := by
    intro v hv j
    obtain ⟨t, ht⟩ := inttRecF_names T _ _ _ v hv
    rw [ht]
    exact fun he => rNameStr_ne_tmp j t he.symm
  have hin3' : c3.inputs = inputVars n 0 := by
    rw [hio3.1, hin2, hin1]
    rfl
  have hinp3 : ∀ v ∈ c3.inputs, ∀ j, v.name ≠ tmpName j := by
    rw [hin3']
    intro v hv j
    obtain ⟨j', _, _, rfl⟩ := inputVars_mem n 0 v hv
    exact fNameStr_ne_tmp j' j
  have hout3' : c3.outputs = [] := by
    rw [hio3.2, hout2, hout1]
    rfl
  have houts3 : ∀ v ∈ c3.outputs, ∀ j, v.name ≠ tmpName j := by
    rw [hout3']
    intro v hv
    exact absurd hv (List.not_mem_nil v)
  obtain ⟨ΔM, outs, hopsM, hshM, gM, hsmM, hcntM, hmodM, hinM, houtM,
    hvalM⟩ :=
    markOutputs_contract (InttCSpec T) hgood rvs 0 c3 g3 hRset hnr3 hinp3
      houts3
  set cF := markOutputs rvs 0 c3 with hcF
  have hbuild : buildIntt T n = Except.ok cF := by
    have h1 : buildIntt T n =
        match mkInputs n 0 c1 with
        | Except.error e => Except.error e
        | Except.ok (inputs, c) =>
            Except.ok (markOutputs (inttRec T inputs c).1 0
              (inttRec T inputs c).2) := by
      unfold buildIntt
      rw [hvalid]
      rfl
    rw [h1, hmk]
    rfl
  set e1 := initEnvInputs cF.inputs values (fun _ => 0) with he1
  set e2 := initEnvConsts cF.vars cF.constants e1 with he2
  have hinF : cF.inputs = inputVars n 0 := by
    rw [hinM, hin3']
  have houtF : cF.outputs = outs := by
    rw [houtM, hout3']
    rfl
  have hlenF : values.length = cF.inputs.length := by
    rw [hinF, inputVars_length, hlen]
  have hsim0 : simulate cF 12289 values = Except.ok
      (cF.outputs.map (fun o => replay 12289 cF.operations e2 o.name)) := by
    unfold simulate
    rw [if_neg (fun h => h hlenF)]
  have henvF : EnvC cF e2 := by
    rw [he2]
    exact envC_init _ cF gM e1
  have henv3 : EnvC c3 e2 := envC_srcmono hsmM henvF
  have hatF : ∀ j, j < n → dictGet cF.vars (fNameStr j) =
      some ⟨fNameStr j, 0, nttQ - 1, none⟩ := by
    intro j hj
    exact hsmM _ _ (hvm3 _ _ (hat2 j (by omega) (by omega))) rfl
  have hF1 : List.Forall₂ (fun (v : Var) (x : Int) => e1 v.name = x)
      (inputVars n 0) values := by
    rw [he1, hinF]
    exact initEnvInputs_vals (inputVars n 0) values _ (inputVars_nodup n 0)
      (by rw [inputVars_length, hlen])
  have hF2 : List.Forall₂ (fun (v : Var) (x : Int) => e2 v.name = x)
      (inputVars n 0) values := by
    refine forall₂_imp_mem hF1 ?_
    intro v hv x hvx
    obtain ⟨j, _, hjlt, rfl⟩ := inputVars_mem n 0 v hv
    rw [he2]
    show initEnvConsts cF.vars cF.constants e1 (fNameStr j) = x
    rw [consts_skip_at (InttCSpec T) cF gM j (hatF j (by omega)) e1]
    exact hvx
  have hzs : EnvVals e2 (inputVars n 0) (values.map castZ) :=
    forall₂_castZ_map hF2
  have hmod2' : c2.modulus = 12289 := by
    rw [hmod2, hmod1]
    rfl
  have hvalsR := hRval hmod2' e2 henv3 (values.map castZ) hzs
  have hshR : ∀ op ∈ ΔR, (∃ t, op.result.name = tmpName t) ∨
      (∃ j, op.result.name = rNameStr j) := by
    intro op hop
    obtain ⟨t, ht, _⟩ := kR.2.2.2.2.2.2.1 op hop
    exact Or.inl ⟨t, ht⟩
  have henvFR : EnvC cF (replay 12289 ΔR e2) :=
    envC_replay_stable _ cF gM 12289 e2 henvF ΔR hshR
  have hmod3' : c3.modulus = 12289 := by
    rw [kR.2.2.1]
    exact hmod2'
  have hFM := hvalM hmod3' (replay 12289 ΔR e2) henvFR
    (inttZ (castZ inttI2) (castZ (T.invw (T.w 2 0))) (invwzT T)
      (inputVars n 0).length (values.map castZ)) hvalsR
  have hopsF : cF.operations = ΔR ++ ΔM := by
    rw [hopsM, kR.1, hops2, hops1]
    rfl
  have hrep : replay 12289 cF.operations e2 =
      replay 12289 ΔM (replay 12289 ΔR e2) := by
    rw [hopsF, replay_append]
  have hFMfull : List.Forall₂ (fun (o : Var) (z : Zq) =>
      replay 12289 cF.operations e2 o.name = ((z.val : Nat) : Int)) outs
      (inttZ (castZ inttI2) (castZ (T.invw (T.w 2 0))) (invwzT T)
        (inputVars n 0).length (values.map castZ)) := by
    refine forall₂_imp_mem hFM ?_
    intro o _ z hz
    rw [hrep]
    exact hz
  have hmapeq := forall₂_map_eq _ _ _ _ hFMfull
  refine ⟨cF, hbuild, ?_⟩
  rw [hsim0, houtF, hmapeq, hfs]

/-- C1: for every power-of-two size `n` in `2, 4, ..., 512` and every input
vector of `n` residues in `[0, Q-1]`, simulating the forward-transform
circuit built by `NttCircuitGenerator` and then the inverse-transform circuit
built by `InttCircuitGenerator` on the result returns exactly the original
vector.  The root table is quantified, assuming the modular-inverse property
`inv_mod_q[w] * w ≡ 1 (mod Q)` that defines the external `falcon_py`
tables. -/
theorem claim_C1_roundtrip (T : RootTable) (k n : Nat) (values : List Int)
    (hinv : ∀ s i, castZ (T.invw (T.w s i)) * castZ (T.w s i) = 1)
    (hn : n = 2 ^ (k + 1)) (hk : k ≤ 8) (hlen : values.length = n)
    (hrange : ∀ x ∈ values, 0 ≤ x ∧ x < 12289) :
    ∃ cN cI ys, buildNtt T n = Except.ok cN ∧
      buildIntt T n = Except.ok cI ∧
      simulate cN 12289 values = Except.ok ys ∧
      simulate cI 12289 ys = Except.ok values := by
  have hyslen : ((nttZ (wzT T) n (values.map castZ)).map
      (fun z => ((z.val : Nat) : Int))).length = n := by
    rw [List.length_map, nttZ_length (wzT T) n k (values.map castZ)
      (by rw [List.length_map, hlen, hn]) (by rw [List.length_map, hlen]),
      List.length_map, hlen]
  obtain ⟨cN, hbN, hsN⟩ := buildNtt_simulate T k n values hn (by omega) hlen
  obtain ⟨cI, hbI, hsI⟩ := buildIntt_simulate T k n
    ((nttZ (wzT T) n (values.map castZ)).map
      (fun z => ((z.val : Nat) : Int))) hn (by omega) hyslen
  have hysmap : ((nttZ (wzT T) n (values.map castZ)).map
      (fun z => ((z.val : Nat) : Int))).map castZ =
      nttZ (wzT T) n (values.map castZ) := by
    rw [List.map_map]
    have hc : ∀ z ∈ nttZ (wzT T) n (values.map castZ),
        (castZ ∘ fun z => ((z.val : Nat) : Int)) z = id z := by
      intro z _
      exact castZ_val z
    rw [List.map_congr_left hc, List.map_id]
  have hrt : inttZ (castZ inttI2) (castZ (T.invw (T.w 2 0))) (invwzT T) n
      (nttZ (wzT T) n (values.map castZ)) = values.map castZ :=
    inttZ_nttZ (wzT T) (invwzT T) (castZ inttI2) (castZ (T.invw (T.w 2 0)))
      castZ_i2_two (fun s j => hinv s j) (hinv 2 0) n k (values.map castZ)
      (by rw [List.length_map, hlen, hn]) (by rw [List.length_map, hlen])
  have hvalsmap : (values.map castZ).map
      (fun z => ((z.val : Nat) : Int)) = values := by
    rw [List.map_map]
    have hc : ∀ x ∈ values, ((fun (z : Zq) => ((z.val : Nat) : Int)) ∘
        castZ) x = id x := by
      intro x hx
      obtain ⟨h0, h1⟩ := hrange x hx
      exact castZ_val_eq x h0 h1
    rw [List.map_congr_left hc, List.map_id]
  rw [hysmap, hrt, hvalsmap] at hsI
  exact ⟨cN, cI, _, hbN, hbI, hsN, hsI⟩

/-- Concrete closed instance of C1 at size 2 with the constant root table
`w = 2`, `w⁻¹ = 6145` and the impulse input `[1, 0]`. -/
theorem claim_C1_witness :
    (∀ s i, castZ ((⟨fun _ _ => 2, fun _ => 6145⟩ : RootTable).invw
        ((⟨fun _ _ => 2, fun _ => 6145⟩ : RootTable).w s i)) *
      castZ ((⟨fun _ _ => 2, fun _ => 6145⟩ : RootTable).w s i) = 1) ∧
    (2 : Nat) = 2 ^ (0 + 1) ∧
    (0 : Nat) ≤ 8 ∧
    ([1, 0] : List Int).length = 2 ∧
    (∀ x ∈ ([1, 0] : List Int), 0 ≤ x ∧ x < 12289) ∧
    (∃ cN cI ys,
      buildNtt ⟨fun _ _ => 2, fun _ => 6145⟩ 2 = Except.ok cN ∧
      buildIntt ⟨fun _ _ => 2, fun _ => 6145⟩ 2 = Except.ok cI ∧
      simulate cN 12289 [1, 0] = Except.ok ys ∧
      simulate cI 12289 ys = Except.ok [1, 0]) :=
  ⟨fun s i => (by decide : castZ (6145 : Int) * castZ (2 : Int) = 1),
    by decide, by decide, by decide, by decide,
    claim_C1_roundtrip ⟨fun _ _ => 2, fun _ => 6145⟩ 0 2 [1, 0]
      (fun s i => (by decide : castZ (6145 : Int) * castZ (2 : Int) = 1))
      (by decide) (by decide) (by decide) (by decide)⟩

/-- C8: for the circuits built by the NTT and INTT generators (whose outputs
are all produced by `reduce`), every value `simulate` returns on a
well-formed input vector lies in `[0, modulus - 1]` (`modulus = 12289`). -/
theorem claim_C8_output_range (T : RootTable) (k n : Nat)
    (values : List Int) (hn : n = 2 ^ (k + 1)) (hk : k ≤ 9)
    (hlen : values.length = n) :
    (∀ c ys, buildNtt T n = Except.ok c →
      simulate c 12289 values = Except.ok ys →
      ∀ y ∈ ys, 0 ≤ y ∧ y ≤ 12289 - 1) ∧
    (∀ c ys, buildIntt T n = Except.ok c →
      simulate c 12289 values = Except.ok ys →
      ∀ y ∈ ys, 0 ≤ y ∧ y ≤ 12289 - 1) := by
  constructor
  · obtain ⟨c', hb, hs⟩ := buildNtt_simulate T k n values hn hk hlen
    intro c ys hc hsim
    rw [hb] at hc
    obtain rfl := Except.ok.inj hc
    rw [hs] at hsim
    obtain rfl := Except.ok.inj hsim
    intro y hy
    obtain ⟨z, _, rfl⟩ := List.mem_map.mp hy
    have hv := ZMod.val_lt z
    refine ⟨?_, ?_⟩ <;> omega
  · obtain ⟨c', hb, hs⟩ := buildIntt_simulate T k n values hn hk hlen
    intro c ys hc hsim
    rw [hb] at hc
    obtain rfl := Except.ok.inj hc
    rw [hs] at hsim
    obtain rfl := Except.ok.inj hsim
    intro y hy
    obtain ⟨z, _, rfl⟩ := List.mem_map.mp hy
    have hv := ZMod.val_lt z
    refine ⟨?_, ?_⟩ <;> omega

/-- Concrete closed instance of C8 at size 2 (constant root table, input
`[15000, -3]` deliberately outside `[0, Q-1]` — the range invariant holds for
any well-formed-arity integer input). -/
theorem claim_C8_witness :
    (2 : Nat) = 2 ^ (0 + 1) ∧
    (0 : Nat) ≤ 9 ∧
    ([15000, -3] : List Int).length = 2 ∧
    ((∀ c ys, buildNtt ⟨fun _ _ => 2, fun _ => 6145⟩ 2 = Except.ok c →
      simulate c 12289 [15000, -3] = Except.ok ys →
      ∀ y ∈ ys, 0 ≤ y ∧ y ≤ 12289 - 1) ∧
    (∀ c ys, buildIntt ⟨fun _ _ => 2, fun _ => 6145⟩ 2 = Except.ok c →
      simulate c 12289 [15000, -3] = Except.ok ys →
      ∀ y ∈ ys, 0 ≤ y ∧ y ≤ 12289 - 1)) :=
  ⟨by decide, by decide, by decide,
    claim_C8_output_range ⟨fun _ _ => 2, fun _ => 6145⟩ 0 2 [15000, -3]
      (by decide) (by decide) (by decide)⟩

end S2M
